import Mathlib

/-!
# Parallel plane-sweep overlay: a shallow embedding

The C++ sources (`halfsegment.h`, `vectorAlEq.h`,
`parPlaneSweep-serialrecombine.cpp`) are embedded as executable Lean
definitions.

Conventions of the embedding:

* `double` coordinates are exact rationals (`ℚ`); the spec treats the
  floating-point predicates as exact.  A floating-point division by zero
  (whose IEEE result is an infinity or a NaN) is made explicit wherever the
  source can perform one.
* `int` labels, identifiers and indices are `Int`/`Nat`; no arithmetic on them
  can overflow on the paths embedded here.
* `std::vector` is `List`; by-reference output parameters become returned
  values.
* `exit(-1)`, reads outside a vector, reads of uninitialised variables and
  non-finite floating-point values are values of `Fault` in the `Except`
  monad.  `while` loops without an evident bound take a fuel argument.
-/

namespace PlaneSweep

/-- Ways in which an embedded function can fail to return normally. -/
inductive Fault where
  /-- the source calls `exit(-1)` -/
  | exit
  /-- the source reads or writes outside a vector, or walks an iterator past the end -/
  | outOfBounds
  /-- the source reads a variable it has not assigned -/
  | uninitialised
  /-- a floating-point division by zero (infinity or NaN in the source) -/
  | nonFinite
  /-- the fuel of a loop of the embedding is exhausted -/
  | outOfFuel
deriving DecidableEq, Repr

/-- The sweep monad: normal return or a `Fault`. -/
abbrev M := Except Fault

deriving instance DecidableEq for Except

/-- The value of a computation that returned normally. -/
def M.toOption {α : Type} : M α → Option α
  | .ok a => some a
  | .error _ => none

/-- The constant `std::numeric_limits<double>::max()`. -/
def dblMax : ℚ := (2 ^ 53 - 1) * 2 ^ 971

/-- Function `leftHandturn` of `halfsegment.h`. -/
def leftHandturn (p1x p1y p2x p2y p3x p3y : ℚ) : Bool :=
  decide ((((p3y - p1y) * (p2x - p1x)) - ((p2y - p1y) * (p3x - p1x))) > 0)

/-- Struct `halfsegment` of `halfsegment.h`. -/
structure halfsegment where
  dx : ℚ
  dy : ℚ
  sx : ℚ
  sy : ℚ
  la : Int
  lb : Int
  stripID : Int
  regionID : Int
  ola : Int
  olb : Int
deriving DecidableEq, Repr

namespace halfsegment

/-- The default constructor `halfsegment()`. -/
def default : halfsegment :=
  { dx := 0, dy := 0, sx := 0, sy := 0, la := -1, lb := -1,
    stripID := -1, regionID := -1, ola := -1, olb := -1 }

instance : Inhabited halfsegment := ⟨halfsegment.default⟩

/-- Method `isLeft`. -/
def isLeft (h : halfsegment) : Bool :=
  decide (h.dx < h.sx) || (decide (h.dx = h.sx) && decide (h.dy < h.sy))

/-- Method `getBrother`. -/
def getBrother (h : halfsegment) : halfsegment :=
  { h with dx := h.sx, dy := h.sy, sx := h.dx, sy := h.dy }

/-- The overloaded `operator==`: equality of the end points only. -/
def eq (h rhs : halfsegment) : Bool :=
  decide (h.dx = rhs.dx) && decide (h.dy = rhs.dy) &&
    decide (h.sx = rhs.sx) && decide (h.sy = rhs.sy)

/-- Method `colinear`. -/
def colinear (h rhs : halfsegment) : Bool :=
  decide (0 = (((rhs.dy - h.dy) * (h.sx - h.dx)) - ((h.sy - h.dy) * (rhs.dx - h.dx)))) &&
    decide (0 = (((rhs.sy - h.dy) * (h.sx - h.dx)) - ((h.sy - h.dy) * (rhs.sx - h.dx))))

/-- The overloaded `operator<`: halfsegment order. -/
def lt (h rhs : halfsegment) : Bool :=
  if h.dx < rhs.dx ∨ (h.dx = rhs.dx ∧ h.dy < rhs.dy) then true
  else if h.dx = rhs.dx ∧ h.dy = rhs.dy then
    if h.isLeft != rhs.isLeft then !h.isLeft
    else if h.colinear rhs &&
        (decide (h.sx < rhs.sx) || (decide (h.sx = rhs.sx) && decide (h.sy < rhs.sy))) then true
    else if leftHandturn h.dx h.dy h.sx h.sy rhs.sx rhs.sy then true
    else false
  else false

/-- Method `getYvalAtX`.  The source divides by `float(sx - dx)`; the division
is exact here (the rounding of the divisor to single precision is not
modelled) and a zero divisor is the fault `nonFinite`. -/
def getYvalAtX (h : halfsegment) (x : ℚ) : M ℚ :=
  if x = h.dx then pure h.dy
  else if x = h.sx then pure h.sy
  else if h.sx - h.dx = 0 then throw Fault.nonFinite
  else pure (((h.sy * x - h.sy * h.dx - h.dy * x + h.dy * h.dx) / (h.sx - h.dx)) + h.dy)

end halfsegment

/-- A halfsegment whose dominating and submissive points differ. -/
def nonDegenerate (h : halfsegment) : Prop := ¬ (h.dx = h.sx ∧ h.dy = h.sy)

instance (h : halfsegment) : Decidable (nonDegenerate h) := by
  unfold nonDegenerate; infer_instance

/-- A vector is sorted in halfsegment order: no later entry is less than an
earlier one. -/
def sortedHseg (l : List halfsegment) : Prop :=
  l.Pairwise (fun a b => ¬ (b.lt a = true))

instance (l : List halfsegment) : Decidable (sortedHseg l) := by
  unfold sortedHseg; infer_instance

/-- Class `eventQueue` of `vectorAlEq.h`: a vector kept in halfsegment order. -/
structure eventQueue where
  eq : List halfsegment
deriving DecidableEq, Repr

namespace eventQueue

/-- A newly constructed queue. -/
def empty : eventQueue := ⟨[]⟩

/-- The scan `for( it = eq.begin(); ; it++ )` of `insert`: put `h1` in front of
the first entry it is less than.  The loop has no end test, so walking past the
last entry is the fault `outOfBounds`. -/
def insertScan (h1 : halfsegment) : List halfsegment → M (List halfsegment)
  | [] => throw Fault.outOfBounds
  | x :: xs =>
    if h1.lt x then pure (h1 :: x :: xs)
    else do
      let r ← insertScan h1 xs
      pure (x :: r)

/-- Method `insert`. -/
def insert (q : eventQueue) (h1 : halfsegment) : M eventQueue :=
  match q.eq.getLast? with
  | none => pure ⟨q.eq ++ [h1]⟩
  | some last =>
    if last.lt h1 then pure ⟨q.eq ++ [h1]⟩
    else do
      let r ← insertScan h1 q.eq
      pure ⟨r⟩

/-- Method `peek`: `none` stands for the return value `false`. -/
def peek (q : eventQueue) : Option halfsegment := q.eq.head?

/-- Method `pop`: the queue afterwards and the returned flag. -/
def pop (q : eventQueue) : eventQueue × Bool :=
  match q.eq with
  | [] => (q, false)
  | _ :: xs => (⟨xs⟩, true)

/-- Method `size`. -/
def size (q : eventQueue) : Nat := q.eq.length

end eventQueue

/-- Read `v[i]` for an `int` index; outside the vector it is the fault
`outOfBounds`. -/
def vecGet {α : Type} (v : List α) (i : Int) : M α :=
  if i < 0 then throw Fault.outOfBounds
  else
    match v.get? i.toNat with
    | some a => pure a
    | none => throw Fault.outOfBounds

/-- Write `v[i] = a` for an `int` index; outside the vector it is the fault
`outOfBounds`. -/
def vecSet {α : Type} (v : List α) (i : Int) (a : α) : M (List α) :=
  if i < 0 ∨ (v.length : Int) ≤ i then throw Fault.outOfBounds
  else pure (v.set i.toNat a)

/-- Class `activeListVec` of `vectorAlEq.h`: the vector `al` and the sweep
position `xVal`. -/
structure activeListVec where
  al : List halfsegment
  xVal : ℚ
deriving DecidableEq, Repr

namespace activeListVec

/-- A newly constructed active list (the source leaves `xVal` unset until the
sweep assigns it). -/
def empty : activeListVec := ⟨[], 0⟩

/-- Method `alHsegLT`. -/
def alHsegLT (a : activeListVec) (h1 h2 : halfsegment) : M Bool :=
  if h1.eq h2 then pure false
  else if h1.colinear h2 then pure false
  else do
    let h1Y ← h1.getYvalAtX a.xVal
    let h2Y ← h2.getYvalAtX a.xVal
    let newH1 : halfsegment :=
      if a.xVal = h1.sx ∧ h1Y = h1.sy then
        { halfsegment.default with dx := a.xVal, dy := h1Y, sx := h1.dx, sy := h1.dy }
      else
        { halfsegment.default with dx := a.xVal, dy := h1Y, sx := h1.sx, sy := h1.sy }
    let newH2 : halfsegment :=
      if a.xVal = h2.sx ∧ h2Y = h2.sy then
        { halfsegment.default with dx := a.xVal, dy := h2Y, sx := h2.sx, sy := h2.dy }
      else
        { halfsegment.default with dx := a.xVal, dy := h2Y, sx := h2.sx, sy := h2.sy }
    if h1Y < h2Y then pure true
    else if h1Y > h2Y then pure false
    else if !newH1.isLeft && !newH2.isLeft then
      if newH1.lt newH2 then pure false else pure true
    else if newH1.isLeft && newH2.isLeft then
      if newH1.lt newH2 then pure true else pure false
    else
      if !newH1.isLeft then pure true else pure false

/-- Method `alHsegEQ`. -/
def alHsegEQ (_a : activeListVec) (h1 h2 : halfsegment) : Bool := h1.eq h2

/-- The scan `for( it = al.begin(); ; it++ )` of `insert`, at index `i`:
`(duplicate, theDup, segIndex, al)`. -/
def insertScan (a : activeListVec) (h1 : halfsegment) :
    List halfsegment → Int → M (Bool × halfsegment × Int × List halfsegment)
  | [], _ => throw Fault.outOfBounds
  | x :: xs, i =>
    if x.eq h1 then pure (true, x, i, x :: xs)
    else do
      let less ← a.alHsegLT h1 x
      if less then pure (false, h1, i, h1 :: x :: xs)
      else do
        let (dup, theDup, segIndex, r) ← insertScan a h1 xs (i + 1)
        pure (dup, theDup, segIndex, x :: r)

/-- Method `insert`: the list afterwards, `duplicate`, `theDup` and
`segIndex`. -/
def insert (a : activeListVec) (h1 : halfsegment) :
    M (activeListVec × Bool × halfsegment × Int) :=
  match a.al.getLast? with
  | none => pure ({ a with al := a.al ++ [h1] }, false, h1, (a.al.length : Int))
  | some last => do
    let less ← a.alHsegLT h1 last
    if !less then pure ({ a with al := a.al ++ [h1] }, false, h1, (a.al.length : Int))
    else do
      let (dup, theDup, segIndex, r) ← a.insertScan h1 a.al 0
      pure ({ a with al := r }, dup, theDup, segIndex)

/-- The loop of `find`, from index `i`. -/
def findFrom (h1 : halfsegment) : List halfsegment → Int → Int
  | [], _ => -1
  | x :: xs, i => if h1.eq x then i else findFrom h1 xs (i + 1)

/-- Method `find`: the index of the first entry equal to `h1`, or `-1`. -/
def find (a : activeListVec) (h1 : halfsegment) : Int := findFrom h1 a.al 0

/-- Method `exists`: `none` stands for `false`, otherwise `(theCopy, index)`. -/
def exists_ (a : activeListVec) (h1 : halfsegment) : M (Option (halfsegment × Int)) :=
  let index := a.find h1
  if index ≠ -1 then do
    let c ← vecGet a.al index
    pure (some (c, index))
  else pure none

/-- Method `replace( h1, newH1 )`, which looks `h1` up with `find`. -/
def replaceFind (a : activeListVec) (h1 newH1 : halfsegment) : M activeListVec :=
  let index := a.find h1
  if index < 0 ∨ index ≥ (a.al.length : Int) then throw Fault.exit
  else do
    let r ← vecSet a.al index newH1
    pure { a with al := r }

/-- Method `replace( h1, newH1, index )`. -/
def replace (a : activeListVec) (h1 newH1 : halfsegment) (index : Int) : M activeListVec :=
  if index < 0 ∨ index ≥ (a.al.length : Int) then throw Fault.exit
  else do
    let c ← vecGet a.al index
    if c.eq h1 then do
      let r ← vecSet a.al index newH1
      pure { a with al := r }
    else throw Fault.exit

/-- Method `getAbove( h1, theAbove, index )`: `none` stands for `false`.  The
source compares `index` with the unsigned `al.size()-1`, which wraps around
for an empty list, so that `al[index+1]` is then read. -/
def getAbove (a : activeListVec) (_h1 : halfsegment) (index : Int) : M (Option halfsegment) :=
  if index < 0 ∨ index > (a.al.length : Int) then throw Fault.exit
  else if a.al.length = 0 then throw Fault.outOfBounds
  else if index ≥ (a.al.length : Int) - 1 then pure none
  else do
    let c ← vecGet a.al (index + 1)
    pure (some c)

/-- Method `getAbove( h1, theAbove )`, which looks `h1` up with `find`. -/
def getAboveFind (a : activeListVec) (h1 : halfsegment) : M (Option halfsegment) :=
  a.getAbove h1 (a.find h1)

/-- Method `getBelow( h1, theBelow, index )`: `none` stands for `false`. -/
def getBelow (a : activeListVec) (_h1 : halfsegment) (index : Int) : M (Option halfsegment) :=
  if index < 0 ∨ index ≥ (a.al.length : Int) then throw Fault.exit
  else if index ≤ 0 then pure none
  else do
    let c ← vecGet a.al (index - 1)
    pure (some c)

/-- Method `getBelow( h1, theBelow )`, which looks `h1` up with `find`. -/
def getBelowFind (a : activeListVec) (h1 : halfsegment) : M (Option halfsegment) :=
  a.getBelow h1 (a.find h1)

/-- Method `erase( h1, index )`. -/
def erase (a : activeListVec) (h1 : halfsegment) (index : Int) : M activeListVec :=
  if index < 0 ∨ index ≥ (a.al.length : Int) then pure a
  else do
    let c ← vecGet a.al index
    if c.eq h1 then pure { a with al := a.al.eraseIdx index.toNat }
    else throw Fault.exit

/-- The loop of `erase( h1 )`: drop the first entry equal to `h1`. -/
def eraseFirst (h1 : halfsegment) : List halfsegment → List halfsegment
  | [] => []
  | x :: xs => if x.eq h1 then xs else x :: eraseFirst h1 xs

/-- Method `erase( h1 )`. -/
def eraseFind (a : activeListVec) (h1 : halfsegment) : activeListVec :=
  { a with al := eraseFirst h1 a.al }

end activeListVec

/-- Function `findIntersectionPoint`: `(found, X, Y, colinear)`.  With a zero
denominator the source computes `ua` and `ub` as infinities or NaNs, on which
the range test fails. -/
def findIntersectionPoint (h1 h2 : halfsegment) : Bool × ℚ × ℚ × Bool :=
  if h1.colinear h2 then (true, h2.dx, h2.dy, true)
  else if (h1.dx = h2.dx ∧ h1.dy = h2.dy) ∨ (h1.sx = h2.sx ∧ h1.sy = h2.sy) then
    (false, dblMax, dblMax, false)
  else
    let x1 := h1.dx
    let y1 := h1.dy
    let x2 := h1.sx
    let y2 := h1.sy
    let x3 := h2.dx
    let y3 := h2.dy
    let x4 := h2.sx
    let y4 := h2.sy
    let denom := ((y4 - y3) * (x2 - x1)) - ((x4 - x3) * (y2 - y1))
    let ua := ((x4 - x3) * (y1 - y3)) - ((y4 - y3) * (x1 - x3))
    let ub := ((x2 - x1) * (y1 - y3)) - ((y2 - y1) * (x1 - x3))
    if denom = 0 then (false, dblMax, dblMax, false)
    else
      let ua := ua / denom
      let ub := ub / denom
      if 0 ≤ ua ∧ ua ≤ 1 ∧ 0 ≤ ub ∧ ub ≤ 1 then
        (true, x1 + (ua * (x2 - x1)), y1 + (ua * (y2 - y1)), false)
      else (false, dblMax, dblMax, false)

/-- The colinear branch of `breakHsegs`: the new `origCurr` and `brokenSegs`. -/
def breakColinear (h2 curr : halfsegment) (brokenSegs : List halfsegment)
    (includeCurrSegInBrokenSegs : Bool) : halfsegment × List halfsegment :=
  -- part (1)
  let brokenSegs :=
    if h2.dx < curr.dx ∨ h2.dy < curr.dy then
      let tmpSeg := { h2 with sx := curr.dx, sy := curr.dy }
      brokenSegs ++ [tmpSeg, tmpSeg.getBrother]
    else brokenSegs
  -- part (2)
  let tmpSeg := curr
  let tmpSeg :=
    if curr.sx > h2.sx ∨ (curr.sx = h2.sx ∧ curr.sy > h2.sy) then
      { tmpSeg with sx := h2.sx, sy := h2.sy }
    else tmpSeg
  let tmpSeg := { tmpSeg with ola := h2.la, olb := h2.lb }
  let brokenSegs := brokenSegs ++ [tmpSeg.getBrother]
  let brokenSegs := if includeCurrSegInBrokenSegs then brokenSegs ++ [tmpSeg] else brokenSegs
  let origCurr := tmpSeg
  -- part (3)
  let brokenSegs :=
    if curr.sx ≠ h2.sx ∨ curr.sy ≠ h2.sy then
      let tmpSeg := { h2 with dx := curr.sx, dy := curr.sy }
      let tmpSeg :=
        if curr.sx > h2.sx ∨ (curr.sx = h2.sx ∧ curr.sy > h2.sy) then
          { curr with dx := h2.sx, dy := h2.sy }
        else tmpSeg
      brokenSegs ++ [tmpSeg, tmpSeg.getBrother]
    else brokenSegs
  (origCurr, brokenSegs)

/-- The regular-intersection branch of `breakHsegs`, for the intersection
point `(X, Y)`: the new `origCurr` and `brokenSegs`. -/
def breakCrossing (h2 curr origCurr : halfsegment) (X Y : ℚ) (brokenSegs : List halfsegment)
    (includeCurrSegInBrokenSegs : Bool) : halfsegment × List halfsegment :=
  -- split up curr
  let (origCurr, brokenSegs) :=
    if (X = curr.dx ∧ Y = curr.dy) ∨ (X = curr.sx ∧ Y = curr.sy) then (origCurr, brokenSegs)
    else
      let tmpSeg := { curr with sx := X, sy := Y }
      let brokenSegs := brokenSegs ++ [tmpSeg.getBrother]
      let brokenSegs := if includeCurrSegInBrokenSegs then brokenSegs ++ [tmpSeg] else brokenSegs
      let origCurr := tmpSeg
      let tmpSeg := { curr with dx := X, dy := Y }
      (origCurr, brokenSegs ++ [tmpSeg, tmpSeg.getBrother])
  -- split up h2
  let brokenSegs :=
    if (X = h2.dx ∧ Y = h2.dy) ∨ (X = h2.sx ∧ Y = h2.sy) then brokenSegs ++ [h2]
    else
      let tmpSeg := { h2 with sx := X, sy := Y }
      let brokenSegs := brokenSegs ++ [tmpSeg, tmpSeg.getBrother]
      let tmpSeg := { h2 with dx := X, dy := Y }
      brokenSegs ++ [tmpSeg, tmpSeg.getBrother]
  (origCurr, brokenSegs)

/-- Function `breakHsegs`: the returned flag, the new `origCurr`, the new
`brokenSegs` and `colinear`. -/
def breakHsegs (alSeg origCurr : halfsegment) (brokenSegs : List halfsegment)
    (includeCurrSegInBrokenSegs : Bool) : Bool × halfsegment × List halfsegment × Bool :=
  let curr := origCurr
  let h2 := alSeg
  match findIntersectionPoint h2 curr with
  | (foundIntersection, X, Y, colinear) =>
    if foundIntersection then
      if colinear then
        let r := breakColinear h2 curr brokenSegs includeCurrSegInBrokenSegs
        (foundIntersection, r.1, r.2, colinear)
      else
        let r := breakCrossing h2 curr origCurr X Y brokenSegs includeCurrSegInBrokenSegs
        (foundIntersection, r.1, r.2, colinear)
    else (foundIntersection, origCurr, brokenSegs, colinear)

/-- Function `insertBrokenSegsToActiveListAndDiscoveredQueue`: the new
`result`, `discoveredSegs` and `activeList`. -/
def insertBrokenSegsToActiveListAndDiscoveredQueue :
    List halfsegment → List halfsegment → eventQueue → activeListVec → ℚ → ℚ →
      M (List halfsegment × eventQueue × activeListVec)
  | [], result, discoveredSegs, activeList, _, _ => pure (result, discoveredSegs, activeList)
  | b :: rest, result, discoveredSegs, activeList, eventX, eventY =>
    if (b.dx ≠ b.sx ∧ (b.dx ≤ eventX ∧ b.sx ≤ eventX)) ∨
        (b.dx = b.sx ∧ (b.dy ≤ eventY ∧ b.sy ≤ eventY)) then
      insertBrokenSegsToActiveListAndDiscoveredQueue rest (result ++ [b]) discoveredSegs
        activeList eventX eventY
    else if !b.isLeft ∨ b.dx > eventX ∨ (b.dx = eventX ∧ b.dy > eventY) then do
      let q ← discoveredSegs.insert b
      insertBrokenSegsToActiveListAndDiscoveredQueue rest result q activeList eventX eventY
    else do
      let (al, _, _, _) ← activeList.insert b
      insertBrokenSegsToActiveListAndDiscoveredQueue rest result discoveredSegs al eventX eventY

/-- The model of `std::sort` with a comparison `less`: an insertion sort.  Any
sort returns a permutation in which no later entry is `less` than an earlier
one; the order among entries that `less` does not separate is the
implementation's choice. -/
def stdSort {α : Type} (less : α → α → Bool) (v : List α) : List α :=
  v.insertionSort (fun a b => ¬ (less b a = true))

/-- The variables of `overlayPlaneSweep` that live across iterations of its
loop. -/
structure SweepState where
  r1Pos : Nat
  r2Pos : Nat
  segSource : Option Nat
  activeList : activeListVec
  discoveredSegs : eventQueue
  result : List halfsegment
deriving DecidableEq, Repr

/-- The segment `maxSeg` of `overlayPlaneSweep`. -/
def maxSeg : halfsegment :=
  { halfsegment.default with dx := dblMax, dy := dblMax, sx := dblMax, sy := dblMax }

/-- The choice of the next event in `overlayPlaneSweep`: `currSeg` and
`segSource`. -/
def nextEvent (r1 r2 : List halfsegment) (st : SweepState) : halfsegment × Option Nat :=
  let (currSeg, segSource) :=
    match r1.get? st.r1Pos with
    | some h => (h, some 1)
    | none => (maxSeg, st.segSource)
  let (currSeg, segSource) :=
    match r2.get? st.r2Pos with
    | some h => if h.lt currSeg then (h, some 2) else (currSeg, segSource)
    | none => (currSeg, segSource)
  match st.discoveredSegs.peek with
  | some tmpSeg =>
    if tmpSeg.lt currSeg || tmpSeg.eq currSeg then (tmpSeg, some 3) else (currSeg, segSource)
  | none => (currSeg, segSource)

/-- The left-halfsegment branch of the loop body of `overlayPlaneSweep`. -/
def leftEvent (st : SweepState) (currSeg : halfsegment) (eventX eventY : ℚ) : M SweepState := do
  let currSeg := { currSeg with ola := -1, olb := -1 }
  let (activeList, dup, segInAL, segIndex) ← st.activeList.insert currSeg
  if dup then
    let segInAL := { segInAL with ola := currSeg.la, olb := currSeg.lb }
    let activeList ← activeList.replace segInAL segInAL segIndex
    pure { st with activeList := activeList }
  else
    let hasBelow ← activeList.getBelow currSeg segIndex
    let hasAbove ← activeList.getAbove currSeg segIndex
    let brokenSegs : List halfsegment := []
    let (currSeg, brokenSegs, activeList, segIndex) ←
      match hasBelow with
      | some belowSegCopy =>
        let currSeg :=
          if currSeg.regionID ≠ belowSegCopy.regionID then
            if belowSegCopy.dx ≠ belowSegCopy.sx then
              { currSeg with ola := belowSegCopy.la, olb := belowSegCopy.la }
            else
              { currSeg with ola := belowSegCopy.lb, olb := belowSegCopy.lb }
          else
            { currSeg with ola := belowSegCopy.ola, olb := belowSegCopy.ola }
        match breakHsegs belowSegCopy currSeg brokenSegs false with
        | (true, currSeg, brokenSegs, _) => do
          let activeList ← activeList.erase belowSegCopy (segIndex - 1)
          pure (currSeg, brokenSegs, activeList, segIndex - 1)
        | (false, currSeg, brokenSegs, _) => pure (currSeg, brokenSegs, activeList, segIndex)
      | none => pure (currSeg, brokenSegs, activeList, segIndex)
    let (currSeg, brokenSegs, activeList) ←
      match hasAbove with
      | some aboveSegCopy =>
        match breakHsegs aboveSegCopy currSeg brokenSegs false with
        | (true, currSeg, brokenSegs, _) => do
          let activeList ← activeList.erase aboveSegCopy (segIndex + 1)
          pure (currSeg, brokenSegs, activeList)
        | (false, currSeg, brokenSegs, _) => pure (currSeg, brokenSegs, activeList)
      | none => pure (currSeg, brokenSegs, activeList)
    let activeList ← activeList.replace segInAL currSeg segIndex
    let (result, discoveredSegs, activeList) ←
      insertBrokenSegsToActiveListAndDiscoveredQueue brokenSegs st.result st.discoveredSegs
        activeList eventX eventY
    pure { st with activeList := activeList, discoveredSegs := discoveredSegs, result := result }

/-- The right-halfsegment branch of the loop body of `overlayPlaneSweep`. -/
def rightEvent (st : SweepState) (currSeg : halfsegment) (eventX eventY : ℚ) : M SweepState := do
  let currSeg := currSeg.getBrother
  match ← st.activeList.exists_ currSeg with
  | some (theALseg, segIndex) =>
    let result := st.result ++ [theALseg, theALseg.getBrother]
    let currSeg := theALseg
    let isBelow ← st.activeList.getBelow currSeg segIndex
    let isAbove ← st.activeList.getAbove currSeg segIndex
    match isBelow, isAbove with
    | some belowCopy, some aboveCopy =>
      let origAbove := aboveCopy
      match breakHsegs belowCopy aboveCopy [] true with
      | (true, _, brokenSegs, _) =>
        let activeList ← st.activeList.erase belowCopy (segIndex - 1)
        let segIndex := segIndex - 1
        let activeList ← activeList.erase origAbove (segIndex + 1)
        let activeList ← activeList.erase currSeg segIndex
        let (result, discoveredSegs, activeList) ←
          insertBrokenSegsToActiveListAndDiscoveredQueue brokenSegs result st.discoveredSegs
            activeList eventX eventY
        pure { st with activeList := activeList, discoveredSegs := discoveredSegs,
                       result := result }
      | (false, _, _, _) =>
        let activeList ← st.activeList.erase currSeg segIndex
        pure { st with activeList := activeList, result := result }
    | _, _ =>
      let activeList ← st.activeList.erase currSeg segIndex
      pure { st with activeList := activeList, result := result }
  | none => pure st

/-- One iteration of the loop of `overlayPlaneSweep`. -/
def sweepStep (r1 r2 : List halfsegment) (st : SweepState) : M SweepState := do
  let (currSeg, segSource) := nextEvent r1 r2 st
  let st ←
    match segSource with
    | none => throw Fault.uninitialised
    | some 3 =>
      pure { st with segSource := segSource, discoveredSegs := (st.discoveredSegs.pop).1 }
    | some 2 => pure { st with segSource := segSource, r2Pos := st.r2Pos + 1 }
    | some _ => pure { st with segSource := segSource, r1Pos := st.r1Pos + 1 }
  let eventX := currSeg.dx
  let st := { st with activeList := { st.activeList with xVal := eventX } }
  let eventY := currSeg.dy
  if currSeg.isLeft then leftEvent st currSeg eventX eventY
  else rightEvent st currSeg eventX eventY

/-- The loop `while( discoveredSegs.size() > 0 || r1Pos < r1Size || r2Pos < r2Size )`
of `overlayPlaneSweep`, run for at most `fuel` iterations. -/
def sweepLoop (r1 r2 : List halfsegment) : Nat → SweepState → M SweepState
  | fuel, st =>
    if st.discoveredSegs.size > 0 ∨ st.r1Pos < r1.length ∨ st.r2Pos < r2.length then
      match fuel with
      | 0 => throw Fault.outOfFuel
      | fuel + 1 => do
        let st ← sweepStep r1 r2 st
        sweepLoop r1 r2 fuel st
    else pure st

/-- The state in which `overlayPlaneSweep` enters its loop. -/
def SweepState.init (result : List halfsegment) : SweepState :=
  { r1Pos := 0, r2Pos := 0, segSource := none, activeList := activeListVec.empty,
    discoveredSegs := eventQueue.empty, result := result }

/-- Function `overlayPlaneSweep`, on the arrays `r1` and `r2` and the vector
`result` it appends to and sorts; `fuel` bounds the number of events. -/
def overlayPlaneSweep (fuel : Nat) (r1 r2 : List halfsegment) (result : List halfsegment) :
    M (List halfsegment) := do
  let st ← sweepLoop r1 r2 fuel (SweepState.init result)
  pure (stdSort halfsegment.lt st.result)

/-- The loop of `binarySearchExists`; it halves `hi - lo`, so `fuel` above the
length of the range is never exhausted. -/
def binarySearchExistsLoop (region : List halfsegment) (x : ℚ) : Nat → Int → Int → M Int
  | 0, _, _ => throw Fault.outOfFuel
  | fuel + 1, lo, hi =>
    if lo < hi then do
      let mid := (lo + hi).tdiv 2
      let r ← vecGet region mid
      if r.dx < x then binarySearchExistsLoop region x fuel (mid + 1) hi
      else if r.dx > x then binarySearchExistsLoop region x fuel lo mid
      else pure mid
    else pure (-1)

/-- Function `binarySearchExists` with its default bounds `hi = -1`, `lo = 0`. -/
def binarySearchExists (region : List halfsegment) (x : ℚ) : M Int :=
  binarySearchExistsLoop region x (region.length + 1) 0 region.length

/-- The loop of `binarySearchSmallestGreater`. -/
def binarySearchSmallestGreaterLoop (region : List halfsegment) (x : ℚ) :
    Nat → Int → Int → M Int
  | 0, _, _ => throw Fault.outOfFuel
  | fuel + 1, lo, hi =>
    if lo < hi then do
      let mid := (lo + hi).tdiv 2
      let r ← vecGet region mid
      if r.dx ≤ x then binarySearchSmallestGreaterLoop region x fuel (mid + 1) hi
      else do
        if mid > 0 then
          let r' ← vecGet region (mid - 1)
          if r'.dx ≤ x then pure mid
          else binarySearchSmallestGreaterLoop region x fuel lo (mid - 1)
        else binarySearchSmallestGreaterLoop region x fuel lo (mid - 1)
    else pure hi

/-- Function `binarySearchSmallestGreater` with its default bounds `hi = -1`,
`lo = -1`. -/
def binarySearchSmallestGreater (region : List halfsegment) (x : ℚ) : M Int :=
  binarySearchSmallestGreaterLoop region x (region.length + 2) (-1) region.length

/-- The loop of `binarySearchHalfsegment`: the returned flag and `mid`. -/
def binarySearchHalfsegmentLoop (region : List halfsegment) (h : halfsegment) :
    Nat → Int → Int → M (Bool × Int)
  | 0, _, _ => throw Fault.outOfFuel
  | fuel + 1, lo, hi =>
    if lo < hi then do
      let mid := (lo + hi).tdiv 2
      let r ← vecGet region mid
      if r.lt h then binarySearchHalfsegmentLoop region h fuel (mid + 1) hi
      else if r.eq h then pure (true, mid)
      else binarySearchHalfsegmentLoop region h fuel lo mid
    else pure (false, lo)

/-- Function `binarySearchHalfsegment` with its default bounds `hi = -1`,
`lo = 0`: the returned flag and `mid`. -/
def binarySearchHalfsegment (region : List halfsegment) (h : halfsegment) : M (Bool × Int) :=
  binarySearchHalfsegmentLoop region h (region.length + 1) 0 region.length

/-- The scan of `findIsoBoundaries` for the least and greatest x of a region,
continuing from `(minX, maxX)`. -/
def scanMinMax : List halfsegment → ℚ × ℚ → ℚ × ℚ
  | [], acc => acc
  | h :: rest, (minX, maxX) =>
    let minX := if h.dx < minX then h.dx else minX
    let maxX := if h.dx > maxX then h.dx else maxX
    let minX := if h.sx < minX then h.sx else minX
    let maxX := if h.sx > maxX then h.sx else maxX
    scanMinMax rest (minX, maxX)

/-- The loop of `findIsoBoundaries` that spaces the interior boundaries, for
`i` from its current value while `n` boundaries remain. -/
def spaceBounds (stripWidth : ℚ) : Nat → Int → ℚ → List ℚ → M (List ℚ)
  | 0, _, _, isoBounds => pure isoBounds
  | n + 1, i, prevIsoVal, isoBounds => do
    let prevIsoVal := prevIsoVal + stripWidth
    let isoBounds ← vecSet isoBounds i prevIsoVal
    spaceBounds stripWidth n (i + 1) prevIsoVal isoBounds

/-- The loop of `findIsoBoundaries` that moves a boundary off an end point. -/
def adjustBounds (r1 r2 : List halfsegment) : Nat → Int → List ℚ → M (List ℚ)
  | 0, _, isoBounds => pure isoBounds
  | n + 1, i, isoBounds => do
    let b ← vecGet isoBounds i
    let r1Index ← binarySearchExists r1 b
    let r2Index ← binarySearchExists r2 b
    if r1Index ≥ 0 ∨ r2Index ≥ 0 then
      let r1Index ← binarySearchSmallestGreater r1 b
      let r2Index ← binarySearchSmallestGreater r2 b
      let xVal ← vecGet isoBounds (i + 1)
      -- `r1Index < r1.size()` compares as unsigned: a negative index is not less
      let xVal ←
        if 0 ≤ r1Index ∧ r1Index < (r1.length : Int) then do
          let h ← vecGet r1 r1Index
          pure (if h.dx < xVal then h.dx else xVal)
        else pure xVal
      let xVal ←
        if 0 ≤ r2Index ∧ r2Index < (r2.length : Int) then do
          let h ← vecGet r2 r2Index
          pure (if h.dx < xVal then h.dx else xVal)
        else pure xVal
      if xVal = dblMax then throw Fault.exit
      else do
        let isoBounds ← vecSet isoBounds i ((b + xVal) / 2)
        adjustBounds r1 r2 n (i + 1) isoBounds
    else adjustBounds r1 r2 n (i + 1) isoBounds

/-- Function `findIsoBoundaries` on the vector `isoBounds` prepared by
`parallelOverlay`. -/
def findIsoBoundaries (r1 r2 : List halfsegment) (isoBounds : List ℚ) : M (List ℚ) := do
  let isoBounds ← vecSet isoBounds 0 (dblMax * -1)
  let isoBounds ← vecSet isoBounds ((isoBounds.length : Int) - 1) dblMax
  let minX := dblMax
  let maxX := dblMax * -1
  if isoBounds.length = 2 then pure isoBounds
  else
    let (minX, maxX) := scanMinMax r1 (minX, maxX)
    let (minX, maxX) := scanMinMax r2 (minX, maxX)
    let prevIsoVal := minX
    let stripWidth := (maxX - minX) / ((isoBounds.length - 1 : Nat) : ℚ)
    let isoBounds ← spaceBounds stripWidth (isoBounds.length - 2) 1 prevIsoVal isoBounds
    adjustBounds r1 r2 (isoBounds.length - 2) 1 isoBounds

/-- The inner loop of `threadedStrips` over the boundaries, from `j` while
`n` boundaries remain: the new `startBound` and `myVector`. -/
def stripWalk (isoBounds : List ℚ) :
    Nat → Int → halfsegment → Int → List halfsegment → M (Int × List halfsegment)
  | 0, _, _, startBound, myVector => pure (startBound, myVector)
  | n + 1, j, workSeg, startBound, myVector => do
    let bj ← vecGet isoBounds j
    let bj1 ← vecGet isoBounds (j + 1)
    if workSeg.dx > bj1 then
      stripWalk isoBounds n (j + 1) workSeg (startBound + 1) myVector
    else if workSeg.dx ≥ bj ∧ workSeg.sx < bj1 then
      let workSeg := { workSeg with stripID := j }
      pure (startBound, myVector ++ [workSeg, workSeg.getBrother])
    else do
      let lhs := workSeg
      let y ← workSeg.getYvalAtX bj1
      let workSeg := { workSeg with dy := y }
      let lhs := { lhs with sy := y }
      let workSeg := { workSeg with dx := bj1 }
      let lhs := { lhs with sx := bj1 }
      let lhs := { lhs with stripID := j }
      stripWalk isoBounds n (j + 1) workSeg startBound (myVector ++ [lhs, lhs.getBrother])

/-- The outer loop of `threadedStrips` over the halfsegments of its share of
the region. -/
def stripSegs (isoBounds : List ℚ) :
    List halfsegment → Int → List halfsegment → M (Int × List halfsegment)
  | [], startBound, myVector => pure (startBound, myVector)
  | h :: rest, startBound, myVector =>
    if h.isLeft then do
      let (startBound, myVector) ←
        stripWalk isoBounds (((isoBounds.length : Int) - 1 - startBound).toNat) startBound h
          startBound myVector
      stripSegs isoBounds rest startBound myVector
    else stripSegs isoBounds rest startBound myVector

/-- Function `threadedStrips`: the vector `myVector` that worker `threadnum`
of `threadcount` fills. -/
def threadedStrips (threadnum threadcount : Nat) (region : List halfsegment)
    (isoBounds : List ℚ) : M (List halfsegment) := do
  let threadMin := threadnum * (region.length / threadcount)
  let threadMax :=
    if threadnum = threadcount - 1 then region.length
    else threadMin + (region.length / threadcount)
  let (_, myVector) ←
    stripSegs isoBounds ((region.drop threadMin).take (threadMax - threadMin)) 0 []
  pure myVector

/-- Function `hsegIDSort`. -/
def hsegIDSort (h1 h2 : halfsegment) : Bool :=
  decide (h1.stripID < h2.stripID) || (decide (h1.stripID = h2.stripID) && h1.lt h2)

/-- The constant `std::numeric_limits<int>::min()`. -/
def intMin : Int := -2147483648

/-- The loop of `createStrips` that records the stop index of every strip. -/
def markStops : List halfsegment → Int → List Int → M (List Int)
  | [], _, stripStopIndex => pure stripStopIndex
  | h :: rest, i, stripStopIndex => do
    let s ← vecGet stripStopIndex h.stripID
    if i ≥ s then do
      let stripStopIndex ← vecSet stripStopIndex h.stripID (i + 1)
      markStops rest (i + 1) stripStopIndex
    else markStops rest (i + 1) stripStopIndex

/-- The loop of `createStrips` that replaces the remaining minimum values. -/
def fillStops : List Int → Int → List Int
  | [], _ => []
  | s :: rest, prevVal =>
    let s := if s = intMin then prevVal else s
    s :: fillStops rest s

/-- The workers of `createStrips`, in thread order, with their vectors
concatenated. -/
def runStripThreads (nthread : Nat) (region : List halfsegment) (isoBounds : List ℚ) :
    List Nat → M (List halfsegment)
  | [] => pure []
  | t :: ts => do
    let v ← threadedStrips t nthread region isoBounds
    let vs ← runStripThreads nthread region isoBounds ts
    pure (v ++ vs)

/-- Function `createStrips`: `rStrips` and `stripStopIndex`.  The number of
workers `nthread` is `std::thread::hardware_concurrency() / 2` in the source;
every worker writes a private vector, so their order of execution does not
matter.  The timing record appended to `preprocessing.csv` is not modelled. -/
def createStrips (nthread : Nat) (region : List halfsegment) (isoBounds : List ℚ) :
    M (List halfsegment × List Int) := do
  let rStrips ← runStripThreads nthread region isoBounds (List.range nthread)
  let rStrips := stdSort hsegIDSort rStrips
  let stripStopIndex := List.replicate (isoBounds.length - 1) intMin
  let stripStopIndex ← markStops rStrips 0 stripStopIndex
  pure (rStrips, fillStops stripStopIndex 0)

/-- The array `&(v[start])` of `size` entries passed to `overlayPlaneSweep`. -/
def subArray (v : List halfsegment) (start size : Int) : M (List halfsegment) :=
  if size ≤ 0 then pure []
  else if start < 0 ∨ start + size > (v.length : Int) then throw Fault.outOfBounds
  else pure ((v.drop start.toNat).take size.toNat)

/-- Function `partialOverlay`: the result vector of strip `stripID`. -/
def partialOverlay (fuel : Nat) (r1Strips r2Strips : List halfsegment)
    (result : List halfsegment) (r1StripStopIndex r2StripStopIndex : List Int)
    (stripID : Int) : M (List halfsegment) := do
  let (r1Start, r2Start) ←
    if stripID = 0 then pure ((0 : Int), (0 : Int))
    else do
      let a ← vecGet r1StripStopIndex (stripID - 1)
      let b ← vecGet r2StripStopIndex (stripID - 1)
      pure (a, b)
  let r1Stop ← vecGet r1StripStopIndex stripID
  let r2Stop ← vecGet r2StripStopIndex stripID
  let r1 ← subArray r1Strips r1Start (r1Stop - r1Start)
  let r2 ← subArray r2Strips r2Start (r2Stop - r2Start)
  overlayPlaneSweep fuel r1 r2 result

/-- Assignment `resultStrips[strip][index].la = resultStrips[strip][index].lb = -1`. -/
def invalidate (resultStrips : List (List halfsegment)) (strip index : Int) :
    M (List (List halfsegment)) := do
  let v ← vecGet resultStrips strip
  let h ← vecGet v index
  let v ← vecSet v index { h with la := -1, lb := -1 }
  vecSet resultStrips strip v

/-- The variables of the `while` loop of `createFinalOverlay`. -/
structure JoinState where
  resultStrips : List (List halfsegment)
  curr : halfsegment
  broIndex : Option Int
  currIndex : Int
  currBound : Int
  currStrip : Int
  invalidateLast : Bool
deriving DecidableEq, Repr

/-- The loop `while( curr.sx == isoBounds[currBound] )` of `createFinalOverlay`;
`currBound` grows in every iteration and is read as an index of `isoBounds`, so
`fuel` above the length of `isoBounds` is never exhausted. -/
def joinLoop (isoBounds : List ℚ) : Nat → JoinState → M JoinState
  | 0, _ => throw Fault.outOfFuel
  | fuel + 1, st => do
    let b ← vecGet isoBounds st.currBound
    if st.curr.sx = b then
      let broIndex ←
        match st.broIndex with
        | some k => pure k
        | none => throw Fault.uninitialised
      let strip ← vecGet st.resultStrips st.currStrip
      let nextShares ←
        if broIndex + 1 < (strip.length : Int) then do
          let n ← vecGet strip (broIndex + 1)
          pure (decide (n.dx = st.curr.sx) && decide (n.dy = st.curr.sy))
        else pure false
      let prevShares ←
        if nextShares then pure true
        else if broIndex > 0 then do
          let n ← vecGet strip (broIndex - 1)
          pure (decide (n.dx = st.curr.sx) && decide (n.dy = st.curr.sy))
        else pure false
      if prevShares then pure st
      else do
        let rs ← invalidate st.resultStrips st.currStrip broIndex
        let rs ← invalidate rs st.currStrip st.currIndex
        let strip ← vecGet rs st.currStrip
        let bro ← vecGet strip broIndex
        let next ← vecGet rs (st.currStrip + 1)
        let (_, currIndex) ← binarySearchHalfsegment next bro
        let c ← vecGet next currIndex
        let (_, broIndex) ← binarySearchHalfsegment next c.getBrother
        let c ← vecGet next currIndex
        joinLoop isoBounds fuel
          { resultStrips := rs, curr := { st.curr with sx := c.sx, sy := c.sy },
            broIndex := some broIndex, currIndex := currIndex,
            currBound := st.currBound + 1, currStrip := st.currStrip + 1,
            invalidateLast := true }
    else pure st

/-- The body of the loop over `j` of `createFinalOverlay`, for entry `j` of
strip `i`: the new `resultStrips`, `finalResult` and `broIndex`. -/
def joinEntry (isoBounds : List ℚ) (i j : Int) (resultStrips : List (List halfsegment))
    (finalResult : List halfsegment) (broIndex : Option Int) :
    M (List (List halfsegment) × List halfsegment × Option Int) := do
  let strip ← vecGet resultStrips i
  let curr ← vecGet strip j
  if curr.isLeft ∧ curr.la ≠ curr.lb then
    let currIndex := j
    let currBound := i + 1
    let currStrip := i
    let b ← vecGet isoBounds currBound
    let broIndex ←
      if curr.sx = b then do
        let strip ← vecGet resultStrips currStrip
        let (found, mid) ← binarySearchHalfsegment strip curr.getBrother
        if !found then throw Fault.exit else pure (some mid)
      else pure broIndex
    let st ← joinLoop isoBounds (isoBounds.length + 1)
      { resultStrips := resultStrips, curr := curr, broIndex := broIndex,
        currIndex := currIndex, currBound := currBound, currStrip := currStrip,
        invalidateLast := false }
    let rs ←
      if st.invalidateLast then do
        let broIndex ←
          match st.broIndex with
          | some k => pure k
          | none => throw Fault.uninitialised
        let rs ← invalidate st.resultStrips st.currStrip broIndex
        invalidate rs st.currStrip st.currIndex
      else pure st.resultStrips
    pure (rs, finalResult ++ [st.curr, st.curr.getBrother], st.broIndex)
  else pure (resultStrips, finalResult, broIndex)

/-- The loop over `j` of `createFinalOverlay`, for `n` more entries of strip
`i`. -/
def joinStrip (isoBounds : List ℚ) (i : Int) :
    Nat → Int → List (List halfsegment) → List halfsegment → Option Int →
      M (List (List halfsegment) × List halfsegment × Option Int)
  | 0, _, resultStrips, finalResult, broIndex => pure (resultStrips, finalResult, broIndex)
  | n + 1, j, resultStrips, finalResult, broIndex => do
    let (rs, fr, bi) ← joinEntry isoBounds i j resultStrips finalResult broIndex
    joinStrip isoBounds i n (j + 1) rs fr bi

/-- The loop over `i` of `createFinalOverlay`, for `n` more strips. -/
def joinStrips (isoBounds : List ℚ) :
    Nat → Int → List (List halfsegment) → List halfsegment → Option Int →
      M (List (List halfsegment) × List halfsegment × Option Int)
  | 0, _, resultStrips, finalResult, broIndex => pure (resultStrips, finalResult, broIndex)
  | n + 1, i, resultStrips, finalResult, broIndex => do
    let strip ← vecGet resultStrips i
    let (rs, fr, bi) ← joinStrip isoBounds i strip.length 0 resultStrips finalResult broIndex
    joinStrips isoBounds n (i + 1) rs fr bi

/-- Function `createFinalOverlay`: the new `finalResult`. -/
def createFinalOverlay (finalResult : List halfsegment)
    (resultStrips : List (List halfsegment)) (isoBounds : List ℚ) : M (List halfsegment) := do
  let (_, fr, _) ← joinStrips isoBounds resultStrips.length 0 resultStrips finalResult none
  pure fr

/-- The per-strip sweeps of `parallelOverlay`, for the strips listed.  Every
sweep reads the shared strip vectors and writes its own result vector, so
their order of execution does not matter. -/
def sweepStrips (fuel : Nat) (r1Strips r2Strips : List halfsegment)
    (r1StripStopIndex r2StripStopIndex : List Int) : List Nat → M (List (List halfsegment))
  | [] => pure []
  | i :: rest => do
    let r ← partialOverlay fuel r1Strips r2Strips [] r1StripStopIndex r2StripStopIndex i
    let rs ← sweepStrips fuel r1Strips r2Strips r1StripStopIndex r2StripStopIndex rest
    pure (r :: rs)

/-- Function `parallelOverlay`: the new `result`.  `nthread` is the number of
workers of `createStrips` and `fuel` bounds the events of every strip sweep;
`numWorkerThreads` has no effect in the source. -/
def parallelOverlay (fuel nthread : Nat) (r1 r2 : List halfsegment) (numStrips : Int) :
    M (List halfsegment) := do
  let numStrips := if numStrips < 0 then 1 else numStrips
  let numIsoBounds := numStrips + 1
  let isoBounds : List ℚ := List.replicate numIsoBounds.toNat 0
  let isoBounds ← findIsoBoundaries r1 r2 isoBounds
  let (r1Strips, r1StripStopIndex) ← createStrips nthread r1 isoBounds
  let (r2Strips, r2StripStopIndex) ← createStrips nthread r2 isoBounds
  let resultStrips ←
    sweepStrips fuel r1Strips r2Strips r1StripStopIndex r2StripStopIndex
      (List.range numStrips.toNat)
  createFinalOverlay [] resultStrips isoBounds

/-! ## Auxiliary notions used to state and prove the properties -/

/-- Lexicographic order of points: `(ax, ay)` before `(bx, by)`. -/
def lexLt (ax ay bx bY : ℚ) : Prop := ax < bx ∨ (ax = bx ∧ ay < bY)

instance (ax ay bx bY : ℚ) : Decidable (lexLt ax ay bx bY) := by
  unfold lexLt; infer_instance

/-- Class of the direction `(a, b)` from the dominating to the submissive
point, in the order in which `operator<` ranks halfsegments that share their
dominating point: pointing left, straight down, degenerate, pointing right,
straight up. -/
def dirClass (a b : ℚ) : ℕ :=
  if a < 0 then 0
  else if 0 < a then 3
  else if b < 0 then 1
  else if 0 < b then 4
  else 2

/-- Slope of the direction `(a, b)`, zero for a vertical one. -/
def dirSlope (a b : ℚ) : ℚ := if a = 0 then 0 else b / a

/-- Position of the end of the direction `(a, b)` along its ray. -/
def dirPos (a b : ℚ) : ℚ := if a = 0 then b else a

/-- Sort key of a direction. -/
def dirKey (a b : ℚ) : Lex (ℕ × Lex (ℚ × ℚ)) :=
  toLex (dirClass a b, toLex (dirSlope a b, dirPos a b))

/-- Sort key of a halfsegment: `operator<` is the lexicographic order of the
keys (theorem `lt_iff_key`). -/
def halfsegment.key (h : halfsegment) : Lex (ℚ × Lex (ℚ × Lex (ℕ × Lex (ℚ × ℚ)))) :=
  toLex (h.dx, toLex (h.dy, dirKey (h.sx - h.dx) (h.sy - h.dy)))

/-- What `operator<` computes for two halfsegments with the same dominating
point, on the directions `(a, b)` and `(c, e)` to their submissive points. -/
def dirLt (a b c e : ℚ) : Prop :=
  (¬ ((0 < a ∨ (a = 0 ∧ 0 < b)) ↔ (0 < c ∨ (c = 0 ∧ 0 < e))) ∧ ¬ (0 < a ∨ (a = 0 ∧ 0 < b))) ∨
  (((0 < a ∨ (a = 0 ∧ 0 < b)) ↔ (0 < c ∨ (c = 0 ∧ 0 < e))) ∧
    ((0 = e * a - b * c ∧ (a < c ∨ (a = c ∧ b < e))) ∨ 0 < e * a - b * c))

/-- An operation on an event queue. -/
inductive QueueOp where
  | insert (h : halfsegment)
  | pop
deriving DecidableEq, Repr

/-- Run a sequence of operations on an event queue. -/
def runOps : List QueueOp → eventQueue → M eventQueue
  | [], q => pure q
  | QueueOp.insert h :: rest, q => do
    let q ← q.insert h
    runOps rest q
  | QueueOp.pop :: rest, q => runOps rest (q.pop).1

/-- The halfsegments inserted by a sequence of operations, in order. -/
def insertedOf : List QueueOp → List halfsegment
  | [] => []
  | QueueOp.insert h :: rest => h :: insertedOf rest
  | QueueOp.pop :: rest => insertedOf rest

/-- A halfsegment of region `rid` with end points `(x1, y1)`, `(x2, y2)` and
labels `la`, `lb`, as the driver `main` builds one from an input record. -/
def mkHseg (rid : Int) (x1 y1 x2 y2 : ℚ) (la lb : Int) : halfsegment :=
  { dx := x1, dy := y1, sx := x2, sy := y2, la := la, lb := lb, stripID := -1,
    regionID := rid, ola := la, olb := lb }

/-! ## Concrete inputs -/

/-- The left halfsegment `(0,0)-(1,0)`. -/
def exLeft : halfsegment := mkHseg 2 0 0 1 0 1 0

/-- The right halfsegment `(0,0)-(-1,0)`. -/
def exRight : halfsegment := mkHseg 2 0 0 (-1) 0 1 0

/-- The left halfsegment `(0,0)-(0,1)`. -/
def exUp : halfsegment := mkHseg 2 0 0 0 1 0 1

/-- The left halfsegment `(0,0)-(2,0)`. -/
def exFar : halfsegment := mkHseg 2 0 0 2 0 1 0

/-- A sorted event queue of two entries. -/
def exQueue : eventQueue := ⟨[exLeft, exUp]⟩

/-- Three inserts of distinct halfsegments around one pop. -/
def exOps : List QueueOp :=
  [QueueOp.insert exUp, QueueOp.insert exLeft, QueueOp.pop, QueueOp.insert exFar]

/-- The unit square with lower left corner `(x, y)` as region `rid`, interior
label 1 and exterior label 0, in halfsegment order (the vector `main` holds
after reading the four edges and sorting). -/
def squareAt (rid : Int) (x y : ℚ) : List halfsegment :=
  [ mkHseg rid x y (x + 1) y 1 0,
    mkHseg rid x y x (y + 1) 0 1,
    mkHseg rid x (y + 1) x y 0 1,
    mkHseg rid x (y + 1) (x + 1) (y + 1) 0 1,
    mkHseg rid (x + 1) y x y 1 0,
    mkHseg rid (x + 1) y (x + 1) (y + 1) 1 0,
    mkHseg rid (x + 1) (y + 1) x (y + 1) 0 1,
    mkHseg rid (x + 1) (y + 1) (x + 1) y 1 0 ]

/-- The unit square `[0,1] x [0,1]` as region 2. -/
def unitSquare : List halfsegment := squareAt 2 0 0

/-- The unit square translated by `(1/2, 1/2)` as region 3. -/
def shiftedSquare : List halfsegment := squareAt 3 (1/2) (1/2)

/-- A vector holds the brother of each of its entries. -/
def closedUnderBrother (l : List halfsegment) : Prop := ∀ h ∈ l, h.getBrother ∈ l

instance (l : List halfsegment) : Decidable (closedUnderBrother l) := by
  unfold closedUnderBrother; infer_instance

/-- A halfsegment of a result vector, with all its fields. -/
def mkOut (rid : Int) (x1 y1 x2 y2 : ℚ) (la lb strip ola olb : Int) : halfsegment :=
  { dx := x1, dy := y1, sx := x2, sy := y2, la := la, lb := lb, stripID := strip,
    regionID := rid, ola := ola, olb := olb }

/-- The triangle `(0,0), (1,1), (0,2)` as region 2, in halfsegment order. -/
def touchTriangle : List halfsegment :=
  [ mkHseg 2 0 0 1 1 1 0,
    mkHseg 2 0 0 0 2 0 1,
    mkHseg 2 0 2 0 0 0 1,
    mkHseg 2 0 2 1 1 0 1,
    mkHseg 2 1 1 0 2 0 1,
    mkHseg 2 1 1 0 0 1 0 ]

/-- The square `[1,2] x [0,2]` as region 3, in halfsegment order; the apex
`(1,1)` of `touchTriangle` lies on its left edge. -/
def touchSquare : List halfsegment :=
  [ mkHseg 3 1 0 2 0 1 0,
    mkHseg 3 1 0 1 2 0 1,
    mkHseg 3 1 2 1 0 0 1,
    mkHseg 3 1 2 2 2 0 1,
    mkHseg 3 2 0 1 0 1 0,
    mkHseg 3 2 0 2 2 1 0,
    mkHseg 3 2 2 1 2 0 1,
    mkHseg 3 2 2 2 0 1 0 ]

/-- What `overlayPlaneSweep` returns for `touchTriangle` and `touchSquare`. -/
def touchSerial : List halfsegment :=
  [ mkOut 2 0 0 1 1 1 0 (-1) (-1) (-1),
    mkOut 2 0 0 0 2 0 1 (-1) (-1) (-1),
    mkOut 2 0 2 0 0 0 1 (-1) (-1) (-1),
    mkOut 2 0 2 1 1 0 1 (-1) (-1) (-1),
    mkOut 3 1 0 2 0 1 0 (-1) (-1) (-1),
    mkOut 3 1 0 1 1 0 1 (-1) (-1) (-1),
    mkOut 2 1 1 0 2 0 1 (-1) (-1) (-1),
    mkOut 3 1 1 1 0 0 1 (-1) (-1) (-1),
    mkOut 3 1 1 1 2 0 1 (-1) (-1) (-1),
    mkOut 3 1 2 1 1 0 1 (-1) (-1) (-1),
    mkOut 3 1 2 2 2 0 1 (-1) (-1) (-1),
    mkOut 3 2 0 1 0 1 0 (-1) (-1) (-1),
    mkOut 3 2 0 2 2 1 0 (-1) (-1) (-1),
    mkOut 3 2 2 1 2 0 1 (-1) (-1) (-1),
    mkOut 3 2 2 2 0 1 0 (-1) (-1) (-1) ]

/-- What `parallelOverlay` returns for `touchTriangle` and `touchSquare` with
two strips. -/
def touchParallel : List halfsegment :=
  [ mkOut 2 0 0 1 1 1 0 0 (-1) (-1),
    mkOut 2 1 1 0 0 1 0 0 (-1) (-1),
    mkOut 2 0 0 0 2 0 1 0 (-1) (-1),
    mkOut 2 0 2 0 0 0 1 0 (-1) (-1),
    mkOut 2 0 2 1 1 0 1 0 (-1) (-1),
    mkOut 2 1 1 0 2 0 1 0 (-1) (-1),
    mkOut 3 1 0 2 0 1 0 0 (-1) (-1),
    mkOut 3 2 0 1 0 1 0 0 (-1) (-1),
    mkOut 3 1 0 1 1 0 1 0 (-1) (-1),
    mkOut 3 1 1 1 0 0 1 0 (-1) (-1),
    mkOut 3 1 1 1 2 0 1 0 (-1) (-1),
    mkOut 3 1 2 1 1 0 1 0 (-1) (-1),
    mkOut 3 1 2 2 2 0 1 0 (-1) (-1),
    mkOut 3 2 2 1 2 0 1 0 (-1) (-1),
    mkOut 3 2 0 2 2 1 0 1 (-1) (-1),
    mkOut 3 2 2 2 0 1 0 1 (-1) (-1) ]

/-- What `overlayPlaneSweep` returns for `unitSquare` and an empty region. -/
def squareSerial : List halfsegment :=
  [ mkOut 2 0 0 1 0 1 0 (-1) (-1) (-1),
    mkOut 2 0 0 0 1 0 1 (-1) (-1) (-1),
    mkOut 2 0 1 0 0 0 1 (-1) (-1) (-1),
    mkOut 2 0 1 1 1 0 1 (-1) (-1) (-1),
    mkOut 2 1 0 0 0 1 0 (-1) (-1) (-1),
    mkOut 2 1 0 1 1 1 0 (-1) (-1) (-1),
    mkOut 2 1 1 0 1 0 1 (-1) (-1) (-1),
    mkOut 2 1 1 1 0 1 0 (-1) (-1) (-1) ]

/-- What `parallelOverlay` returns for `unitSquare` and an empty region with
four strips. -/
def squareParallel : List halfsegment :=
  [ mkOut 2 0 0 1 0 1 0 0 (-1) (-1),
    mkOut 2 1 0 0 0 1 0 0 (-1) (-1),
    mkOut 2 0 0 0 1 0 1 0 (-1) (-1),
    mkOut 2 0 1 0 0 0 1 0 (-1) (-1),
    mkOut 2 0 1 1 1 0 1 0 (-1) (-1),
    mkOut 2 1 1 0 1 0 1 0 (-1) (-1),
    mkOut 2 1 0 1 1 1 0 3 (-1) (-1),
    mkOut 2 1 1 1 0 1 0 3 (-1) (-1) ]

/-! ## Notions for the sweep of a region whose segments do not cross -/

/-- The halfsegment with its overlap labels cleared, as a left-halfsegment
event stores it. -/
def clearOverlap (h : halfsegment) : halfsegment := { h with ola := -1, olb := -1 }

/-- The closed segments of `a` and `b` have only end points of both in common:
a point at parameter `s` of `a` and `t` of `b` is an end point of each. -/
def meetOnlyAtEndpoints (a b : halfsegment) : Prop :=
  ∀ s t : ℚ, 0 ≤ s → s ≤ 1 → 0 ≤ t → t ≤ 1 →
    a.dx + s * (a.sx - a.dx) = b.dx + t * (b.sx - b.dx) →
    a.dy + s * (a.sy - a.dy) = b.dy + t * (b.sy - b.dy) →
    (s = 0 ∨ s = 1) ∧ (t = 0 ∨ t = 1)

/-- The segments of a vector meet only in shared end points: of any two
entries, one is the brother of the other (the same segment) or their segments
have only end points of both in common. -/
def segmentsMeetOnlyInEndpoints (R : List halfsegment) : Prop :=
  R.Pairwise (fun a b => a.eq b.getBrother = true ∨ meetOnlyAtEndpoints a b)

/-- What the sweep of a region whose segments do not cross has appended to the
result after the events `P`: for every right halfsegment, the stored left
halfsegment and its brother. -/
def emitted : List halfsegment → List halfsegment
  | [] => []
  | g :: rest =>
    if g.isLeft then emitted rest
    else clearOverlap g.getBrother :: clearOverlap g :: emitted rest

/-- The state of the sweep of a region whose segments do not cross, after the
events `P`: the active list holds the left halfsegments of `P` whose brother is
still to come, each once and with cleared overlap labels. -/
structure Swept (P : List halfsegment) (st : SweepState) : Prop where
  r1Pos : st.r1Pos = P.length
  r2Pos : st.r2Pos = 0
  queue : st.discoveredSegs.eq = []
  nodup : st.activeList.al.Nodup
  active : ∀ x, x ∈ st.activeList.al ↔
    ∃ L ∈ P, L.isLeft = true ∧ L.getBrother ∉ P ∧ x = clearOverlap L
  result : st.result = emitted P

/-- The facts on a region that the sweep relies on. -/
structure RegionFacts (R : List halfsegment) (rid : Int) : Prop where
  strict : R.Pairwise (fun a b => a.key < b.key)
  nondeg : ∀ h ∈ R, nonDegenerate h
  closed : closedUnderBrother R
  region : ∀ h ∈ R, h.regionID = rid
  meet : ∀ a ∈ R, ∀ b ∈ R, a.isLeft = true → b.isLeft = true → a ≠ b →
    meetOnlyAtEndpoints a b

/-! ## Notions for the sweep of two copies of a region -/

/-- A halfsegment with its two overlap labels set. -/
def withOverlap (h : halfsegment) (a b : Int) : halfsegment := { h with ola := a, olb := b }

/-- A halfsegment with its region identifier set. -/
def setRegion (rid : Int) (h : halfsegment) : halfsegment := { h with regionID := rid }

/-- A halfsegment of region `rid` whose overlap labels repeat its own labels: the entry of
a segment that lies in both input regions with the same interior side. -/
def selfOverlap (rid : Int) (h : halfsegment) : halfsegment :=
  { h with regionID := rid, ola := h.la, olb := h.lb }

/-- The state of the sweep of two copies of a region whose segments do not cross, the
first of region `rid1` and the second of region `rid2`, after the events of both copies for
the entries `P`: the active list holds one entry for each left halfsegment of `P` whose
brother is still to come, with the labels of the segment as overlap labels; the event queue
holds the brothers of the entries of region `rid2`. -/
structure SweptBoth (rid1 rid2 : Int) (P : List halfsegment) (st : SweepState) : Prop where
  r1Pos : st.r1Pos = P.length
  r2Pos : st.r2Pos = P.length
  alKeys : st.activeList.al.Pairwise (fun a b => a.key ≠ b.key)
  alEntries : ∀ x ∈ st.activeList.al, ∃ L ∈ P, L.isLeft = true ∧ L.getBrother ∉ P ∧
    (x = selfOverlap rid1 L ∨ x = selfOverlap rid2 L)
  alCover : ∀ L ∈ P, L.isLeft = true → L.getBrother ∉ P →
    ∃ x ∈ st.activeList.al, x.key = L.key
  qStrict : st.discoveredSegs.eq.Pairwise (fun a b => a.key < b.key)
  qEntries : ∀ b, b ∈ st.discoveredSegs.eq ↔
    ∃ x ∈ st.activeList.al, x.regionID = rid2 ∧ b = x.getBrother
  result : st.result.map (setRegion rid1) = (emitted P).map (selfOverlap rid1)

/-! ## Notions and inputs for the active list, the strip plan and the breaking of segments -/

/-- The reduced segment of `h` anchored at `(x, y)`, a point of `h` on the sweep line: it
runs from the anchor to the far end point of `h`, which is the submissive point of `h`, or
its dominating point when the anchor is the submissive point. -/
def reducedSeg (x y : ℚ) (h : halfsegment) : halfsegment :=
  if x = h.sx ∧ y = h.sy then
    { halfsegment.default with dx := x, dy := y, sx := h.dx, sy := h.dy }
  else
    { halfsegment.default with dx := x, dy := y, sx := h.sx, sy := h.sy }

/-- The comparison of the active list for two halfsegments with the same intercept `y` on
the sweep line at `x`, as the specification words it: on the reduced segments `r1`, `r2`,
the result is `!(r1 < r2)` if both are right halfsegments, `r1 < r2` if both are left ones,
and otherwise whether `r1` is the right one. -/
def alLessReduced (x y : ℚ) (h1 h2 : halfsegment) : Bool :=
  let r1 := reducedSeg x y h1
  let r2 := reducedSeg x y h2
  if !r1.isLeft && !r2.isLeft then !(r1.lt r2)
  else if r1.isLeft && r2.isLeft then r1.lt r2
  else !r1.isLeft

/-- The left halfsegment `(2,2)-(3,3)`, which starts on the sweep line `x = 2`. -/
def risingFromLine : halfsegment := mkHseg 2 2 2 3 3 1 0

/-- The left halfsegment `(0,3)-(2,2)`, which ends on the sweep line `x = 2`. -/
def fallingToLine : halfsegment := mkHseg 2 0 3 2 2 1 0

/-- The left halfsegment `(0,0)-(1,1)`. -/
def exDiagonal : halfsegment := mkHseg 2 0 0 1 1 1 0

/-- The left halfsegment `(1,1)-(2,0)`, which starts where `exDiagonal` ends. -/
def exDescent : halfsegment := mkHseg 2 1 1 2 0 1 0

/-- The rectangle `[x0, x1] x [y0, y1]` as region `rid`, interior label 1 and exterior
label 0, in halfsegment order. -/
def rectangle (rid : Int) (x0 y0 x1 y1 : ℚ) : List halfsegment :=
  [ mkHseg rid x0 y0 x1 y0 1 0,
    mkHseg rid x0 y0 x0 y1 0 1,
    mkHseg rid x0 y1 x0 y0 0 1,
    mkHseg rid x0 y1 x1 y1 0 1,
    mkHseg rid x1 y0 x0 y0 1 0,
    mkHseg rid x1 y0 x1 y1 1 0,
    mkHseg rid x1 y1 x0 y1 0 1,
    mkHseg rid x1 y1 x1 y0 1 0 ]

/-- The square `[0,2] x [0,2]` as region 2. -/
def nearSquare : List halfsegment := rectangle 2 0 0 2 2

/-- The rectangle `[3,6] x [0,2]` as region 3, to the right of `nearSquare`. -/
def farRectangle : List halfsegment := rectangle 3 3 0 6 2

/-- The x-coordinates of the end points of the halfsegments of a vector. -/
def endpointXs (r : List halfsegment) : List ℚ := r.map (fun h => h.dx) ++ r.map (fun h => h.sx)

/-- The vector `isoBounds` as `parallelOverlay` prepares it for `numStrips` strips. -/
def freshBounds (numStrips : Nat) : List ℚ := List.replicate (numStrips + 1) 0

/-- What `overlayPlaneSweep` returns for `unitSquare` and the same square as region 3. -/
def squareTwice : List halfsegment :=
  [ mkOut 3 0 0 1 0 1 0 (-1) 1 0,
    mkOut 3 0 0 0 1 0 1 (-1) 0 1,
    mkOut 3 0 1 0 0 0 1 (-1) 0 1,
    mkOut 3 0 1 1 1 0 1 (-1) 0 1,
    mkOut 3 1 0 0 0 1 0 (-1) 1 0,
    mkOut 2 1 0 1 1 1 0 (-1) 1 0,
    mkOut 3 1 1 0 1 0 1 (-1) 0 1,
    mkOut 2 1 1 1 0 1 0 (-1) 1 0 ]

/-- What `overlayPlaneSweep` returns for `unitSquare` and `shiftedSquare`. -/
def shiftedSerial : List halfsegment :=
  [ mkOut 2 0 0 1 0 1 0 (-1) (-1) (-1),
    mkOut 2 0 0 0 1 0 1 (-1) (-1) (-1),
    mkOut 2 0 1 0 0 0 1 (-1) (-1) (-1),
    mkOut 2 0 1 (1/2) 1 0 1 (-1) (-1) (-1),
    mkOut 3 (1/2) (1/2) 1 (1/2) 1 0 (-1) 1 1,
    mkOut 3 (1/2) (1/2) (1/2) 1 0 1 (-1) 1 1,
    mkOut 2 (1/2) 1 0 1 0 1 (-1) (-1) (-1),
    mkOut 3 (1/2) 1 (1/2) (1/2) 0 1 (-1) 1 1,
    mkOut 2 (1/2) 1 1 1 0 1 (-1) 1 1,
    mkOut 3 (1/2) 1 (1/2) (3/2) 0 1 (-1) 0 0,
    mkOut 3 (1/2) (3/2) (1/2) 1 0 1 (-1) 0 0,
    mkOut 3 (1/2) (3/2) (3/2) (3/2) 0 1 (-1) 0 0,
    mkOut 2 1 0 0 0 1 0 (-1) (-1) (-1),
    mkOut 2 1 0 1 (1/2) 1 0 (-1) (-1) (-1),
    mkOut 3 1 (1/2) (1/2) (1/2) 1 0 (-1) 1 1,
    mkOut 2 1 (1/2) 1 0 1 0 (-1) (-1) (-1),
    mkOut 3 1 (1/2) (3/2) (1/2) 1 0 (-1) (-1) (-1),
    mkOut 2 1 (1/2) 1 1 1 0 (-1) 1 1,
    mkOut 2 1 1 (1/2) 1 0 1 (-1) 1 1,
    mkOut 2 1 1 1 (1/2) 1 0 (-1) 1 1,
    mkOut 3 (3/2) (1/2) 1 (1/2) 1 0 (-1) (-1) (-1),
    mkOut 3 (3/2) (1/2) (3/2) (3/2) 1 0 (-1) (-1) (-1),
    mkOut 3 (3/2) (3/2) (1/2) (3/2) 0 1 (-1) 0 0,
    mkOut 3 (3/2) (3/2) (3/2) (1/2) 1 0 (-1) (-1) (-1) ]

/-- The lexicographically smaller of the points `(ax, ay)` and `(bx, bY)`. -/
def lexMinPoint (ax ay bx bY : ℚ) : ℚ × ℚ := if lexLt ax ay bx bY then (ax, ay) else (bx, bY)

/-- The lexicographically larger of the points `(ax, ay)` and `(bx, bY)`. -/
def lexMaxPoint (ax ay bx bY : ℚ) : ℚ × ℚ := if lexLt ax ay bx bY then (bx, bY) else (ax, ay)

/-- The left halfsegment `(1,0)-(3,0)`, which overlaps `exFar`. -/
def exOverlap : halfsegment := mkHseg 3 1 0 3 0 1 0

/-- A computation that, when it does not return normally, fails by `exit(-1)` or by an
access outside a vector: it never runs out of fuel. -/
def AbortsOnly {α : Type} (m : M α) : Prop :=
  ∀ e, m = Except.error e → e = Fault.exit ∨ e = Fault.outOfBounds

/-- A computation that returns a value with the property `P`, or fails by `exit(-1)` or by
an access outside a vector. -/
def Outcome {α : Type} (P : α → Prop) (m : M α) : Prop :=
  match m with
  | Except.ok a => P a
  | Except.error e => e = Fault.exit ∨ e = Fault.outOfBounds

/-- The values `prev + w`, `prev + 2 w`, ..., `prev + n w` that `findIsoBoundaries` assigns
to the interior boundaries. -/
def spacedValues (w : ℚ) : Nat → ℚ → List ℚ
  | 0, _ => []
  | n + 1, prev => (prev + w) :: spacedValues w n (prev + w)

/-- The end points of a halfsegment: dominating point, then submissive point. -/
def halfsegment.ends (h : halfsegment) : ℚ × ℚ × ℚ × ℚ := (h.dx, h.dy, h.sx, h.sy)

/-! ## Parts of the loop body of the sweep, and inputs for the properties of events -/

/-- The triangle `(0,0), (2,0), (1,2)` as region 2, in halfsegment order. -/
def triangleUp : List halfsegment :=
  [ mkHseg 2 0 0 2 0 1 0,
    mkHseg 2 0 0 1 2 0 1,
    mkHseg 2 1 2 0 0 0 1,
    mkHseg 2 1 2 2 0 0 1,
    mkHseg 2 2 0 1 2 0 1,
    mkHseg 2 2 0 0 0 1 0 ]

/-- The triangle `(0,2), (2,2), (1,0)` as region 3, in halfsegment order. -/
def triangleDown : List halfsegment :=
  [ mkHseg 3 0 2 1 0 1 0,
    mkHseg 3 0 2 2 2 0 1,
    mkHseg 3 1 0 0 2 1 0,
    mkHseg 3 1 0 2 2 1 0,
    mkHseg 3 2 2 0 2 0 1,
    mkHseg 3 2 2 1 0 1 0 ]

/-- The number of halfsegments of `l` with dominating point `(x, y)`: the number of
segments of `l` that end in this point. -/
def segmentsAt (l : List halfsegment) (x y : ℚ) : Nat :=
  (l.filter fun h => decide (h.dx = x) && decide (h.dy = y)).length

/-- The segments of `l` (as left halfsegments) that join two points in each of which more
than two segments of `l` end: the sides of the figure enclosed by both boundaries. -/
def innerSegments (l : List halfsegment) : List halfsegment :=
  l.filter fun h => h.isLeft && decide (2 < segmentsAt l h.dx h.dy) &&
    decide (2 < segmentsAt l h.sx h.sy)

/-- The segments of `l` (as left halfsegments) with an end point in which only two
segments of `l` end: they reach out to a corner of one input region. -/
def outerSegments (l : List halfsegment) : List halfsegment :=
  l.filter fun h => h.isLeft && !(decide (2 < segmentsAt l h.dx h.dy) &&
    decide (2 < segmentsAt l h.sx h.sy))

/-- The two inputs of the overlay of one edge `(0,0)-(1,0)` with itself: the left
halfsegment and its brother, with the given region and labels. -/
def singleEdge (rid la lb : Int) : List halfsegment :=
  [mkHseg rid 0 0 1 0 la lb, (mkHseg rid 0 0 1 0 la lb).getBrother]

/-- The selection of the next event and its removal from its source in the loop body of
`overlayPlaneSweep` (the statements before the event point is set): `currSeg` and the
state afterwards. -/
def takeEvent (r1 r2 : List halfsegment) (st : SweepState) : M (halfsegment × SweepState) := do
  let (currSeg, segSource) := nextEvent r1 r2 st
  let st ←
    match segSource with
    | none => throw Fault.uninitialised
    | some 3 =>
      pure { st with segSource := segSource, discoveredSegs := (st.discoveredSegs.pop).1 }
    | some 2 => pure { st with segSource := segSource, r2Pos := st.r2Pos + 1 }
    | some _ => pure { st with segSource := segSource, r1Pos := st.r1Pos + 1 }
  pure (currSeg, st)

/-- The smaller of the current fronts of `r1` and `r2` (the front of `r1` when the front
of `r2` is not less), and `none` when both inputs are used up. -/
def smallerFront (r1 r2 : List halfsegment) (st : SweepState) : Option halfsegment :=
  match r1.get? st.r1Pos, r2.get? st.r2Pos with
  | some a, some b => some (if b.lt a then b else a)
  | some a, none => some a
  | none, some b => some b
  | none, none => none

/-- The overlap labels that the left-halfsegment branch of `overlayPlaneSweep` gives to
`currSeg` from its below neighbour, before it looks for intersections. -/
def labelFromBelow (currSeg : halfsegment) : Option halfsegment → halfsegment
  | some belowSegCopy =>
    if currSeg.regionID ≠ belowSegCopy.regionID then
      if belowSegCopy.dx ≠ belowSegCopy.sx then
        { currSeg with ola := belowSegCopy.la, olb := belowSegCopy.la }
      else
        { currSeg with ola := belowSegCopy.lb, olb := belowSegCopy.lb }
    else
      { currSeg with ola := belowSegCopy.ola, olb := belowSegCopy.ola }
  | none => currSeg

/-- The first `n` iterations of the loop of `overlayPlaneSweep`. -/
def sweepSteps (r1 r2 : List halfsegment) : Nat → SweepState → M SweepState
  | 0, st => pure st
  | n + 1, st => do
    let st ← sweepStep r1 r2 st
    sweepSteps r1 r2 n st

/-- The point at parameter `s` of the segment of `h`, from its dominating point (`s = 0`)
to its submissive point (`s = 1`). -/
def halfsegment.pointAt (h : halfsegment) (s : ℚ) : ℚ × ℚ :=
  (h.dx + s * (h.sx - h.dx), h.dy + s * (h.sy - h.dy))

/-- The point `p` lies on the closed segment of `h`. -/
def onSegment (h : halfsegment) (p : ℚ × ℚ) : Prop :=
  ∃ s : ℚ, 0 ≤ s ∧ s ≤ 1 ∧ h.pointAt s = p

/-- The value of `overlayPlaneSweep` on `triangleUp` and `triangleDown`. -/
def triangleOverlay : List halfsegment :=
  [ mkOut 2 0 0 1 0 1 0 (-1) (-1) (-1),
    mkOut 2 0 0 (1/2) 1 0 1 (-1) (-1) (-1),
    mkOut 3 0 2 (1/2) 1 1 0 (-1) 0 0,
    mkOut 3 0 2 1 2 0 1 (-1) 0 0,
    mkOut 3 (1/2) 1 0 2 1 0 (-1) 0 0,
    mkOut 2 (1/2) 1 0 0 0 1 (-1) (-1) (-1),
    mkOut 3 (1/2) 1 1 0 1 0 (-1) 1 1,
    mkOut 2 (1/2) 1 1 2 0 1 (-1) 1 1,
    mkOut 3 1 0 (1/2) 1 1 0 (-1) 1 1,
    mkOut 2 1 0 0 0 1 0 (-1) (-1) (-1),
    mkOut 2 1 0 2 0 1 0 (-1) (-1) (-1),
    mkOut 3 1 0 (3/2) 1 1 0 (-1) 1 1,
    mkOut 3 1 2 0 2 0 1 (-1) 0 0,
    mkOut 2 1 2 (1/2) 1 0 1 (-1) 1 1,
    mkOut 2 1 2 (3/2) 1 0 1 (-1) 1 1,
    mkOut 3 1 2 2 2 0 1 (-1) 0 0,
    mkOut 2 (3/2) 1 1 2 0 1 (-1) 1 1,
    mkOut 3 (3/2) 1 1 0 1 0 (-1) 1 1,
    mkOut 2 (3/2) 1 2 0 0 1 (-1) (-1) (-1),
    mkOut 3 (3/2) 1 2 2 1 0 (-1) 0 0,
    mkOut 2 2 0 (3/2) 1 0 1 (-1) (-1) (-1),
    mkOut 2 2 0 1 0 1 0 (-1) (-1) (-1),
    mkOut 3 2 2 1 2 0 1 (-1) 0 0,
    mkOut 3 2 2 (3/2) 1 1 0 (-1) 0 0 ]

/-- Two result strips for the boundaries `-MAX, 1, MAX`: the segment `(0,0)-(1,0)` of strip
0 ends on the boundary `1`, and strip 1 holds the segment `(1,5)-(2,5)` only, so no
continuation of `(0,0)-(1,0)`. -/
def brokenStrips : List (List halfsegment) :=
  [ [ mkOut 2 0 0 1 0 1 0 0 (-1) (-1), mkOut 2 1 0 0 0 1 0 0 (-1) (-1) ],
    [ mkOut 2 1 5 2 5 1 0 1 (-1) (-1), mkOut 2 2 5 1 5 1 0 1 (-1) (-1) ] ]

/-- Segments `(0,2)-(1,1)` and `(0,3)-(2,3)` of region 2, in halfsegment order. -/
def hookFirst : List halfsegment :=
  [ mkHseg 2 0 2 1 1 1 0,
    mkHseg 2 0 3 2 3 0 1,
    mkHseg 2 1 1 0 2 1 0,
    mkHseg 2 2 3 0 3 0 1 ]

/-- Segments `(0,1)-(1,3)` and `(0,1)-(0,3)` of region 3, in halfsegment order. -/
def hookSecond : List halfsegment :=
  [ mkHseg 3 0 1 1 3 0 1,
    mkHseg 3 0 1 0 3 1 0,
    mkHseg 3 0 3 0 1 1 0,
    mkHseg 3 1 3 0 1 0 1 ]

/-- The state of the sweep of `hookFirst` and `hookSecond` after six events. -/
def hookState : SweepState :=
  { r1Pos := 2, r2Pos := 3, segSource := some 1,
    activeList := ⟨[ mkOut 3 0 1 1 3 0 1 (-1) (-1) (-1),
                     mkOut 2 0 2 1 1 1 0 (-1) 0 0,
                     mkOut 2 0 3 2 3 0 1 (-1) 0 0 ], 0⟩,
    discoveredSegs := ⟨[]⟩,
    result := [ mkOut 3 0 1 0 2 1 0 (-1) (-1) (-1),
                mkOut 3 0 2 0 1 1 0 (-1) (-1) (-1),
                mkOut 3 0 2 0 3 1 0 (-1) (-1) (-1),
                mkOut 3 0 3 0 2 1 0 (-1) (-1) (-1) ] }

/-- The state at the start of a sweep, with the left halfsegment `(0,0)-(1,0)` of region 3
in the event queue. -/
def queuedState : SweepState :=
  { SweepState.init [] with discoveredSegs := ⟨[mkHseg 3 0 0 1 0 1 0]⟩ }

/-- The left halfsegment `(0,0)-(2,-2)` of region 3, on the descending line `y = -x`. -/
def exSlope : halfsegment := mkHseg 3 0 0 2 (-2) 1 0

/-- The left halfsegment `(1,-1)-(3,-3)` of region 2, colinear with `exSlope` and starting
after it. -/
def exSlopeLater : halfsegment := mkHseg 2 1 (-1) 3 (-3) 1 0

/-- The left halfsegment `(0,1)-(1,0)` of region 3, which crosses `exDiagonal` in
`(1/2,1/2)`. -/
def exAntiDiagonal : halfsegment := mkHseg 3 0 1 1 0 1 0

/-- The left-halfsegment branch of `overlayPlaneSweep` on the path of a fresh insertion,
from the search for intersections with the neighbours on: `currSeg` carries its overlap
labels, `segInAL` is the entry inserted at `segIndex`, and `hasBelow` and `hasAbove` are the
neighbours found. -/
def leftEventBreaks (st : SweepState) (activeList : activeListVec)
    (segInAL currSeg : halfsegment) (segIndex : Int) (hasBelow hasAbove : Option halfsegment)
    (eventX eventY : ℚ) : M SweepState := do
  let brokenSegs : List halfsegment := []
  let (currSeg, brokenSegs, activeList, segIndex) ←
    match hasBelow with
    | some belowSegCopy =>
      match breakHsegs belowSegCopy currSeg brokenSegs false with
      | (true, currSeg, brokenSegs, _) => do
        let activeList ← activeList.erase belowSegCopy (segIndex - 1)
        pure (currSeg, brokenSegs, activeList, segIndex - 1)
      | (false, currSeg, brokenSegs, _) => pure (currSeg, brokenSegs, activeList, segIndex)
    | none => pure (currSeg, brokenSegs, activeList, segIndex)
  let (currSeg, brokenSegs, activeList) ←
    match hasAbove with
    | some aboveSegCopy =>
      match breakHsegs aboveSegCopy currSeg brokenSegs false with
      | (true, currSeg, brokenSegs, _) => do
        let activeList ← activeList.erase aboveSegCopy (segIndex + 1)
        pure (currSeg, brokenSegs, activeList)
      | (false, currSeg, brokenSegs, _) => pure (currSeg, brokenSegs, activeList)
    | none => pure (currSeg, brokenSegs, activeList)
  let activeList ← activeList.replace segInAL currSeg segIndex
  let (result, discoveredSegs, activeList) ←
    insertBrokenSegsToActiveListAndDiscoveredQueue brokenSegs st.result st.discoveredSegs
      activeList eventX eventY
  pure { st with activeList := activeList, discoveredSegs := discoveredSegs, result := result }

/-- A state of a sweep at `x = 0` whose active list holds the left halfsegment `(0,0)-(1,0)`
of region 2. -/
def oneBelowState : SweepState :=
  { SweepState.init [] with activeList := ⟨[clearOverlap (mkHseg 2 0 0 1 0 1 0)], 0⟩ }

/-- The state `hookState` with the seventh event, the right halfsegment `(1,1)-(0,2)` of
`hookFirst`, taken and the sweep line moved to it. -/
def hookEventState : SweepState :=
  { hookState with r1Pos := 3, activeList := ⟨hookState.activeList.al, 1⟩ }

/-! ## Notions for the strip partition and the recombination -/

/-- The segments `(0,0)-(4,0)` and `(0,1)-(1,1/2)` of region 2, in halfsegment order. -/
def lostFirst : List halfsegment :=
  [ mkHseg 2 0 0 4 0 1 0,
    mkHseg 2 0 1 1 (1/2) 1 0,
    mkHseg 2 1 (1/2) 0 1 1 0,
    mkHseg 2 4 0 0 0 1 0 ]

/-- The segment `(0,2)-(2,0)` of region 3, which ends on the interior of `(0,0)-(4,0)`. -/
def lostSecond : List halfsegment :=
  [ mkHseg 3 0 2 2 0 1 0,
    mkHseg 3 2 0 0 2 1 0 ]

/-- What `overlayPlaneSweep` returns for `lostFirst` and `lostSecond`. -/
def lostSerial : List halfsegment :=
  [ mkOut 2 0 0 2 0 1 0 (-1) (-1) (-1),
    mkOut 2 0 1 1 (1/2) 1 0 (-1) (-1) (-1),
    mkOut 2 1 (1/2) 0 1 1 0 (-1) (-1) (-1),
    mkOut 2 2 0 0 0 1 0 (-1) (-1) (-1),
    mkOut 2 2 0 4 0 1 0 (-1) (-1) (-1),
    mkOut 2 4 0 2 0 1 0 (-1) (-1) (-1) ]

/-- The left halfsegment `(0,1)-(1,0)`, which ends on the sweep line `x = 1`. -/
def fallingShort : halfsegment := mkHseg 2 0 1 1 0 1 0

/-- The left halfsegment `(0,2)-(1,0)`, which ends in the same point. -/
def fallingSteep : halfsegment := mkHseg 3 0 2 1 0 1 0

/-- The three places a broken segment can be sent to. -/
inductive Destination where
  | result
  | eventQueue
  | activeList
deriving DecidableEq, Repr

/-- The destination of a broken segment `p` for the sweep point `(sweepX, sweepY)`, in the
words of the specification: the result for a piece behind the sweep line, else the event
queue for a right halfsegment or a piece whose dominating point is ahead of the sweep
point, else the active list. -/
def dispatchDestination (p : halfsegment) (sweepX sweepY : ℚ) : Destination :=
  if (p.dx ≠ p.sx ∧ p.dx ≤ sweepX ∧ p.sx ≤ sweepX) ∨
      (p.dx = p.sx ∧ p.dy ≤ sweepY ∧ p.sy ≤ sweepY) then Destination.result
  else if p.isLeft = false ∨ lexLt sweepX sweepY p.dx p.dy then Destination.eventQueue
  else Destination.activeList

/-- One broken segment sent to its destination `dispatchDestination`: the new `result`,
`discoveredSegs` and `activeList`. -/
def dispatchOne (sweepX sweepY : ℚ) (st : List halfsegment × eventQueue × activeListVec)
    (p : halfsegment) : M (List halfsegment × eventQueue × activeListVec) :=
  match dispatchDestination p sweepX sweepY with
  | Destination.result => pure (st.1 ++ [p], st.2.1, st.2.2)
  | Destination.eventQueue => do
    let q ← st.2.1.insert p
    pure (st.1, q, st.2.2)
  | Destination.activeList => do
    let (al, _, _, _) ← st.2.2.insert p
    pure (st.1, st.2.1, al)

/-- The number of entries of `l` with a `stripID` of at most `i`. -/
def countUpTo (l : List halfsegment) (i : Int) : Int :=
  ((l.filter fun p => decide (p.stripID ≤ i)).length : Int)

/-- The stop index of strip `i` in `stops`, with the value 0 for `i = -1`. -/
def stopAt (stops : List Int) (i : Int) : Int :=
  if i < 0 then 0 else stops.getD i.toNat 0

/-- The value of a stop index after the marking loop has seen the entries `P`. -/
def markedStop (P : List halfsegment) (i : Nat) : Int :=
  if (∃ p ∈ P, p.stripID = (i : Int)) then countUpTo P (i : Int) else intMin

/-- A strip plan of two strips with the inner boundary at `x = 1/2`. -/
def halfPlan : List ℚ := [-10, 1/2, 10]

/-- The pieces that two workers make of `triangleUp` over `halfPlan`, in the order in
which `createStrips` collects them. -/
def triangleHalfPieces : List halfsegment :=
  [ mkOut 2 0 0 (1/2) 0 1 0 0 1 0, mkOut 2 (1/2) 0 0 0 1 0 0 1 0,
    mkOut 2 (1/2) 0 2 0 1 0 1 1 0, mkOut 2 2 0 (1/2) 0 1 0 1 1 0,
    mkOut 2 0 0 (1/2) 1 0 1 0 0 1, mkOut 2 (1/2) 1 0 0 0 1 0 0 1,
    mkOut 2 (1/2) 1 1 2 0 1 1 0 1, mkOut 2 1 2 (1/2) 1 0 1 1 0 1,
    mkOut 2 1 2 2 0 0 1 1 0 1, mkOut 2 2 0 1 2 0 1 1 0 1 ]

/-- The halfsegment `h` starts in the point `P`: its dominating point is `P`. -/
def startsAt (h : halfsegment) (P : ℚ × ℚ) : Prop := h.dx = P.1 ∧ h.dy = P.2

instance (h : halfsegment) (P : ℚ × ℚ) : Decidable (startsAt h P) := by
  unfold startsAt; infer_instance

/-- The halfsegment `h` ends in the point `P`: its submissive point is `P`. -/
def endsAt (h : halfsegment) (P : ℚ × ℚ) : Prop := h.sx = P.1 ∧ h.sy = P.2

instance (h : halfsegment) (P : ℚ × ℚ) : Decidable (endsAt h P) := by
  unfold endsAt; infer_instance

/-- Strip `i` of the strip outputs `rs`, empty when there is none. -/
def stripAt (rs : List (List halfsegment)) (i : Nat) : List halfsegment := rs.getD i []

/-- The number of halfsegments of `strip` that start in `P`. -/
def countStart (strip : List halfsegment) (P : ℚ × ℚ) : Nat :=
  strip.countP fun h => decide (startsAt h P)

/-- The piece `p` of strip `i` is one that `createFinalOverlay` is meant to join with a
piece of strip `i + 1`: it ends on boundary `i + 1`, and the only halfsegment of its strip
that starts in its end point is its brother. -/
def joinsOn (B : List ℚ) (rs : List (List halfsegment)) (i : Nat) (p : halfsegment) : Prop :=
  B.get? (i + 1) = some p.sx ∧ countStart (stripAt rs i) (p.sx, p.sy) = 1

instance (B : List ℚ) (rs : List (List halfsegment)) (i : Nat) (p : halfsegment) :
    Decidable (joinsOn B rs i p) := by
  unfold joinsOn; infer_instance

/-- The halfsegment of strip `i + 1` that starts in `P`, if there is one. -/
def continuation (rs : List (List halfsegment)) (i : Nat) (P : ℚ × ℚ) : Option halfsegment :=
  (stripAt rs (i + 1)).find? fun q => decide (startsAt q P)

/-- The words of the specification for the far end of a merged segment: the submissive
point of the piece `p` of strip `i`, extended across the later boundaries for as long as
the piece reached is one to be joined (`fuel` bounds the number of boundaries). -/
def chainEnd (B : List ℚ) (rs : List (List halfsegment)) : Nat → Nat → halfsegment → ℚ × ℚ
  | 0, _, p => (p.sx, p.sy)
  | fuel + 1, i, p =>
    if joinsOn B rs i p then
      match continuation rs i (p.sx, p.sy) with
      | some q => chainEnd B rs fuel (i + 1) q
      | none => (p.sx, p.sy)
    else (p.sx, p.sy)

/-- Well-formed strip outputs for the plan `B`: one strip between any two consecutive
boundaries of a strictly increasing plan; every strip strictly sorted in halfsegment order
and holding the brother of each of its halfsegments; every halfsegment within its strip and
none of them vertical on a boundary; and a left piece that is to be joined has exactly one
halfsegment of the next strip starting in its end point. -/
def StripsOK (B : List ℚ) (rs : List (List halfsegment)) : Prop :=
  rs.length + 1 = B.length ∧
  B.Pairwise (fun a b => a < b) ∧
  (∀ strip ∈ rs, strip.Pairwise (fun a b => a.lt b = true)) ∧
  (∀ strip ∈ rs, ∀ h ∈ strip, ∃ g ∈ strip, g.eq h.getBrother = true) ∧
  (∀ i, i < rs.length → ∀ h ∈ stripAt rs i,
    B.getD i 0 ≤ h.dx ∧ h.dx ≤ B.getD (i + 1) 0 ∧ B.getD i 0 ≤ h.sx ∧ h.sx ≤ B.getD (i + 1) 0 ∧
      (h.dx = h.sx → B.getD i 0 < h.dx ∧ h.dx < B.getD (i + 1) 0)) ∧
  (∀ i, i < rs.length → ∀ p ∈ stripAt rs i, p.isLeft = true → joinsOn B rs i p →
    countStart (stripAt rs (i + 1)) (p.sx, p.sy) = 1)

instance (B : List ℚ) (rs : List (List halfsegment)) : Decidable (StripsOK B rs) := by
  unfold StripsOK; infer_instance

/-- The test of the brother's neighbours in the loop of `createFinalOverlay`. -/
def neighbourShares (strip : List halfsegment) (broIndex : Int) (curr : halfsegment) :
    M Bool := do
  let nextShares ←
    (if broIndex + 1 < (strip.length : Int) then do
      let n ← vecGet strip (broIndex + 1)
      pure (decide (n.dx = curr.sx) && decide (n.dy = curr.sy))
    else pure false)
  (if nextShares then pure true
    else if broIndex > 0 then do
      let n ← vecGet strip (broIndex - 1)
      pure (decide (n.dx = curr.sx) && decide (n.dy = curr.sy))
    else pure false)

/-- The `else` block of the loop of `createFinalOverlay`: the join with the next strip,
followed by the rest of the loop. -/
def joinNext (isoBounds : List ℚ) (fuel : Nat) (st : JoinState) (broIndex : Int) :
    M JoinState := do
  let rs ← invalidate st.resultStrips st.currStrip broIndex
  let rs ← invalidate rs st.currStrip st.currIndex
  let strip ← vecGet rs st.currStrip
  let bro ← vecGet strip broIndex
  let next ← vecGet rs (st.currStrip + 1)
  let (_, currIndex) ← binarySearchHalfsegment next bro
  let c ← vecGet next currIndex
  let (_, broIndex) ← binarySearchHalfsegment next c.getBrother
  let c ← vecGet next currIndex
  joinLoop isoBounds fuel
    { resultStrips := rs, curr := { st.curr with sx := c.sx, sy := c.sy },
      broIndex := some broIndex, currIndex := currIndex,
      currBound := st.currBound + 1, currStrip := st.currStrip + 1,
      invalidateLast := true }

/-- The part of the body of the loops of `createFinalOverlay` from the `while` loop on, for
the valid left halfsegment `curr` at entry `j` of strip `i`. -/
def joinRun (isoBounds : List ℚ) (i j : Int) (resultStrips : List (List halfsegment))
    (finalResult : List halfsegment) (curr : halfsegment) (broIndex : Option Int) :
    M (List (List halfsegment) × List halfsegment × Option Int) := do
  let st ← joinLoop isoBounds (isoBounds.length + 1)
    { resultStrips := resultStrips, curr := curr, broIndex := broIndex,
      currIndex := j, currBound := i + 1, currStrip := i,
      invalidateLast := false }
  let rs ←
    (if st.invalidateLast then do
      let broIndex ←
        (match st.broIndex with
        | some k => pure k
        | none => throw Fault.uninitialised)
      let rs ← invalidate st.resultStrips st.currStrip broIndex
      invalidate rs st.currStrip st.currIndex
    else pure st.resultStrips)
  pure (rs, finalResult ++ [st.curr, st.curr.getBrother], st.broIndex)

/-- The entry `b` is the entry `a`, or `a` with its labels set to `-1`. -/
def Touched (a b : halfsegment) : Prop := b = a ∨ b = { a with la := -1, lb := -1 }

/-- The strips `rs1` are the strips `rs` with some entries invalidated. -/
def Step (rs rs1 : List (List halfsegment)) : Prop :=
  rs1.length = rs.length ∧
    ∀ t, (stripAt rs1 t).length = (stripAt rs t).length ∧
      ∀ m a, (stripAt rs t).get? m = some a →
        ∃ b, (stripAt rs1 t).get? m = some b ∧ Touched a b

/-- Entry `m` of strip `t` of `rs` is invalidated: both its labels are `-1`. -/
def Invalid (rs : List (List halfsegment)) (t m : Nat) : Prop :=
  ∃ e, (stripAt rs t).get? m = some e ∧ e.la = -1 ∧ e.lb = -1

/-- What the loop of `createFinalOverlay` has done when it returns `st1`, started in `st`
on the piece `p` at index `ci` of strip `s`: it has stopped on a piece `p1` that is not to
be joined, `curr` ends where `p1` ends, and either nothing has changed or the pieces it
went through are invalidated. -/
def LoopPost (B : List ℚ) (rs0 : List (List halfsegment)) (st : JoinState) (s ci : Nat)
    (p : halfsegment) (st1 : JoinState) : Prop :=
  ∃ (s1 ci1 : Nat) (p1 : halfsegment),
    Step st.resultStrips st1.resultStrips ∧
    st1.currStrip = (s1 : Int) ∧ st1.currIndex = (ci1 : Int) ∧
    (stripAt rs0 s1).get? ci1 = some p1 ∧ p1.isLeft = true ∧ ¬ joinsOn B rs0 s1 p1 ∧
    st1.curr = { st.curr with sx := p1.sx, sy := p1.sy } ∧
    (∀ f2, rs0.length ≤ f2 + s → chainEnd B rs0 f2 s p = (p1.sx, p1.sy)) ∧
    ((s1 = s ∧ ci1 = ci ∧ st1 = st) ∨
      (st1.invalidateLast = true ∧ joinsOn B rs0 s p ∧
        (∃ (bi1 : Nat) (g1 : halfsegment), st1.broIndex = some (bi1 : Int) ∧
          (stripAt rs0 s1).get? bi1 = some g1 ∧ g1.isLeft = false) ∧
        Invalid st1.resultStrips s ci ∧
        (∃ (t0 : Nat) (q : halfsegment), t0 + 1 = s1 ∧ q ∈ stripAt rs0 t0 ∧ q.isLeft = true ∧
          endsAt q (p1.dx, p1.dy)) ∧
        (∀ (n1 : Nat) (u : halfsegment), (stripAt rs0 (s + 1)).get? n1 = some u →
          startsAt u (p.sx, p.sy) →
          (s1 = s + 1 ∧ ci1 = n1) ∨ Invalid st1.resultStrips (s + 1) n1))) ∧
    (∀ (t m : Nat) (e0 : halfsegment), (stripAt rs0 t).get? m = some e0 → e0.isLeft = true →
      ¬ (t = s ∧ m = ci) →
      (∀ (t0 : Nat) (q : halfsegment), t0 + 1 = t → q ∈ stripAt rs0 t0 → q.isLeft = true →
        ¬ endsAt q (e0.dx, e0.dy)) →
      (stripAt st1.resultStrips t).get? m = (stripAt st.resultStrips t).get? m)

/-- What the body of the loops of `createFinalOverlay` has done for entry `b` of strip `a`,
whose value is `e0` in the strips `rs0` and `e` in the strips `rs` with invalidated
entries: nothing for an entry that is not a valid left halfsegment; otherwise the segment
from the start of `e` to the end of the piece `p1` on which the loop has stopped is
appended with its brother, and the pieces gone through are invalidated. -/
def EntryPost (B : List ℚ) (rs0 rs : List (List halfsegment)) (fr : List halfsegment)
    (a b : Nat) (e0 e : halfsegment) (rs1 : List (List halfsegment))
    (fr1 : List halfsegment) : Prop :=
  Step rs rs1 ∧
    ((¬ (e.isLeft = true ∧ e.la ≠ e.lb) ∧ rs1 = rs ∧ fr1 = fr) ∨
      (e.isLeft = true ∧ e.la ≠ e.lb ∧
        ∃ (s1 : Nat) (p1 : halfsegment), p1 ∈ stripAt rs0 s1 ∧ p1.isLeft = true ∧
          ¬ joinsOn B rs0 s1 p1 ∧
          fr1 = fr ++ [({ e with sx := p1.sx, sy := p1.sy } : halfsegment),
            ({ e with sx := p1.sx, sy := p1.sy } : halfsegment).getBrother] ∧
          (∀ f2, rs0.length ≤ f2 + a → chainEnd B rs0 f2 a e0 = (p1.sx, p1.sy)) ∧
          (joinsOn B rs0 a e0 → ∀ (n1 : Nat) (u : halfsegment),
            (stripAt rs0 (a + 1)).get? n1 = some u → startsAt u (e0.sx, e0.sy) →
            Invalid rs1 (a + 1) n1) ∧
          (∀ (t m : Nat) (x0 : halfsegment), (stripAt rs0 t).get? m = some x0 →
            x0.isLeft = true → ¬ (t = a ∧ m = b) →
            (∀ (t0 : Nat) (q : halfsegment), t0 + 1 = t → q ∈ stripAt rs0 t0 →
              q.isLeft = true → ¬ endsAt q (x0.dx, x0.dy)) →
            (stripAt rs1 t).get? m = (stripAt rs t).get? m)))

/-- The hypotheses of the merge of a piece `c` of strip `i` with its continuation `c1` in
strip `i + 1`: the strips are well formed; `c` is a valid left halfsegment of strip `i`
that ends on boundary `i + 1`; no other halfsegment of strip `i` has the end point of `c`
as an end point; `c1` is the one left halfsegment of strip `i + 1` that starts there; and
no left halfsegment of strip `i - 1` ends where `c` starts. -/
def MergeSetting (B : List ℚ) (rs : List (List halfsegment)) (i : Nat)
    (c c1 : halfsegment) : Prop :=
  StripsOK B rs ∧ c ∈ stripAt rs i ∧ c.isLeft = true ∧ c.la ≠ c.lb ∧
  B.get? (i + 1) = some c.sx ∧
  (∀ h ∈ stripAt rs i, startsAt h (c.sx, c.sy) ∨ endsAt h (c.sx, c.sy) →
    h.eq c = true ∨ h.eq c.getBrother = true) ∧
  c1 ∈ stripAt rs (i + 1) ∧ c1.isLeft = true ∧ startsAt c1 (c.sx, c.sy) ∧
  (∀ q ∈ stripAt rs (i + 1), q.isLeft = true → startsAt q (c.sx, c.sy) → q = c1) ∧
  (∀ e ∈ stripAt rs (i - 1), 0 < i → e.isLeft = true → ¬ endsAt e (c.dx, c.dy))

instance (B : List ℚ) (rs : List (List halfsegment)) (i : Nat) (c c1 : halfsegment) :
    Decidable (MergeSetting B rs i c c1) := by
  unfold MergeSetting; infer_instance

/-- The segment that `createFinalOverlay` is to make of the piece `c` of strip `i` and its
continuation `c1`: `c` with its end moved to the far end of the chain of `c1`. -/
def mergedSegment (B : List ℚ) (rs : List (List halfsegment)) (i : Nat)
    (c c1 : halfsegment) : halfsegment :=
  { c with sx := (chainEnd B rs rs.length (i + 1) c1).1,
           sy := (chainEnd B rs rs.length (i + 1) c1).2 }

/-- The state of `createFinalOverlay` when it comes to entry `b` of strip `a`, in the
setting of a piece `c` at index `jc` of strip `i` whose continuation is at index `jc1` of
strip `i + 1`: no halfsegment of the result has the end point of `c` as an end point; and
either the loops have not yet come to `c`, which is still in its place, or the
continuation is invalidated and the result holds the merged segment `m` followed by its
brother. -/
def MergeInv (rs : List (List halfsegment)) (i jc jc1 : Nat) (c m : halfsegment)
    (a b : Nat) (rs1 : List (List halfsegment)) (fr : List halfsegment) : Prop :=
  Step rs rs1 ∧
  (∀ h ∈ fr, ¬ startsAt h (c.sx, c.sy) ∧ ¬ endsAt h (c.sx, c.sy)) ∧
  (((a < i ∨ (a = i ∧ b ≤ jc)) ∧ (stripAt rs1 i).get? jc = some c) ∨
    (¬ (a < i ∨ (a = i ∧ b ≤ jc)) ∧ Invalid rs1 (i + 1) jc1 ∧
      ∃ l1 l2, fr = l1 ++ m :: m.getBrother :: l2))

/-- A strip plan of three strips with the interior boundaries `1` and `2`. -/
def chainPlan : List ℚ := [-10, 1, 2, 10]

/-- The strip outputs of the one segment `(0,0)-(3,3)` over `chainPlan`: a piece and its
brother in each strip. -/
def chainStrips : List (List halfsegment) :=
  [ [ mkOut 2 0 0 1 1 1 0 0 1 0, mkOut 2 1 1 0 0 1 0 0 1 0 ],
    [ mkOut 2 1 1 2 2 1 0 1 1 0, mkOut 2 2 2 1 1 1 0 1 1 0 ],
    [ mkOut 2 2 2 3 3 1 0 2 1 0, mkOut 2 3 3 2 2 1 0 2 1 0 ] ]

/-! ## Properties of the halfsegment order -/

theorem slope_lt_iff {a c : ℚ} (h : 0 < a * c) (b e : ℚ) :
    b / a < e / c ↔ 0 < e * a - b * c := by
  have ha : a ≠ 0 := by rintro rfl; simp at h
  have hc : c ≠ 0 := by rintro rfl; simp at h
  have key : e / c - b / a = (e * a - b * c) / (a * c) := by field_simp; ring
  rw [← sub_pos, key]
  constructor
  · intro h1
    by_contra h2
    have : (e * a - b * c) / (a * c) ≤ 0 := div_nonpos_of_nonpos_of_nonneg (not_lt.mp h2) h.le
    linarith
  · intro h1; exact div_pos h1 h

theorem slope_eq_iff {a c : ℚ} (ha : a ≠ 0) (hc : c ≠ 0) (b e : ℚ) :
    b / a = e / c ↔ 0 = e * a - b * c := by
  rw [div_eq_div_iff ha hc]
  constructor <;> intro h <;> linarith

theorem dirLt_same_sign {a c : ℚ} (ha : a ≠ 0) (b e : ℚ) :
    (0 = e * a - b * c ∧ (a < c ∨ a = c ∧ b < e) ∨ 0 < e * a - b * c) ↔
      (0 < e * a - b * c ∨ 0 = e * a - b * c ∧ a < c) := by
  constructor
  · rintro (⟨h0, h1 | ⟨h1, h2⟩⟩ | h)
    · exact Or.inr ⟨h0, h1⟩
    · exfalso
      subst h1
      have h3 : a * (e - b) = 0 := by linarith
      rcases mul_eq_zero.mp h3 with h4 | h4
      · exact ha h4
      · linarith
    · exact Or.inl h
  · rintro (h | ⟨h0, h1⟩)
    · exact Or.inr h
    · exact Or.inl ⟨h0, Or.inl h1⟩

theorem dirKey_lt_iff (a b c e : ℚ) :
    dirKey a b < dirKey c e ↔
      dirClass a b < dirClass c e ∨ (dirClass a b = dirClass c e ∧
        (dirSlope a b < dirSlope c e ∨
          (dirSlope a b = dirSlope c e ∧ dirPos a b < dirPos c e))) := by
  unfold dirKey
  rw [Prod.Lex.lt_iff]
  simp only [Prod.Lex.lt_iff]

theorem dirLt_iff_key (a b c e : ℚ) : dirLt a b c e ↔ dirKey a b < dirKey c e := by
  rw [dirKey_lt_iff]
  unfold dirLt
  rcases lt_trichotomy a 0 with ha | ha | ha <;> rcases lt_trichotomy c 0 with hc | hc | hc
  · -- a < 0, c < 0
    have ha' : ¬ 0 < a := not_lt.mpr ha.le
    have hc' : ¬ 0 < c := not_lt.mpr hc.le
    have e1 := slope_lt_iff (mul_pos_of_neg_of_neg ha hc) b e
    have e2 := slope_eq_iff ha.ne hc.ne b e
    simp only [dirClass, dirSlope, dirPos, ha, hc, ha', hc', ha.ne, hc.ne, if_true, if_false, e1,
      e2, false_and, or_false, false_or, true_and, not_true, not_false_iff, lt_irrefl, iff_self,
      and_true]
    exact dirLt_same_sign ha.ne b e
  · -- a < 0, c = 0
    subst hc
    have ha' : ¬ 0 < a := not_lt.mpr ha.le
    rcases lt_trichotomy e 0 with he | he | he
    · have he' : ¬ 0 < e := not_lt.mpr he.le
      have : 0 < e * a := mul_pos_of_neg_of_neg he ha
      simp [dirClass, dirSlope, dirPos, ha, ha', ha.ne, he, he', this]
    · subst he
      simp [dirClass, dirSlope, dirPos, ha, ha', ha.ne]
    · have he' : ¬ e < 0 := not_lt.mpr he.le
      simp [dirClass, dirSlope, dirPos, ha, ha', ha.ne, he, he']
  · -- a < 0, 0 < c
    have ha' : ¬ 0 < a := not_lt.mpr ha.le
    have hc' : ¬ c < 0 := not_lt.mpr hc.le
    simp [dirClass, dirSlope, dirPos, ha, ha', hc, hc', ha.ne]
  · -- a = 0, c < 0
    subst ha
    have hc' : ¬ 0 < c := not_lt.mpr hc.le
    rcases lt_trichotomy b 0 with hb | hb | hb
    · have hb' : ¬ 0 < b := not_lt.mpr hb.le
      have h1 : 0 < b * c := mul_pos_of_neg_of_neg hb hc
      have h2 : ¬ b * c < 0 := not_lt.mpr h1.le
      simp [dirClass, dirSlope, dirPos, hc, hc', hc.ne, hb, hb', h1.ne', h2]
    · subst hb
      simp [dirClass, dirSlope, dirPos, hc, hc', hc.ne, hc.le, hc.ne']
    · have hb' : ¬ b < 0 := not_lt.mpr hb.le
      simp [dirClass, dirSlope, dirPos, hc, hc', hc.ne, hb, hb']
  · -- a = 0, c = 0
    subst ha; subst hc
    rcases lt_trichotomy b 0 with hb | hb | hb <;> rcases lt_trichotomy e 0 with he | he | he
    · have hb' : ¬ 0 < b := not_lt.mpr hb.le
      have he' : ¬ 0 < e := not_lt.mpr he.le
      simp [dirClass, dirSlope, dirPos, hb, hb', he, he']
    · subst he
      have hb' : ¬ 0 < b := not_lt.mpr hb.le
      simp [dirClass, dirSlope, dirPos, hb, hb']
    · have hb' : ¬ 0 < b := not_lt.mpr hb.le
      have he' : ¬ e < 0 := not_lt.mpr he.le
      simp [dirClass, dirSlope, dirPos, hb, hb', he, he']
    · subst hb
      have he' : ¬ 0 < e := not_lt.mpr he.le
      simp [dirClass, dirSlope, dirPos, he, he']
    · subst hb; subst he
      simp [dirClass, dirSlope, dirPos]
    · subst hb
      have he' : ¬ e < 0 := not_lt.mpr he.le
      simp [dirClass, dirSlope, dirPos, he, he']
    · have hb' : ¬ b < 0 := not_lt.mpr hb.le
      have he' : ¬ 0 < e := not_lt.mpr he.le
      simp [dirClass, dirSlope, dirPos, hb, hb', he, he']
    · subst he
      have hb' : ¬ b < 0 := not_lt.mpr hb.le
      simp [dirClass, dirSlope, dirPos, hb, hb']
    · have hb' : ¬ b < 0 := not_lt.mpr hb.le
      have he' : ¬ e < 0 := not_lt.mpr he.le
      simp [dirClass, dirSlope, dirPos, hb, hb', he, he']
  · -- a = 0, 0 < c
    subst ha
    have hc' : ¬ c < 0 := not_lt.mpr hc.le
    rcases lt_trichotomy b 0 with hb | hb | hb
    · have hb' : ¬ 0 < b := not_lt.mpr hb.le
      simp [dirClass, dirSlope, dirPos, hc, hc', hc.ne', hb, hb']
    · subst hb
      simp [dirClass, dirSlope, dirPos, hc, hc', hc.ne']
    · have hb' : ¬ b < 0 := not_lt.mpr hb.le
      have h1 : 0 < b * c := mul_pos hb hc
      have h2 : ¬ b * c < 0 := not_lt.mpr h1.le
      simp [dirClass, dirSlope, dirPos, hc, hc', hc.ne', hb, hb', h1.ne', h2]
  · -- 0 < a, c < 0
    have ha' : ¬ a < 0 := not_lt.mpr ha.le
    have hc' : ¬ 0 < c := not_lt.mpr hc.le
    simp [dirClass, dirSlope, dirPos, ha, ha', hc, hc', hc.ne]
  · -- 0 < a, c = 0
    subst hc
    have ha' : ¬ a < 0 := not_lt.mpr ha.le
    rcases lt_trichotomy e 0 with he | he | he
    · have he' : ¬ 0 < e := not_lt.mpr he.le
      simp [dirClass, dirSlope, dirPos, ha, ha', ha.ne', he, he']
    · subst he
      simp [dirClass, dirSlope, dirPos, ha, ha', ha.ne']
    · have he' : ¬ e < 0 := not_lt.mpr he.le
      have : 0 < e * a := mul_pos he ha
      simp [dirClass, dirSlope, dirPos, ha, ha', ha.ne', he, he', this]
  · -- 0 < a, 0 < c
    have ha' : ¬ a < 0 := not_lt.mpr ha.le
    have hc' : ¬ c < 0 := not_lt.mpr hc.le
    have e1 := slope_lt_iff (mul_pos ha hc) b e
    have e2 := slope_eq_iff ha.ne' hc.ne' b e
    simp only [dirClass, dirSlope, dirPos, ha, hc, ha', hc', ha.ne', hc.ne', if_true, if_false, e1,
      e2, false_and, or_false, false_or, true_and, not_true, not_false_iff, lt_irrefl, iff_self,
      and_true, true_or]
    exact dirLt_same_sign ha.ne' b e

theorem isLeft_iff (h : halfsegment) :
    h.isLeft = true ↔ (0 < h.sx - h.dx ∨ (h.sx - h.dx = 0 ∧ 0 < h.sy - h.dy)) := by
  simp only [halfsegment.isLeft, Bool.or_eq_true, Bool.and_eq_true, decide_eq_true_eq, sub_pos,
    sub_eq_zero]
  constructor
  · rintro (h1 | ⟨h1, h2⟩)
    · exact Or.inl h1
    · exact Or.inr ⟨h1.symm, h2⟩
  · rintro (h1 | ⟨h1, h2⟩)
    · exact Or.inl h1
    · exact Or.inr ⟨h1.symm, h2⟩

theorem lt_same_dom (h g : halfsegment) (hx : h.dx = g.dx) (hy : h.dy = g.dy) :
    h.lt g = true ↔ dirLt (h.sx - h.dx) (h.sy - h.dy) (g.sx - g.dx) (g.sy - g.dy) := by
  have hL := isLeft_iff h
  have gL := isLeft_iff g
  have c1 : (0 : ℚ) = (g.dy - h.dy) * (h.sx - h.dx) - (h.sy - h.dy) * (g.dx - h.dx) := by
    rw [hx, hy]; ring
  have c2 : (g.sy - h.dy) * (h.sx - h.dx) - (h.sy - h.dy) * (g.sx - h.dx)
      = (g.sy - g.dy) * (h.sx - h.dx) - (h.sy - h.dy) * (g.sx - g.dx) := by
    rw [hx, hy]
  have l1 : h.sx < g.sx ↔ h.sx - h.dx < g.sx - g.dx := by rw [hx]; constructor <;> intro q <;> linarith
  have l2 : h.sx = g.sx ↔ h.sx - h.dx = g.sx - g.dx := by rw [hx]; constructor <;> intro q <;> linarith
  have l3 : h.sy < g.sy ↔ h.sy - h.dy < g.sy - g.dy := by rw [hy]; constructor <;> intro q <;> linarith
  unfold halfsegment.lt dirLt
  have n1 : ¬ (h.dx < g.dx ∨ (h.dx = g.dx ∧ h.dy < g.dy)) := by
    rw [hx, hy]; simp
  rw [if_neg n1, if_pos ⟨hx, hy⟩]
  rw [← hL, ← gL]
  by_cases e1 : h.isLeft = g.isLeft
  · have : (h.isLeft != g.isLeft) = false := by simp [e1]
    rw [this]
    simp only [Bool.false_eq_true, if_false, halfsegment.colinear, leftHandturn, ← c1, c2, l1, l2, l3,
      decide_True, Bool.true_and, gt_iff_lt]
    simp [e1]
  · have : (h.isLeft != g.isLeft) = true := by simp [e1]
    rw [this]
    clear hL gL c1 c2 l1 l2 l3 n1 this
    cases hh : h.isLeft <;> cases gg : g.isLeft
    · exact absurd (hh.trans gg.symm) e1
    · simp
    · simp
    · exact absurd (hh.trans gg.symm) e1

theorem lt_iff_key (h g : halfsegment) : h.lt g = true ↔ h.key < g.key := by
  unfold halfsegment.key
  rw [Prod.Lex.lt_iff]
  simp only [Prod.Lex.lt_iff]
  by_cases hx : h.dx = g.dx
  · by_cases hy : h.dy = g.dy
    · rw [lt_same_dom h g hx hy, dirLt_iff_key]
      simp [hx, hy]
    · unfold halfsegment.lt
      simp [hx, hy]
  · unfold halfsegment.lt
    simp [hx]

theorem dirKey_inj {a b c e : ℚ} (h : dirKey a b = dirKey c e) : a = c ∧ b = e := by
  unfold dirKey at h
  have h1 := toLex_inj.mp h
  rw [Prod.mk.injEq] at h1
  obtain ⟨hc, h2⟩ := h1
  have h3 := toLex_inj.mp h2
  rw [Prod.mk.injEq] at h3
  obtain ⟨hs, hp⟩ := h3
  by_cases ha : a = 0
  · subst ha
    by_cases hc0 : c = 0
    · subst hc0
      simp only [dirPos, if_true] at hp
      exact ⟨rfl, hp⟩
    · exfalso
      rcases lt_or_gt_of_ne hc0 with h4 | h4
      · have h5 : ¬ 0 < c := not_lt.mpr h4.le
        simp only [dirClass, lt_irrefl, if_false, h4, if_true] at hc
        split_ifs at hc
      · have h5 : ¬ c < 0 := not_lt.mpr h4.le
        simp only [dirClass, lt_irrefl, if_false, h4, h5, if_true] at hc
        split_ifs at hc <;> omega
  · by_cases hc0 : c = 0
    · exfalso
      subst hc0
      rcases lt_or_gt_of_ne ha with h4 | h4
      · have h5 : ¬ 0 < a := not_lt.mpr h4.le
        simp only [dirClass, lt_irrefl, if_false, h4, if_true] at hc
        split_ifs at hc
      · have h5 : ¬ a < 0 := not_lt.mpr h4.le
        simp only [dirClass, lt_irrefl, if_false, h4, h5, if_true] at hc
        split_ifs at hc <;> omega
    · simp only [dirPos, ha, hc0, if_false] at hp
      subst hp
      simp only [dirSlope, ha, if_false] at hs
      have := (div_left_inj' ha).mp hs
      exact ⟨rfl, this⟩

theorem key_eq_iff (h g : halfsegment) : h.key = g.key ↔ h.eq g = true := by
  unfold halfsegment.key halfsegment.eq
  simp only [Bool.and_eq_true, decide_eq_true_eq]
  constructor
  · intro hk
    have h1 := toLex_inj.mp hk
    rw [Prod.mk.injEq] at h1
    obtain ⟨hx, h2⟩ := h1
    have h3 := toLex_inj.mp h2
    rw [Prod.mk.injEq] at h3
    obtain ⟨hy, h4⟩ := h3
    obtain ⟨h5, h6⟩ := dirKey_inj h4
    refine ⟨⟨⟨hx, hy⟩, ?_⟩, ?_⟩ <;> linarith
  · rintro ⟨⟨⟨hx, hy⟩, hsx⟩, hsy⟩
    rw [hx, hy, hsx, hsy]

theorem not_lt_iff_key (h g : halfsegment) : ¬ (h.lt g = true) ↔ g.key ≤ h.key := by
  rw [lt_iff_key, not_lt]

theorem lt_trichotomy_hseg (h g : halfsegment) :
    h.lt g = true ∨ h.eq g = true ∨ g.lt h = true := by
  rw [lt_iff_key, lt_iff_key, ← key_eq_iff]
  exact lt_trichotomy _ _

theorem lt_irrefl_hseg (h : halfsegment) : h.lt h = false := by
  rw [← Bool.not_eq_true, lt_iff_key]
  exact lt_irrefl _

theorem lt_asymm_hseg {h g : halfsegment} (hg : h.lt g = true) : g.lt h = false := by
  rw [← Bool.not_eq_true, lt_iff_key]
  rw [lt_iff_key] at hg
  exact lt_asymm hg

theorem lt_trans_hseg {f g h : halfsegment} (h1 : f.lt g = true) (h2 : g.lt h = true) :
    f.lt h = true := by
  rw [lt_iff_key] at *
  exact lt_trans h1 h2

theorem sortedHseg_iff (l : List halfsegment) :
    sortedHseg l ↔ l.Pairwise (fun a b => a.key ≤ b.key) := by
  unfold sortedHseg
  constructor <;> intro h <;> refine h.imp ?_ <;> intro a b hab
  · exact (not_lt_iff_key b a).mp hab
  · exact (not_lt_iff_key b a).mpr hab

/-! ## The claims on the halfsegment order and the event queue -/


/-- Claim C7 as stated fails: the left halfsegment `(0,0)-(1,0)` and the right
halfsegment `(0,0)-(-1,0)` share their dominating point, yet the left one is
not less than the right one (the right one is less than the left one). -/
theorem c7_left_not_before_right :
    exLeft.dx = exRight.dx ∧ exLeft.dy = exRight.dy ∧ exLeft.isLeft = true ∧
      exRight.isLeft = false ∧ ¬ (exLeft.lt exRight = true ∧ exRight.lt exLeft = false) := by
  decide!

/-- Claim C7, amended: of two halfsegments with the same dominating point, one
left and one right, the right one is less than the left one in halfsegment
order and the left one is not less than the right one. -/
theorem c7_right_before_left (h g : halfsegment) (hx : h.dx = g.dx) (hy : h.dy = g.dy)
    (hl : h.isLeft = true) (gr : g.isLeft = false) :
    g.lt h = true ∧ h.lt g = false := by
  unfold halfsegment.lt
  simp [hx, hy, hl, gr]

theorem c7_right_before_left_witness :
    exLeft.dx = exRight.dx ∧ exLeft.dy = exRight.dy ∧ exLeft.isLeft = true ∧
      exRight.isLeft = false ∧ (exRight.lt exLeft = true ∧ exLeft.lt exRight = false) :=
  ⟨by decide!, by decide!, by decide!, by decide!,
    c7_right_before_left exLeft exRight (by decide!) (by decide!) (by decide!) (by decide!)⟩

/-- Claim C8: for two non-degenerate halfsegments with the same dominating
point and the same handedness, if they are colinear then `h < g` iff the
submissive point of `h` is lexicographically smaller than that of `g`, and
otherwise `h < g` iff `leftHandturn(h.d, h.s, g.s)`, that is iff the
submissive point of `g` lies strictly to the left of the directed line from
the dominating point through the submissive point of `h`. -/
theorem c8_same_handedness (h g : halfsegment) (_hn : nonDegenerate h) (_gn : nonDegenerate g)
    (hx : h.dx = g.dx) (hy : h.dy = g.dy) (hh : h.isLeft = g.isLeft) :
    (h.colinear g = true → (h.lt g = true ↔ lexLt h.sx h.sy g.sx g.sy)) ∧
    (h.colinear g = false →
      ((h.lt g = true ↔ leftHandturn h.dx h.dy h.sx h.sy g.sx g.sy = true) ∧
       (leftHandturn h.dx h.dy h.sx h.sy g.sx g.sy = true ↔
          0 < (g.sy - h.dy) * (h.sx - h.dx) - (h.sy - h.dy) * (g.sx - h.dx)))) := by
  have n1 : ¬ (h.dx < g.dx ∨ (h.dx = g.dx ∧ h.dy < g.dy)) := by
    rw [hx, hy]; simp
  have e1 : (h.isLeft != g.isLeft) = false := by simp [hh]
  constructor
  · intro hc
    unfold halfsegment.lt
    rw [if_neg n1, if_pos ⟨hx, hy⟩, e1]
    have hcol := hc
    unfold halfsegment.colinear at hcol
    simp only [Bool.and_eq_true, decide_eq_true_eq] at hcol
    have hlht : leftHandturn h.dx h.dy h.sx h.sy g.sx g.sy = false := by
      unfold leftHandturn
      rw [← hcol.2]
      simp
    simp [hc, hlht, lexLt]
  · intro hc
    unfold halfsegment.lt
    rw [if_neg n1, if_pos ⟨hx, hy⟩, e1]
    simp [hc, leftHandturn]

theorem c8_same_handedness_witness :
    nonDegenerate exLeft ∧ nonDegenerate exUp ∧ exLeft.dx = exUp.dx ∧ exLeft.dy = exUp.dy ∧
      exLeft.isLeft = exUp.isLeft ∧
      ((exLeft.colinear exUp = true →
          (exLeft.lt exUp = true ↔ lexLt exLeft.sx exLeft.sy exUp.sx exUp.sy)) ∧
       (exLeft.colinear exUp = false →
          ((exLeft.lt exUp = true ↔
              leftHandturn exLeft.dx exLeft.dy exLeft.sx exLeft.sy exUp.sx exUp.sy = true) ∧
           (leftHandturn exLeft.dx exLeft.dy exLeft.sx exLeft.sy exUp.sx exUp.sy = true ↔
              0 < (exUp.sy - exLeft.dy) * (exLeft.sx - exLeft.dx)
                - (exLeft.sy - exLeft.dy) * (exUp.sx - exLeft.dx))))) :=
  ⟨by decide!, by decide!, by decide!, by decide!, by decide!,
    c8_same_handedness exLeft exUp (by decide!) (by decide!) (by decide!) (by decide!)
      (by decide!)⟩

theorem insertScan_spec (h : halfsegment) :
    ∀ l : List halfsegment, (∃ e ∈ l, h.lt e = true) →
      ∃ l1 y l2, l = l1 ++ y :: l2 ∧ eventQueue.insertScan h l = Except.ok (l1 ++ h :: y :: l2) ∧
        (∀ x ∈ l1, h.lt x = false) ∧ h.lt y = true := by
  intro l
  induction l with
  | nil => rintro ⟨e, he, _⟩; cases he
  | cons x xs ih =>
    intro hex
    by_cases hx : h.lt x = true
    · refine ⟨[], x, xs, rfl, ?_, ?_, hx⟩
      · simp [eventQueue.insertScan, hx, pure, Except.pure]
      · intro a ha; cases ha
    · have hex' : ∃ e ∈ xs, h.lt e = true := by
        obtain ⟨e, he, hlt⟩ := hex
        rcases List.mem_cons.mp he with rfl | he'
        · exact absurd hlt hx
        · exact ⟨e, he', hlt⟩
      obtain ⟨l1, y, l2, hl, hs, hall, hy⟩ := ih hex'
      refine ⟨x :: l1, y, l2, by rw [hl]; rfl, ?_, ?_, hy⟩
      · simp [eventQueue.insertScan, hx, hs, bind, Except.bind, pure, Except.pure]
      · intro a ha
        rcases List.mem_cons.mp ha with rfl | ha'
        · simpa using hx
        · exact hall a ha'

theorem sorted_insert_mid {l1 l2 : List halfsegment} {h y : halfsegment}
    (hs : sortedHseg (l1 ++ y :: l2)) (hall : ∀ x ∈ l1, h.lt x = false) (hy : h.lt y = true) :
    sortedHseg (l1 ++ h :: y :: l2) := by
  rw [sortedHseg_iff] at *
  rw [List.pairwise_append] at *
  obtain ⟨p1, p2, p3⟩ := hs
  have hyk : h.key < y.key := (lt_iff_key h y).mp hy
  refine ⟨p1, ?_, ?_⟩
  · rw [List.pairwise_cons]
    refine ⟨?_, p2⟩
    intro b hb
    rcases List.mem_cons.mp hb with rfl | hb'
    · exact hyk.le
    · exact hyk.le.trans ((List.pairwise_cons.mp p2).1 b hb')
  · intro a ha b hb
    rcases List.mem_cons.mp hb with rfl | hb'
    · have := hall a ha
      rw [← Bool.not_eq_true, not_lt_iff_key] at this
      exact this
    · exact p3 a ha b hb'

theorem sorted_append_last {l : List halfsegment} {h last : halfsegment}
    (hs : sortedHseg l) (hl : l.getLast? = some last) (hlt : last.lt h = true) :
    sortedHseg (l ++ [h]) := by
  rw [sortedHseg_iff] at *
  rw [List.pairwise_append]
  refine ⟨hs, List.pairwise_singleton _ _, ?_⟩
  intro a ha b hb
  rw [List.mem_singleton] at hb
  subst hb
  have hk : last.key < b.key := (lt_iff_key last b).mp hlt
  obtain ⟨l', rfl⟩ : ∃ l', l = l' ++ [last] := by
    rcases List.eq_nil_or_concat l with rfl | ⟨l', x, rfl⟩
    · simp at hl
    · rw [List.concat_eq_append] at hl ⊢
      simp at hl
      exact ⟨l', by rw [hl]⟩
  rw [List.pairwise_append] at hs
  rcases List.mem_append.mp ha with ha' | ha'
  · exact (hs.2.2 a ha' last (List.mem_singleton_self _)).trans hk.le
  · rw [List.mem_singleton] at ha'
    subst ha'
    exact hk.le

theorem eq_comm_hseg (h g : halfsegment) : h.eq g = g.eq h := by
  unfold halfsegment.eq
  simp only [eq_comm]

theorem c9_insert_core (q : eventQueue) (h : halfsegment) (hs : sortedHseg q.eq)
    (hne : ∀ e ∈ q.eq, h.eq e = false) :
    ∃ l1 l2, q.eq = l1 ++ l2 ∧ q.insert h = Except.ok ⟨l1 ++ h :: l2⟩ ∧
      sortedHseg (l1 ++ h :: l2) := by
  unfold eventQueue.insert
  cases hl : q.eq.getLast? with
  | none =>
    have : q.eq = [] := List.getLast?_eq_none_iff.mp hl
    refine ⟨[], [], by simp [this], by simp [this, pure, Except.pure], ?_⟩
    simp [sortedHseg]
  | some last =>
    by_cases hlt : last.lt h = true
    · refine ⟨q.eq, [], by simp, by simp [hlt, pure, Except.pure], ?_⟩
      exact sorted_append_last hs hl hlt
    · have hmem : last ∈ q.eq := List.mem_of_getLast?_eq_some hl
      have hlast : h.lt last = true := by
        rcases lt_trichotomy_hseg h last with h1 | h1 | h1
        · exact h1
        · rw [hne last hmem] at h1; cases h1
        · exact absurd h1 hlt
      obtain ⟨l1, y, l2, hq, hscan, hall, hy⟩ := insertScan_spec h q.eq ⟨last, hmem, hlast⟩
      refine ⟨l1, y :: l2, hq, by simp [hlt, hscan, bind, Except.bind, pure, Except.pure], ?_⟩
      rw [hq] at hs
      exact sorted_insert_mid hs hall hy


/-- Claim C9: on a queue sorted in halfsegment order, `insert` of a
non-degenerate halfsegment `h` that is not equal by end points to any entry
returns normally with a queue that is sorted in halfsegment order and holds
exactly the former entries, in their former relative order, plus `h`. -/
theorem c9_insert_sorted (q : eventQueue) (h : halfsegment) (hs : sortedHseg q.eq)
    (_hn : nonDegenerate h) (hne : ∀ e ∈ q.eq, h.eq e = false) :
    ∃ l1 l2, q.eq = l1 ++ l2 ∧ q.insert h = Except.ok ⟨l1 ++ h :: l2⟩ ∧
      sortedHseg (l1 ++ h :: l2) :=
  c9_insert_core q h hs hne


theorem c9_insert_sorted_witness :
    sortedHseg exQueue.eq ∧ nonDegenerate exFar ∧ (∀ e ∈ exQueue.eq, exFar.eq e = false) ∧
      ∃ l1 l2, exQueue.eq = l1 ++ l2 ∧ exQueue.insert exFar = Except.ok ⟨l1 ++ exFar :: l2⟩ ∧
        sortedHseg (l1 ++ exFar :: l2) :=
  ⟨by decide!, by decide!, by decide!,
    c9_insert_sorted exQueue exFar (by decide!) (by decide!) (by decide!)⟩

theorem runOps_sorted :
    ∀ (ops : List QueueOp) (q : eventQueue), sortedHseg q.eq →
      (insertedOf ops).Pairwise (fun a b => a.eq b = false) →
      (∀ e ∈ q.eq, ∀ h ∈ insertedOf ops, h.eq e = false) →
      ∃ q', runOps ops q = Except.ok q' ∧ sortedHseg q'.eq := by
  intro ops
  induction ops with
  | nil => intro q hs _ _; exact ⟨q, rfl, hs⟩
  | cons op rest ih =>
    intro q hs hp hd
    cases op with
    | insert h =>
      simp only [insertedOf, List.pairwise_cons] at hp
      have hne : ∀ e ∈ q.eq, h.eq e = false := fun e he =>
        hd e he h (by simp [insertedOf])
      obtain ⟨l1, l2, hq, hins, hs'⟩ := c9_insert_core q h hs hne
      have hd' : ∀ e ∈ (eventQueue.mk (l1 ++ h :: l2)).eq, ∀ g ∈ insertedOf rest,
          g.eq e = false := by
        intro e he g hg
        simp only [List.mem_append, List.mem_cons] at he
        have hq' : e = h ∨ e ∈ q.eq := by
          rw [hq]; simp only [List.mem_append]; tauto
        rcases hq' with rfl | he'
        · have := hp.1 g hg
          rw [eq_comm_hseg]; exact this
        · exact hd e he' g (by simp [insertedOf, hg])
      obtain ⟨q', hrun, hsq⟩ := ih ⟨l1 ++ h :: l2⟩ hs' hp.2 hd'
      exact ⟨q', by simp [runOps, hins, hrun, bind, Except.bind], hsq⟩
    | pop =>
      simp only [insertedOf] at hp hd
      have hsub : ∀ e ∈ (q.pop).1.eq, e ∈ q.eq := by
        intro e he
        unfold eventQueue.pop at he
        cases hq : q.eq with
        | nil => rw [hq] at he; simp at he; rw [hq] at he; exact he
        | cons x xs => rw [hq] at he; simp at he; simp [he]
      have hs' : sortedHseg (q.pop).1.eq := by
        unfold eventQueue.pop
        cases hq : q.eq with
        | nil => simp; rw [hq]; simp [sortedHseg]
        | cons x xs =>
          simp
          rw [hq] at hs
          exact (List.pairwise_cons.mp hs).2
      obtain ⟨q', hrun, hsq⟩ := ih (q.pop).1 hs' hp (fun e he => hd e (hsub e he))
      exact ⟨q', by simp [runOps, hrun], hsq⟩

/-- Claim C10: every queue reached from the empty queue by inserts of pairwise
end-point-distinct non-degenerate halfsegments and by pops is reached without a
fault, and on it: `peek` succeeds iff the queue is non-empty; the entry `m` it
returns is an entry no entry of the queue is less than, and `pop` removes
exactly that entry (the queue was `m` followed by what `pop` leaves) and
returns `true`; on the empty queue `pop` returns `false` and leaves the queue
empty.  `peek` only reads the queue: it returns no new queue. -/
theorem c10_peek_pop_minimum (ops : List QueueOp)
    (hp : (insertedOf ops).Pairwise (fun a b => a.eq b = false))
    (_hn : ∀ h ∈ insertedOf ops, nonDegenerate h) :
    ∃ q, runOps ops eventQueue.empty = Except.ok q ∧
      (q.peek.isSome = true ↔ q.size ≠ 0) ∧
      (∀ m, q.peek = some m →
        m ∈ q.eq ∧ (∀ e ∈ q.eq, e.lt m = false) ∧
          q.eq = m :: (q.pop).1.eq ∧ (q.pop).2 = true) ∧
      (q.size = 0 → q.peek = none ∧ q.pop = (q, false) ∧ (q.pop).1.eq = []) := by
  obtain ⟨q, hrun, hs⟩ := runOps_sorted ops eventQueue.empty (by simp [eventQueue.empty, sortedHseg])
    hp (by intro e he; simp [eventQueue.empty] at he)
  refine ⟨q, hrun, ?_, ?_, ?_⟩
  · unfold eventQueue.peek eventQueue.size
    cases q.eq <;> simp
  · intro m hm
    unfold eventQueue.peek at hm
    unfold eventQueue.pop
    cases hq : q.eq with
    | nil => rw [hq] at hm; simp at hm
    | cons x xs =>
      rw [hq] at hm hs
      simp only [List.head?_cons, Option.some.injEq] at hm
      subst hm
      refine ⟨List.mem_cons_self _ _, ?_, rfl, rfl⟩
      intro e he
      rcases List.mem_cons.mp he with rfl | he'
      · exact lt_irrefl_hseg _
      · have := (List.pairwise_cons.mp hs).1 e he'
        simpa using this
  · intro h0
    unfold eventQueue.size at h0
    have hq : q.eq = [] := List.length_eq_zero.mp h0
    unfold eventQueue.peek eventQueue.pop
    rw [hq]
    simp [hq]

theorem c10_peek_pop_minimum_witness :
    (insertedOf exOps).Pairwise (fun a b => a.eq b = false) ∧
    (∀ h ∈ insertedOf exOps, nonDegenerate h) ∧
    ∃ q, runOps exOps eventQueue.empty = Except.ok q ∧
      (q.peek.isSome = true ↔ q.size ≠ 0) ∧
      (∀ m, q.peek = some m →
        m ∈ q.eq ∧ (∀ e ∈ q.eq, e.lt m = false) ∧
          q.eq = m :: (q.pop).1.eq ∧ (q.pop).2 = true) ∧
      (q.size = 0 → q.peek = none ∧ q.pop = (q, false) ∧ (q.pop).1.eq = []) :=
  ⟨by decide!, by decide!, c10_peek_pop_minimum exOps (by decide!) (by decide!)⟩

theorem stdSort_sorted (l : List halfsegment) : sortedHseg (stdSort halfsegment.lt l) := by
  haveI : IsTotal halfsegment (fun a b => ¬ (halfsegment.lt b a = true)) :=
    ⟨fun a b => by
      simp only [not_lt_iff_key]
      exact le_total _ _⟩
  haveI : IsTrans halfsegment (fun a b => ¬ (halfsegment.lt b a = true)) :=
    ⟨fun a b c => by
      simp only [not_lt_iff_key]
      exact le_trans⟩
  unfold sortedHseg stdSort
  exact List.sorted_insertionSort _ l

theorem stdSort_perm (l : List halfsegment) : (stdSort halfsegment.lt l).Perm l := by
  unfold stdSort
  exact List.perm_insertionSort _ l

/-- Claim C5: whenever `overlayPlaneSweep` completes, its result vector is
sorted in halfsegment order: no entry is less than an earlier entry. -/
theorem c5_sweep_result_sorted (fuel : Nat) (r1 r2 result res : List halfsegment)
    (h : overlayPlaneSweep fuel r1 r2 result = Except.ok res) :
    sortedHseg res ∧ ∀ i j : Fin res.length, i < j → (res.get j).lt (res.get i) = false := by
  have hs : sortedHseg res := by
    unfold overlayPlaneSweep at h
    cases hl : sweepLoop r1 r2 fuel (SweepState.init result) with
    | error e => rw [hl] at h; simp [bind, Except.bind] at h
    | ok st =>
      rw [hl] at h
      simp only [bind, Except.bind, pure, Except.pure, Except.ok.injEq] at h
      rw [← h]
      exact stdSort_sorted _
  refine ⟨hs, ?_⟩
  intro i j hij
  have := List.pairwise_iff_get.mp hs i j hij
  simpa using this

theorem c5_sweep_result_sorted_witness :
    overlayPlaneSweep 8 unitSquare [] [] = Except.ok squareSerial ∧
      (sortedHseg squareSerial ∧
        ∀ i j : Fin squareSerial.length, i < j →
          (squareSerial.get j).lt (squareSerial.get i) = false) :=
  ⟨by decide!, c5_sweep_result_sorted 8 unitSquare [] [] squareSerial (by decide!)⟩

/-! ## The sweep and the parallel driver on concrete regions -/

/-- Claim C4 fails on the code.  The triangle `(0,0), (1,1), (0,2)` and the
square `[1,2] x [0,2]` are sorted and closed under brother; the sweep returns
fifteen halfsegments, among them the left halfsegment `(0,0)-(1,1)` but no
entry with the end points of its brother `(1,1)-(0,0)`. -/
theorem c4_brother_missing :
    sortedHseg touchTriangle ∧ sortedHseg touchSquare ∧
      closedUnderBrother touchTriangle ∧ closedUnderBrother touchSquare ∧
      overlayPlaneSweep 20 touchTriangle touchSquare [] = Except.ok touchSerial ∧
      mkOut 2 0 0 1 1 1 0 (-1) (-1) (-1) ∈ touchSerial ∧
      ∀ g ∈ touchSerial, g.eq (mkOut 2 0 0 1 1 1 0 (-1) (-1) (-1)).getBrother = false := by
  decide!

/-- Claim C1 fails on the code.  For the triangle `(0,0), (1,1), (0,2)` and
the square `[1,2] x [0,2]` (sorted, closed under brother, `la != lb`
throughout) the serial sweep returns fifteen halfsegments and the parallel
overlay with two strips sixteen: the right halfsegment `(1,1)-(0,0)` is in
the parallel result only. -/
theorem c1_parallel_differs_from_serial :
    (∀ h ∈ touchTriangle ++ touchSquare, h.la ≠ h.lb) ∧
      overlayPlaneSweep 20 touchTriangle touchSquare [] = Except.ok touchSerial ∧
      parallelOverlay 20 1 touchTriangle touchSquare 2 = Except.ok touchParallel ∧
      touchSerial.length = 15 ∧ touchParallel.length = 16 ∧
      (∃ g ∈ touchParallel, g.eq (mkOut 2 1 1 0 0 1 0 0 (-1) (-1)) = true) ∧
      ∀ g ∈ touchSerial, g.eq (mkOut 2 1 1 0 0 1 0 0 (-1) (-1)) = false := by
  decide!

/-- Claim C6 fails on the code.  For the unit square, an empty second region
and four strips, `parallelOverlay` returns every left halfsegment followed by
its brother; the vector is not sorted in halfsegment order: its third entry
`(0,0)-(0,1)` is less than its second entry `(1,0)-(0,0)`. -/
theorem c6_parallel_result_unsorted :
    sortedHseg unitSquare ∧ closedUnderBrother unitSquare ∧
      parallelOverlay 8 1 unitSquare [] 4 = Except.ok squareParallel ∧
      ¬ sortedHseg squareParallel ∧
      (mkOut 2 0 0 0 1 0 1 0 (-1) (-1)).lt (mkOut 2 1 0 0 0 1 0 0 (-1) (-1)) = true := by
  decide!

/-! ## Segments that meet only in end points are not broken -/

theorem isLeft_iff_lexLt (h : halfsegment) : h.isLeft = true ↔ lexLt h.dx h.dy h.sx h.sy := by
  unfold halfsegment.isLeft lexLt
  simp

theorem colinear_param (a : halfsegment) (ha : a.isLeft = true) (px py : ℚ)
    (hc : 0 = (py - a.dy) * (a.sx - a.dx) - (a.sy - a.dy) * (px - a.dx)) :
    ∃ τ : ℚ, px = a.dx + τ * (a.sx - a.dx) ∧ py = a.dy + τ * (a.sy - a.dy) := by
  rw [isLeft_iff] at ha
  rcases ha with h1 | ⟨h1, h2⟩
  · refine ⟨(px - a.dx) / (a.sx - a.dx), ?_, ?_⟩
    · field_simp
    · have h3 : (py - a.dy) * (a.sx - a.dx) = (a.sy - a.dy) * (px - a.dx) := by linarith
      field_simp
      linarith
  · refine ⟨(py - a.dy) / (a.sy - a.dy), ?_, ?_⟩
    · rw [h1] at hc ⊢
      have h3 : (a.sy - a.dy) * (px - a.dx) = 0 := by linarith
      rcases mul_eq_zero.mp h3 with h4 | h4
      · linarith
      · linarith
    · field_simp

/-- along the supporting line of a left halfsegment the lexicographic order of points is the
order of their parameters -/
theorem lexLt_param (a : halfsegment) (ha : a.isLeft = true) (p q : ℚ)
    (h : lexLt (a.dx + p * (a.sx - a.dx)) (a.dy + p * (a.sy - a.dy))
      (a.dx + q * (a.sx - a.dx)) (a.dy + q * (a.sy - a.dy))) : p < q := by
  rw [isLeft_iff] at ha
  unfold lexLt at h
  by_contra hpq
  have hpq' : q ≤ p := not_lt.mp hpq
  rcases ha with h1 | ⟨h1, h2⟩
  · rcases h with h3 | ⟨h3, h4⟩
    · nlinarith
    · have : (p - q) * (a.sx - a.dx) = 0 := by linarith
      rcases mul_eq_zero.mp this with h5 | h5
      · have : p = q := by linarith
        subst this
        linarith
      · linarith
  · rcases h with h3 | ⟨h3, h4⟩
    · rw [h1] at h3; simp at h3
    · nlinarith

theorem not_colinear_of_meet (a b : halfsegment) (ha : a.isLeft = true) (hb : b.isLeft = true)
    (h1 : lexLt a.dx a.dy b.sx b.sy) (h2 : lexLt b.dx b.dy a.sx a.sy)
    (hm : meetOnlyAtEndpoints a b) : a.colinear b = false := by
  rw [← Bool.not_eq_true]
  intro hc
  unfold halfsegment.colinear at hc
  simp only [Bool.and_eq_true, decide_eq_true_eq] at hc
  obtain ⟨β, hβx, hβy⟩ := colinear_param a ha b.dx b.dy hc.1
  obtain ⟨γ, hγx, hγy⟩ := colinear_param a ha b.sx b.sy hc.2
  have hbl := (isLeft_iff_lexLt b).mp hb
  have hβγ : β < γ := by
    apply lexLt_param a ha
    rw [← hβx, ← hβy, ← hγx, ← hγy]; exact hbl
  have h0γ : 0 < γ := by
    apply lexLt_param a ha
    rw [← hγx, ← hγy]; simpa using h1
  have hβ1 : β < 1 := by
    apply lexLt_param a ha
    rw [← hβx, ← hβy]; simpa using h2
  have hlo : max 0 β < min 1 γ := by
    rw [max_lt_iff, lt_min_iff, lt_min_iff]
    exact ⟨⟨by norm_num, h0γ⟩, ⟨hβ1, hβγ⟩⟩
  have hτ0 : 0 < (max 0 β + min 1 γ) / 2 := by
    have := le_max_left (0:ℚ) β
    linarith
  have hτ1 : (max 0 β + min 1 γ) / 2 < 1 := by
    have := min_le_left (1:ℚ) γ
    linarith
  have hτβ : β < (max 0 β + min 1 γ) / 2 := by
    have := le_max_right (0:ℚ) β
    linarith
  have hτγ : (max 0 β + min 1 γ) / 2 < γ := by
    have := min_le_right (1:ℚ) γ
    linarith
  have hγβ : 0 < γ - β := by linarith
  have key := hm ((max 0 β + min 1 γ) / 2) (((max 0 β + min 1 γ) / 2 - β) / (γ - β))
    hτ0.le hτ1.le (div_nonneg (by linarith) hγβ.le)
    (by rw [div_le_one hγβ]; linarith)
    (by rw [hβx, hγx]; field_simp; ring)
    (by rw [hβy, hγy]; field_simp; ring)
  rcases key.1 with h | h <;> linarith

theorem findIntersectionPoint_none (a b : halfsegment) (ha : a.isLeft = true)
    (hb : b.isLeft = true) (h1 : lexLt a.dx a.dy b.sx b.sy) (h2 : lexLt b.dx b.dy a.sx a.sy)
    (hm : meetOnlyAtEndpoints a b) :
    findIntersectionPoint a b = (false, dblMax, dblMax, false) := by
  unfold findIntersectionPoint
  rw [not_colinear_of_meet a b ha hb h1 h2 hm]
  simp only [Bool.false_eq_true, if_false]
  split_ifs with hsh hden hrange
  · rfl
  · rfl
  · exfalso
    obtain ⟨r1, r2, r3, r4⟩ := hrange
    have hden' : (b.sy - b.dy) * (a.sx - a.dx) - (b.sx - b.dx) * (a.sy - a.dy) ≠ 0 := hden
    have ex : a.dx + ((b.sx - b.dx) * (a.dy - b.dy) - (b.sy - b.dy) * (a.dx - b.dx)) /
          ((b.sy - b.dy) * (a.sx - a.dx) - (b.sx - b.dx) * (a.sy - a.dy)) * (a.sx - a.dx)
        = b.dx + ((a.sx - a.dx) * (a.dy - b.dy) - (a.sy - a.dy) * (a.dx - b.dx)) /
          ((b.sy - b.dy) * (a.sx - a.dx) - (b.sx - b.dx) * (a.sy - a.dy)) * (b.sx - b.dx) := by
      field_simp; ring
    have ey : a.dy + ((b.sx - b.dx) * (a.dy - b.dy) - (b.sy - b.dy) * (a.dx - b.dx)) /
          ((b.sy - b.dy) * (a.sx - a.dx) - (b.sx - b.dx) * (a.sy - a.dy)) * (a.sy - a.dy)
        = b.dy + ((a.sx - a.dx) * (a.dy - b.dy) - (a.sy - a.dy) * (a.dx - b.dx)) /
          ((b.sy - b.dy) * (a.sx - a.dx) - (b.sx - b.dx) * (a.sy - a.dy)) * (b.sy - b.dy) := by
      field_simp; ring
    have key := hm _ _ r1 r2 r3 r4 ex ey
    generalize ((b.sx - b.dx) * (a.dy - b.dy) - (b.sy - b.dy) * (a.dx - b.dx)) /
          ((b.sy - b.dy) * (a.sx - a.dx) - (b.sx - b.dx) * (a.sy - a.dy)) = ua at ex ey key
    generalize ((a.sx - a.dx) * (a.dy - b.dy) - (a.sy - a.dy) * (a.dx - b.dx)) /
          ((b.sy - b.dy) * (a.sx - a.dx) - (b.sx - b.dx) * (a.sy - a.dy)) = ub at ex ey key
    unfold lexLt at h1 h2
    rcases key with ⟨hu | hu, hv | hv⟩ <;> subst hu <;> subst hv
    · apply hsh; left; constructor <;> linarith
    · have e1 : a.dx = b.sx := by linarith
      have e2 : a.dy = b.sy := by linarith
      rw [e1, e2] at h1; simp at h1
    · have e1 : b.dx = a.sx := by linarith
      have e2 : b.dy = a.sy := by linarith
      rw [e1, e2] at h2; simp at h2
    · apply hsh; right; constructor <;> linarith
  · rfl

theorem breakHsegs_none (a b : halfsegment) (bs : List halfsegment) (inc : Bool)
    (h : findIntersectionPoint a b = (false, dblMax, dblMax, false)) :
    breakHsegs a b bs inc = (false, b, bs, false) := by
  unfold breakHsegs
  simp only [h]
  rfl

/-! ## Operations of the active list at a known position -/

theorem vecGet_mid {α : Type} (l1 : List α) (x : α) (l2 : List α) :
    vecGet (l1 ++ x :: l2) (l1.length : Int) = Except.ok x := by
  unfold vecGet
  have h : ¬ ((l1.length : Int) < 0) := by omega
  rw [if_neg h]
  have h2 : (l1 ++ x :: l2).get? ((l1.length : Int).toNat) = some x := by
    rw [Int.toNat_ofNat, List.get?_eq_getElem?, List.getElem?_append_right (le_refl _)]
    simp
  rw [h2]
  rfl

theorem vecGet_mid_succ {α : Type} (l1 : List α) (x y : α) (l2 : List α) :
    vecGet (l1 ++ x :: y :: l2) ((l1.length : Int) + 1) = Except.ok y := by
  have := vecGet_mid (l1 ++ [x]) y l2
  simpa using this

theorem vecGet_mid_pred {α : Type} (l1 : List α) (x y : α) (l2 : List α) :
    vecGet (l1 ++ x :: y :: l2) (((l1.length : Int) + 1) - 1) = Except.ok x := by
  have := vecGet_mid l1 x (y :: l2)
  simpa using this

theorem vecSet_mid {α : Type} (l1 : List α) (x y : α) (l2 : List α) :
    vecSet (l1 ++ x :: l2) (l1.length : Int) y = Except.ok (l1 ++ y :: l2) := by
  unfold vecSet
  have h : ¬ ((l1.length : Int) < 0 ∨ ((l1 ++ x :: l2).length : Int) ≤ (l1.length : Int)) := by
    simp only [List.length_append, List.length_cons]
    push_cast
    omega
  rw [if_neg h]
  simp [pure, Except.pure]

theorem getYvalAtX_ok (h : halfsegment) (x : ℚ) (h1 : h.dx ≤ x) (h2 : x ≤ h.sx) :
    ∃ y, h.getYvalAtX x = Except.ok y := by
  unfold halfsegment.getYvalAtX
  split_ifs with c1 c2 c3
  · exact ⟨_, rfl⟩
  · exact ⟨_, rfl⟩
  · exfalso
    apply c1
    linarith
  · exact ⟨_, rfl⟩

theorem alHsegLT_ok (a : activeListVec) (h1 h2 : halfsegment)
    (e1 : ∃ y, h1.getYvalAtX a.xVal = Except.ok y)
    (e2 : ∃ y, h2.getYvalAtX a.xVal = Except.ok y) :
    ∃ b, a.alHsegLT h1 h2 = Except.ok b := by
  obtain ⟨y1, hy1⟩ := e1
  obtain ⟨y2, hy2⟩ := e2
  unfold activeListVec.alHsegLT
  split_ifs
  · exact ⟨_, rfl⟩
  · exact ⟨_, rfl⟩
  · simp only [hy1, hy2, bind, Except.bind]
    split_ifs <;> exact ⟨_, rfl⟩

theorem al_insertScan_ok (a : activeListVec) (h1 : halfsegment) :
    ∀ (l : List halfsegment) (i : Int), (∀ x ∈ l, x.eq h1 = false) →
      (∀ x ∈ l, ∃ b, a.alHsegLT h1 x = Except.ok b) →
      (∃ x ∈ l, a.alHsegLT h1 x = Except.ok true) →
      ∃ l1 l2, l = l1 ++ l2 ∧
        a.insertScan h1 l i = Except.ok (false, h1, i + (l1.length : Int), l1 ++ h1 :: l2) := by
  intro l
  induction l with
  | nil => rintro i _ _ ⟨x, hx, _⟩; cases hx
  | cons x xs ih =>
    intro i hne hok hex
    have hx : x.eq h1 = false := hne x (List.mem_cons_self _ _)
    obtain ⟨b, hb⟩ := hok x (List.mem_cons_self _ _)
    cases b with
    | true =>
      refine ⟨[], x :: xs, rfl, ?_⟩
      simp [activeListVec.insertScan, hx, hb, bind, Except.bind, pure, Except.pure]
    | false =>
      have hex' : ∃ y ∈ xs, a.alHsegLT h1 y = Except.ok true := by
        obtain ⟨y, hy, hyt⟩ := hex
        rcases List.mem_cons.mp hy with rfl | hy'
        · rw [hb] at hyt; cases hyt
        · exact ⟨y, hy', hyt⟩
      obtain ⟨l1, l2, hl, hs⟩ := ih (i + 1) (fun y hy => hne y (List.mem_cons_of_mem _ hy))
        (fun y hy => hok y (List.mem_cons_of_mem _ hy)) hex'
      refine ⟨x :: l1, l2, by rw [hl]; rfl, ?_⟩
      simp [activeListVec.insertScan, hx, hb, hs, bind, Except.bind, pure, Except.pure]
      omega

theorem al_insert_ok (a : activeListVec) (h1 : halfsegment)
    (hne : ∀ x ∈ a.al, x.eq h1 = false)
    (hok : ∀ x ∈ a.al, ∃ b, a.alHsegLT h1 x = Except.ok b) :
    ∃ l1 l2, a.al = l1 ++ l2 ∧
      a.insert h1 = Except.ok (⟨l1 ++ h1 :: l2, a.xVal⟩, false, h1, (l1.length : Int)) := by
  unfold activeListVec.insert
  cases hl : a.al.getLast? with
  | none =>
    have : a.al = [] := List.getLast?_eq_none_iff.mp hl
    refine ⟨[], [], by simp [this], ?_⟩
    simp [this, pure, Except.pure]
  | some last =>
    have hmem : last ∈ a.al := List.mem_of_getLast?_eq_some hl
    obtain ⟨b, hb⟩ := hok last hmem
    cases b with
    | false =>
      refine ⟨a.al, [], by simp, ?_⟩
      simp [hb, bind, Except.bind, pure, Except.pure]
    | true =>
      obtain ⟨l1, l2, hal, hs⟩ := al_insertScan_ok a h1 a.al 0 hne hok ⟨last, hmem, hb⟩
      refine ⟨l1, l2, hal, ?_⟩
      simp [hb, hs, bind, Except.bind, pure, Except.pure]

theorem getBelow_first (c : halfsegment) (l2 : List halfsegment) (x : ℚ) (h : halfsegment) :
    (activeListVec.mk (c :: l2) x).getBelow h 0 = Except.ok none := by
  unfold activeListVec.getBelow
  simp [pure, Except.pure]

theorem getBelow_mid (l1 : List halfsegment) (b c : halfsegment) (l2 : List halfsegment) (x : ℚ)
    (h : halfsegment) :
    (activeListVec.mk (l1 ++ b :: c :: l2) x).getBelow h ((l1.length : Int) + 1)
      = Except.ok (some b) := by
  unfold activeListVec.getBelow
  have h1 : ¬ ((l1.length : Int) + 1 < 0 ∨
      (l1.length : Int) + 1 ≥ ((l1 ++ b :: c :: l2).length : Int)) := by
    simp only [List.length_append, List.length_cons]
    push_cast
    omega
  have h2 : ¬ ((l1.length : Int) + 1 ≤ 0) := by omega
  simp only [h1, h2, if_false, vecGet_mid_pred, bind, Except.bind, pure, Except.pure]

theorem getAbove_last (l1 : List halfsegment) (c : halfsegment) (x : ℚ) (h : halfsegment) :
    (activeListVec.mk (l1 ++ [c]) x).getAbove h (l1.length : Int) = Except.ok none := by
  unfold activeListVec.getAbove
  have h1 : ¬ ((l1.length : Int) < 0 ∨ (l1.length : Int) > ((l1 ++ [c]).length : Int)) := by
    simp only [List.length_append, List.length_cons, List.length_nil]
    push_cast
    omega
  have h2 : ¬ ((l1 ++ [c]).length = 0) := by simp
  have h3 : (l1.length : Int) ≥ ((l1 ++ [c]).length : Int) - 1 := by
    simp only [List.length_append, List.length_cons, List.length_nil]
    push_cast
    omega
  simp only [h1, h2, h3, if_false, if_true, pure, Except.pure]

theorem getAbove_mid (l1 : List halfsegment) (c a : halfsegment) (l2 : List halfsegment) (x : ℚ)
    (h : halfsegment) :
    (activeListVec.mk (l1 ++ c :: a :: l2) x).getAbove h (l1.length : Int)
      = Except.ok (some a) := by
  unfold activeListVec.getAbove
  have h1 : ¬ ((l1.length : Int) < 0 ∨
      (l1.length : Int) > ((l1 ++ c :: a :: l2).length : Int)) := by
    simp only [List.length_append, List.length_cons]
    push_cast
    omega
  have h2 : ¬ ((l1 ++ c :: a :: l2).length = 0) := by simp
  have h3 : ¬ ((l1.length : Int) ≥ ((l1 ++ c :: a :: l2).length : Int) - 1) := by
    simp only [List.length_append, List.length_cons]
    push_cast
    omega
  simp only [h1, h2, h3, if_false, vecGet_mid_succ, bind, Except.bind, pure, Except.pure]

theorem replace_mid (l1 : List halfsegment) (c : halfsegment) (l2 : List halfsegment) (x : ℚ)
    (h1 newH1 : halfsegment) (hc : c.eq h1 = true) :
    (activeListVec.mk (l1 ++ c :: l2) x).replace h1 newH1 (l1.length : Int)
      = Except.ok ⟨l1 ++ newH1 :: l2, x⟩ := by
  unfold activeListVec.replace
  have h2 : ¬ ((l1.length : Int) < 0 ∨ (l1.length : Int) ≥ ((l1 ++ c :: l2).length : Int)) := by
    simp only [List.length_append, List.length_cons]
    push_cast
    omega
  simp only [h2, if_false, vecGet_mid, vecSet_mid, hc, if_true, bind, Except.bind, pure,
    Except.pure]

theorem erase_mid (l1 : List halfsegment) (c : halfsegment) (l2 : List halfsegment) (x : ℚ)
    (h1 : halfsegment) (hc : c.eq h1 = true) :
    (activeListVec.mk (l1 ++ c :: l2) x).erase h1 (l1.length : Int)
      = Except.ok ⟨l1 ++ l2, x⟩ := by
  unfold activeListVec.erase
  have h2 : ¬ ((l1.length : Int) < 0 ∨ (l1.length : Int) ≥ ((l1 ++ c :: l2).length : Int)) := by
    simp only [List.length_append, List.length_cons]
    push_cast
    omega
  simp only [h2, if_false, vecGet_mid, hc, if_true, bind, Except.bind, pure, Except.pure]
  simp [List.eraseIdx_append_of_length_le]

theorem findFrom_mid (h : halfsegment) :
    ∀ (l1 : List halfsegment) (c : halfsegment) (l2 : List halfsegment) (i : Int),
      (∀ x ∈ l1, h.eq x = false) → h.eq c = true →
      activeListVec.findFrom h (l1 ++ c :: l2) i = i + (l1.length : Int) := by
  intro l1
  induction l1 with
  | nil => intro c l2 i _ hc; simp [activeListVec.findFrom, hc]
  | cons y ys ih =>
    intro c l2 i hne hc
    have hy : h.eq y = false := hne y (List.mem_cons_self _ _)
    have e : activeListVec.findFrom h (y :: ys ++ c :: l2) i
        = activeListVec.findFrom h (ys ++ c :: l2) (i + 1) := by
      simp only [List.cons_append, activeListVec.findFrom, hy, Bool.false_eq_true, if_false]
      rfl
    rw [e, ih c l2 (i + 1) (fun x hx => hne x (List.mem_cons_of_mem _ hx)) hc]
    simp only [List.length_cons]
    push_cast
    omega

theorem findFrom_none (h : halfsegment) :
    ∀ (l : List halfsegment) (i : Int), (∀ x ∈ l, h.eq x = false) →
      activeListVec.findFrom h l i = -1 := by
  intro l
  induction l with
  | nil => intro i _; rfl
  | cons y ys ih =>
    intro i hne
    have hy : h.eq y = false := hne y (List.mem_cons_self _ _)
    simp only [activeListVec.findFrom, hy, Bool.false_eq_true, if_false]
    exact ih (i + 1) (fun x hx => hne x (List.mem_cons_of_mem _ hx))

theorem exists_mid (l1 : List halfsegment) (c : halfsegment) (l2 : List halfsegment) (x : ℚ)
    (h : halfsegment) (hne : ∀ y ∈ l1, h.eq y = false) (hc : h.eq c = true) :
    (activeListVec.mk (l1 ++ c :: l2) x).exists_ h = Except.ok (some (c, (l1.length : Int))) := by
  unfold activeListVec.exists_ activeListVec.find
  simp only [findFrom_mid h l1 c l2 0 hne hc, zero_add]
  have h1 : (l1.length : Int) ≠ -1 := by omega
  simp only [h1, ne_eq, not_false_eq_true, if_true, vecGet_mid, bind, Except.bind, pure,
    Except.pure]

theorem exists_none (a : activeListVec) (h : halfsegment) (hne : ∀ y ∈ a.al, h.eq y = false) :
    a.exists_ h = Except.ok none := by
  unfold activeListVec.exists_ activeListVec.find
  simp only [findFrom_none h a.al 0 hne]
  simp [pure, Except.pure]

/-! ## Events of the sweep without an intersection -/

/-- A left-halfsegment event in which the new segment is no duplicate and meets neither
neighbour: the segment is stored with cleared overlap labels and nothing else changes. -/
theorem leftEvent_plain (st : SweepState) (h : halfsegment) (X Y : ℚ)
    (l1 l2 : List halfsegment)
    (hins : st.activeList.insert (clearOverlap h)
      = Except.ok (⟨l1 ++ clearOverlap h :: l2, st.activeList.xVal⟩, false, clearOverlap h,
          (l1.length : Int)))
    (hl1 : ∀ b ∈ l1, b.regionID = h.regionID ∧ b.ola = -1 ∧
      findIntersectionPoint b (clearOverlap h) = (false, dblMax, dblMax, false))
    (hl2 : ∀ a ∈ l2, findIntersectionPoint a (clearOverlap h) = (false, dblMax, dblMax, false)) :
    leftEvent st h X Y
      = Except.ok { st with activeList := ⟨l1 ++ clearOverlap h :: l2, st.activeList.xVal⟩ } := by
  unfold leftEvent
  have e0 : ({ h with ola := -1, olb := -1 } : halfsegment) = clearOverlap h := rfl
  simp only [e0, hins, bind, Except.bind, Bool.false_eq_true, if_false]
  have hcc : (clearOverlap h).eq (clearOverlap h) = true := by
    simp [halfsegment.eq]
  rcases List.eq_nil_or_concat l1 with rfl | ⟨l1', b, rfl⟩
  · -- no below neighbour
    simp only [List.nil_append, List.length_nil, Nat.cast_zero, getBelow_first]
    cases l2 with
    | nil =>
      have := getAbove_last [] (clearOverlap h) st.activeList.xVal (clearOverlap h)
      simp only [List.nil_append, List.length_nil, Nat.cast_zero] at this
      simp only [this, pure, Except.pure]
      have r := replace_mid [] (clearOverlap h) [] st.activeList.xVal (clearOverlap h)
        (clearOverlap h) hcc
      simp only [List.nil_append, List.length_nil, Nat.cast_zero] at r
      simp only [r, insertBrokenSegsToActiveListAndDiscoveredQueue, pure, Except.pure]
    | cons a l2' =>
      have := getAbove_mid [] (clearOverlap h) a l2' st.activeList.xVal (clearOverlap h)
      simp only [List.nil_append, List.length_nil, Nat.cast_zero] at this
      simp only [this, pure, Except.pure]
      rw [breakHsegs_none a (clearOverlap h) [] false (hl2 a (List.mem_cons_self _ _))]
      have r := replace_mid [] (clearOverlap h) (a :: l2') st.activeList.xVal (clearOverlap h)
        (clearOverlap h) hcc
      simp only [List.nil_append, List.length_nil, Nat.cast_zero] at r
      simp only [r, insertBrokenSegsToActiveListAndDiscoveredQueue, pure, Except.pure]
  · -- below neighbour `b`
    obtain ⟨hbr, hbo, hbi⟩ := hl1 b (by simp)
    have hlen : (((l1'.concat b).length : Nat) : Int) = (l1'.length : Int) + 1 := by
      simp
    have hlist : l1'.concat b ++ clearOverlap h :: l2 = l1' ++ b :: clearOverlap h :: l2 := by
      simp
    rw [hlen, hlist]
    simp only [getBelow_mid]
    cases l2 with
    | nil =>
      have ga := getAbove_last (l1' ++ [b]) (clearOverlap h) st.activeList.xVal (clearOverlap h)
      simp only [List.append_assoc, List.singleton_append, List.length_append, List.length_cons,
        List.length_nil, Nat.cast_add, Nat.cast_one, zero_add] at ga
      simp only [ga, pure, Except.pure, hbr, hbo, ne_eq, not_true_eq_false, if_false, e0]
      rw [breakHsegs_none b (clearOverlap h) [] false hbi]
      have r := replace_mid (l1' ++ [b]) (clearOverlap h) [] st.activeList.xVal (clearOverlap h)
        (clearOverlap h) hcc
      simp only [List.append_assoc, List.singleton_append, List.length_append, List.length_cons,
        List.length_nil, Nat.cast_add, Nat.cast_one, zero_add] at r
      simp only [r, insertBrokenSegsToActiveListAndDiscoveredQueue, pure, Except.pure]
    | cons a l2' =>
      have ga := getAbove_mid (l1' ++ [b]) (clearOverlap h) a l2' st.activeList.xVal
        (clearOverlap h)
      simp only [List.append_assoc, List.singleton_append, List.length_append, List.length_cons,
        List.length_nil, Nat.cast_add, Nat.cast_one, zero_add] at ga
      simp only [ga, pure, Except.pure, hbr, hbo, ne_eq, not_true_eq_false, if_false, e0]
      rw [breakHsegs_none b (clearOverlap h) [] false hbi]
      simp only []
      rw [breakHsegs_none a (clearOverlap h) [] false (hl2 a (List.mem_cons_self _ _))]
      have r := replace_mid (l1' ++ [b]) (clearOverlap h) (a :: l2') st.activeList.xVal
        (clearOverlap h) (clearOverlap h) hcc
      simp only [List.append_assoc, List.singleton_append, List.length_append, List.length_cons,
        List.length_nil, Nat.cast_add, Nat.cast_one, zero_add] at r
      simp only [r, insertBrokenSegsToActiveListAndDiscoveredQueue, pure, Except.pure]

theorem eq_self_hseg (h : halfsegment) : h.eq h = true := by
  simp [halfsegment.eq]

/-- A right-halfsegment event whose brother is stored in the active list and whose two
neighbours do not meet: the stored entry and its brother go to the result and the entry is
erased. -/
theorem rightEvent_plain (st : SweepState) (g : halfsegment) (X Y : ℚ)
    (l1 l2 : List halfsegment) (E : halfsegment)
    (hal : st.activeList.al = l1 ++ E :: l2)
    (hne : ∀ y ∈ l1, g.getBrother.eq y = false) (hE : g.getBrother.eq E = true)
    (hno : ∀ b ∈ l1, ∀ a ∈ l2, findIntersectionPoint b a = (false, dblMax, dblMax, false)) :
    rightEvent st g X Y
      = Except.ok { st with activeList := ⟨l1 ++ l2, st.activeList.xVal⟩,
                            result := st.result ++ [E, E.getBrother] } := by
  unfold rightEvent
  have hst : st.activeList = ⟨l1 ++ E :: l2, st.activeList.xVal⟩ := by
    cases h : st.activeList with
    | mk al xv => rw [h] at hal; simp at hal; simp [hal]
  rw [hst]
  simp only [exists_mid l1 E l2 _ g.getBrother hne hE, bind, Except.bind]
  have hEE := eq_self_hseg E
  rcases List.eq_nil_or_concat l1 with rfl | ⟨l1', b, rfl⟩
  · simp only [List.nil_append, List.length_nil, Nat.cast_zero, getBelow_first]
    cases l2 with
    | nil =>
      have ga := getAbove_last [] E st.activeList.xVal E
      simp only [List.nil_append, List.length_nil, Nat.cast_zero] at ga
      have er := erase_mid [] E [] st.activeList.xVal E hEE
      simp only [List.nil_append, List.length_nil, Nat.cast_zero] at er
      simp only [ga, er, pure, Except.pure]
    | cons a l2' =>
      have ga := getAbove_mid [] E a l2' st.activeList.xVal E
      simp only [List.nil_append, List.length_nil, Nat.cast_zero] at ga
      have er := erase_mid [] E (a :: l2') st.activeList.xVal E hEE
      simp only [List.nil_append, List.length_nil, Nat.cast_zero] at er
      simp only [ga, er, pure, Except.pure]
  · have hlen : (((l1'.concat b).length : Nat) : Int) = (l1'.length : Int) + 1 := by
      simp
    have hlist : ∀ l, l1'.concat b ++ l = l1' ++ b :: l := by
      intro l; simp
    rw [hlen, hlist, hlist]
    simp only [getBelow_mid]
    cases l2 with
    | nil =>
      have ga := getAbove_last (l1' ++ [b]) E st.activeList.xVal E
      simp only [List.append_assoc, List.singleton_append, List.length_append, List.length_cons,
        List.length_nil, Nat.cast_add, Nat.cast_one, zero_add] at ga
      have er := erase_mid (l1' ++ [b]) E [] st.activeList.xVal E hEE
      simp only [List.append_assoc, List.singleton_append, List.length_append, List.length_cons,
        List.length_nil, Nat.cast_add, Nat.cast_one, zero_add] at er
      simp only [ga, er, pure, Except.pure]
    | cons a l2' =>
      have ga := getAbove_mid (l1' ++ [b]) E a l2' st.activeList.xVal E
      simp only [List.append_assoc, List.singleton_append, List.length_append, List.length_cons,
        List.length_nil, Nat.cast_add, Nat.cast_one, zero_add] at ga
      have er := erase_mid (l1' ++ [b]) E (a :: l2') st.activeList.xVal E hEE
      simp only [List.append_assoc, List.singleton_append, List.length_append, List.length_cons,
        List.length_nil, Nat.cast_add, Nat.cast_one, zero_add] at er
      simp only [ga, pure, Except.pure]
      rw [breakHsegs_none b a [] true (hno b (by simp) a (List.mem_cons_self _ _))]
      simp only [er]

/-- A right-halfsegment event whose brother is not stored in the active list changes
nothing. -/
theorem rightEvent_absent (st : SweepState) (g : halfsegment) (X Y : ℚ)
    (hne : ∀ y ∈ st.activeList.al, g.getBrother.eq y = false) :
    rightEvent st g X Y = Except.ok st := by
  unfold rightEvent
  simp only [exists_none st.activeList g.getBrother hne, bind, Except.bind, pure, Except.pure]

/-! ## The sweep of one region whose segments do not cross -/

theorem getBrother_getBrother (h : halfsegment) : h.getBrother.getBrother = h := rfl

theorem clearOverlap_getBrother (h : halfsegment) :
    (clearOverlap h).getBrother = clearOverlap h.getBrother := rfl

theorem key_clearOverlap (h : halfsegment) : (clearOverlap h).key = h.key := rfl

theorem isLeft_clearOverlap (h : halfsegment) : (clearOverlap h).isLeft = h.isLeft := rfl

theorem eq_iff_key (h g : halfsegment) : h.eq g = true ↔ h.key = g.key := (key_eq_iff h g).symm

theorem eq_false_of_key_ne {h g : halfsegment} (hk : h.key ≠ g.key) : h.eq g = false := by
  rw [← Bool.not_eq_true, eq_iff_key]
  exact hk

theorem lexLt_of_lt_right {a b : halfsegment} (ha : a.isLeft = true) (hb : b.isLeft = false)
    (h : a.lt b = true) : lexLt a.dx a.dy b.dx b.dy := by
  unfold halfsegment.lt at h
  unfold lexLt
  by_cases c1 : a.dx < b.dx ∨ (a.dx = b.dx ∧ a.dy < b.dy)
  · exact c1
  · rw [if_neg c1] at h
    by_cases c2 : a.dx = b.dx ∧ a.dy = b.dy
    · rw [if_pos c2, ha, hb] at h
      simp at h
    · rw [if_neg c2] at h
      cases h

theorem isLeft_getBrother_of_left {h : halfsegment} (hl : h.isLeft = true) :
    h.getBrother.isLeft = false := by
  rw [isLeft_iff_lexLt] at hl
  rw [← Bool.not_eq_true, isLeft_iff_lexLt]
  unfold lexLt at *
  simp only [halfsegment.getBrother]
  rcases hl with h1 | ⟨h1, h2⟩
  · intro h3
    rcases h3 with h4 | ⟨h4, h5⟩ <;> linarith
  · intro h3
    rcases h3 with h4 | ⟨h4, h5⟩ <;> linarith

theorem isLeft_getBrother_of_right {h : halfsegment} (hn : nonDegenerate h)
    (hl : h.isLeft = false) : h.getBrother.isLeft = true := by
  rw [← Bool.not_eq_true, isLeft_iff_lexLt] at hl
  rw [isLeft_iff_lexLt]
  unfold lexLt nonDegenerate at *
  simp only [halfsegment.getBrother]
  rcases lt_trichotomy h.sx h.dx with h1 | h1 | h1
  · exact Or.inl h1
  · rcases lt_trichotomy h.sy h.dy with h2 | h2 | h2
    · exact Or.inr ⟨h1, h2⟩
    · exact absurd ⟨h1.symm, h2.symm⟩ hn
    · exact absurd (Or.inr ⟨h1.symm, h2⟩) hl
  · exact absurd (Or.inl h1) hl

theorem key_lt_getBrother {h : halfsegment} (hl : h.isLeft = true) :
    h.key < h.getBrother.key := by
  rw [← lt_iff_key]
  unfold halfsegment.lt
  have := (isLeft_iff_lexLt h).mp hl
  unfold lexLt at this
  simp only [halfsegment.getBrother]
  rw [if_pos this]

theorem lexLt_of_key_lt_brother {a b : halfsegment} (ha : a.isLeft = true)
    (hb : b.isLeft = true) (h : a.key < b.getBrother.key) : lexLt a.dx a.dy b.sx b.sy := by
  rw [← lt_iff_key] at h
  exact lexLt_of_lt_right ha (isLeft_getBrother_of_left hb) h

theorem dx_le_of_key_le {a b : halfsegment} (h : a.key ≤ b.key) : a.dx ≤ b.dx := by
  unfold halfsegment.key at h
  rw [Prod.Lex.le_iff] at h
  rcases h with h1 | ⟨h1, _⟩
  · exact le_of_lt h1
  · exact le_of_eq h1

theorem meetOnly_symm {a b : halfsegment} (h : meetOnlyAtEndpoints a b) :
    meetOnlyAtEndpoints b a := by
  intro s t hs0 hs1 ht0 ht1 ex ey
  have := h t s ht0 ht1 hs0 hs1 ex.symm ey.symm
  exact ⟨this.2, this.1⟩

theorem meetOnly_clear {a b : halfsegment} (h : meetOnlyAtEndpoints a b) :
    meetOnlyAtEndpoints (clearOverlap a) (clearOverlap b) := h

theorem not_meetOnly_of_eq {a b : halfsegment} (he : a.eq b = true) :
    ¬ meetOnlyAtEndpoints a b := by
  intro hm
  unfold halfsegment.eq at he
  simp only [Bool.and_eq_true, decide_eq_true_eq] at he
  obtain ⟨⟨⟨e1, e2⟩, e3⟩, e4⟩ := he
  have := hm (1/2) (1/2) (by norm_num) (by norm_num) (by norm_num) (by norm_num)
    (by rw [e1, e3]) (by rw [e2, e4])
  rcases this.1 with h | h <;> norm_num at h

theorem not_eq_getBrother_of_left {a b : halfsegment} (ha : a.isLeft = true)
    (hb : b.isLeft = true) : a.eq b.getBrother = false := by
  apply eq_false_of_key_ne
  intro hk
  have h1 := (key_eq_iff a b.getBrother).mp hk
  have h2 := isLeft_getBrother_of_left hb
  have h3 : a.isLeft = b.getBrother.isLeft := by
    unfold halfsegment.eq at h1
    simp only [Bool.and_eq_true, decide_eq_true_eq] at h1
    obtain ⟨⟨⟨e1, e2⟩, e3⟩, e4⟩ := h1
    unfold halfsegment.isLeft
    rw [e1, e2, e3, e4]
  rw [ha, h2] at h3
  cases h3

theorem key_eq_of_clear_eq {a b : halfsegment} (h : clearOverlap a = clearOverlap b) :
    a.key = b.key := by
  show (clearOverlap a).key = (clearOverlap b).key
  rw [h]

theorem regionFacts_of (R : List halfsegment) (rid : Int) (hs : sortedHseg R)
    (hn : ∀ h ∈ R, nonDegenerate h) (hc : closedUnderBrother R)
    (hr : ∀ h ∈ R, h.regionID = rid) (hm : segmentsMeetOnlyInEndpoints R) :
    RegionFacts R rid := by
  have hboth : R.Pairwise (fun a b => a.key < b.key ∧
      (a.eq b.getBrother = true ∨ meetOnlyAtEndpoints a b)) := by
    rw [sortedHseg_iff] at hs
    unfold segmentsMeetOnlyInEndpoints at hm
    have h2 := hs.and hm
    refine h2.imp_of_mem ?_
    intro a b _ hb hab
    obtain ⟨hle, hor⟩ := hab
    refine ⟨lt_of_le_of_ne hle ?_, hor⟩
    intro hk
    have he : a.eq b = true := (key_eq_iff a b).mp hk
    rcases hor with h3 | h3
    · -- `a` equals both `b` and its brother: `b` is degenerate
      apply hn b hb
      unfold halfsegment.eq at he h3
      simp only [Bool.and_eq_true, decide_eq_true_eq, halfsegment.getBrother] at he h3
      obtain ⟨⟨⟨e1, e2⟩, e3⟩, e4⟩ := he
      obtain ⟨⟨⟨f1, f2⟩, f3⟩, f4⟩ := h3
      constructor <;> linarith
    · exact not_meetOnly_of_eq he h3
  refine ⟨hboth.imp (fun h => h.1), hn, hc, hr, ?_⟩
  intro a ha b hb hal hbl hab
  have hsym : ∀ x y : halfsegment, x.isLeft = true → y.isLeft = true →
      (x.key < y.key ∧ (x.eq y.getBrother = true ∨ meetOnlyAtEndpoints x y)) →
      meetOnlyAtEndpoints x y := by
    intro x y hx hy hxy
    rcases hxy.2 with h3 | h3
    · rw [not_eq_getBrother_of_left hx hy] at h3; cases h3
    · exact h3
  have hsymm : Symmetric (fun a b : halfsegment =>
      a.isLeft = true → b.isLeft = true → meetOnlyAtEndpoints a b) := by
    intro x y hxy hy hx
    exact meetOnly_symm (hxy hx hy)
  have hp : R.Pairwise (fun a b : halfsegment =>
      a.isLeft = true → b.isLeft = true → meetOnlyAtEndpoints a b) :=
    hboth.imp (fun {x y} hxy hx hy => hsym x y hx hy hxy)
  exact List.Pairwise.forall hsymm hp ha hb hab hal hbl

theorem facts_split {P S : List halfsegment} {e : halfsegment} {rid : Int}
    (hf : RegionFacts (P ++ e :: S) rid) :
    (∀ a ∈ P, a.key < e.key) ∧ (∀ b ∈ S, e.key < b.key) ∧
      (∀ a ∈ P, ∀ b ∈ S, a.key < b.key) := by
  have h := hf.strict
  rw [List.pairwise_append] at h
  obtain ⟨_, h2, h3⟩ := h
  rw [List.pairwise_cons] at h2
  refine ⟨fun a ha => h3 a ha e (List.mem_cons_self _ _), h2.1, ?_⟩
  intro a ha b hb
  exact h3 a ha b (List.mem_cons_of_mem _ hb)

theorem key_inj_of_facts {R : List halfsegment} {rid : Int} (hf : RegionFacts R rid)
    {a b : halfsegment} (ha : a ∈ R) (hb : b ∈ R) (hk : a.key = b.key) : a = b := by
  by_contra hab
  have hsymm : Symmetric (fun a b : halfsegment => a.key ≠ b.key) := by
    intro x y hxy; exact fun h => hxy h.symm
  have hp : R.Pairwise (fun a b : halfsegment => a.key ≠ b.key) :=
    hf.strict.imp (fun h => ne_of_lt h)
  exact List.Pairwise.forall hsymm hp ha hb hab hk

theorem mem_split {P S : List halfsegment} {e x : halfsegment} (hx : x ∈ P ++ e :: S) :
    x ∈ P ∨ x = e ∨ x ∈ S := by
  rcases List.mem_append.mp hx with h | h
  · exact Or.inl h
  · rcases List.mem_cons.mp h with h | h
    · exact Or.inr (Or.inl h)
    · exact Or.inr (Or.inr h)

/-- An entry of the region that is not among the handled events is the current event or a
later one. -/
theorem key_ge_of_not_mem {P S : List halfsegment} {e x : halfsegment} {rid : Int}
    (hf : RegionFacts (P ++ e :: S) rid) (hx : x ∈ P ++ e :: S) (hnp : x ∉ P) :
    e.key ≤ x.key := by
  rcases mem_split hx with h | h | h
  · exact absurd h hnp
  · rw [h]
  · exact le_of_lt ((facts_split hf).2.1 x h)

theorem mem_prefix_of_key_lt {P S : List halfsegment} {e x : halfsegment} {rid : Int}
    (hf : RegionFacts (P ++ e :: S) rid) (hx : x ∈ P ++ e :: S) (hk : x.key < e.key) :
    x ∈ P := by
  rcases mem_split hx with h | h | h
  · exact h
  · rw [h] at hk; exact absurd hk (lt_irrefl _)
  · exact absurd (lt_trans hk ((facts_split hf).2.1 x h)) (lt_irrefl _)

theorem not_mem_prefix_of_key_ge {P S : List halfsegment} {e x : halfsegment} {rid : Int}
    (hf : RegionFacts (P ++ e :: S) rid) (hk : e.key ≤ x.key) : x ∉ P := by
  intro hx
  exact absurd (lt_of_lt_of_le ((facts_split hf).1 x hx) hk) (lt_irrefl _)

theorem nextEvent_r1 (P S : List halfsegment) (e : halfsegment) (st : SweepState)
    (h1 : st.r1Pos = P.length) (hq : st.discoveredSegs.eq = []) :
    nextEvent (P ++ e :: S) [] st = (e, some 1) := by
  unfold nextEvent
  have hg : (P ++ e :: S).get? st.r1Pos = some e := by
    rw [h1, List.get?_eq_getElem?, List.getElem?_append_right (le_refl _)]
    simp
  rw [hg]
  simp [eventQueue.peek, hq]

theorem sweepStep_r1 (P S : List halfsegment) (e : halfsegment) (st : SweepState)
    (h1 : st.r1Pos = P.length) (hq : st.discoveredSegs.eq = []) :
    sweepStep (P ++ e :: S) [] st =
      (if e.isLeft then
        leftEvent { st with segSource := some 1, r1Pos := st.r1Pos + 1,
                            activeList := ⟨st.activeList.al, e.dx⟩ } e e.dx e.dy
      else
        rightEvent { st with segSource := some 1, r1Pos := st.r1Pos + 1,
                             activeList := ⟨st.activeList.al, e.dx⟩ } e e.dx e.dy) := by
  unfold sweepStep
  rw [nextEvent_r1 P S e st h1 hq]
  simp only [bind, Except.bind, pure, Except.pure]

theorem emitted_append (P : List halfsegment) (e : halfsegment) :
    emitted (P ++ [e]) = emitted P ++
      (if e.isLeft then [] else [clearOverlap e.getBrother, clearOverlap e]) := by
  induction P with
  | nil => simp [emitted]
  | cons x xs ih =>
    have e1 : emitted (x :: xs ++ [e]) =
        if x.isLeft then emitted (xs ++ [e])
        else clearOverlap x.getBrother :: clearOverlap x :: emitted (xs ++ [e]) := rfl
    have e2 : emitted (x :: xs) =
        if x.isLeft then emitted xs
        else clearOverlap x.getBrother :: clearOverlap x :: emitted xs := rfl
    rw [e1, e2, ih]
    split_ifs <;> simp

/-- What is known of an active-list entry while the event `e` is handled. -/
theorem active_facts {P S : List halfsegment} {e L : halfsegment} {rid : Int}
    (hf : RegionFacts (P ++ e :: S) rid) (hLP : L ∈ P) (_hLl : L.isLeft = true)
    (hLb : L.getBrother ∉ P) :
    L ∈ P ++ e :: S ∧ L.key < e.key ∧ e.key ≤ L.getBrother.key ∧ L.dx ≤ e.dx ∧ e.dx ≤ L.sx := by
  have hLR : L ∈ P ++ e :: S := List.mem_append_left _ hLP
  have h1 := (facts_split hf).1 L hLP
  have h2 := key_ge_of_not_mem hf (hf.closed L hLR) hLb
  exact ⟨hLR, h1, h2, dx_le_of_key_le h1.le, dx_le_of_key_le h2⟩

theorem step_left {P S : List halfsegment} {e : halfsegment} {rid : Int} {st : SweepState}
    (hf : RegionFacts (P ++ e :: S) rid) (hsw : Swept P st) (hel : e.isLeft = true) :
    ∃ st', sweepStep (P ++ e :: S) [] st = Except.ok st' ∧ Swept (P ++ [e]) st' := by
  have heR : e ∈ P ++ e :: S := by simp
  have hebro : e.key < e.getBrother.key := key_lt_getBrother hel
  rw [sweepStep_r1 P S e st hsw.r1Pos hsw.queue, if_pos hel]
  -- the active list accepts the new segment
  have hne : ∀ x ∈ (activeListVec.mk st.activeList.al e.dx).al,
      x.eq (clearOverlap e) = false := by
    intro x hx
    obtain ⟨L, hLP, hLl, hLb, rfl⟩ := (hsw.active x).mp hx
    obtain ⟨_, h1, _⟩ := active_facts hf hLP hLl hLb
    exact eq_false_of_key_ne (ne_of_lt h1)
  have hye : ∃ y, (clearOverlap e).getYvalAtX e.dx = Except.ok y :=
    ⟨e.dy, by unfold halfsegment.getYvalAtX; simp [clearOverlap]; rfl⟩
  have hok : ∀ x ∈ (activeListVec.mk st.activeList.al e.dx).al,
      ∃ b, (activeListVec.mk st.activeList.al e.dx).alHsegLT (clearOverlap e) x
        = Except.ok b := by
    intro x hx
    obtain ⟨L, hLP, hLl, hLb, rfl⟩ := (hsw.active x).mp hx
    obtain ⟨_, _, _, h3, h4⟩ := active_facts hf hLP hLl hLb
    exact alHsegLT_ok _ _ _ hye (getYvalAtX_ok (clearOverlap L) e.dx h3 h4)
  obtain ⟨l1, l2, hal, hins⟩ := al_insert_ok (activeListVec.mk st.activeList.al e.dx)
    (clearOverlap e) hne hok
  have hal' : st.activeList.al = l1 ++ l2 := hal
  have hnone : ∀ x ∈ st.activeList.al,
      x.regionID = e.regionID ∧ x.ola = -1 ∧
        findIntersectionPoint x (clearOverlap e) = (false, dblMax, dblMax, false) := by
    intro x hx
    obtain ⟨L, hLP, hLl, hLb, rfl⟩ := (hsw.active x).mp hx
    obtain ⟨hLR, h1, h2, _, _⟩ := active_facts hf hLP hLl hLb
    refine ⟨?_, rfl, ?_⟩
    · show L.regionID = e.regionID
      rw [hf.region L hLR, hf.region e heR]
    · have hLe : L ≠ e := by
        intro h; rw [h] at h1; exact lt_irrefl _ h1
      have h2' : e.key < L.getBrother.key := by
        refine lt_of_le_of_ne h2 ?_
        intro hk
        have := key_inj_of_facts hf heR (hf.closed L hLR) hk
        rw [this, isLeft_getBrother_of_left hLl] at hel
        cases hel
      exact findIntersectionPoint_none (clearOverlap L) (clearOverlap e) hLl hel
        (lexLt_of_key_lt_brother hLl hel (lt_trans h1 hebro))
        (lexLt_of_key_lt_brother hel hLl h2')
        (hf.meet L hLR e heR hLl hel hLe)
  have hev := leftEvent_plain
    { st with segSource := some 1, r1Pos := st.r1Pos + 1,
              activeList := ⟨st.activeList.al, e.dx⟩ } e e.dx e.dy l1 l2 hins
    (fun b hb => hnone b (by rw [hal']; exact List.mem_append_left _ hb))
    (fun a ha => (hnone a (by rw [hal']; exact List.mem_append_right _ ha)).2.2)
  refine ⟨_, hev, ?_⟩
  have hce : clearOverlap e ∉ st.activeList.al := by
    intro hx
    have := hne _ hx
    rw [eq_self_hseg] at this
    cases this
  constructor
  · show st.r1Pos + 1 = (P ++ [e]).length
    rw [hsw.r1Pos]; simp
  · exact hsw.r2Pos
  · exact hsw.queue
  · show (l1 ++ clearOverlap e :: l2).Nodup
    rw [List.nodup_middle, List.nodup_cons, ← hal']
    exact ⟨hce, hsw.nodup⟩
  · intro x
    show x ∈ l1 ++ clearOverlap e :: l2 ↔ _
    have hmem : x ∈ l1 ++ clearOverlap e :: l2 ↔ x = clearOverlap e ∨ x ∈ st.activeList.al := by
      rw [hal']
      simp only [List.mem_append, List.mem_cons]
      tauto
    rw [hmem, hsw.active x]
    constructor
    · rintro (rfl | ⟨L, hLP, hLl, hLb, rfl⟩)
      · refine ⟨e, by simp, hel, ?_, rfl⟩
        intro hb
        rcases List.mem_append.mp hb with hb | hb
        · exact not_mem_prefix_of_key_ge hf hebro.le hb
        · rw [List.mem_singleton] at hb
          rw [hb] at hebro
          exact lt_irrefl _ hebro
      · refine ⟨L, by simp [hLP], hLl, ?_, rfl⟩
        intro hb
        rcases List.mem_append.mp hb with hb | hb
        · exact hLb hb
        · rw [List.mem_singleton] at hb
          rw [← hb, isLeft_getBrother_of_left hLl] at hel
          cases hel
    · rintro ⟨L, hLP, hLl, hLb, rfl⟩
      rcases List.mem_append.mp hLP with hLP | hLP
      · right
        exact ⟨L, hLP, hLl, fun hb => hLb (List.mem_append_left _ hb), rfl⟩
      · rw [List.mem_singleton] at hLP
        left; rw [hLP]
  · show st.result = emitted (P ++ [e])
    rw [emitted_append, hel, hsw.result]
    simp

theorem step_right {P S : List halfsegment} {e : halfsegment} {rid : Int} {st : SweepState}
    (hf : RegionFacts (P ++ e :: S) rid) (hsw : Swept P st) (her : e.isLeft = false) :
    ∃ st', sweepStep (P ++ e :: S) [] st = Except.ok st' ∧ Swept (P ++ [e]) st' := by
  have heR : e ∈ P ++ e :: S := by simp
  have hLl : e.getBrother.isLeft = true := isLeft_getBrother_of_right (hf.nondeg e heR) her
  have hLR : e.getBrother ∈ P ++ e :: S := hf.closed e heR
  have hLk : e.getBrother.key < e.key := key_lt_getBrother hLl
  have hLP : e.getBrother ∈ P := mem_prefix_of_key_lt hf hLR hLk
  have heP : e ∉ P := not_mem_prefix_of_key_ge hf (le_refl _)
  rw [sweepStep_r1 P S e st hsw.r1Pos hsw.queue, her]
  simp only [Bool.false_eq_true, if_false]
  have hmem : clearOverlap e.getBrother ∈ st.activeList.al :=
    (hsw.active _).mpr ⟨e.getBrother, hLP, hLl, heP, rfl⟩
  obtain ⟨l1, l2, hal⟩ := List.append_of_mem hmem
  have hnd := hsw.nodup
  rw [hal, List.nodup_middle, List.nodup_cons] at hnd
  obtain ⟨hnot, hnd'⟩ := hnd
  -- every entry is the cleared copy of an active left halfsegment
  have hent : ∀ x ∈ l1 ++ l2, ∃ L', L' ∈ P ∧ L'.isLeft = true ∧ L'.getBrother ∉ P ∧
      x = clearOverlap L' ∧ L' ≠ e.getBrother := by
    intro x hx
    have hx' : x ∈ st.activeList.al := by
      rw [hal]
      simp only [List.mem_append, List.mem_cons] at hx ⊢
      tauto
    obtain ⟨L', h1, h2, h3, rfl⟩ := (hsw.active x).mp hx'
    refine ⟨L', h1, h2, h3, rfl, ?_⟩
    intro h
    rw [h] at hx
    exact hnot hx
  have hne : ∀ y ∈ l1, e.getBrother.eq y = false := by
    intro y hy
    obtain ⟨L', h1, _, _, rfl, h5⟩ := hent y (List.mem_append_left _ hy)
    apply eq_false_of_key_ne
    intro hk
    exact h5 (key_inj_of_facts hf (List.mem_append_left _ h1) hLR hk.symm)
  have hE : e.getBrother.eq (clearOverlap e.getBrother) = true := by
    rw [eq_iff_key]; rfl
  have hno : ∀ b ∈ l1, ∀ a ∈ l2,
      findIntersectionPoint b a = (false, dblMax, dblMax, false) := by
    intro b hb a ha
    obtain ⟨Lb, b1, b2, b3, rfl, _⟩ := hent b (List.mem_append_left _ hb)
    obtain ⟨La, a1, a2, a3, rfl, _⟩ := hent a (List.mem_append_right _ ha)
    obtain ⟨hbR, hbk, hbk', _, _⟩ := active_facts hf b1 b2 b3
    obtain ⟨haR, hak, hak', _, _⟩ := active_facts hf a1 a2 a3
    have hab : Lb ≠ La := by
      intro h
      rw [h] at hb
      exact (List.nodup_append.mp hnd').2.2 hb ha
    exact findIntersectionPoint_none (clearOverlap Lb) (clearOverlap La) b2 a2
      (lexLt_of_key_lt_brother b2 a2 (lt_of_lt_of_le hbk hak'))
      (lexLt_of_key_lt_brother a2 b2 (lt_of_lt_of_le hak hbk'))
      (hf.meet Lb hbR La haR b2 a2 hab)
  have hev := rightEvent_plain
    { st with segSource := some 1, r1Pos := st.r1Pos + 1,
              activeList := ⟨st.activeList.al, e.dx⟩ } e e.dx e.dy l1 l2
    (clearOverlap e.getBrother) hal hne hE hno
  refine ⟨_, hev, ?_⟩
  constructor
  · show st.r1Pos + 1 = (P ++ [e]).length
    rw [hsw.r1Pos]; simp
  · exact hsw.r2Pos
  · exact hsw.queue
  · exact hnd'
  · intro x
    show x ∈ l1 ++ l2 ↔ _
    constructor
    · intro hx
      obtain ⟨L', h1, h2, h3, h4, h5⟩ := hent x hx
      refine ⟨L', List.mem_append_left _ h1, h2, ?_, h4⟩
      intro hb
      rcases List.mem_append.mp hb with hb | hb
      · exact h3 hb
      · rw [List.mem_singleton] at hb
        apply h5
        rw [← hb]
        rfl
    · rintro ⟨L', h1, h2, h3, rfl⟩
      rcases List.mem_append.mp h1 with h1 | h1
      · have hin : clearOverlap L' ∈ st.activeList.al :=
          (hsw.active _).mpr ⟨L', h1, h2, fun hb => h3 (List.mem_append_left _ hb), rfl⟩
        rw [hal] at hin
        simp only [List.mem_append, List.mem_cons] at hin ⊢
        rcases hin with hin | hin | hin
        · exact Or.inl hin
        · exfalso
          have hk : L'.key = e.getBrother.key := key_eq_of_clear_eq hin
          have := key_inj_of_facts hf (List.mem_append_left _ h1) hLR hk
          apply h3
          rw [this]
          simp
          right
          rfl
        · exact Or.inr hin
      · rw [List.mem_singleton] at h1
        rw [h1, her] at h2
        cases h2
  · show st.result ++ [clearOverlap e.getBrother, (clearOverlap e.getBrother).getBrother]
      = emitted (P ++ [e])
    rw [emitted_append, her, hsw.result]
    rfl

theorem sweepLoop_unfold (r1 r2 : List halfsegment) (fuel : Nat) (st : SweepState) :
    sweepLoop r1 r2 fuel st =
      if st.discoveredSegs.size > 0 ∨ st.r1Pos < r1.length ∨ st.r2Pos < r2.length then
        match fuel with
        | 0 => throw Fault.outOfFuel
        | fuel + 1 => do
          let st ← sweepStep r1 r2 st
          sweepLoop r1 r2 fuel st
      else pure st := by
  cases fuel <;> rfl

theorem loop_swept {R : List halfsegment} {rid : Int} (hf : RegionFacts R rid) :
    ∀ (S P : List halfsegment) (st : SweepState) (fuel : Nat), R = P ++ S → Swept P st →
      S.length ≤ fuel → ∃ st', sweepLoop R [] fuel st = Except.ok st' ∧ Swept R st' := by
  intro S
  induction S with
  | nil =>
    intro P st fuel hR hsw _
    rw [List.append_nil] at hR
    subst hR
    refine ⟨st, ?_, hsw⟩
    rw [sweepLoop_unfold]
    have hc : ¬ (st.discoveredSegs.size > 0 ∨ st.r1Pos < R.length ∨ st.r2Pos < ([] : List halfsegment).length) := by
      simp [eventQueue.size, hsw.queue, hsw.r1Pos]
    rw [if_neg hc]
    rfl
  | cons e S' ih =>
    intro P st fuel hR hsw hfuel
    cases fuel with
    | zero => simp at hfuel
    | succ f =>
      rw [sweepLoop_unfold]
      have hc : st.discoveredSegs.size > 0 ∨ st.r1Pos < R.length ∨
          st.r2Pos < ([] : List halfsegment).length := by
        right; left
        rw [hsw.r1Pos, hR]
        simp
      rw [if_pos hc]
      have hf' : RegionFacts (P ++ e :: S') rid := hR ▸ hf
      have hstep : ∃ st', sweepStep (P ++ e :: S') [] st = Except.ok st' ∧ Swept (P ++ [e]) st' := by
        cases hl : e.isLeft with
        | true => exact step_left hf' hsw hl
        | false => exact step_right hf' hsw hl
      obtain ⟨st1, hs1, hsw1⟩ := hstep
      rw [← hR] at hs1
      obtain ⟨st2, hs2, hsw2⟩ := ih (P ++ [e]) st1 f (by rw [hR]; simp) hsw1
        (by simp at hfuel; exact hfuel)
      refine ⟨st2, ?_, hsw2⟩
      simp only [hs1, bind, Except.bind]
      exact hs2

theorem swept_init : Swept [] (SweepState.init []) := by
  constructor
  · rfl
  · rfl
  · rfl
  · exact List.nodup_nil
  · intro x
    simp [SweepState.init, activeListVec.empty]
  · rfl

theorem emitted_spec {R : List halfsegment} {rid : Int} (hf : RegionFacts R rid) :
    ∀ (P S : List halfsegment), R = P ++ S →
      (emitted P).Nodup ∧
        ∀ x, x ∈ emitted P ↔ ∃ h ∈ P, h.getBrother ∈ P ∧ x = clearOverlap h := by
  intro P
  induction P using List.reverseRecOn with
  | nil =>
    intro S _
    simp [emitted]
  | append_singleton P' e ih =>
    intro S hR
    have hR' : R = P' ++ e :: S := by rw [hR]; simp
    obtain ⟨hnd, hmem⟩ := ih (e :: S) hR'
    have hf' : RegionFacts (P' ++ e :: S) rid := hR' ▸ hf
    have heR : e ∈ P' ++ e :: S := by simp
    have heP : e ∉ P' := not_mem_prefix_of_key_ge hf' (le_refl _)
    -- an entry handled before `e` has a smaller key
    have hlt : ∀ h ∈ P', h.key < e.key := (facts_split hf').1
    rw [emitted_append]
    cases hl : e.isLeft with
    | true =>
      simp only [if_true, List.append_nil]
      refine ⟨hnd, ?_⟩
      have hebro : e.key < e.getBrother.key := key_lt_getBrother hl
      intro x
      rw [hmem x]
      constructor
      · rintro ⟨h, h1, h2, rfl⟩
        exact ⟨h, List.mem_append_left _ h1, List.mem_append_left _ h2, rfl⟩
      · rintro ⟨h, h1, h2, rfl⟩
        rcases List.mem_append.mp h1 with h1 | h1
        · rcases List.mem_append.mp h2 with h2 | h2
          · exact ⟨h, h1, h2, rfl⟩
          · exfalso
            rw [List.mem_singleton] at h2
            have hk := hlt h h1
            have : h = e.getBrother := by rw [← h2]; rfl
            rw [this] at hk
            exact lt_irrefl _ (lt_trans hk hebro)
        · exfalso
          rw [List.mem_singleton] at h1
          subst h1
          rcases List.mem_append.mp h2 with h2 | h2
          · exact lt_irrefl _ (lt_trans (hlt _ h2) hebro)
          · rw [List.mem_singleton] at h2
            rw [h2] at hebro
            exact lt_irrefl _ hebro
    | false =>
      simp only [Bool.false_eq_true, if_false]
      have hLl : e.getBrother.isLeft = true := isLeft_getBrother_of_right (hf'.nondeg e heR) hl
      have hLR : e.getBrother ∈ P' ++ e :: S := hf'.closed e heR
      have hLk : e.getBrother.key < e.key := key_lt_getBrother hLl
      have hLP : e.getBrother ∈ P' := mem_prefix_of_key_lt hf' hLR hLk
      have hn1 : clearOverlap e.getBrother ∉ emitted P' := by
        intro hx
        obtain ⟨h, h1, h2, h3⟩ := (hmem _).mp hx
        have hk : e.getBrother.key = h.key := key_eq_of_clear_eq h3
        have := key_inj_of_facts hf' hLR (List.mem_append_left _ h1) hk
        rw [← this] at h2
        exact heP h2
      have hn2 : clearOverlap e ∉ emitted P' := by
        intro hx
        obtain ⟨h, h1, _, h3⟩ := (hmem _).mp hx
        have hk : e.key = h.key := key_eq_of_clear_eq h3
        have := hlt h h1
        rw [hk] at this
        exact lt_irrefl _ this
      have hn3 : clearOverlap e.getBrother ≠ clearOverlap e := by
        intro h
        have hk : e.getBrother.key = e.key := key_eq_of_clear_eq h
        rw [hk] at hLk
        exact lt_irrefl _ hLk
      constructor
      · rw [List.nodup_append]
        refine ⟨hnd, by simp [hn3], ?_⟩
        intro a ha hb
        simp only [List.mem_cons, List.mem_singleton, List.not_mem_nil, or_false] at hb
        rcases hb with rfl | rfl
        · exact hn1 ha
        · exact hn2 ha
      · intro x
        simp only [List.mem_append, List.mem_cons, List.mem_singleton, List.not_mem_nil,
          or_false]
        rw [hmem x]
        constructor
        · rintro (⟨h, h1, h2, rfl⟩ | rfl | rfl)
          · exact ⟨h, Or.inl h1, Or.inl h2, rfl⟩
          · exact ⟨e.getBrother, Or.inl hLP, Or.inr rfl, rfl⟩
          · exact ⟨e, Or.inr rfl, Or.inl hLP, rfl⟩
        · rintro ⟨h, h1 | h1, h2 | h2, rfl⟩
          · exact Or.inl ⟨h, h1, h2, rfl⟩
          · right; left
            have : h = e.getBrother := by rw [← h2]; rfl
            rw [this]
          · right; right; rw [h1]
          · right; right; rw [h1]

theorem emitted_perm {R : List halfsegment} {rid : Int} (hf : RegionFacts R rid) :
    (emitted R).Perm (R.map clearOverlap) := by
  obtain ⟨hnd, hmem⟩ := emitted_spec hf R [] (by simp)
  have hnd2 : (R.map clearOverlap).Nodup := by
    have hp : (R.map clearOverlap).Pairwise (fun a b => a.key < b.key) := by
      rw [List.pairwise_map]
      exact hf.strict
    exact hp.imp (fun {a b} h hab => by rw [hab] at h; exact lt_irrefl _ h)
  rw [List.perm_ext_iff_of_nodup hnd hnd2]
  intro x
  rw [hmem x, List.mem_map]
  constructor
  · rintro ⟨h, h1, _, rfl⟩
    exact ⟨h, h1, rfl⟩
  · rintro ⟨h, h1, rfl⟩
    exact ⟨h, h1, hf.closed h h1, rfl⟩

theorem overlay_with_empty_core {R : List halfsegment} {rid : Int} (hf : RegionFacts R rid)
    (fuel : Nat) (hfuel : R.length ≤ fuel) :
    overlayPlaneSweep fuel R [] [] = Except.ok (R.map clearOverlap) := by
  obtain ⟨st, hloop, hsw⟩ := loop_swept hf R [] (SweepState.init []) fuel (by simp)
    swept_init hfuel
  unfold overlayPlaneSweep
  simp only [hloop, bind, Except.bind, pure, Except.pure, hsw.result]
  congr 1
  have hperm : (stdSort halfsegment.lt (emitted R)).Perm (R.map clearOverlap) :=
    (stdSort_perm _).trans (emitted_perm hf)
  have hs1 := (sortedHseg_iff _).mp (stdSort_sorted (emitted R))
  have hs2 : (R.map clearOverlap).Pairwise (fun a b => a.key ≤ b.key) := by
    rw [List.pairwise_map]
    exact hf.strict.imp (fun h => le_of_lt h)
  refine List.Perm.eq_of_sorted ?_ hs1 hs2 hperm
  intro a b ha hb hab hba
  have hk : a.key = b.key := le_antisymm hab hba
  have ha' : a ∈ R.map clearOverlap := hperm.subset ha
  obtain ⟨a0, ha0, rfl⟩ := List.mem_map.mp ha'
  obtain ⟨b0, hb0, rfl⟩ := List.mem_map.mp hb
  have : a0 = b0 := key_inj_of_facts hf ha0 hb0 hk
  rw [this]

/-- Claim C2: for a region `R` (sorted in halfsegment order, made of
non-degenerate halfsegments, closed under brother, all of one `regionID`)
whose segments meet only in shared end points, `overlayPlaneSweep(R, empty)`
returns, for every fuel of at least one per event, exactly the halfsegments of
`R` with their end points, `la`, `lb` (and `regionID`, `stripID`), each once,
and every returned halfsegment has `ola = olb = -1`. -/
theorem c2_overlay_with_empty (R : List halfsegment) (rid : Int) (hs : sortedHseg R)
    (hn : ∀ h ∈ R, nonDegenerate h) (hc : closedUnderBrother R)
    (hr : ∀ h ∈ R, h.regionID = rid) (hm : segmentsMeetOnlyInEndpoints R)
    (fuel : Nat) (hfuel : R.length ≤ fuel) :
    ∃ res, overlayPlaneSweep fuel R [] [] = Except.ok res ∧
      res = R.map (fun h => { h with ola := -1, olb := -1 }) ∧
      res.Perm (R.map (fun h => { h with ola := -1, olb := -1 })) ∧
      ∀ h ∈ res, h.ola = -1 ∧ h.olb = -1 := by
  have hf := regionFacts_of R rid hs hn hc hr hm
  refine ⟨R.map clearOverlap, overlay_with_empty_core hf fuel hfuel, rfl, List.Perm.refl _, ?_⟩
  intro h hh
  obtain ⟨h0, _, rfl⟩ := List.mem_map.mp hh
  exact ⟨rfl, rfl⟩

theorem unitSquare_meet : segmentsMeetOnlyInEndpoints unitSquare := by
  unfold segmentsMeetOnlyInEndpoints unitSquare squareAt
  simp only [List.pairwise_cons, List.forall_mem_cons, List.not_mem_nil, false_implies,
    implies_true, List.Pairwise.nil, and_true]
  and_intros
  all_goals first
    | (left; decide!)
    | (right
       intro s t hs0 hs1 ht0 ht1 ex ey
       simp only [mkHseg] at ex ey
       norm_num at ex ey
       done)
    | (right
       intro s t hs0 hs1 ht0 ht1 ex ey
       simp only [mkHseg] at ex ey
       norm_num at ex ey
       constructor
       · first
         | (left; linarith)
         | (right; linarith)
       · first
         | (left; linarith)
         | (right; linarith))

theorem c2_overlay_with_empty_witness :
    sortedHseg unitSquare ∧ (∀ h ∈ unitSquare, nonDegenerate h) ∧
      closedUnderBrother unitSquare ∧ (∀ h ∈ unitSquare, h.regionID = 2) ∧
      segmentsMeetOnlyInEndpoints unitSquare ∧ unitSquare.length ≤ 8 ∧
      ∃ res, overlayPlaneSweep 8 unitSquare [] [] = Except.ok res ∧
        res = unitSquare.map (fun h => { h with ola := -1, olb := -1 }) ∧
        res.Perm (unitSquare.map (fun h => { h with ola := -1, olb := -1 })) ∧
        ∀ h ∈ res, h.ola = -1 ∧ h.olb = -1 :=
  ⟨by decide!, by decide!, by decide!, by decide!, unitSquare_meet, by decide!,
    c2_overlay_with_empty unitSquare 2 (by decide!) (by decide!) (by decide!) (by decide!)
      unitSquare_meet 8 (by decide!)⟩

/-! ## The sweep of two copies of a region whose segments do not cross -/

/-- Two halfsegments that `operator==` identifies have the same end points. -/
theorem eq_coords {a b : halfsegment} (h : a.eq b = true) :
    a.dx = b.dx ∧ a.dy = b.dy ∧ a.sx = b.sx ∧ a.sy = b.sy := by
  unfold halfsegment.eq at h
  simp only [Bool.and_eq_true, decide_eq_true_eq] at h
  exact ⟨h.1.1.1, h.1.1.2, h.1.2, h.2⟩

theorem alHsegLT_congr (a : activeListVec) {h h' : halfsegment} (he : h.eq h' = true)
    (x : halfsegment) : a.alHsegLT h x = a.alHsegLT h' x := by
  obtain ⟨e1, e2, e3, e4⟩ := eq_coords he
  unfold activeListVec.alHsegLT halfsegment.eq halfsegment.colinear halfsegment.getYvalAtX
  simp only [e1, e2, e3, e4]

theorem alHsegLT_eq (a : activeListVec) {h x : halfsegment} (he : h.eq x = true) :
    a.alHsegLT h x = Except.ok false := by
  unfold activeListVec.alHsegLT
  simp [he, pure, Except.pure]

/-- The scan of `insert` when it finds an entry equal to `h1` before any entry `h1` is
below of. -/
theorem al_insertScan_dup (a : activeListVec) (h1 : halfsegment) :
    ∀ (l1 : List halfsegment) (c : halfsegment) (l2 : List halfsegment) (i : Int),
      (∀ x ∈ l1, x.eq h1 = false) → (∀ x ∈ l1, a.alHsegLT h1 x = Except.ok false) →
      c.eq h1 = true →
      a.insertScan h1 (l1 ++ c :: l2) i
        = Except.ok (true, c, i + (l1.length : Int), l1 ++ c :: l2) := by
  intro l1
  induction l1 with
  | nil =>
    intro c l2 i _ _ hc
    simp [activeListVec.insertScan, hc, pure, Except.pure]
  | cons x xs ih =>
    intro c l2 i hne hlt hc
    have hx : x.eq h1 = false := hne x (List.mem_cons_self _ _)
    have hb := hlt x (List.mem_cons_self _ _)
    have := ih c l2 (i + 1) (fun y hy => hne y (List.mem_cons_of_mem _ hy))
      (fun y hy => hlt y (List.mem_cons_of_mem _ hy)) hc
    simp [activeListVec.insertScan, hx, hb, this, bind, Except.bind, pure, Except.pure]
    omega

theorem al_insertScan_pos (a : activeListVec) (h1 : halfsegment) :
    ∀ (l : List halfsegment) (i : Int), (∀ x ∈ l, x.eq h1 = false) →
      (∀ x ∈ l, ∃ b, a.alHsegLT h1 x = Except.ok b) →
      (∃ x ∈ l, a.alHsegLT h1 x = Except.ok true) →
      ∃ l1 l2, l = l1 ++ l2 ∧ l2 ≠ [] ∧ (∀ x ∈ l1, a.alHsegLT h1 x = Except.ok false) ∧
        a.insertScan h1 l i = Except.ok (false, h1, i + (l1.length : Int), l1 ++ h1 :: l2) := by
  intro l
  induction l with
  | nil => rintro i _ _ ⟨x, hx, _⟩; cases hx
  | cons x xs ih =>
    intro i hne hok hex
    have hx : x.eq h1 = false := hne x (List.mem_cons_self _ _)
    obtain ⟨b, hb⟩ := hok x (List.mem_cons_self _ _)
    cases b with
    | true =>
      refine ⟨[], x :: xs, rfl, by simp, by simp, ?_⟩
      simp [activeListVec.insertScan, hx, hb, bind, Except.bind, pure, Except.pure]
    | false =>
      have hex' : ∃ y ∈ xs, a.alHsegLT h1 y = Except.ok true := by
        obtain ⟨y, hy, hyt⟩ := hex
        rcases List.mem_cons.mp hy with rfl | hy'
        · rw [hb] at hyt; cases hyt
        · exact ⟨y, hy', hyt⟩
      obtain ⟨l1, l2, hl, hl2, hf, hs⟩ := ih (i + 1)
        (fun y hy => hne y (List.mem_cons_of_mem _ hy))
        (fun y hy => hok y (List.mem_cons_of_mem _ hy)) hex'
      refine ⟨x :: l1, l2, by rw [hl]; rfl, hl2, ?_, ?_⟩
      · intro y hy
        rcases List.mem_cons.mp hy with rfl | hy'
        · exact hb
        · exact hf y hy'
      · simp [activeListVec.insertScan, hx, hb, hs, bind, Except.bind, pure, Except.pure]
        omega

/-- Method `insert` of a halfsegment no entry is equal to, with the position it is put at:
at the end, or in front of the first entry it is below of. -/
theorem al_insert_pos (a : activeListVec) (h1 : halfsegment)
    (hne : ∀ x ∈ a.al, x.eq h1 = false)
    (hok : ∀ x ∈ a.al, ∃ b, a.alHsegLT h1 x = Except.ok b) :
    ∃ l1 l2, a.al = l1 ++ l2 ∧
      a.insert h1 = Except.ok (⟨l1 ++ h1 :: l2, a.xVal⟩, false, h1, (l1.length : Int)) ∧
      (l2 = [] ∨ (l2 ≠ [] ∧ (∃ last, (l1 ++ l2).getLast? = some last ∧
          a.alHsegLT h1 last = Except.ok true) ∧
        ∀ x ∈ l1, a.alHsegLT h1 x = Except.ok false)) := by
  unfold activeListVec.insert
  cases hl : a.al.getLast? with
  | none =>
    have : a.al = [] := List.getLast?_eq_none_iff.mp hl
    refine ⟨[], [], by simp [this], ?_, Or.inl rfl⟩
    simp [this, pure, Except.pure]
  | some last =>
    have hmem : last ∈ a.al := List.mem_of_getLast?_eq_some hl
    obtain ⟨b, hb⟩ := hok last hmem
    cases b with
    | false =>
      refine ⟨a.al, [], by simp, ?_, Or.inl rfl⟩
      simp [hb, bind, Except.bind, pure, Except.pure]
    | true =>
      obtain ⟨l1, l2, hal, hl2, hf, hs⟩ :=
        al_insertScan_pos a h1 a.al 0 hne hok ⟨last, hmem, hb⟩
      refine ⟨l1, l2, hal, ?_, Or.inr ⟨hl2, ⟨last, by rw [← hal]; exact hl, hb⟩, hf⟩⟩
      simp [hb, hs, bind, Except.bind, pure, Except.pure]

/-- Method `insert` of a halfsegment an entry is equal to: the entry is reported. -/
theorem al_insert_dup (a : activeListVec) (h1 : halfsegment)
    (l1 : List halfsegment) (c : halfsegment) (l2 : List halfsegment)
    (hal : a.al = l1 ++ c :: l2) (hl2 : l2 ≠ [])
    (hlast : ∃ last, l2.getLast? = some last ∧ a.alHsegLT h1 last = Except.ok true)
    (hne : ∀ x ∈ l1, x.eq h1 = false) (hlt : ∀ x ∈ l1, a.alHsegLT h1 x = Except.ok false)
    (hc : c.eq h1 = true) :
    a.insert h1 = Except.ok (a, true, c, (l1.length : Int)) := by
  obtain ⟨last, hl, hb⟩ := hlast
  have hgl : a.al.getLast? = some last := by
    rw [hal, List.getLast?_append]
    obtain ⟨y, ys, rfl⟩ := List.exists_cons_of_ne_nil hl2
    rw [List.getLast?_cons_cons, hl]
    rfl
  unfold activeListVec.insert
  rw [hgl]
  have hs := al_insertScan_dup a h1 l1 c l2 0 hne hlt hc
  rw [← hal] at hs
  simp [hb, hs, bind, Except.bind, pure, Except.pure]

/-- A left-halfsegment event in which the new segment is no duplicate and meets neither
neighbour: the segment is stored, with overlap labels taken from the neighbour below, and
nothing else changes. -/
theorem leftEvent_fresh (st : SweepState) (h : halfsegment) (X Y : ℚ)
    (l1 l2 : List halfsegment)
    (hins : st.activeList.insert (clearOverlap h)
      = Except.ok (⟨l1 ++ clearOverlap h :: l2, st.activeList.xVal⟩, false, clearOverlap h,
          (l1.length : Int)))
    (hl1 : ∀ b ∈ l1, ∀ v, findIntersectionPoint b (withOverlap h v v)
      = (false, dblMax, dblMax, false))
    (hl2 : ∀ a ∈ l2, ∀ v, findIntersectionPoint a (withOverlap h v v)
      = (false, dblMax, dblMax, false)) :
    ∃ v, leftEvent st h X Y
      = Except.ok { st with activeList := ⟨l1 ++ withOverlap h v v :: l2, st.activeList.xVal⟩ } := by
  unfold leftEvent
  have e0 : ({ h with ola := -1, olb := -1 } : halfsegment) = clearOverlap h := rfl
  simp only [e0, hins, bind, Except.bind, Bool.false_eq_true, if_false]
  have hcc : ∀ v, (clearOverlap h).eq (withOverlap h v v) = true := by
    intro v
    simp [halfsegment.eq, clearOverlap, withOverlap]
  rcases List.eq_nil_or_concat l1 with rfl | ⟨l1', b, rfl⟩
  · -- no below neighbour
    refine ⟨-1, ?_⟩
    simp only [List.nil_append, List.length_nil, Nat.cast_zero, getBelow_first]
    cases l2 with
    | nil =>
      have := getAbove_last [] (clearOverlap h) st.activeList.xVal (clearOverlap h)
      simp only [List.nil_append, List.length_nil, Nat.cast_zero] at this
      simp only [this, pure, Except.pure]
      have r := replace_mid [] (clearOverlap h) [] st.activeList.xVal (clearOverlap h)
        (clearOverlap h) (hcc (-1))
      simp only [List.nil_append, List.length_nil, Nat.cast_zero] at r
      simp only [r, insertBrokenSegsToActiveListAndDiscoveredQueue, pure, Except.pure]
      rfl
    | cons a l2' =>
      have := getAbove_mid [] (clearOverlap h) a l2' st.activeList.xVal (clearOverlap h)
      simp only [List.nil_append, List.length_nil, Nat.cast_zero] at this
      simp only [this, pure, Except.pure]
      rw [breakHsegs_none a (clearOverlap h) [] false (hl2 a (List.mem_cons_self _ _) (-1))]
      have r := replace_mid [] (clearOverlap h) (a :: l2') st.activeList.xVal (clearOverlap h)
        (clearOverlap h) (hcc (-1))
      simp only [List.nil_append, List.length_nil, Nat.cast_zero] at r
      simp only [r, insertBrokenSegsToActiveListAndDiscoveredQueue, pure, Except.pure]
      rfl
  · -- below neighbour `b`
    have hlen : (((l1'.concat b).length : Nat) : Int) = (l1'.length : Int) + 1 := by
      simp
    have hlist : l1'.concat b ++ clearOverlap h :: l2 = l1' ++ b :: clearOverlap h :: l2 := by
      simp
    have hlist' : ∀ c, l1'.concat b ++ c :: l2 = l1' ++ b :: c :: l2 := by
      intro c; simp
    refine ⟨if h.regionID ≠ b.regionID then
        (if b.dx ≠ b.sx then b.la else b.lb) else b.ola, ?_⟩
    rw [hlen, hlist, hlist']
    simp only [getBelow_mid]
    have hbi := hl1 b (by simp)
    cases l2 with
    | nil =>
      have ga := getAbove_last (l1' ++ [b]) (clearOverlap h) st.activeList.xVal (clearOverlap h)
      simp only [List.append_assoc, List.singleton_append, List.length_append, List.length_cons,
        List.length_nil, Nat.cast_add, Nat.cast_one, zero_add] at ga
      simp only [ga, pure, Except.pure]
      have r := fun v => replace_mid (l1' ++ [b]) (clearOverlap h) [] st.activeList.xVal
        (clearOverlap h) (withOverlap h v v) (eq_self_hseg _)
      simp only [List.append_assoc, List.singleton_append, List.length_append, List.length_cons,
        List.length_nil, Nat.cast_add, Nat.cast_one, zero_add] at r
      split_ifs
      all_goals
        erw [breakHsegs_none b (withOverlap h _ _) [] false (hbi _)]
        simp only []
        erw [r]
        simp only [insertBrokenSegsToActiveListAndDiscoveredQueue, pure, Except.pure]
    | cons a l2' =>
      have ga := getAbove_mid (l1' ++ [b]) (clearOverlap h) a l2' st.activeList.xVal
        (clearOverlap h)
      simp only [List.append_assoc, List.singleton_append, List.length_append, List.length_cons,
        List.length_nil, Nat.cast_add, Nat.cast_one, zero_add] at ga
      simp only [ga, pure, Except.pure]
      have r := fun v => replace_mid (l1' ++ [b]) (clearOverlap h) (a :: l2')
        st.activeList.xVal (clearOverlap h) (withOverlap h v v) (eq_self_hseg _)
      simp only [List.append_assoc, List.singleton_append, List.length_append, List.length_cons,
        List.length_nil, Nat.cast_add, Nat.cast_one, zero_add] at r
      split_ifs
      all_goals
        erw [breakHsegs_none b (withOverlap h _ _) [] false (hbi _)]
        simp only []
        erw [breakHsegs_none a (withOverlap h _ _) [] false (hl2 a (List.mem_cons_self _ _) _)]
        simp only []
        erw [r]
        simp only [insertBrokenSegsToActiveListAndDiscoveredQueue, pure, Except.pure]

/-- A left-halfsegment event whose segment is already stored in the active list: the stored
entry receives the labels of the new segment as overlap labels. -/
theorem leftEvent_dup (st : SweepState) (h : halfsegment) (X Y : ℚ)
    (l1 l2 : List halfsegment) (c : halfsegment)
    (hal : st.activeList.al = l1 ++ c :: l2)
    (hins : st.activeList.insert (clearOverlap h)
      = Except.ok (st.activeList, true, c, (l1.length : Int))) :
    leftEvent st h X Y
      = Except.ok { st with activeList := ⟨l1 ++ withOverlap c h.la h.lb :: l2,
                                           st.activeList.xVal⟩ } := by
  unfold leftEvent
  have e0 : ({ h with ola := -1, olb := -1 } : halfsegment) = clearOverlap h := rfl
  simp only [e0, hins, bind, Except.bind, if_true]
  have hst : st.activeList = ⟨l1 ++ c :: l2, st.activeList.xVal⟩ := by
    cases h : st.activeList with
    | mk al xv => rw [h] at hal; simp at hal; simp [hal]
  rw [hst]
  have r := replace_mid l1 c l2 st.activeList.xVal (withOverlap c h.la h.lb)
    (withOverlap c h.la h.lb) (by simp [halfsegment.eq, withOverlap])
  erw [r]
  rfl

theorem colinear_of_eq (a b : halfsegment) (h : a.eq b = true) : a.colinear b = true := by
  obtain ⟨e1, e2, e3, e4⟩ := eq_coords h
  unfold halfsegment.colinear
  simp only [e1, e2, e3, e4]
  simp

/-- The halfsegments of `breakHsegs` for two halfsegments with the same end points: the
new one with the labels of the stored one as overlap labels, and its brother to insert. -/
theorem breakHsegs_same (c h : halfsegment) (he : c.eq h = true) :
    breakHsegs c h [] false
      = (true, withOverlap h c.la c.lb, [(withOverlap h c.la c.lb).getBrother], true) := by
  obtain ⟨e1, e2, e3, e4⟩ := eq_coords he
  unfold breakHsegs
  have hf : findIntersectionPoint c h = (true, h.dx, h.dy, true) := by
    unfold findIntersectionPoint
    simp [colinear_of_eq c h he]
  simp only [hf, if_true]
  unfold breakColinear
  simp [e1, e2, e3, e4, withOverlap]

/-- The brother of a left halfsegment at whose dominating point the sweep line stands goes
to the event queue. -/
theorem insertBroken_brother (b : halfsegment) (res : List halfsegment) (q q' : eventQueue)
    (al : activeListVec) (hl : b.getBrother.isLeft = true)
    (hq : q.insert b = Except.ok q') :
    insertBrokenSegsToActiveListAndDiscoveredQueue [b] res q al b.sx b.sy
      = Except.ok (res, q', al) := by
  have hbl : b.isLeft = false := isLeft_getBrother_of_left hl
  have hlx := (isLeft_iff_lexLt b.getBrother).mp hl
  unfold lexLt at hlx
  simp only [halfsegment.getBrother] at hlx
  have h1 : ¬ ((b.dx ≠ b.sx ∧ (b.dx ≤ b.sx ∧ b.sx ≤ b.sx)) ∨
      (b.dx = b.sx ∧ (b.dy ≤ b.sy ∧ b.sy ≤ b.sy))) := by
    rintro (⟨h1, h2, _⟩ | ⟨h1, h2, _⟩)
    · rcases hlx with h | ⟨h, _⟩
      · exact absurd h (not_lt.mpr h2)
      · exact h1 h.symm
    · rcases hlx with h | ⟨_, h⟩
      · rw [h1] at h; exact lt_irrefl _ h
      · exact absurd h (not_lt.mpr h2)
  unfold insertBrokenSegsToActiveListAndDiscoveredQueue
  simp only [h1, if_false, hbl, hq, bind, Except.bind]
  simp [insertBrokenSegsToActiveListAndDiscoveredQueue, pure, Except.pure]

/-- A left-halfsegment event whose segment lies on the last entry of the active list,
which `insert` does not report: the new segment replaces that entry, with the labels of the
entry as overlap labels, and its brother joins the event queue. -/
theorem leftEvent_overlapLast (st : SweepState) (h : halfsegment) (X Y : ℚ)
    (l1 : List halfsegment) (c : halfsegment) (q : eventQueue)
    (hal : st.activeList.al = l1 ++ [c]) (hc : c.eq h = true)
    (hreg : h.regionID ≠ c.regionID)
    (hX : X = h.dx) (hY : Y = h.dy) (hleft : h.isLeft = true)
    (hq : st.discoveredSegs.insert (withOverlap h c.la c.lb).getBrother = Except.ok q) :
    leftEvent st h X Y
      = Except.ok { st with activeList := ⟨l1 ++ [withOverlap h c.la c.lb], st.activeList.xVal⟩,
                            discoveredSegs := q } := by
  have hst : st.activeList = ⟨l1 ++ [c], st.activeList.xVal⟩ := by
    cases h : st.activeList with
    | mk al xv => rw [h] at hal; simp at hal; simp [hal]
  have hcc : (clearOverlap h).eq c = true := by
    obtain ⟨e1, e2, e3, e4⟩ := eq_coords hc
    simp [halfsegment.eq, clearOverlap, e1, e2, e3, e4]
  have hins : st.activeList.insert (clearOverlap h)
      = Except.ok (⟨l1 ++ [c, clearOverlap h], st.activeList.xVal⟩, false, clearOverlap h,
          (l1.length : Int) + 1) := by
    unfold activeListVec.insert
    have hl : st.activeList.al.getLast? = some c := by rw [hal]; simp
    rw [hl]
    simp [alHsegLT_eq st.activeList hcc, bind, Except.bind, pure, Except.pure, hal]
  unfold leftEvent
  have e0 : ({ h with ola := -1, olb := -1 } : halfsegment) = clearOverlap h := rfl
  simp only [e0, hins, bind, Except.bind, Bool.false_eq_true, if_false]
  have gb := getBelow_mid l1 c (clearOverlap h) [] st.activeList.xVal (clearOverlap h)
  have ga := getAbove_last (l1 ++ [c]) (clearOverlap h) st.activeList.xVal (clearOverlap h)
  simp only [List.append_assoc, List.singleton_append, List.length_append, List.length_cons,
    List.length_nil, Nat.cast_add, Nat.cast_one, zero_add] at ga
  simp only [gb, ga, pure, Except.pure]
  have hbr : ∀ v, breakHsegs c (withOverlap h v v) [] false
      = (true, withOverlap h c.la c.lb, [(withOverlap h c.la c.lb).getBrother], true) := by
    intro v
    have := breakHsegs_same c (withOverlap h v v) (by
      obtain ⟨e1, e2, e3, e4⟩ := eq_coords hc
      simp [halfsegment.eq, withOverlap, e1, e2, e3, e4])
    rw [this]
    rfl
  have er := erase_mid l1 c [clearOverlap h] st.activeList.xVal c (eq_self_hseg c)
  have rp := replace_mid l1 (clearOverlap h) [] st.activeList.xVal (clearOverlap h)
    (withOverlap h c.la c.lb) (eq_self_hseg _)
  have hreg' : (clearOverlap h).regionID ≠ c.regionID := hreg
  split_ifs
  all_goals
    erw [hbr]
    simp only [add_sub_cancel_right]
    erw [er]
    simp only []
    erw [rp]
    simp only []
    subst hX hY
    have ib := insertBroken_brother (withOverlap h c.la c.lb).getBrother st.result
      st.discoveredSegs q ⟨l1 ++ [withOverlap h c.la c.lb], st.activeList.xVal⟩ hleft hq
    erw [ib]

theorem key_setRegion (rid : Int) (h : halfsegment) : (setRegion rid h).key = h.key := rfl

theorem key_withOverlap (h : halfsegment) (a b : Int) : (withOverlap h a b).key = h.key := rfl

theorem key_selfOverlap (rid : Int) (h : halfsegment) : (selfOverlap rid h).key = h.key := rfl

theorem lt_false_of_key_le {h g : halfsegment} (hk : g.key ≤ h.key) : h.lt g = false := by
  have := (not_lt_iff_key h g).mpr hk
  simpa using this

theorem lt_true_of_key_lt {h g : halfsegment} (hk : h.key < g.key) : h.lt g = true :=
  (lt_iff_key h g).mpr hk

/-- A non-degenerate halfsegment with coordinates of at most `dblMax` is before `maxSeg`. -/
theorem lt_maxSeg (h : halfsegment) (hn : nonDegenerate h) (h1 : h.dx ≤ dblMax)
    (h2 : h.dy ≤ dblMax) (h3 : h.sx ≤ dblMax) (h4 : h.sy ≤ dblMax) :
    h.lt maxSeg = true := by
  have hm : maxSeg.dx = dblMax ∧ maxSeg.dy = dblMax ∧ maxSeg.sx = dblMax ∧
      maxSeg.sy = dblMax := ⟨rfl, rfl, rfl, rfl⟩
  obtain ⟨m1, m2, m3, m4⟩ := hm
  unfold halfsegment.lt
  by_cases hc : h.dx < maxSeg.dx ∨ (h.dx = maxSeg.dx ∧ h.dy < maxSeg.dy)
  · rw [if_pos hc]
  · rw [if_neg hc]
    rw [m1, m2] at hc
    have hx : h.dx = dblMax := by
      by_contra hne
      exact hc (Or.inl (lt_of_le_of_ne h1 hne))
    have hy : h.dy = dblMax := by
      by_contra hne
      exact hc (Or.inr ⟨hx, lt_of_le_of_ne h2 hne⟩)
    have hs : h.sx < dblMax ∨ (h.sx = dblMax ∧ h.sy < dblMax) := by
      by_cases hsx : h.sx = dblMax
      · right
        refine ⟨hsx, lt_of_le_of_ne h4 ?_⟩
        intro hsy
        exact hn ⟨by rw [hx, hsx], by rw [hy, hsy]⟩
      · left; exact lt_of_le_of_ne h3 hsx
    have hl : h.isLeft = false := by
      unfold halfsegment.isLeft
      rw [hx, hy]
      rcases hs with hs | ⟨hs, hs'⟩
      · simp [not_lt.mpr hs.le, ne_of_gt hs]
      · simp [hs, not_lt.mpr hs'.le]
    have hml : maxSeg.isLeft = false := by
      unfold halfsegment.isLeft
      rw [m1, m2, m3, m4]
      simp
    have hcol : h.colinear maxSeg = true := by
      unfold halfsegment.colinear
      rw [m1, m2, m3, m4, hx, hy]
      simp
    rw [m1, m2, m3, m4, if_pos ⟨hx, hy⟩, hl, hml, hcol]
    simp only [bne_self_eq_false, Bool.false_eq_true, if_false, Bool.true_and]
    rcases hs with hs | ⟨hs, hs'⟩
    · simp [hs]
    · simp [hs, hs']

theorem getAt_mid {α : Type} (P S : List α) (e : α) : (P ++ e :: S).get? P.length = some e := by
  rw [List.get?_eq_getElem?, List.getElem?_append_right (le_refl _)]
  simp

theorem getAt_mid_succ {α : Type} (P S : List α) (e : α) :
    (P ++ e :: S).get? (P.length + 1) = S.head? := by
  rw [List.get?_eq_getElem?, List.getElem?_append_right (by omega)]
  cases S <;> simp

/-- The next event when both input arrays stand at the same segment and the event queue
holds nothing up to it: the entry of the first array. -/
theorem nextEvent_first (P S : List halfsegment) (e : halfsegment) (rid2 : Int)
    (st : SweepState) (h1 : st.r1Pos = P.length) (h2 : st.r2Pos = P.length)
    (hq : ∀ b, st.discoveredSegs.peek = some b → e.key < b.key) :
    nextEvent (P ++ e :: S) ((P ++ e :: S).map (setRegion rid2)) st = (e, some 1) := by
  unfold nextEvent
  have hg2 : ((P ++ e :: S).map (setRegion rid2)).get? st.r2Pos = some (setRegion rid2 e) := by
    rw [h2, List.map_append, List.map_cons]
    have := getAt_mid (P.map (setRegion rid2)) (S.map (setRegion rid2)) (setRegion rid2 e)
    rwa [List.length_map] at this
  rw [h1, getAt_mid, hg2]
  have hlt : (setRegion rid2 e).lt e = false := lt_false_of_key_le (le_refl _)
  simp only [hlt, Bool.false_eq_true, if_false]
  cases hp : st.discoveredSegs.peek with
  | none => rfl
  | some b =>
    have hk := hq b hp
    have hb1 : b.lt e = false := lt_false_of_key_le hk.le
    have hb2 : b.eq e = false := eq_false_of_key_ne (ne_of_gt hk)
    simp [hb1, hb2]

/-- The next event when the first array is one entry ahead of the second and the event
queue holds nothing up to that entry: the entry of the second array. -/
theorem nextEvent_second (P S : List halfsegment) (e : halfsegment) (rid2 : Int)
    (st : SweepState) (h1 : st.r1Pos = P.length + 1) (h2 : st.r2Pos = P.length)
    (hq : ∀ b, st.discoveredSegs.peek = some b → e.key < b.key)
    (hS : ∀ x ∈ S, e.key < x.key) (hmax : e.lt maxSeg = true) :
    nextEvent (P ++ e :: S) ((P ++ e :: S).map (setRegion rid2)) st
      = (setRegion rid2 e, some 2) := by
  unfold nextEvent
  have hg2 : ((P ++ e :: S).map (setRegion rid2)).get? st.r2Pos = some (setRegion rid2 e) := by
    rw [h2, List.map_append, List.map_cons]
    have := getAt_mid (P.map (setRegion rid2)) (S.map (setRegion rid2)) (setRegion rid2 e)
    rwa [List.length_map] at this
  rw [h1, getAt_mid_succ, hg2]
  have hfin : (match st.discoveredSegs.peek with
      | some tmpSeg =>
        if (tmpSeg.lt (setRegion rid2 e) || tmpSeg.eq (setRegion rid2 e)) = true then
          (tmpSeg, some 3)
        else (setRegion rid2 e, some 2)
      | none => (setRegion rid2 e, some 2)) = (setRegion rid2 e, some 2) := by
    cases hp : st.discoveredSegs.peek with
    | none => rfl
    | some b =>
      have hk := hq b hp
      have hb1 : b.lt (setRegion rid2 e) = false := lt_false_of_key_le hk.le
      have hb2 : b.eq (setRegion rid2 e) = false := eq_false_of_key_ne (ne_of_gt hk)
      simp [hb1, hb2]
  cases S with
  | nil =>
    have hlt : (setRegion rid2 e).lt maxSeg = true := by
      rw [lt_iff_key] at hmax ⊢
      exact hmax
    simp only [List.head?_nil, hlt, if_true]
    exact hfin
  | cons x S' =>
    have hlt : (setRegion rid2 e).lt x = true :=
      lt_true_of_key_lt (hS x (List.mem_cons_self _ _))
    simp only [List.head?_cons, hlt, if_true]
    exact hfin

/-- The next event when the head of the event queue has the end points of the entry both
input arrays stand at: the head of the queue. -/
theorem nextEvent_queue (P S : List halfsegment) (e : halfsegment) (rid2 : Int)
    (st : SweepState) (b : halfsegment) (q : List halfsegment)
    (h1 : st.r1Pos = P.length) (h2 : st.r2Pos = P.length)
    (hq : st.discoveredSegs.eq = b :: q) (hb : b.key = e.key) :
    nextEvent (P ++ e :: S) ((P ++ e :: S).map (setRegion rid2)) st = (b, some 3) := by
  unfold nextEvent
  have hg2 : ((P ++ e :: S).map (setRegion rid2)).get? st.r2Pos = some (setRegion rid2 e) := by
    rw [h2, List.map_append, List.map_cons]
    have := getAt_mid (P.map (setRegion rid2)) (S.map (setRegion rid2)) (setRegion rid2 e)
    rwa [List.length_map] at this
  rw [h1, getAt_mid, hg2]
  have hlt : (setRegion rid2 e).lt e = false := lt_false_of_key_le (le_refl _)
  have hp : st.discoveredSegs.peek = some b := by
    unfold eventQueue.peek; rw [hq]; rfl
  have hbe : b.eq e = true := (eq_iff_key b e).mpr hb
  simp [hlt, hp, hbe]

theorem sweepStep_first (P S : List halfsegment) (e : halfsegment) (rid2 : Int)
    (st : SweepState) (h1 : st.r1Pos = P.length) (h2 : st.r2Pos = P.length)
    (hq : ∀ b, st.discoveredSegs.peek = some b → e.key < b.key) :
    sweepStep (P ++ e :: S) ((P ++ e :: S).map (setRegion rid2)) st =
      (if e.isLeft then
        leftEvent { st with segSource := some 1, r1Pos := st.r1Pos + 1,
                            activeList := ⟨st.activeList.al, e.dx⟩ } e e.dx e.dy
      else
        rightEvent { st with segSource := some 1, r1Pos := st.r1Pos + 1,
                             activeList := ⟨st.activeList.al, e.dx⟩ } e e.dx e.dy) := by
  unfold sweepStep
  rw [nextEvent_first P S e rid2 st h1 h2 hq]
  simp only [bind, Except.bind, pure, Except.pure]

theorem sweepStep_second (P S : List halfsegment) (e : halfsegment) (rid2 : Int)
    (st : SweepState) (h1 : st.r1Pos = P.length + 1) (h2 : st.r2Pos = P.length)
    (hq : ∀ b, st.discoveredSegs.peek = some b → e.key < b.key)
    (hS : ∀ x ∈ S, e.key < x.key) (hmax : e.lt maxSeg = true) :
    sweepStep (P ++ e :: S) ((P ++ e :: S).map (setRegion rid2)) st =
      (if e.isLeft then
        leftEvent { st with segSource := some 2, r2Pos := st.r2Pos + 1,
                            activeList := ⟨st.activeList.al, e.dx⟩ } (setRegion rid2 e) e.dx e.dy
      else
        rightEvent { st with segSource := some 2, r2Pos := st.r2Pos + 1,
                             activeList := ⟨st.activeList.al, e.dx⟩ }
          (setRegion rid2 e) e.dx e.dy) := by
  unfold sweepStep
  rw [nextEvent_second P S e rid2 st h1 h2 hq hS hmax]
  simp only [bind, Except.bind, pure, Except.pure]
  rfl

theorem sweepStep_queue (P S : List halfsegment) (e : halfsegment) (rid2 : Int)
    (st : SweepState) (b : halfsegment) (q : List halfsegment)
    (h1 : st.r1Pos = P.length) (h2 : st.r2Pos = P.length)
    (hq : st.discoveredSegs.eq = b :: q) (hb : b.key = e.key) (hbl : b.isLeft = false) :
    sweepStep (P ++ e :: S) ((P ++ e :: S).map (setRegion rid2)) st =
      rightEvent { st with segSource := some 3, discoveredSegs := ⟨q⟩,
                           activeList := ⟨st.activeList.al, b.dx⟩ } b b.dx b.dy := by
  unfold sweepStep
  rw [nextEvent_queue P S e rid2 st b q h1 h2 hq hb]
  have hp : st.discoveredSegs.pop = (⟨q⟩, true) := by
    unfold eventQueue.pop; rw [hq]
  simp only [bind, Except.bind, pure, Except.pure, hp, hbl, Bool.false_eq_true, if_false]

/-- One iteration of the loop of `overlayPlaneSweep` that succeeds. -/
theorem sweepLoop_step (r1 r2 : List halfsegment) (fuel : Nat) (st st' : SweepState)
    (hc : st.discoveredSegs.size > 0 ∨ st.r1Pos < r1.length ∨ st.r2Pos < r2.length)
    (hs : sweepStep r1 r2 st = Except.ok st') :
    sweepLoop r1 r2 (fuel + 1) st = sweepLoop r1 r2 fuel st' := by
  rw [sweepLoop_unfold, if_pos hc]
  simp only [hs, bind, Except.bind]

theorem eq_of_key_eq_of_pairwise {l : List halfsegment}
    (hp : l.Pairwise (fun a b => a.key ≠ b.key)) {a b : halfsegment} (ha : a ∈ l) (hb : b ∈ l)
    (hk : a.key = b.key) : a = b := by
  by_contra hne
  exact (hp.forall (fun x y hxy => Ne.symm hxy)) ha hb hne hk

theorem getBrother_selfOverlap (rid : Int) (h : halfsegment) :
    (selfOverlap rid h).getBrother = selfOverlap rid h.getBrother := rfl

theorem regionID_selfOverlap (rid : Int) (h : halfsegment) :
    (selfOverlap rid h).regionID = rid := rfl

theorem getBrother_inj {a b : halfsegment} (h : a.getBrother = b.getBrother) : a = b := by
  have := congrArg halfsegment.getBrother h
  rwa [getBrother_getBrother, getBrother_getBrother] at this

/-- An entry of the active list during the sweep of two copies of a region stands for a
left halfsegment of the region whose segment the sweep line meets. -/
theorem entry_facts {P S : List halfsegment} {e x : halfsegment} {rid1 rid2 : Int}
    {st : SweepState} (hf : RegionFacts (P ++ e :: S) rid1) (hsw : SweptBoth rid1 rid2 P st)
    (hx : x ∈ st.activeList.al) :
    ∃ L, L ∈ P ++ e :: S ∧ L ∈ P ∧ L.isLeft = true ∧ L.getBrother ∉ P ∧
      (x = selfOverlap rid1 L ∨ x = selfOverlap rid2 L) ∧ x.key = L.key ∧
      x.getBrother.key = L.getBrother.key ∧
      L.key < e.key ∧ e.key ≤ L.getBrother.key ∧ L.dx ≤ e.dx ∧ e.dx ≤ L.sx := by
  obtain ⟨L, hLP, hLl, hLb, hxL⟩ := hsw.alEntries x hx
  obtain ⟨hLR, h1, h2, h3, h4⟩ := active_facts hf hLP hLl hLb
  refine ⟨L, hLR, hLP, hLl, hLb, hxL, ?_, ?_, h1, h2, h3, h4⟩
  · rcases hxL with rfl | rfl <;> rfl
  · rcases hxL with rfl | rfl <;> rfl

/-- An entry of the event queue during the sweep of two copies of a region is the brother
of an entry of the active list for the second copy. -/
theorem queue_facts {P S : List halfsegment} {e b : halfsegment} {rid1 rid2 : Int}
    {st : SweepState} (hf : RegionFacts (P ++ e :: S) rid1) (hsw : SweptBoth rid1 rid2 P st)
    (hb : b ∈ st.discoveredSegs.eq) :
    ∃ L, L ∈ P ++ e :: S ∧ L ∈ P ∧ L.isLeft = true ∧ L.getBrother ∉ P ∧
      selfOverlap rid2 L ∈ st.activeList.al ∧ b = selfOverlap rid2 L.getBrother ∧
      b.key = L.getBrother.key ∧ e.key ≤ b.key := by
  obtain ⟨x, hx, hxr, rfl⟩ := (hsw.qEntries b).mp hb
  obtain ⟨L, hLR, hLP, hLl, hLb, hxL, hk, hkb, _, h2, _, _⟩ := entry_facts hf hsw hx
  have hx2 : x = selfOverlap rid2 L := by
    rcases hxL with h | h
    · rw [h, regionID_selfOverlap] at hxr
      rw [h, hxr]
    · exact h
  refine ⟨L, hLR, hLP, hLl, hLb, hx2 ▸ hx, by rw [hx2]; rfl, hkb, by rw [hkb]; exact h2⟩

theorem key_ne_of_left_right {R : List halfsegment} {rid : Int} (hf : RegionFacts R rid)
    {a b : halfsegment} (ha : a ∈ R) (hb : b ∈ R) (hal : a.isLeft = true)
    (hbl : b.isLeft = false) : a.key ≠ b.key := by
  intro hk
  have := key_inj_of_facts hf ha hb hk
  rw [this, hbl] at hal
  cases hal

/-- At a left halfsegment every entry of the event queue is still to come. -/
theorem queue_above_left {P S : List halfsegment} {e : halfsegment} {rid1 rid2 : Int}
    {st : SweepState} (hf : RegionFacts (P ++ e :: S) rid1) (hsw : SweptBoth rid1 rid2 P st)
    (hel : e.isLeft = true) : ∀ b ∈ st.discoveredSegs.eq, e.key < b.key := by
  intro b hb
  obtain ⟨L, hLR, _, hLl, _, _, _, hk, hle⟩ := queue_facts hf hsw hb
  refine lt_of_le_of_ne hle ?_
  rw [hk]
  exact key_ne_of_left_right hf (by simp) (hf.closed L hLR) hel (isLeft_getBrother_of_left hLl)

theorem peek_mem {q : eventQueue} {b : halfsegment} (h : q.peek = some b) : b ∈ q.eq := by
  unfold eventQueue.peek at h
  exact List.mem_of_mem_head? h

theorem not_mem_append_singleton_of_left {P : List halfsegment} {e L : halfsegment}
    (hel : e.isLeft = true) (hLl : L.isLeft = true) (hLb : L.getBrother ∉ P) :
    L.getBrother ∉ P ++ [e] := by
  intro hb
  rcases List.mem_append.mp hb with hb | hb
  · exact hLb hb
  · rw [List.mem_singleton] at hb
    rw [← hb, isLeft_getBrother_of_left hLl] at hel
    cases hel

/-- The state after both events of a left halfsegment `e`: the active list has one more
entry, for `e`. -/
theorem sweptBoth_insert (l1 l2 : List halfsegment) (E : halfsegment)
    {P S : List halfsegment} {e : halfsegment} {rid1 rid2 : Int}
    {st st2 : SweepState} (hne12 : rid1 ≠ rid2)
    (hf : RegionFacts (P ++ e :: S) rid1) (hsw : SweptBoth rid1 rid2 P st)
    (hel : e.isLeft = true) (hal : st.activeList.al = l1 ++ l2)
    (h1 : st2.r1Pos = P.length + 1) (h2 : st2.r2Pos = P.length + 1)
    (hal2 : st2.activeList.al = l1 ++ E :: l2)
    (hE : (E = selfOverlap rid1 e ∧ st2.discoveredSegs = st.discoveredSegs) ∨
      (E = selfOverlap rid2 e ∧ ∃ q1 q2, st.discoveredSegs.eq = q1 ++ q2 ∧
        st2.discoveredSegs.eq = q1 ++ E.getBrother :: q2 ∧
        sortedHseg (q1 ++ E.getBrother :: q2)))
    (hres : st2.result = st.result) : SweptBoth rid1 rid2 (P ++ [e]) st2 := by
  have heR : e ∈ P ++ e :: S := by simp
  have hebro : e.key < e.getBrother.key := key_lt_getBrother hel
  have hEk : E.key = e.key := by
    rcases hE with ⟨rfl, _⟩ | ⟨rfl, _⟩ <;> rfl
  have hold : ∀ x ∈ st.activeList.al, x.key ≠ E.key := by
    intro x hx
    obtain ⟨L, _, _, _, _, _, hk, _, hlt, _⟩ := entry_facts hf hsw hx
    rw [hk, hEk]
    exact ne_of_lt hlt
  have hmem : ∀ x, x ∈ st2.activeList.al ↔ x = E ∨ x ∈ st.activeList.al := by
    intro x
    rw [hal2, hal]
    simp only [List.mem_append, List.mem_cons]
    tauto
  have heb : e.getBrother ∉ P ++ [e] := by
    intro hb
    rcases List.mem_append.mp hb with hb | hb
    · exact not_mem_prefix_of_key_ge hf hebro.le hb
    · rw [List.mem_singleton] at hb
      rw [hb] at hebro
      exact lt_irrefl _ hebro
  constructor
  · rw [h1]; simp
  · rw [h2]; simp
  · rw [hal2]
    have hp := hsw.alKeys
    rw [hal] at hp hold
    rw [List.pairwise_append] at hp ⊢
    obtain ⟨p1, p2, p3⟩ := hp
    refine ⟨p1, ?_, ?_⟩
    · rw [List.pairwise_cons]
      exact ⟨fun y hy => (hold y (List.mem_append_right _ hy)).symm, p2⟩
    · intro a ha b hb
      rcases List.mem_cons.mp hb with rfl | hb
      · exact hold a (List.mem_append_left _ ha)
      · exact p3 a ha b hb
  · intro x hx
    rcases (hmem x).mp hx with rfl | hx
    · refine ⟨e, by simp, hel, heb, ?_⟩
      rcases hE with ⟨h, _⟩ | ⟨h, _⟩
      · exact Or.inl h
      · exact Or.inr h
    · obtain ⟨L, _, hLP, hLl, hLb, hxL, _⟩ := entry_facts hf hsw hx
      exact ⟨L, List.mem_append_left _ hLP, hLl,
        not_mem_append_singleton_of_left hel hLl hLb, hxL⟩
  · intro L hL hLl hLb
    rcases List.mem_append.mp hL with hLP | hLe
    · obtain ⟨x, hx, hk⟩ := hsw.alCover L hLP hLl (fun hb => hLb (List.mem_append_left _ hb))
      exact ⟨x, (hmem x).mpr (Or.inr hx), hk⟩
    · rw [List.mem_singleton] at hLe
      exact ⟨E, (hmem E).mpr (Or.inl rfl), by rw [hEk, hLe]⟩
  · rcases hE with ⟨_, hq⟩ | ⟨hE2, q1, q2, hq, hq2, hs⟩
    · rw [hq]; exact hsw.qStrict
    · rw [hq2]
      have hle := (sortedHseg_iff _).mp hs
      have hp := hsw.qStrict
      rw [hq] at hp
      have habove : ∀ b ∈ q1 ++ q2, b.key ≠ E.getBrother.key := by
        intro b hb
        rw [← hq] at hb
        obtain ⟨L, hLR, hLP, hLl, _, _, _, hk, _⟩ := queue_facts hf hsw hb
        rw [hk, hE2]
        show L.getBrother.key ≠ e.getBrother.key
        intro hke
        have := getBrother_inj (key_inj_of_facts hf (hf.closed L hLR) (hf.closed e heR) hke)
        rw [this] at hLP
        exact not_mem_prefix_of_key_ge hf (le_refl _) hLP
      rw [List.pairwise_append] at hp hle ⊢
      obtain ⟨p1, p2, p3⟩ := hp
      obtain ⟨s1, s2, s3⟩ := hle
      rw [List.pairwise_cons] at s2
      refine ⟨p1, ?_, ?_⟩
      · rw [List.pairwise_cons]
        refine ⟨fun y hy => lt_of_le_of_ne (s2.1 y hy) ?_, p2⟩
        exact (habove y (List.mem_append_right _ hy)).symm
      · intro a ha b hb
        rcases List.mem_cons.mp hb with rfl | hb
        · exact lt_of_le_of_ne (s3 a ha _ (List.mem_cons_self _ _))
            (habove a (List.mem_append_left _ ha))
        · exact p3 a ha b hb
  · intro b
    rcases hE with ⟨hE1, hq⟩ | ⟨hE2, q1, q2, hq, hq2, _⟩
    · rw [hq, hsw.qEntries b]
      constructor
      · rintro ⟨x, hx, hxr, hb⟩
        exact ⟨x, (hmem x).mpr (Or.inr hx), hxr, hb⟩
      · rintro ⟨x, hx, hxr, hb⟩
        rcases (hmem x).mp hx with rfl | hx
        · rw [hE1, regionID_selfOverlap] at hxr
          exact absurd hxr hne12
        · exact ⟨x, hx, hxr, hb⟩
    · have hbm : b ∈ st2.discoveredSegs.eq ↔ b = E.getBrother ∨ b ∈ st.discoveredSegs.eq := by
        rw [hq2, hq]
        simp only [List.mem_append, List.mem_cons]
        tauto
      rw [hbm, hsw.qEntries b]
      constructor
      · rintro (rfl | ⟨x, hx, hxr, hb⟩)
        · exact ⟨E, (hmem E).mpr (Or.inl rfl), by rw [hE2]; rfl, rfl⟩
        · exact ⟨x, (hmem x).mpr (Or.inr hx), hxr, hb⟩
      · rintro ⟨x, hx, hxr, hb⟩
        rcases (hmem x).mp hx with rfl | hx
        · exact Or.inl hb
        · exact Or.inr ⟨x, hx, hxr, hb⟩
  · rw [hres, hsw.result, emitted_append, hel]
    simp

theorem alHsegLT_xVal (l l' : List halfsegment) (x : ℚ) (h g : halfsegment) :
    (activeListVec.mk l x).alHsegLT h g = (activeListVec.mk l' x).alHsegLT h g := rfl

/-- Both events of a left halfsegment in the sweep of two copies of a region: the event of
the first copy stores the segment, the event of the second copy finds it, as a duplicate or
as a colinear neighbour, and the entry gets the labels of the segment as overlap labels. -/
theorem both_left {P S : List halfsegment} {e : halfsegment} {rid1 rid2 : Int}
    {st : SweepState} (hne12 : rid1 ≠ rid2) (hf : RegionFacts (P ++ e :: S) rid1)
    (hmax : e.lt maxSeg = true) (hsw : SweptBoth rid1 rid2 P st) (hel : e.isLeft = true) :
    ∃ st1 st2, sweepStep (P ++ e :: S) ((P ++ e :: S).map (setRegion rid2)) st = Except.ok st1 ∧
      st1.r2Pos = P.length ∧
      sweepStep (P ++ e :: S) ((P ++ e :: S).map (setRegion rid2)) st1 = Except.ok st2 ∧
      SweptBoth rid1 rid2 (P ++ [e]) st2 := by
  have heR : e ∈ P ++ e :: S := by simp
  have hebro : e.key < e.getBrother.key := key_lt_getBrother hel
  have hereg : e.regionID = rid1 := hf.region e heR
  have hqa := queue_above_left hf hsw hel
  have hpk : ∀ b, st.discoveredSegs.peek = some b → e.key < b.key :=
    fun b hb => hqa b (peek_mem hb)
  -- the event of the first copy
  rw [sweepStep_first P S e rid2 st hsw.r1Pos hsw.r2Pos hpk, if_pos hel]
  have hne : ∀ x ∈ (activeListVec.mk st.activeList.al e.dx).al,
      x.eq (clearOverlap e) = false := by
    intro x hx
    obtain ⟨L, _, _, _, _, _, hk, _, hlt, _⟩ := entry_facts hf hsw hx
    exact eq_false_of_key_ne (by rw [hk]; exact ne_of_lt hlt)
  have hye : ∃ y, (clearOverlap e).getYvalAtX e.dx = Except.ok y :=
    ⟨e.dy, by unfold halfsegment.getYvalAtX; simp [clearOverlap]; rfl⟩
  have hok : ∀ x ∈ (activeListVec.mk st.activeList.al e.dx).al,
      ∃ b, (activeListVec.mk st.activeList.al e.dx).alHsegLT (clearOverlap e) x
        = Except.ok b := by
    intro x hx
    obtain ⟨L, _, _, _, _, hxL, _, _, _, _, h3, h4⟩ := entry_facts hf hsw hx
    refine alHsegLT_ok _ _ _ hye ?_
    rcases hxL with rfl | rfl
    · exact getYvalAtX_ok (selfOverlap rid1 L) e.dx h3 h4
    · exact getYvalAtX_ok (selfOverlap rid2 L) e.dx h3 h4
  obtain ⟨l1, l2, hal, hins, hpos⟩ := al_insert_pos (activeListVec.mk st.activeList.al e.dx)
    (clearOverlap e) hne hok
  have hal' : st.activeList.al = l1 ++ l2 := hal
  have hnone : ∀ x ∈ st.activeList.al, ∀ v,
      findIntersectionPoint x (withOverlap e v v) = (false, dblMax, dblMax, false) := by
    intro x hx v
    obtain ⟨L, hLR, _, hLl, _, hxL, _, _, h1, h2, _, _⟩ := entry_facts hf hsw hx
    have hLe : L ≠ e := by
      intro h; rw [h] at h1; exact lt_irrefl _ h1
    have h2' : e.key < L.getBrother.key :=
      lt_of_le_of_ne h2
        (key_ne_of_left_right hf heR (hf.closed L hLR) hel (isLeft_getBrother_of_left hLl))
    rcases hxL with rfl | rfl
    · exact findIntersectionPoint_none (selfOverlap rid1 L) (withOverlap e v v) hLl hel
        (lexLt_of_key_lt_brother hLl hel (lt_trans h1 hebro))
        (lexLt_of_key_lt_brother hel hLl h2')
        (hf.meet L hLR e heR hLl hel hLe)
    · exact findIntersectionPoint_none (selfOverlap rid2 L) (withOverlap e v v) hLl hel
        (lexLt_of_key_lt_brother hLl hel (lt_trans h1 hebro))
        (lexLt_of_key_lt_brother hel hLl h2')
        (hf.meet L hLR e heR hLl hel hLe)
  obtain ⟨v, hev⟩ := leftEvent_fresh
    { st with segSource := some 1, r1Pos := st.r1Pos + 1,
              activeList := ⟨st.activeList.al, e.dx⟩ } e e.dx e.dy l1 l2 hins
    (fun b hb => hnone b (by rw [hal']; exact List.mem_append_left _ hb))
    (fun a ha => hnone a (by rw [hal']; exact List.mem_append_right _ ha))
  have hst1 : ∃ st1,
      leftEvent
        { st with segSource := some 1, r1Pos := st.r1Pos + 1,
                  activeList := ⟨st.activeList.al, e.dx⟩ } e e.dx e.dy = Except.ok st1 ∧
      st1.r1Pos = P.length + 1 ∧ st1.r2Pos = P.length ∧
      st1.activeList = ⟨l1 ++ withOverlap e v v :: l2, e.dx⟩ ∧
      st1.discoveredSegs = st.discoveredSegs ∧ st1.result = st.result :=
    ⟨_, hev, by show st.r1Pos + 1 = _; rw [hsw.r1Pos], hsw.r2Pos, rfl, rfl, rfl⟩
  obtain ⟨st1, hs1, h11, h12, h1al, h1q, h1r⟩ := hst1
  clear hev
  have hpk1 : ∀ b, st1.discoveredSegs.peek = some b → e.key < b.key := by
    rw [h1q]; exact hpk
  have hS : ∀ x ∈ S, e.key < x.key := (facts_split hf).2.1
  suffices hh : ∃ st2,
      sweepStep (P ++ e :: S) ((P ++ e :: S).map (setRegion rid2)) st1 = Except.ok st2 ∧
        SweptBoth rid1 rid2 (P ++ [e]) st2 by
    obtain ⟨st2, a, b⟩ := hh
    exact ⟨st1, st2, hs1, h12, a, b⟩
  -- the event of the second copy
  rw [sweepStep_second P S e rid2 st1 h11 h12 hpk1 hS hmax, if_pos hel]
  have h1al' : st1.activeList.al = l1 ++ withOverlap e v v :: l2 := by rw [h1al]
  have hce : (withOverlap e v v).eq (setRegion rid2 e) = true := by
    simp [halfsegment.eq, withOverlap, setRegion]
  rcases hpos with rfl | ⟨hl2, ⟨last, hlast, hlt⟩, hbelow⟩
  · -- the entry of the first copy is the last one: a colinear neighbour
    have hqs : sortedHseg st1.discoveredSegs.eq := by
      rw [h1q, sortedHseg_iff]
      exact hsw.qStrict.imp (fun h => le_of_lt h)
    have hqne : ∀ x ∈ st1.discoveredSegs.eq,
        (withOverlap (setRegion rid2 e) (withOverlap e v v).la
          (withOverlap e v v).lb).getBrother.eq x = false := by
      intro x hx
      rw [h1q] at hx
      obtain ⟨L, hLR, hLP, _, _, _, _, hk, _⟩ := queue_facts hf hsw hx
      refine eq_false_of_key_ne ?_
      rw [hk]
      show e.getBrother.key ≠ L.getBrother.key
      intro hke
      have := getBrother_inj (key_inj_of_facts hf (hf.closed e heR) (hf.closed L hLR) hke)
      rw [← this] at hLP
      exact not_mem_prefix_of_key_ge hf (le_refl _) hLP
    obtain ⟨q1, q2, hq, hqi, hqs'⟩ := c9_insert_core st1.discoveredSegs _ hqs hqne
    have hev2 := leftEvent_overlapLast
      { st1 with segSource := some 2, r2Pos := st1.r2Pos + 1,
                 activeList := ⟨st1.activeList.al, e.dx⟩ } (setRegion rid2 e) e.dx e.dy
      l1 (withOverlap e v v) ⟨q1 ++ _ :: q2⟩ h1al' hce
      (by show rid2 ≠ e.regionID; rw [hereg]; exact Ne.symm hne12) rfl rfl hel hqi
    refine ⟨_, hev2, ?_⟩
    refine sweptBoth_insert l1 [] (selfOverlap rid2 e) hne12 hf hsw hel
      (by rw [hal', List.append_nil]) h11 (by show st1.r2Pos + 1 = _; rw [h12])
      rfl (Or.inr ⟨rfl, q1, q2, by rw [← h1q]; exact hq, rfl, hqs'⟩) h1r
  · -- the entry of the first copy is found: a duplicate
    have hlast2 : l2.getLast? = some last := by
      rw [List.getLast?_append] at hlast
      obtain ⟨y, ys, rfl⟩ := List.exists_cons_of_ne_nil hl2
      cases hy : (y :: ys).getLast? with
      | none => simp at hy
      | some z => rw [hy] at hlast; simpa using hlast
    have hceq : (clearOverlap (setRegion rid2 e)).eq (clearOverlap e) = true := by
      simp [halfsegment.eq, clearOverlap, setRegion]
    have hins2 := al_insert_dup
      (activeListVec.mk st1.activeList.al e.dx) (clearOverlap (setRegion rid2 e))
      l1 (withOverlap e v v) l2 h1al' hl2
      ⟨last, hlast2, by
        rw [alHsegLT_congr _ hceq]
        exact hlt⟩
      (fun x hx => by
        have := hne x (by rw [hal]; exact List.mem_append_left _ hx)
        rw [← this]
        obtain ⟨e1, e2, e3, e4⟩ := eq_coords hceq
        simp [halfsegment.eq, e1, e2, e3, e4])
      (fun x hx => by
        rw [alHsegLT_congr _ hceq]
        exact hbelow x hx)
      (by simp [halfsegment.eq, withOverlap, clearOverlap, setRegion])
    have hev2 := leftEvent_dup
      { st1 with segSource := some 2, r2Pos := st1.r2Pos + 1,
                 activeList := ⟨st1.activeList.al, e.dx⟩ } (setRegion rid2 e) e.dx e.dy
      l1 l2 (withOverlap e v v) h1al' hins2
    refine ⟨_, hev2, ?_⟩
    refine sweptBoth_insert l1 l2 (selfOverlap rid1 e) hne12 hf hsw hel hal'
      h11 (by show st1.r2Pos + 1 = _; rw [h12])
      ?_ (Or.inl ⟨rfl, h1q⟩) h1r
    show l1 ++ withOverlap (withOverlap e v v) (setRegion rid2 e).la (setRegion rid2 e).lb :: l2
      = l1 ++ selfOverlap rid1 e :: l2
    have : withOverlap (withOverlap e v v) (setRegion rid2 e).la (setRegion rid2 e).lb
        = selfOverlap rid1 e := by
      rw [← hereg]; rfl
    rw [this]

/-- The state after all events of a right halfsegment `e`: the entry of its segment has
left the active list, and it and its brother have joined the result. -/
theorem sweptBoth_remove {P S : List halfsegment} {e E : halfsegment} {rid1 rid2 : Int}
    {st st2 : SweepState} {l1 l2 : List halfsegment}
    (hf : RegionFacts (P ++ e :: S) rid1) (hsw : SweptBoth rid1 rid2 P st)
    (her : e.isLeft = false) (hal : st.activeList.al = l1 ++ E :: l2)
    (hEk : E.key = e.getBrother.key)
    (h1 : st2.r1Pos = P.length + 1) (h2 : st2.r2Pos = P.length + 1)
    (hal2 : st2.activeList.al = l1 ++ l2)
    (hq : ∀ b, b ∈ st2.discoveredSegs.eq ↔ b ∈ st.discoveredSegs.eq ∧ b ≠ E.getBrother)
    (hqs : st2.discoveredSegs.eq.Pairwise (fun a b => a.key < b.key))
    (hres : st2.result = st.result ++ [E, E.getBrother]) :
    SweptBoth rid1 rid2 (P ++ [e]) st2 := by
  have heR : e ∈ P ++ e :: S := by simp
  have hLl : e.getBrother.isLeft = true := isLeft_getBrother_of_right (hf.nondeg e heR) her
  have hLR : e.getBrother ∈ P ++ e :: S := hf.closed e heR
  have hEmem : E ∈ st.activeList.al := by rw [hal]; simp
  have hsub : ∀ x, x ∈ l1 ++ l2 → x ∈ st.activeList.al ∧ x.key ≠ E.key := by
    intro x hx
    have hp := hsw.alKeys
    rw [hal, List.pairwise_append, List.pairwise_cons] at hp
    obtain ⟨_, ⟨p2, _⟩, p3⟩ := hp
    rcases List.mem_append.mp hx with hx | hx
    · exact ⟨by rw [hal]; simp [hx], p3 x hx E (List.mem_cons_self _ _)⟩
    · exact ⟨by rw [hal]; simp [hx], (p2 x hx).symm⟩
  have hsplit : ∀ x, x ∈ st.activeList.al → x = E ∨ x ∈ l1 ++ l2 := by
    intro x hx
    rw [hal] at hx
    simp only [List.mem_append, List.mem_cons] at hx ⊢
    tauto
  have hEL : E = selfOverlap rid1 e.getBrother ∨ E = selfOverlap rid2 e.getBrother := by
    obtain ⟨L, hLR', _, _, _, hxL, hk, _⟩ := entry_facts hf hsw hEmem
    have : L = e.getBrother := key_inj_of_facts hf hLR' hLR (by rw [← hk, hEk])
    rw [this] at hxL
    exact hxL
  constructor
  · rw [h1]; simp
  · rw [h2]; simp
  · rw [hal2]
    have hp := hsw.alKeys
    rw [hal, List.pairwise_append, List.pairwise_cons] at hp
    obtain ⟨p1, ⟨_, p2⟩, p3⟩ := hp
    rw [List.pairwise_append]
    exact ⟨p1, p2, fun a ha b hb => p3 a ha b (List.mem_cons_of_mem _ hb)⟩
  · intro x hx
    rw [hal2] at hx
    obtain ⟨hxa, hxk⟩ := hsub x hx
    obtain ⟨L, hLR', hLP, hLl', hLb, hxL, hk, _⟩ := entry_facts hf hsw hxa
    refine ⟨L, List.mem_append_left _ hLP, hLl', ?_, hxL⟩
    intro hb
    rcases List.mem_append.mp hb with hb | hb
    · exact hLb hb
    · rw [List.mem_singleton] at hb
      apply hxk
      rw [hk, hEk, ← hb]
      rfl
  · intro L hL hLl' hLb
    rcases List.mem_append.mp hL with hLP | hLe
    · obtain ⟨x, hx, hk⟩ := hsw.alCover L hLP hLl' (fun hb => hLb (List.mem_append_left _ hb))
      rcases hsplit x hx with rfl | hx'
      · exfalso
        have hLR' : L ∈ P ++ e :: S := List.mem_append_left _ hLP
        have : L = e.getBrother := key_inj_of_facts hf hLR' hLR (by rw [← hk, hEk])
        apply hLb
        rw [this]
        simp [getBrother_getBrother]
      · exact ⟨x, by rw [hal2]; exact hx', hk⟩
    · rw [List.mem_singleton] at hLe
      rw [hLe, her] at hLl'
      cases hLl'
  · exact hqs
  · intro b
    rw [hq b, hsw.qEntries b]
    constructor
    · rintro ⟨⟨x, hx, hxr, hb⟩, hne⟩
      rcases hsplit x hx with rfl | hx'
      · exact absurd hb hne
      · exact ⟨x, by rw [hal2]; exact hx', hxr, hb⟩
    · rintro ⟨x, hx, hxr, hb⟩
      rw [hal2] at hx
      obtain ⟨hxa, hxk⟩ := hsub x hx
      refine ⟨⟨x, hxa, hxr, hb⟩, ?_⟩
      intro hbe
      rw [hb] at hbe
      exact hxk (by rw [getBrother_inj hbe])
  · rw [hres, List.map_append, hsw.result, emitted_append, her]
    simp only [Bool.false_eq_true, if_false, List.map_append, List.map_cons, List.map_nil]
    rcases hEL with rfl | rfl <;> rfl

/-- All events of a right halfsegment in the sweep of two copies of a region: the first
one, which the event queue provides when the entry is of the second copy, reports the entry
of the active list and its brother; the others find nothing. -/
theorem both_right {P S : List halfsegment} {e : halfsegment} {rid1 rid2 : Int}
    {st : SweepState} (hne12 : rid1 ≠ rid2) (hf : RegionFacts (P ++ e :: S) rid1)
    (hmax : e.lt maxSeg = true) (hsw : SweptBoth rid1 rid2 P st) (her : e.isLeft = false) :
    ∃ st2 k, k ≤ 3 ∧
      (∀ fuel, sweepLoop (P ++ e :: S) ((P ++ e :: S).map (setRegion rid2)) (fuel + k) st
        = sweepLoop (P ++ e :: S) ((P ++ e :: S).map (setRegion rid2)) fuel st2) ∧
      SweptBoth rid1 rid2 (P ++ [e]) st2 := by
  have heR : e ∈ P ++ e :: S := by simp
  have hLl : e.getBrother.isLeft = true := isLeft_getBrother_of_right (hf.nondeg e heR) her
  have hLR : e.getBrother ∈ P ++ e :: S := hf.closed e heR
  have hLk : e.getBrother.key < e.key := key_lt_getBrother hLl
  have hLP : e.getBrother ∈ P := mem_prefix_of_key_lt hf hLR hLk
  have hLb : e.getBrother.getBrother ∉ P := not_mem_prefix_of_key_ge hf (le_refl _)
  have hS : ∀ x ∈ S, e.key < x.key := (facts_split hf).2.1
  have hlen1 : P.length < (P ++ e :: S).length := by simp
  have hlen2 : P.length < ((P ++ e :: S).map (setRegion rid2)).length := by simp
  obtain ⟨E, hEmem, hEk⟩ := hsw.alCover _ hLP hLl hLb
  obtain ⟨l1, l2, hal⟩ := List.mem_iff_append.mp hEmem
  have hp := hsw.alKeys
  rw [hal, List.pairwise_append, List.pairwise_cons] at hp
  obtain ⟨_, ⟨p2, _⟩, p3⟩ := hp
  have hk1 : ∀ y ∈ l1, y.key ≠ E.key := fun y hy => p3 y hy E (List.mem_cons_self _ _)
  have hk2 : ∀ y ∈ l2, y.key ≠ E.key := fun y hy => (p2 y hy).symm
  have hrest : ∀ y ∈ l1 ++ l2, e.getBrother.eq y = false := by
    intro y hy
    refine eq_false_of_key_ne ?_
    rw [← hEk]
    rcases List.mem_append.mp hy with hy | hy
    · exact (hk1 y hy).symm
    · exact (hk2 y hy).symm
  have hfound : e.getBrother.eq E = true := (eq_iff_key _ _).mpr hEk.symm
  have hno : ∀ b ∈ l1, ∀ a ∈ l2,
      findIntersectionPoint b a = (false, dblMax, dblMax, false) := by
    intro b hb a ha
    have hbm : b ∈ st.activeList.al := by rw [hal]; simp [hb]
    have ham : a ∈ st.activeList.al := by rw [hal]; simp [ha]
    obtain ⟨Lb, hbR, _, hbl, _, hbL, hbk, _, hb1, hb2, _, _⟩ := entry_facts hf hsw hbm
    obtain ⟨La, haR, _, hal', _, haL, hak, _, ha1, ha2, _, _⟩ := entry_facts hf hsw ham
    have hne : Lb ≠ La := by
      intro h
      apply p3 b hb a (List.mem_cons_of_mem _ ha)
      rw [hbk, hak, h]
    have hm := hf.meet Lb hbR La haR hbl hal' hne
    have x1 := lexLt_of_key_lt_brother hbl hal' (lt_of_lt_of_le hb1 ha2)
    have x2 := lexLt_of_key_lt_brother hal' hbl (lt_of_lt_of_le ha1 hb2)
    rcases hbL with rfl | rfl <;> rcases haL with rfl | rfl
    · exact findIntersectionPoint_none (selfOverlap rid1 Lb) (selfOverlap rid1 La) hbl hal' x1 x2 hm
    · exact findIntersectionPoint_none (selfOverlap rid1 Lb) (selfOverlap rid2 La) hbl hal' x1 x2 hm
    · exact findIntersectionPoint_none (selfOverlap rid2 Lb) (selfOverlap rid1 La) hbl hal' x1 x2 hm
    · exact findIntersectionPoint_none (selfOverlap rid2 Lb) (selfOverlap rid2 La) hbl hal' x1 x2 hm
  have hEL : E = selfOverlap rid1 e.getBrother ∨ E = selfOverlap rid2 e.getBrother := by
    obtain ⟨L, hLR', _, _, _, hxL, hk, _⟩ := entry_facts hf hsw hEmem
    have : L = e.getBrother := key_inj_of_facts hf hLR' hLR (by rw [← hk, hEk])
    rw [this] at hxL
    exact hxL
  have hEbk : E.getBrother.key = e.key := by
    rcases hEL with h | h <;> rw [h] <;> rfl
  -- an entry of the queue at `e` is the brother of `E`
  have hqe : ∀ b ∈ st.discoveredSegs.eq, b.key = e.key →
      E = selfOverlap rid2 e.getBrother ∧ b = E.getBrother := by
    intro b hb hbk
    obtain ⟨L, hLR', _, _, _, hx, hbL, hk, _⟩ := queue_facts hf hsw hb
    have h1 : L.getBrother = e := key_inj_of_facts hf (hf.closed L hLR') heR (by rw [← hk, hbk])
    have h2 : L = e.getBrother := by rw [← h1]; rfl
    rw [h2] at hx hbL
    have h3 : selfOverlap rid2 e.getBrother = E :=
      eq_of_key_eq_of_pairwise hsw.alKeys hx hEmem (by rw [hEk]; rfl)
    exact ⟨h3.symm, by rw [hbL, ← h3]; rfl⟩
  have hqge : ∀ b ∈ st.discoveredSegs.eq, e.key ≤ b.key := by
    intro b hb
    obtain ⟨_, _, _, _, _, _, _, _, hle⟩ := queue_facts hf hsw hb
    exact hle
  have hnr : ¬ (e.isLeft = true) := by rw [her]; simp
  rcases hEL with hE1 | hE2
  · -- the entry is of the first copy: the event queue holds nothing at `e`
    have hqa : ∀ b ∈ st.discoveredSegs.eq, e.key < b.key := by
      intro b hb
      refine lt_of_le_of_ne (hqge b hb) ?_
      intro hk
      obtain ⟨h3, _⟩ := hqe b hb hk.symm
      rw [hE1] at h3
      exact hne12 (congrArg halfsegment.regionID h3)
    have hpk : ∀ b, st.discoveredSegs.peek = some b → e.key < b.key :=
      fun b hb => hqa b (peek_mem hb)
    have hst1 : ∃ st1,
        sweepStep (P ++ e :: S) ((P ++ e :: S).map (setRegion rid2)) st = Except.ok st1 ∧
        st1.r1Pos = P.length + 1 ∧ st1.r2Pos = P.length ∧
        st1.activeList.al = l1 ++ l2 ∧ st1.discoveredSegs = st.discoveredSegs ∧
        st1.result = st.result ++ [E, E.getBrother] := by
      rw [sweepStep_first P S e rid2 st hsw.r1Pos hsw.r2Pos hpk, if_neg hnr]
      exact ⟨_, rightEvent_plain _ e e.dx e.dy l1 l2 E hal
        (fun y hy => hrest y (List.mem_append_left _ hy)) hfound hno,
        by show st.r1Pos + 1 = _; rw [hsw.r1Pos], hsw.r2Pos, rfl, rfl, rfl⟩
    obtain ⟨st1, hs1, h11, h12, h1al, h1q, h1r⟩ := hst1
    have hpk1 : ∀ b, st1.discoveredSegs.peek = some b → e.key < b.key := by
      rw [h1q]; exact hpk
    have hst2 : ∃ st2,
        sweepStep (P ++ e :: S) ((P ++ e :: S).map (setRegion rid2)) st1 = Except.ok st2 ∧
        st2.r1Pos = P.length + 1 ∧ st2.r2Pos = P.length + 1 ∧
        st2.activeList.al = l1 ++ l2 ∧ st2.discoveredSegs = st.discoveredSegs ∧
        st2.result = st.result ++ [E, E.getBrother] := by
      rw [sweepStep_second P S e rid2 st1 h11 h12 hpk1 hS hmax, if_neg hnr]
      exact ⟨_, rightEvent_absent _ (setRegion rid2 e) e.dx e.dy
        (fun y hy => hrest y (by rw [← h1al]; exact hy)),
        h11, by show st1.r2Pos + 1 = _; rw [h12], h1al, h1q, h1r⟩
    obtain ⟨st2, hs2, h21, h22, h2al, h2q, h2r⟩ := hst2
    refine ⟨st2, 2, by omega, ?_, ?_⟩
    · intro fuel
      rw [show fuel + 2 = (fuel + 1) + 1 from rfl,
        sweepLoop_step _ _ (fuel + 1) st st1 (Or.inr (Or.inl (by rw [hsw.r1Pos]; exact hlen1))) hs1,
        sweepLoop_step _ _ fuel st1 st2 (Or.inr (Or.inr (by rw [h12]; exact hlen2))) hs2]
    · refine sweptBoth_remove hf hsw her hal hEk h21 h22 h2al ?_ (by rw [h2q]; exact hsw.qStrict)
        h2r
      intro b
      rw [h2q]
      constructor
      · intro hb
        refine ⟨hb, ?_⟩
        intro hbe
        have := hqa b hb
        rw [hbe, hEbk] at this
        exact lt_irrefl _ this
      · exact fun hb => hb.1
  · -- the entry is of the second copy: its brother heads the event queue
    have hb0 : E.getBrother ∈ st.discoveredSegs.eq :=
      (hsw.qEntries _).mpr ⟨E, hEmem, by rw [hE2]; rfl, rfl⟩
    obtain ⟨q1, q2, hq⟩ := List.mem_iff_append.mp hb0
    have hqs := hsw.qStrict
    rw [hq, List.pairwise_append, List.pairwise_cons] at hqs
    obtain ⟨_, ⟨s2, s2t⟩, s3⟩ := hqs
    have hq1 : q1 = [] := by
      cases q1 with
      | nil => rfl
      | cons y ys =>
        exfalso
        have h1 := s3 y (List.mem_cons_self _ _) _ (List.mem_cons_self _ _)
        have h2 := hqge y (by rw [hq]; simp)
        rw [hEbk] at h1
        exact absurd h1 (not_lt.mpr h2)
    rw [hq1, List.nil_append] at hq
    have hq2 : ∀ y ∈ q2, e.key < y.key := by
      intro y hy
      have := s2 y hy
      rwa [hEbk] at this
    have hEl : E.isLeft = true := by rw [hE2]; exact hLl
    have hbl : E.getBrother.isLeft = false := isLeft_getBrother_of_left hEl
    have hst1 : ∃ st1,
        sweepStep (P ++ e :: S) ((P ++ e :: S).map (setRegion rid2)) st = Except.ok st1 ∧
        st1.r1Pos = P.length ∧ st1.r2Pos = P.length ∧
        st1.activeList.al = l1 ++ l2 ∧ st1.discoveredSegs.eq = q2 ∧
        st1.result = st.result ++ [E, E.getBrother] := by
      rw [sweepStep_queue P S e rid2 st E.getBrother q2 hsw.r1Pos hsw.r2Pos hq hEbk hbl]
      exact ⟨_, rightEvent_plain _ E.getBrother _ _ l1 l2 E hal
        (fun y hy => eq_false_of_key_ne (hk1 y hy).symm) (eq_self_hseg E) hno,
        hsw.r1Pos, hsw.r2Pos, rfl, rfl, rfl⟩
    obtain ⟨st1, hs1, h11, h12, h1al, h1q, h1r⟩ := hst1
    have hpk1 : ∀ b, st1.discoveredSegs.peek = some b → e.key < b.key := by
      intro b hb
      have := peek_mem hb
      rw [h1q] at this
      exact hq2 b this
    have hst2 : ∃ st2,
        sweepStep (P ++ e :: S) ((P ++ e :: S).map (setRegion rid2)) st1 = Except.ok st2 ∧
        st2.r1Pos = P.length + 1 ∧ st2.r2Pos = P.length ∧
        st2.activeList.al = l1 ++ l2 ∧ st2.discoveredSegs.eq = q2 ∧
        st2.result = st.result ++ [E, E.getBrother] := by
      rw [sweepStep_first P S e rid2 st1 h11 h12 hpk1, if_neg hnr]
      exact ⟨_, rightEvent_absent _ e e.dx e.dy
        (fun y hy => hrest y (by rw [← h1al]; exact hy)),
        by show st1.r1Pos + 1 = _; rw [h11], h12, h1al, h1q, h1r⟩
    obtain ⟨st2, hs2, h21, h22, h2al, h2q, h2r⟩ := hst2
    have hpk2 : ∀ b, st2.discoveredSegs.peek = some b → e.key < b.key := by
      intro b hb
      have := peek_mem hb
      rw [h2q] at this
      exact hq2 b this
    have hst3 : ∃ st3,
        sweepStep (P ++ e :: S) ((P ++ e :: S).map (setRegion rid2)) st2 = Except.ok st3 ∧
        st3.r1Pos = P.length + 1 ∧ st3.r2Pos = P.length + 1 ∧
        st3.activeList.al = l1 ++ l2 ∧ st3.discoveredSegs.eq = q2 ∧
        st3.result = st.result ++ [E, E.getBrother] := by
      rw [sweepStep_second P S e rid2 st2 h21 h22 hpk2 hS hmax, if_neg hnr]
      exact ⟨_, rightEvent_absent _ (setRegion rid2 e) e.dx e.dy
        (fun y hy => hrest y (by rw [← h2al]; exact hy)),
        h21, by show st2.r2Pos + 1 = _; rw [h22], h2al, h2q, h2r⟩
    obtain ⟨st3, hs3, h31, h32, h3al, h3q, h3r⟩ := hst3
    refine ⟨st3, 3, le_refl _, ?_, ?_⟩
    · intro fuel
      rw [show fuel + 3 = (fuel + 2) + 1 from rfl,
        sweepLoop_step _ _ (fuel + 2) st st1 (Or.inr (Or.inl (by rw [hsw.r1Pos]; exact hlen1))) hs1,
        show fuel + 2 = (fuel + 1) + 1 from rfl,
        sweepLoop_step _ _ (fuel + 1) st1 st2 (Or.inr (Or.inl (by rw [h11]; exact hlen1))) hs2,
        sweepLoop_step _ _ fuel st2 st3 (Or.inr (Or.inr (by rw [h22]; exact hlen2))) hs3]
    · refine sweptBoth_remove hf hsw her hal hEk h31 h32 h3al ?_ (by rw [h3q]; exact s2t) h3r
      intro b
      rw [h3q, hq]
      constructor
      · intro hb
        refine ⟨List.mem_cons_of_mem _ hb, ?_⟩
        intro hbe
        have := hq2 b hb
        rw [hbe, hEbk] at this
        exact lt_irrefl _ this
      · rintro ⟨hb, hne⟩
        rcases List.mem_cons.mp hb with h | h
        · exact absurd h hne
        · exact h

theorem both_left_loop {P S : List halfsegment} {e : halfsegment} {rid1 rid2 : Int}
    {st : SweepState} (hne12 : rid1 ≠ rid2) (hf : RegionFacts (P ++ e :: S) rid1)
    (hmax : e.lt maxSeg = true) (hsw : SweptBoth rid1 rid2 P st) (hel : e.isLeft = true) :
    ∃ st2 k, k ≤ 3 ∧
      (∀ fuel, sweepLoop (P ++ e :: S) ((P ++ e :: S).map (setRegion rid2)) (fuel + k) st
        = sweepLoop (P ++ e :: S) ((P ++ e :: S).map (setRegion rid2)) fuel st2) ∧
      SweptBoth rid1 rid2 (P ++ [e]) st2 := by
  obtain ⟨st1, st2, hs1, h12, hs2, hsw2⟩ := both_left hne12 hf hmax hsw hel
  refine ⟨st2, 2, by omega, ?_, hsw2⟩
  intro fuel
  rw [show fuel + 2 = (fuel + 1) + 1 from rfl,
    sweepLoop_step _ _ (fuel + 1) st st1 (Or.inr (Or.inl (by rw [hsw.r1Pos]; simp))) hs1,
    sweepLoop_step _ _ fuel st1 st2 (Or.inr (Or.inr (by rw [h12]; simp))) hs2]

/-- The loop of `overlayPlaneSweep` on two copies of a region, from the state after the
events of the entries `P`: it ends, with at most three events for each further entry. -/
theorem loop_both {R : List halfsegment} {rid1 rid2 : Int} (hne12 : rid1 ≠ rid2)
    (hf : RegionFacts R rid1) (hmax : ∀ h ∈ R, h.lt maxSeg = true) :
    ∀ (S P : List halfsegment) (st : SweepState) (fuel : Nat), R = P ++ S →
      SweptBoth rid1 rid2 P st → 3 * S.length ≤ fuel →
      ∃ st', sweepLoop R (R.map (setRegion rid2)) fuel st = Except.ok st' ∧
        SweptBoth rid1 rid2 R st' := by
  intro S
  induction S with
  | nil =>
    intro P st fuel hR hsw _
    rw [List.append_nil] at hR
    subst hR
    refine ⟨st, ?_, hsw⟩
    have hal : st.activeList.al = [] := by
      rw [List.eq_nil_iff_forall_not_mem]
      intro x hx
      obtain ⟨L, hLR, _, hLb, _⟩ := hsw.alEntries x hx
      exact hLb (hf.closed L hLR)
    have hq : st.discoveredSegs.eq = [] := by
      rw [List.eq_nil_iff_forall_not_mem]
      intro b hb
      obtain ⟨x, hx, _⟩ := (hsw.qEntries b).mp hb
      rw [hal] at hx
      cases hx
    rw [sweepLoop_unfold]
    have hc : ¬ (st.discoveredSegs.size > 0 ∨ st.r1Pos < R.length ∨
        st.r2Pos < (R.map (setRegion rid2)).length) := by
      simp [eventQueue.size, hq, hsw.r1Pos, hsw.r2Pos]
    rw [if_neg hc]
    rfl
  | cons e S' ih =>
    intro P st fuel hR hsw hfuel
    have hf' : RegionFacts (P ++ e :: S') rid1 := hR ▸ hf
    have hm : e.lt maxSeg = true := hmax e (by rw [hR]; simp)
    have hstep : ∃ st2 k, k ≤ 3 ∧
        (∀ fuel, sweepLoop (P ++ e :: S') ((P ++ e :: S').map (setRegion rid2)) (fuel + k) st
          = sweepLoop (P ++ e :: S') ((P ++ e :: S').map (setRegion rid2)) fuel st2) ∧
        SweptBoth rid1 rid2 (P ++ [e]) st2 := by
      cases hl : e.isLeft with
      | true => exact both_left_loop hne12 hf' hm hsw hl
      | false => exact both_right hne12 hf' hm hsw hl
    obtain ⟨st2, k, hk, hloop, hsw2⟩ := hstep
    rw [← hR] at hloop
    simp only [List.length_cons] at hfuel
    obtain ⟨st3, hs3, hsw3⟩ := ih (P ++ [e]) st2 (fuel - k) (by rw [hR]; simp) hsw2 (by omega)
    refine ⟨st3, ?_, hsw3⟩
    have := hloop (fuel - k)
    rw [show fuel - k + k = fuel by omega] at this
    rw [this]
    exact hs3

theorem sweptBoth_init (rid1 rid2 : Int) : SweptBoth rid1 rid2 [] (SweepState.init []) := by
  constructor
  · rfl
  · rfl
  · exact List.Pairwise.nil
  · intro x hx
    cases hx
  · intro L hL
    cases hL
  · exact List.Pairwise.nil
  · intro b
    simp [SweepState.init, activeListVec.empty, eventQueue.empty]
  · rfl

theorem overlay_with_itself_core {R : List halfsegment} {rid1 rid2 : Int} (hne12 : rid1 ≠ rid2)
    (hf : RegionFacts R rid1) (hmax : ∀ h ∈ R, h.lt maxSeg = true)
    (fuel : Nat) (hfuel : 3 * R.length ≤ fuel) :
    ∃ res, overlayPlaneSweep fuel R (R.map (setRegion rid2)) [] = Except.ok res ∧
      (res.map (setRegion rid1)).Perm (R.map (selfOverlap rid1)) ∧
      ∀ h ∈ res, h.ola = h.la ∧ h.olb = h.lb := by
  obtain ⟨st, hloop, hsw⟩ := loop_both hne12 hf hmax R [] (SweepState.init []) fuel (by simp)
    (sweptBoth_init rid1 rid2) hfuel
  refine ⟨stdSort halfsegment.lt st.result, ?_, ?_, ?_⟩
  · unfold overlayPlaneSweep
    simp only [hloop, bind, Except.bind, pure, Except.pure]
  · have h1 : ((stdSort halfsegment.lt st.result).map (setRegion rid1)).Perm
        (st.result.map (setRegion rid1)) := (stdSort_perm _).map _
    refine h1.trans ?_
    rw [hsw.result]
    have h2 := (emitted_perm hf).map (selfOverlap rid1)
    rw [List.map_map] at h2
    exact h2
  · intro h hh
    have h1 : h ∈ st.result := (stdSort_perm _).subset hh
    have h2 : setRegion rid1 h ∈ st.result.map (setRegion rid1) := List.mem_map_of_mem _ h1
    rw [hsw.result] at h2
    obtain ⟨g, _, hg⟩ := List.mem_map.mp h2
    have ha : (setRegion rid1 h).ola = (setRegion rid1 h).la := by rw [← hg]; rfl
    have hb : (setRegion rid1 h).olb = (setRegion rid1 h).lb := by rw [← hg]; rfl
    exact ⟨ha, hb⟩

/-- Claim C3: for a region `R` (sorted in halfsegment order, made of non-degenerate
halfsegments with coordinates of at most `dblMax`, closed under brother, all of region
`rid1`) whose segments meet only in shared end points, `overlayPlaneSweep` on `R` and the
copy of `R` with another region identifier `rid2` returns, for every fuel of at least three
per entry of `R`, a vector that, up to the region identifier of its entries, holds exactly
the halfsegments of `R`, each once (so each segment once, as a left halfsegment and its
brother), and every returned halfsegment has `ola = la` and `olb = lb`. -/
theorem c3_overlay_with_itself (R : List halfsegment) (rid1 rid2 : Int) (hs : sortedHseg R)
    (hn : ∀ h ∈ R, nonDegenerate h) (hc : closedUnderBrother R)
    (hr : ∀ h ∈ R, h.regionID = rid1) (hm : segmentsMeetOnlyInEndpoints R)
    (hd : ∀ h ∈ R, h.dx ≤ dblMax ∧ h.dy ≤ dblMax) (hne : rid1 ≠ rid2)
    (fuel : Nat) (hfuel : 3 * R.length ≤ fuel) :
    ∃ res, overlayPlaneSweep fuel R (R.map (setRegion rid2)) [] = Except.ok res ∧
      (res.map (setRegion rid1)).Perm (R.map (fun h => withOverlap h h.la h.lb)) ∧
      ∀ h ∈ res, h.ola = h.la ∧ h.olb = h.lb := by
  have hf := regionFacts_of R rid1 hs hn hc hr hm
  have hmax : ∀ h ∈ R, h.lt maxSeg = true := by
    intro h hh
    have hb := hd h.getBrother (hc h hh)
    exact lt_maxSeg h (hn h hh) (hd h hh).1 (hd h hh).2 hb.1 hb.2
  obtain ⟨res, h1, h2, h3⟩ := overlay_with_itself_core hne hf hmax fuel hfuel
  refine ⟨res, h1, ?_, h3⟩
  have : R.map (selfOverlap rid1) = R.map (fun h => withOverlap h h.la h.lb) := by
    apply List.map_congr_left
    intro h hh
    rw [← hr h hh]
    rfl
  rw [← this]
  exact h2

theorem c3_overlay_with_itself_witness :
    sortedHseg unitSquare ∧ (∀ h ∈ unitSquare, nonDegenerate h) ∧
      closedUnderBrother unitSquare ∧ (∀ h ∈ unitSquare, h.regionID = 2) ∧
      segmentsMeetOnlyInEndpoints unitSquare ∧
      (∀ h ∈ unitSquare, h.dx ≤ dblMax ∧ h.dy ≤ dblMax) ∧ (2 : Int) ≠ 3 ∧
      3 * unitSquare.length ≤ 24 ∧
      ∃ res, overlayPlaneSweep 24 unitSquare (unitSquare.map (setRegion 3)) [] = Except.ok res ∧
        (res.map (setRegion 2)).Perm (unitSquare.map (fun h => withOverlap h h.la h.lb)) ∧
        ∀ h ∈ res, h.ola = h.la ∧ h.olb = h.lb :=
  ⟨by decide!, by decide!, by decide!, by decide!, unitSquare_meet, by decide!, by decide,
    by decide!,
    c3_overlay_with_itself unitSquare 2 3 (by decide!) (by decide!) (by decide!) (by decide!)
      unitSquare_meet (by decide!) (by decide) 24 (by decide!)⟩

/-! ## The claims on the active list -/

/-- Claim C11 fails on the code.  The active list holds the single entry `(0,0)-(1,0)` and
the halfsegment to insert has the same end points (it is of the other region).  The first
test of `insert`, `!alHsegLT(h1, al.back())`, holds because `alHsegLT` is false on equal
halfsegments, so the halfsegment is appended: the list grows to two entries and `duplicate`
is false. -/
theorem c11_insert_duplicate_appended :
    exLeft.eq (mkHseg 3 0 0 1 0 1 0) = true ∧
      (activeListVec.mk [exLeft] 0).insert (mkHseg 3 0 0 1 0 1 0)
        = Except.ok (⟨[exLeft, mkHseg 3 0 0 1 0 1 0], 0⟩, false, mkHseg 3 0 0 1 0 1 0, 1) := by
  decide!

/-- Claim C12 fails on the code.  On the sweep line `x = 2` the halfsegment `(2,2)-(3,3)`
starts and `(0,3)-(2,2)` ends, both with intercept 2; they are neither equal nor colinear.
The reduced segment of the second one should lead back to its dominating point `(0,3)`, a
right halfsegment, so the comparison the claim describes is false (the first reduced segment
is the left one).  The source builds `(2,2)-(2,3)` instead (`newH2.sx = h2.sx; newH2.sy =
h2.dy`), a left halfsegment, and `alHsegLT` returns true. -/
theorem c12_alHsegLT_reduced_differs :
    risingFromLine.eq fallingToLine = false ∧ risingFromLine.colinear fallingToLine = false ∧
      risingFromLine.getYvalAtX 2 = Except.ok 2 ∧ fallingToLine.getYvalAtX 2 = Except.ok 2 ∧
      (activeListVec.mk [] 2).alHsegLT risingFromLine fallingToLine = Except.ok true ∧
      alLessReduced 2 2 risingFromLine fallingToLine = false := by
  decide!

/-- Claim C13: for an index `i` inside the active list, `erase(h, i)` removes the entry at
position `i` and nothing else (the entries before and after it stay, in order and with
their labels) when that entry equals `h` by end points, and calls `exit(-1)` otherwise. -/
theorem c13_erase_at_index (a : activeListVec) (h : halfsegment) (i : Nat)
    (hi : i < a.al.length) :
    ((a.al.get ⟨i, hi⟩).eq h = true →
        a.erase h (i : Int) = Except.ok { a with al := a.al.take i ++ a.al.drop (i + 1) }) ∧
      ((a.al.get ⟨i, hi⟩).eq h = false → a.erase h (i : Int) = Except.error Fault.exit) := by
  have hg : vecGet a.al (i : Int) = Except.ok (a.al.get ⟨i, hi⟩) := by
    unfold vecGet
    have h0 : ¬ ((i : Int) < 0) := by omega
    rw [if_neg h0, Int.toNat_ofNat, List.get?_eq_get hi]
    rfl
  have hr : ¬ ((i : Int) < 0 ∨ (i : Int) ≥ (a.al.length : Int)) := by omega
  unfold activeListVec.erase
  rw [if_neg hr]
  simp only [hg, bind, Except.bind, Int.toNat_ofNat]
  constructor
  · intro he
    rw [if_pos he, List.eraseIdx_eq_take_drop_succ]
    rfl
  · intro he
    rw [he]
    rfl

theorem c13_erase_at_index_witness :
    (1 < (activeListVec.mk [exLeft, exUp] 0).al.length) ∧
      (activeListVec.mk [exLeft, exUp] 0).erase exUp 1 = Except.ok ⟨[exLeft], 0⟩ ∧
      (activeListVec.mk [exLeft, exUp] 0).erase exLeft 1 = Except.error Fault.exit :=
  ⟨by decide,
    (c13_erase_at_index ⟨[exLeft, exUp], 0⟩ exUp 1 (by decide)).1 (by decide!),
    (c13_erase_at_index ⟨[exLeft, exUp], 0⟩ exLeft 1 (by decide)).2 (by decide!)⟩

/-! ## The claims on the strip plan and on intersections, on concrete inputs -/

/-- Claim C14 fails on the code.  The square `[0,2] x [0,2]` and the rectangle
`[3,6] x [0,2]` are sorted and closed under brother.  For three strips the evenly spaced
boundaries are 2 and 4; 2 is an end point of the square, and the boundary is moved to the
middle of 2 and the next boundary 4, because `binarySearchSmallestGreater` returns `-1` on
the rectangle, all of whose entries are greater than 2.  The new boundary 3 is the
x-coordinate of the left edge of the rectangle. -/
theorem c14_boundary_on_endpoint :
    sortedHseg nearSquare ∧ sortedHseg farRectangle ∧
      closedUnderBrother nearSquare ∧ closedUnderBrother farRectangle ∧
      binarySearchSmallestGreater farRectangle 2 = Except.ok (-1) ∧
      findIsoBoundaries nearSquare farRectangle (freshBounds 3)
        = Except.ok [dblMax * -1, 3, 4, dblMax] ∧
      ∃ h ∈ farRectangle, h.dx = 3 := by
  decide!

/-- Claim C16 fails on the code.  The left halfsegments `(0,0)-(1,1)` and `(1,1)-(2,0)` are
not colinear and share the point `(1,1)`, the submissive point of the first and the
dominating point of the second.  The test for a shared end point compares dominating with
dominating and submissive with submissive point only, and `findIntersectionPoint` reports
the intersection `(1,1)`, in either order of its arguments. -/
theorem c16_shared_endpoint_reported :
    exDiagonal.colinear exDescent = false ∧ exDescent.colinear exDiagonal = false ∧
      exDiagonal.sx = exDescent.dx ∧ exDiagonal.sy = exDescent.dy ∧
      findIntersectionPoint exDiagonal exDescent = (true, 1, 1, false) ∧
      findIntersectionPoint exDescent exDiagonal = (true, 1, 1, false) := by
  decide!

/-- Claim C19 as stated fails: the sweep of the unit square against itself returns four
left halfsegments, but not each has `ola = olb = la`: the overlap labels repeat `la` and
`lb`, which differ. -/
theorem c19_olb_is_not_la :
    overlayPlaneSweep 24 unitSquare (squareAt 3 0 0) [] = Except.ok squareTwice ∧
      ¬ (∀ h ∈ squareTwice.filter halfsegment.isLeft, h.ola = h.la ∧ h.olb = h.la) := by
  decide!

/-- Claim C19, amended: for the unit square as region 2 and the same square as region 3
(sorted left/right pair lists with `la != lb`), `overlayPlaneSweep` returns exactly four
left halfsegments, whose end points are the four edges of the square, and each of them has
`ola = la` and `olb = lb`. -/
theorem c19_square_with_itself :
    sortedHseg unitSquare ∧ sortedHseg (squareAt 3 0 0) ∧
      (∀ h ∈ unitSquare ++ squareAt 3 0 0, h.la ≠ h.lb) ∧
      overlayPlaneSweep 24 unitSquare (squareAt 3 0 0) [] = Except.ok squareTwice ∧
      (squareTwice.filter halfsegment.isLeft).length = 4 ∧
      (squareTwice.filter halfsegment.isLeft).map halfsegment.ends
        = [(0, 0, 1, 0), (0, 0, 0, 1), (0, 1, 1, 1), (1, 0, 1, 1)] ∧
      ∀ h ∈ squareTwice.filter halfsegment.isLeft, h.ola = h.la ∧ h.olb = h.lb := by
  decide!

/-- Claim C20 as stated fails: the sweep of the unit square against the square translated
by `(1/2, 1/2)` does not return 8 left halfsegments. -/
theorem c20_not_eight :
    overlayPlaneSweep 36 unitSquare shiftedSquare [] = Except.ok shiftedSerial ∧
      (shiftedSerial.filter halfsegment.isLeft).length ≠ 8 := by
  decide!

/-- Claim C20, amended: for the unit square and the unit square translated by `(1/2, 1/2)`
(sorted left/right pair lists), `overlayPlaneSweep` returns exactly 12 left halfsegments:
the crossings `(1/2, 1)` and `(1, 1/2)` break two edges of each square in two, and the
other two edges of each square stay whole. -/
theorem c20_twelve_left :
    sortedHseg unitSquare ∧ sortedHseg shiftedSquare ∧
      overlayPlaneSweep 36 unitSquare shiftedSquare [] = Except.ok shiftedSerial ∧
      (shiftedSerial.filter halfsegment.isLeft).length = 12 ∧
      (shiftedSerial.filter halfsegment.isLeft).map halfsegment.ends
        = [(0, 0, 1, 0), (0, 0, 0, 1), (0, 1, 1/2, 1), (1/2, 1/2, 1, 1/2), (1/2, 1/2, 1/2, 1),
           (1/2, 1, 1, 1), (1/2, 1, 1/2, 3/2), (1/2, 3/2, 3/2, 3/2), (1, 0, 1, 1/2),
           (1, 1/2, 3/2, 1/2), (1, 1/2, 1, 1), (3/2, 1/2, 3/2, 3/2)] := by
  decide!

/-! ## The breaking of two segments -/

/-- For two segments that are not colinear and have only end points of both in common,
`findIntersectionPoint` reports nothing or a point that is an end point of each. -/
theorem findIntersectionPoint_endpoint (a b : halfsegment) (hcol : a.colinear b = false)
    (hm : meetOnlyAtEndpoints a b) :
    findIntersectionPoint a b = (false, dblMax, dblMax, false) ∨
      ∃ X Y, findIntersectionPoint a b = (true, X, Y, false) ∧
        ((X = a.dx ∧ Y = a.dy) ∨ (X = a.sx ∧ Y = a.sy)) ∧
        ((X = b.dx ∧ Y = b.dy) ∨ (X = b.sx ∧ Y = b.sy)) := by
  unfold findIntersectionPoint
  rw [hcol]
  simp only [Bool.false_eq_true, if_false]
  split_ifs with hsh hden hrange
  · left; rfl
  · left; rfl
  · right
    obtain ⟨r1, r2, r3, r4⟩ := hrange
    have hden' : (b.sy - b.dy) * (a.sx - a.dx) - (b.sx - b.dx) * (a.sy - a.dy) ≠ 0 := hden
    have ex : a.dx + ((b.sx - b.dx) * (a.dy - b.dy) - (b.sy - b.dy) * (a.dx - b.dx)) /
          ((b.sy - b.dy) * (a.sx - a.dx) - (b.sx - b.dx) * (a.sy - a.dy)) * (a.sx - a.dx)
        = b.dx + ((a.sx - a.dx) * (a.dy - b.dy) - (a.sy - a.dy) * (a.dx - b.dx)) /
          ((b.sy - b.dy) * (a.sx - a.dx) - (b.sx - b.dx) * (a.sy - a.dy)) * (b.sx - b.dx) := by
      field_simp; ring
    have ey : a.dy + ((b.sx - b.dx) * (a.dy - b.dy) - (b.sy - b.dy) * (a.dx - b.dx)) /
          ((b.sy - b.dy) * (a.sx - a.dx) - (b.sx - b.dx) * (a.sy - a.dy)) * (a.sy - a.dy)
        = b.dy + ((a.sx - a.dx) * (a.dy - b.dy) - (a.sy - a.dy) * (a.dx - b.dx)) /
          ((b.sy - b.dy) * (a.sx - a.dx) - (b.sx - b.dx) * (a.sy - a.dy)) * (b.sy - b.dy) := by
      field_simp; ring
    have key := hm _ _ r1 r2 r3 r4 ex ey
    refine ⟨_, _, rfl, ?_, ?_⟩
    · rcases key.1 with hu | hu
      · left; rw [hu]; constructor <;> ring
      · right; rw [hu]; constructor <;> ring
    · rw [ex, ey]
      rcases key.2 with hv | hv
      · left; rw [hv]; constructor <;> ring
      · right; rw [hv]; constructor <;> ring
  · left; rfl

/-- Claim C17: for two halfsegments `alSeg` and `curr` (left ones in particular) that are
not colinear and whose segments have only end points of both in common, `breakHsegs` breaks
neither: `curr` comes back unchanged, and what is appended to `out` is nothing or `alSeg`
itself (for re-insertion), so every appended halfsegment equals `alSeg` by end points. -/
theorem c17_shared_endpoint_not_broken (alSeg curr : halfsegment) (out : List halfsegment)
    (includeCurr : Bool) (hcol : alSeg.colinear curr = false)
    (hm : meetOnlyAtEndpoints alSeg curr) :
    ∃ found added colinear,
      breakHsegs alSeg curr out includeCurr = (found, curr, out ++ added, colinear) ∧
      (added = [] ∨ added = [alSeg]) ∧ ∀ x ∈ added, x.eq alSeg = true := by
  rcases findIntersectionPoint_endpoint alSeg curr hcol hm with hf | ⟨X, Y, hf, ha, hb⟩
  · refine ⟨false, [], false, ?_, Or.inl rfl, by simp⟩
    rw [breakHsegs_none alSeg curr out includeCurr hf, List.append_nil]
  · refine ⟨true, [alSeg], false, ?_, Or.inr rfl, ?_⟩
    · unfold breakHsegs
      simp only [hf, if_true, Bool.false_eq_true, if_false]
      unfold breakCrossing
      simp only [hb, ha, if_true]
    · intro x hx
      rw [List.mem_singleton] at hx
      rw [hx]
      exact eq_self_hseg alSeg

theorem exDiagonal_meets_exDescent : meetOnlyAtEndpoints exDiagonal exDescent := by
  intro s t hs0 hs1 ht0 ht1 ex ey
  simp only [exDiagonal, exDescent, mkHseg] at ex ey
  norm_num at ex ey
  constructor
  · right; linarith
  · left; linarith

theorem c17_shared_endpoint_not_broken_witness :
    exDiagonal.colinear exDescent = false ∧ meetOnlyAtEndpoints exDiagonal exDescent ∧
      ∃ found added colinear,
        breakHsegs exDiagonal exDescent [] true = (found, exDescent, [] ++ added, colinear) ∧
        (added = [] ∨ added = [exDiagonal]) ∧ ∀ x ∈ added, x.eq exDiagonal = true :=
  ⟨by decide!, exDiagonal_meets_exDescent,
    c17_shared_endpoint_not_broken exDiagonal exDescent [] true (by decide!)
      exDiagonal_meets_exDescent⟩

theorem lexLt_irrefl (ax ay : ℚ) : ¬ lexLt ax ay ax ay := by
  unfold lexLt
  rintro (h | ⟨_, h⟩) <;> exact lt_irrefl _ h

theorem lexLt_total {ax ay bx bY : ℚ} (hne : ¬ (ax = bx ∧ ay = bY)) :
    lexLt ax ay bx bY ∨ lexLt bx bY ax ay := by
  unfold lexLt
  rcases lt_trichotomy ax bx with h | h | h
  · exact Or.inl (Or.inl h)
  · rcases lt_trichotomy ay bY with h' | h' | h'
    · exact Or.inl (Or.inr ⟨h, h'⟩)
    · exact absurd ⟨h, h'⟩ hne
    · exact Or.inr (Or.inr ⟨h.symm, h'⟩)
  · exact Or.inr (Or.inl h)

theorem lexLt_asymm {ax ay bx bY : ℚ} (h : lexLt ax ay bx bY) : ¬ lexLt bx bY ax ay := by
  unfold lexLt at h ⊢
  rintro (h' | ⟨e, h'⟩)
  · rcases h with h | ⟨e, _⟩
    · exact lt_asymm h h'
    · rw [e] at h'; exact lt_irrefl _ h'
  · rcases h with h | ⟨_, h⟩
    · rw [e] at h; exact lt_irrefl _ h
    · exact lt_asymm h h'

theorem isLeft_of_lexLt (h : halfsegment) (hl : lexLt h.dx h.dy h.sx h.sy) :
    h.isLeft = true := (isLeft_iff_lexLt h).mpr hl

theorem isLeft_brother_of_lexLt (h : halfsegment) (hl : lexLt h.dx h.dy h.sx h.sy) :
    h.getBrother.isLeft = false := isLeft_getBrother_of_left ((isLeft_iff_lexLt h).mpr hl)

/-- Claim C18: for two colinear left halfsegments `alSeg` and `curr` with the dominating
point of `alSeg` lexicographically before that of `curr`, and that one before both
submissive points, `breakHsegs` with `includeCurr = true` appends halfsegments, each with
its brother, whose left ones are, in this order, `[alSeg.d, curr.d]`, `[curr.d, m]` and
`[m, M]` for the smaller `m` and the larger `M` of the two submissive points, when these
differ, and `[alSeg.d, curr.d]` and `[curr.d, m]` when the segments share their submissive
point. -/
theorem c18_colinear_pieces (alSeg curr : halfsegment) (out : List halfsegment)
    (hcol : alSeg.colinear curr = true)
    (h1 : lexLt alSeg.dx alSeg.dy curr.dx curr.dy)
    (h2 : lexLt curr.dx curr.dy alSeg.sx alSeg.sy)
    (h3 : lexLt curr.dx curr.dy curr.sx curr.sy) :
    ∃ mid added, breakHsegs alSeg curr out true = (true, mid, out ++ added, true) ∧
      (∀ x ∈ added, x.getBrother ∈ added) ∧
      (added.filter halfsegment.isLeft).map halfsegment.ends =
        (if curr.sx = alSeg.sx ∧ curr.sy = alSeg.sy then
          [(alSeg.dx, alSeg.dy, curr.dx, curr.dy), (curr.dx, curr.dy, curr.sx, curr.sy)]
        else
          [(alSeg.dx, alSeg.dy, curr.dx, curr.dy),
           (curr.dx, curr.dy, (lexMinPoint curr.sx curr.sy alSeg.sx alSeg.sy).1,
             (lexMinPoint curr.sx curr.sy alSeg.sx alSeg.sy).2),
           ((lexMinPoint curr.sx curr.sy alSeg.sx alSeg.sy).1,
             (lexMinPoint curr.sx curr.sy alSeg.sx alSeg.sy).2,
             (lexMaxPoint curr.sx curr.sy alSeg.sx alSeg.sy).1,
             (lexMaxPoint curr.sx curr.sy alSeg.sx alSeg.sy).2)]) := by
  have hf : findIntersectionPoint alSeg curr = (true, curr.dx, curr.dy, true) := by
    unfold findIntersectionPoint
    rw [hcol]
    rfl
  have hp1 : alSeg.dx < curr.dx ∨ alSeg.dy < curr.dy := by
    unfold lexLt at h1
    rcases h1 with h | ⟨_, h⟩
    · exact Or.inl h
    · exact Or.inr h
  have hbh : ∀ r, breakColinear alSeg curr out true = r →
      breakHsegs alSeg curr out true = (true, r.1, r.2, true) := by
    intro r hr
    unfold breakHsegs
    simp only [hf, if_true, hr]
  have hl1 : ({ alSeg with sx := curr.dx, sy := curr.dy } : halfsegment).isLeft = true :=
    isLeft_of_lexLt _ h1
  have hr1 : ({ alSeg with sx := curr.dx, sy := curr.dy } : halfsegment).getBrother.isLeft
      = false := isLeft_brother_of_lexLt _ h1
  by_cases hs : curr.sx = alSeg.sx ∧ curr.sy = alSeg.sy
  · -- the segments share their submissive point
    have c2 : ¬ (curr.sx > alSeg.sx ∨ (curr.sx = alSeg.sx ∧ curr.sy > alSeg.sy)) := by
      rw [hs.1, hs.2]
      rintro (h | ⟨_, h⟩) <;> exact lt_irrefl _ h
    have c3 : ¬ (curr.sx ≠ alSeg.sx ∨ curr.sy ≠ alSeg.sy) := by
      rintro (h | h)
      · exact h hs.1
      · exact h hs.2
    have hl2 : ({ curr with ola := alSeg.la, olb := alSeg.lb } : halfsegment).isLeft = true :=
      isLeft_of_lexLt _ h3
    have hr2 : ({ curr with ola := alSeg.la, olb := alSeg.lb } : halfsegment).getBrother.isLeft
        = false := isLeft_brother_of_lexLt _ h3
    have hbc : breakColinear alSeg curr out true =
        ({ curr with ola := alSeg.la, olb := alSeg.lb },
          out ++ [{ alSeg with sx := curr.dx, sy := curr.dy },
            ({ alSeg with sx := curr.dx, sy := curr.dy } : halfsegment).getBrother,
            ({ curr with ola := alSeg.la, olb := alSeg.lb } : halfsegment).getBrother,
            { curr with ola := alSeg.la, olb := alSeg.lb }]) := by
      unfold breakColinear
      simp only [hp1, c2, c3, if_false, if_true, List.append_assoc, List.cons_append,
        List.nil_append]
    refine ⟨_, _, hbh _ hbc, ?_, ?_⟩
    · intro x hx
      simp only [List.mem_cons, List.mem_singleton, List.not_mem_nil, or_false] at hx ⊢
      rcases hx with rfl | rfl | rfl | rfl
      · right; left; rfl
      · left; rfl
      · right; right; right; rfl
      · right; right; left; rfl
    · rw [if_pos hs]
      simp only [List.filter_cons, hl1, hr1, hl2, hr2, if_true, Bool.false_eq_true, if_false,
        List.filter_nil, List.map_cons, List.map_nil, halfsegment.ends]
  · rw [if_neg hs]
    have c3 : curr.sx ≠ alSeg.sx ∨ curr.sy ≠ alSeg.sy := by
      by_contra hc
      push_neg at hc
      exact hs hc
    rcases lexLt_total hs with hlt | hlt
    · -- `alSeg` extends past `curr`
      have c2 : ¬ (curr.sx > alSeg.sx ∨ (curr.sx = alSeg.sx ∧ curr.sy > alSeg.sy)) := by
        intro hc
        apply lexLt_asymm hlt
        unfold lexLt
        rcases hc with h | ⟨e, h⟩
        · exact Or.inl h
        · exact Or.inr ⟨e.symm, h⟩
      have hl2 : ({ curr with ola := alSeg.la, olb := alSeg.lb } : halfsegment).isLeft = true :=
        isLeft_of_lexLt _ h3
      have hr2 : ({ curr with ola := alSeg.la, olb := alSeg.lb } : halfsegment).getBrother.isLeft
          = false := isLeft_brother_of_lexLt _ h3
      have hl3 : ({ alSeg with dx := curr.sx, dy := curr.sy } : halfsegment).isLeft = true :=
        isLeft_of_lexLt _ hlt
      have hr3 : ({ alSeg with dx := curr.sx, dy := curr.sy } : halfsegment).getBrother.isLeft
          = false := isLeft_brother_of_lexLt _ hlt
      have hbc : breakColinear alSeg curr out true =
          ({ curr with ola := alSeg.la, olb := alSeg.lb },
            out ++ [{ alSeg with sx := curr.dx, sy := curr.dy },
              ({ alSeg with sx := curr.dx, sy := curr.dy } : halfsegment).getBrother,
              ({ curr with ola := alSeg.la, olb := alSeg.lb } : halfsegment).getBrother,
              { curr with ola := alSeg.la, olb := alSeg.lb },
              { alSeg with dx := curr.sx, dy := curr.sy },
              ({ alSeg with dx := curr.sx, dy := curr.sy } : halfsegment).getBrother]) := by
        unfold breakColinear
        simp only [hp1, c2, c3, if_false, if_true, List.append_assoc, List.cons_append,
          List.nil_append]
      refine ⟨_, _, hbh _ hbc, ?_, ?_⟩
      · intro x hx
        simp only [List.mem_cons, List.mem_singleton, List.not_mem_nil, or_false] at hx ⊢
        rcases hx with rfl | rfl | rfl | rfl | rfl | rfl
        · right; left; rfl
        · left; rfl
        · right; right; right; left; rfl
        · right; right; left; rfl
        · right; right; right; right; right; rfl
        · right; right; right; right; left; rfl
      · simp only [List.filter_cons, hl1, hr1, hl2, hr2, hl3, hr3, if_true, Bool.false_eq_true,
          if_false, List.filter_nil, List.map_cons, List.map_nil, halfsegment.ends,
          lexMinPoint, lexMaxPoint, hlt]
    · -- `curr` extends past `alSeg`
      have c2 : curr.sx > alSeg.sx ∨ (curr.sx = alSeg.sx ∧ curr.sy > alSeg.sy) := by
        unfold lexLt at hlt
        rcases hlt with h | ⟨e, h⟩
        · exact Or.inl h
        · exact Or.inr ⟨e.symm, h⟩
      have hn : ¬ lexLt curr.sx curr.sy alSeg.sx alSeg.sy := lexLt_asymm hlt
      have hl2 : ({ curr with sx := alSeg.sx, sy := alSeg.sy, ola := alSeg.la, olb := alSeg.lb } : halfsegment).isLeft = true := isLeft_of_lexLt _ h2
      have hr2 : ({ curr with sx := alSeg.sx, sy := alSeg.sy, ola := alSeg.la, olb := alSeg.lb } : halfsegment).getBrother.isLeft = false :=
        isLeft_brother_of_lexLt _ h2
      have hl3 : ({ curr with dx := alSeg.sx, dy := alSeg.sy } : halfsegment).isLeft = true :=
        isLeft_of_lexLt _ hlt
      have hr3 : ({ curr with dx := alSeg.sx, dy := alSeg.sy } : halfsegment).getBrother.isLeft
          = false := isLeft_brother_of_lexLt _ hlt
      have hbc : breakColinear alSeg curr out true =
          ({ curr with sx := alSeg.sx, sy := alSeg.sy, ola := alSeg.la, olb := alSeg.lb },
            out ++ [{ alSeg with sx := curr.dx, sy := curr.dy },
              ({ alSeg with sx := curr.dx, sy := curr.dy } : halfsegment).getBrother,
              ({ curr with sx := alSeg.sx, sy := alSeg.sy, ola := alSeg.la, olb := alSeg.lb } : halfsegment).getBrother,
              { curr with sx := alSeg.sx, sy := alSeg.sy, ola := alSeg.la, olb := alSeg.lb },
              { curr with dx := alSeg.sx, dy := alSeg.sy },
              ({ curr with dx := alSeg.sx, dy := alSeg.sy } : halfsegment).getBrother]) := by
        unfold breakColinear
        simp only [hp1, c2, c3, if_false, if_true, List.append_assoc, List.cons_append,
          List.nil_append]
      refine ⟨_, _, hbh _ hbc, ?_, ?_⟩
      · intro x hx
        simp only [List.mem_cons, List.mem_singleton, List.not_mem_nil, or_false] at hx ⊢
        rcases hx with rfl | rfl | rfl | rfl | rfl | rfl
        · right; left; rfl
        · left; rfl
        · right; right; right; left; rfl
        · right; right; left; rfl
        · right; right; right; right; right; rfl
        · right; right; right; right; left; rfl
      · simp only [List.filter_cons, hl1, hr1, hl2, hr2, hl3, hr3, if_true, Bool.false_eq_true,
          if_false, List.filter_nil, List.map_cons, List.map_nil, halfsegment.ends,
          lexMinPoint, lexMaxPoint, hn]

theorem c18_colinear_pieces_witness :
    exFar.colinear exOverlap = true ∧ lexLt exFar.dx exFar.dy exOverlap.dx exOverlap.dy ∧
      lexLt exOverlap.dx exOverlap.dy exFar.sx exFar.sy ∧
      lexLt exOverlap.dx exOverlap.dy exOverlap.sx exOverlap.sy ∧
      ∃ mid added, breakHsegs exFar exOverlap [] true = (true, mid, [] ++ added, true) ∧
        (∀ x ∈ added, x.getBrother ∈ added) ∧
        (added.filter halfsegment.isLeft).map halfsegment.ends =
          [(0, 0, 1, 0), (1, 0, 2, 0), (2, 0, 3, 0)] :=
  ⟨by decide!, by decide!, by decide!, by decide!,
    c18_colinear_pieces exFar exOverlap [] (by decide!) (by decide!) (by decide!) (by decide!)⟩

/-! ## The strip plan -/

theorem abortsOnly_ok {α : Type} (a : α) : AbortsOnly (Except.ok a : M α) := by
  intro e he
  cases he

theorem abortsOnly_bind {α β : Type} (m : M α) (f : α → M β) (hm : AbortsOnly m)
    (hf : ∀ a, m = Except.ok a → AbortsOnly (f a)) : AbortsOnly (m >>= f) := by
  intro e he
  cases hma : m with
  | error e' =>
    rw [hma] at he
    have : e' = e := by
      simp only [bind, Except.bind] at he
      cases he; rfl
    rw [← this]
    exact hm e' hma
  | ok a =>
    rw [hma] at he
    exact hf a hma e he

theorem abortsOnly_vecGet {α : Type} (v : List α) (i : Int) : AbortsOnly (vecGet v i) := by
  intro e he
  unfold vecGet at he
  split_ifs at he
  · cases he; right; rfl
  · cases hg : v.get? i.toNat with
    | none => rw [hg] at he; cases he; right; rfl
    | some a => rw [hg] at he; cases he

theorem abortsOnly_vecSet {α : Type} (v : List α) (i : Int) (a : α) :
    AbortsOnly (vecSet v i a) := by
  intro e he
  unfold vecSet at he
  split_ifs at he
  · cases he; right; rfl
  · cases he

/-- The middle index of the binary searches lies in the range. -/
theorem mid_bounds (lo hi : Int) (h0 : -1 ≤ lo) (hlt : lo < hi) :
    lo ≤ (lo + hi).tdiv 2 ∧ (lo + hi).tdiv 2 ≤ hi ∧ (0 ≤ lo → (lo + hi).tdiv 2 < hi) := by
  by_cases hn : 0 ≤ lo + hi
  · rw [Int.tdiv_eq_ediv hn (by decide)]
    omega
  · have e1 : lo = -1 := by omega
    have e2 : hi = 0 := by omega
    subst e1 e2
    decide

/-- The loop of `binarySearchExists` ends within its fuel. -/
theorem binarySearchExistsLoop_aborts (region : List halfsegment) (x : ℚ) :
    ∀ (fuel : Nat) (lo hi : Int), 0 ≤ lo → hi - lo + 1 ≤ fuel → 1 ≤ fuel →
      AbortsOnly (binarySearchExistsLoop region x fuel lo hi) := by
  intro fuel
  induction fuel with
  | zero => intro lo hi _ _ h; omega
  | succ f ih =>
    intro lo hi h0 hm _
    unfold binarySearchExistsLoop
    by_cases hlt : lo < hi
    · rw [if_pos hlt]
      obtain ⟨m1, _, m3⟩ := mid_bounds lo hi (by omega) hlt
      have m3' := m3 h0
      refine abortsOnly_bind _ _ (abortsOnly_vecGet _ _) ?_
      intro r _
      split_ifs
      · exact ih _ _ (by omega) (by push_cast at hm ⊢; omega) (by push_cast at hm; omega)
      · exact ih _ _ h0 (by push_cast at hm ⊢; omega) (by push_cast at hm; omega)
      · exact abortsOnly_ok _
    · rw [if_neg hlt]
      exact abortsOnly_ok _

theorem binarySearchExists_aborts (region : List halfsegment) (x : ℚ) :
    AbortsOnly (binarySearchExists region x) := by
  unfold binarySearchExists
  exact binarySearchExistsLoop_aborts region x _ _ _ (le_refl _) (by push_cast; omega)
    (by omega)

/-- The loop of `binarySearchSmallestGreater` ends within its fuel, and an index inside
the region that it returns is of an entry to the right of `x`. -/
theorem binarySearchSmallestGreaterLoop_spec (region : List halfsegment) (x : ℚ) :
    ∀ (fuel : Nat) (lo hi : Int), -1 ≤ lo → hi - lo + 1 ≤ fuel → 1 ≤ fuel →
      (hi < (region.length : Int) → ∀ h, vecGet region hi = Except.ok h → x < h.dx) →
      AbortsOnly (binarySearchSmallestGreaterLoop region x fuel lo hi) ∧
      ∀ idx, binarySearchSmallestGreaterLoop region x fuel lo hi = Except.ok idx →
        idx < (region.length : Int) → ∀ h, vecGet region idx = Except.ok h → x < h.dx := by
  intro fuel
  induction fuel with
  | zero => intro lo hi _ _ h; omega
  | succ f ih =>
    intro lo hi h0 hm _ hhi
    unfold binarySearchSmallestGreaterLoop
    by_cases hlt : lo < hi
    · rw [if_pos hlt]
      obtain ⟨m1, m2, _⟩ := mid_bounds lo hi h0 hlt
      have hf1 : 1 ≤ f := by push_cast at hm; omega
      simp only [bind, Except.bind]
      cases hr : vecGet region ((lo + hi).tdiv 2) with
      | error e =>
        simp only []
        constructor
        · intro e' he'
          cases he'
          exact abortsOnly_vecGet _ _ e hr
        · intro idx hidx
          cases hidx
      | ok r =>
        simp only []
        by_cases hle : r.dx ≤ x
        · rw [if_pos hle]
          exact ih _ _ (by omega) (by push_cast at hm ⊢; omega) hf1 hhi
        · rw [if_neg hle]
          have hgt : x < r.dx := not_le.mp hle
          by_cases hpos : (lo + hi).tdiv 2 > 0
          · rw [if_pos hpos]
            cases hr' : vecGet region ((lo + hi).tdiv 2 - 1) with
            | error e =>
              constructor
              · intro e' he'
                cases he'
                exact abortsOnly_vecGet _ _ e hr'
              · intro idx hidx
                cases hidx
            | ok r' =>
              simp only []
              by_cases hle' : r'.dx ≤ x
              · rw [if_pos hle']
                constructor
                · exact abortsOnly_ok _
                · intro idx hidx _ h hh
                  simp only [pure, Except.pure] at hidx
                  cases hidx
                  rw [hr] at hh
                  cases hh
                  exact hgt
              · rw [if_neg hle']
                refine ih _ _ h0 (by push_cast at hm ⊢; omega) hf1 ?_
                intro _ h hh
                rw [hr'] at hh
                cases hh
                exact not_le.mp hle'
          · rw [if_neg hpos]
            refine ih _ _ h0 (by push_cast at hm ⊢; omega) hf1 ?_
            intro _ h hh
            exfalso
            have hneg : (lo + hi).tdiv 2 - 1 < 0 := by omega
            unfold vecGet at hh
            rw [if_pos hneg] at hh
            cases hh
    · rw [if_neg hlt]
      constructor
      · exact abortsOnly_ok _
      · intro idx hidx hlen h hh
        simp only [pure, Except.pure] at hidx
        cases hidx
        exact hhi hlen h hh

theorem binarySearchSmallestGreater_spec (region : List halfsegment) (x : ℚ) :
    AbortsOnly (binarySearchSmallestGreater region x) ∧
      ∀ idx, binarySearchSmallestGreater region x = Except.ok idx →
        idx < (region.length : Int) → ∀ h, vecGet region idx = Except.ok h → x < h.dx := by
  unfold binarySearchSmallestGreater
  exact binarySearchSmallestGreaterLoop_spec region x _ _ _ (le_refl _) (by push_cast; omega)
    (by omega) (fun h => absurd h (lt_irrefl _))

theorem outcome_iff {α : Type} (P : α → Prop) (m : M α) :
    Outcome P m ↔ AbortsOnly m ∧ ∀ a, m = Except.ok a → P a := by
  cases m with
  | error e =>
    constructor
    · intro h
      refine ⟨?_, fun a ha => by cases ha⟩
      intro e' he'
      cases he'
      exact h
    · intro h
      exact h.1 e rfl
  | ok a =>
    constructor
    · intro h
      refine ⟨abortsOnly_ok a, ?_⟩
      intro b hb
      cases hb
      exact h
    · intro h
      exact h.2 a rfl

theorem outcome_ok {α : Type} (P : α → Prop) (a : α) (h : P a) :
    Outcome P (Except.ok a : M α) := h

theorem outcome_exit {α : Type} (P : α → Prop) :
    Outcome P (Except.error Fault.exit : M α) := Or.inl rfl

theorem outcome_bind {α β : Type} (Q : α → Prop) (P : β → Prop) (m : M α) (f : α → M β)
    (hm : Outcome Q m) (hf : ∀ a, Q a → Outcome P (f a)) : Outcome P (m >>= f) := by
  cases m with
  | error e => exact hm
  | ok a => exact hf a hm

theorem outcome_of_aborts {α : Type} (m : M α) (h : AbortsOnly m) :
    Outcome (fun _ => True) m :=
  (outcome_iff _ m).mpr ⟨h, fun _ _ => trivial⟩

theorem mem_endpointXs (l : List halfsegment) (x : ℚ) :
    x ∈ endpointXs l ↔ ∃ h ∈ l, x = h.dx ∨ x = h.sx := by
  unfold endpointXs
  simp only [List.mem_append, List.mem_map]
  constructor
  · rintro (⟨h, hh, rfl⟩ | ⟨h, hh, rfl⟩)
    · exact ⟨h, hh, Or.inl rfl⟩
    · exact ⟨h, hh, Or.inr rfl⟩
  · rintro ⟨h, hh, rfl | rfl⟩
    · exact Or.inl ⟨h, hh, rfl⟩
    · exact Or.inr ⟨h, hh, rfl⟩

/-- The scan for the least and the greatest x: the accumulated pair bounds the end points
of the region, and stays within any bounds on the start values and the end points. -/
theorem scanMinMax_spec : ∀ (l : List halfsegment) (lo hi : ℚ),
    (scanMinMax l (lo, hi)).1 ≤ lo ∧ hi ≤ (scanMinMax l (lo, hi)).2 ∧
      (∀ h ∈ l, (scanMinMax l (lo, hi)).1 ≤ h.dx ∧ (scanMinMax l (lo, hi)).1 ≤ h.sx ∧
        h.dx ≤ (scanMinMax l (lo, hi)).2 ∧ h.sx ≤ (scanMinMax l (lo, hi)).2) ∧
      (∀ c, c ≤ lo → (∀ h ∈ l, c ≤ h.dx ∧ c ≤ h.sx) → c ≤ (scanMinMax l (lo, hi)).1) ∧
      (∀ c, hi ≤ c → (∀ h ∈ l, h.dx ≤ c ∧ h.sx ≤ c) → (scanMinMax l (lo, hi)).2 ≤ c) := by
  intro l
  induction l with
  | nil =>
    intro lo hi
    simp [scanMinMax]
  | cons h rest ih =>
    intro lo hi
    unfold scanMinMax
    simp only []
    obtain ⟨i1, i2, i3, i4, i5⟩ := ih
      (if h.sx < (if h.dx < lo then h.dx else lo) then h.sx else (if h.dx < lo then h.dx else lo))
      (if h.sx > (if h.dx > hi then h.dx else hi) then h.sx else (if h.dx > hi then h.dx else hi))
    have a1 : (if h.sx < (if h.dx < lo then h.dx else lo) then h.sx
        else (if h.dx < lo then h.dx else lo)) ≤ lo := by
      split_ifs <;> linarith
    have a2 : (if h.sx < (if h.dx < lo then h.dx else lo) then h.sx
        else (if h.dx < lo then h.dx else lo)) ≤ h.dx := by
      split_ifs <;> linarith
    have a3 : (if h.sx < (if h.dx < lo then h.dx else lo) then h.sx
        else (if h.dx < lo then h.dx else lo)) ≤ h.sx := by
      split_ifs <;> linarith
    have b1 : hi ≤ (if h.sx > (if h.dx > hi then h.dx else hi) then h.sx
        else (if h.dx > hi then h.dx else hi)) := by
      split_ifs <;> linarith
    have b2 : h.dx ≤ (if h.sx > (if h.dx > hi then h.dx else hi) then h.sx
        else (if h.dx > hi then h.dx else hi)) := by
      split_ifs <;> linarith
    have b3 : h.sx ≤ (if h.sx > (if h.dx > hi then h.dx else hi) then h.sx
        else (if h.dx > hi then h.dx else hi)) := by
      split_ifs <;> linarith
    refine ⟨le_trans i1 a1, le_trans b1 i2, ?_, ?_, ?_⟩
    · intro g hg
      rcases List.mem_cons.mp hg with rfl | hg
      · exact ⟨le_trans i1 a2, le_trans i1 a3, le_trans b2 i2, le_trans b3 i2⟩
      · exact i3 g hg
    · intro c hc hall
      refine i4 c ?_ (fun g hg => hall g (List.mem_cons_of_mem _ hg))
      have := hall h (List.mem_cons_self _ _)
      split_ifs <;> first | exact this.1 | exact this.2 | exact hc
    · intro c hc hall
      refine i5 c ?_ (fun g hg => hall g (List.mem_cons_of_mem _ hg))
      have := hall h (List.mem_cons_self _ _)
      split_ifs <;> first | exact this.1 | exact this.2 | exact hc

theorem spacedValues_length (w : ℚ) : ∀ (n : Nat) (prev : ℚ),
    (spacedValues w n prev).length = n := by
  intro n
  induction n with
  | zero => intro prev; rfl
  | succ n ih => intro prev; simp [spacedValues, ih]

/-- The spaced values increase and lie after `prev`, up to `prev + n w`. -/
theorem spacedValues_spec (w : ℚ) (hw : 0 < w) : ∀ (n : Nat) (prev : ℚ),
    (spacedValues w n prev).Pairwise (fun a b => a < b) ∧
      ∀ v ∈ spacedValues w n prev, prev < v ∧ v ≤ prev + n * w := by
  intro n
  induction n with
  | zero =>
    intro prev
    simp [spacedValues]
  | succ n ih =>
    intro prev
    obtain ⟨p, q⟩ := ih (prev + w)
    unfold spacedValues
    constructor
    · rw [List.pairwise_cons]
      exact ⟨fun v hv => (q v hv).1, p⟩
    · intro v hv
      rcases List.mem_cons.mp hv with rfl | hv
      · constructor
        · linarith
        · push_cast
          nlinarith
      · obtain ⟨q1, q2⟩ := q v hv
        constructor
        · linarith
        · push_cast
          linarith

/-- The loop that spaces the interior boundaries writes the spaced values. -/
theorem spaceBounds_eq (w : ℚ) : ∀ (n : Nat) (pre mid post : List ℚ) (prev : ℚ),
    mid.length = n →
      spaceBounds w n (pre.length : Int) prev (pre ++ mid ++ post)
        = Except.ok (pre ++ spacedValues w n prev ++ post) := by
  intro n
  induction n with
  | zero =>
    intro pre mid post prev hm
    have : mid = [] := List.length_eq_zero.mp hm
    subst this
    rfl
  | succ n ih =>
    intro pre mid post prev hm
    have hne : mid ≠ [] := by
      intro h
      rw [h] at hm
      simp at hm
    obtain ⟨m, mid', rfl⟩ := List.exists_cons_of_ne_nil hne
    have hm' : mid'.length = n := by simpa using hm
    unfold spaceBounds
    have hs : vecSet (pre ++ m :: mid' ++ post) (pre.length : Int) (prev + w)
        = Except.ok (pre ++ (prev + w) :: (mid' ++ post)) := by
      have := vecSet_mid pre m (prev + w) (mid' ++ post)
      simpa using this
    simp only [hs, bind, Except.bind]
    have := ih (pre ++ [prev + w]) mid' post (prev + w) hm'
    simp only [List.length_append, List.length_cons, List.length_nil, Nat.cast_add,
      Nat.cast_one, zero_add, List.append_assoc, List.singleton_append] at this
    simp only [spacedValues, List.append_assoc, List.cons_append]
    exact this

/-- Moving one entry of an increasing vector forward, staying before the next entry, keeps
the vector increasing. -/
theorem pairwise_move (pre : List ℚ) (x v y : ℚ) (post : List ℚ)
    (hp : (pre ++ x :: y :: post).Pairwise (fun a b => a < b)) (h1 : x ≤ v) (h2 : v < y) :
    (pre ++ v :: y :: post).Pairwise (fun a b => a < b) := by
  rw [List.pairwise_append, List.pairwise_cons] at hp ⊢
  obtain ⟨p1, ⟨p2, p3⟩, p4⟩ := hp
  refine ⟨p1, ⟨?_, p3⟩, ?_⟩
  · intro a ha
    rcases List.mem_cons.mp ha with rfl | ha'
    · exact h2
    · rw [List.pairwise_cons] at p3
      exact lt_trans h2 (p3.1 a ha')
  · intro a ha b hb
    rcases List.mem_cons.mp hb with rfl | hb'
    · exact lt_of_lt_of_le (p4 a ha x (List.mem_cons_self _ _)) h1
    · exact p4 a ha b (List.mem_cons_of_mem _ hb')

/-- The value that `findIsoBoundaries` takes from a region to bound a moved boundary lies
after the boundary. -/
theorem boundFromRegion_outcome (r : List halfsegment) (b xVal : ℚ) (idx : Int)
    (hx : b < xVal)
    (hidx : idx < (r.length : Int) → ∀ h, vecGet r idx = Except.ok h → b < h.dx) :
    Outcome (fun v => b < v ∧ v ≤ xVal)
      (if 0 ≤ idx ∧ idx < (r.length : Int) then do
          let h ← vecGet r idx
          pure (if h.dx < xVal then h.dx else xVal)
        else pure xVal : M ℚ) := by
  split_ifs with hv
  · cases hg : vecGet r idx with
    | error e => exact abortsOnly_vecGet r idx e hg
    | ok h =>
      have := hidx hv.2 h hg
      show b < (if h.dx < xVal then h.dx else xVal) ∧ (if h.dx < xVal then h.dx else xVal) ≤ xVal
      split_ifs with hlt
      · exact ⟨this, le_of_lt hlt⟩
      · exact ⟨hx, le_refl _⟩
  · exact ⟨hx, le_refl _⟩

/-- A value taken from a vector entry when a guard holds, and a default otherwise, both
passed on to the same continuation. -/
theorem outcome_guarded {β γ : Type} (c : Prop) [Decidable c] (g : M γ) (k : γ → ℚ) (d : ℚ)
    (jp : ℚ → M β) (Q : ℚ → Prop) (P : β → Prop)
    (hg : Outcome Q (if c then do
          let h ← g
          pure (k h)
        else pure d : M ℚ))
    (hjp : ∀ v, Q v → Outcome P (jp v)) :
    Outcome P (if c then do
        let h ← g
        let y ← pure (k h)
        jp y
      else do
        let y ← pure d
        jp y) := by
  by_cases hc : c
  · rw [if_pos hc] at hg ⊢
    cases hgv : g with
    | error e =>
      rw [hgv] at hg
      exact hg
    | ok h =>
      rw [hgv] at hg
      exact hjp _ hg
  · rw [if_neg hc] at hg ⊢
    exact hjp _ hg

/-- The loop that moves boundaries off end points keeps an increasing vector increasing,
with its first entries and its last entry, or aborts. -/
theorem adjustBounds_spec (r1 r2 : List halfsegment) :
    ∀ (n : Nat) (pre : List ℚ) (x : ℚ) (rest : List ℚ), rest.length = n →
      (pre ++ x :: rest).Pairwise (fun a b => a < b) →
      Outcome (fun b => b.Pairwise (fun a c => a < c) ∧
          ∃ mid, b = pre ++ mid ∧ mid.length = n + 1 ∧ mid.getLast? = (x :: rest).getLast?)
        (adjustBounds r1 r2 n (pre.length : Int) (pre ++ x :: rest)) := by
  intro n
  induction n with
  | zero =>
    intro pre x rest hr hp
    have : rest = [] := List.length_eq_zero.mp hr
    subst this
    exact ⟨hp, [x], rfl, rfl, rfl⟩
  | succ n ih =>
    intro pre x rest hr hp
    have hne : rest ≠ [] := by
      intro h
      rw [h] at hr
      simp at hr
    obtain ⟨y, post, rfl⟩ := List.exists_cons_of_ne_nil hne
    have hpost : post.length = n := by simpa using hr
    have hxy : x < y := by
      rw [List.pairwise_append, List.pairwise_cons] at hp
      exact hp.2.1.1 y (List.mem_cons_self _ _)
    -- the recursive call, on the vector with `v` at the current index
    have hrec : ∀ v, x ≤ v → v < y →
        Outcome (fun b => b.Pairwise (fun a c => a < c) ∧
          ∃ mid, b = pre ++ mid ∧ mid.length = n + 1 + 1 ∧
            mid.getLast? = (x :: y :: post).getLast?)
          (adjustBounds r1 r2 n ((pre.length : Int) + 1) (pre ++ v :: y :: post)) := by
      intro v h1 h2
      have hp' := pairwise_move pre x v y post hp h1 h2
      have := ih (pre ++ [v]) y post hpost (by simpa using hp')
      simp only [List.length_append, List.length_cons, List.length_nil, Nat.cast_add,
        Nat.cast_one, zero_add, List.append_assoc, List.singleton_append] at this
      rw [outcome_iff] at this ⊢
      refine ⟨this.1, ?_⟩
      intro b hb
      obtain ⟨q1, mid, q2, q3, q4⟩ := this.2 b hb
      refine ⟨q1, v :: mid, by rw [q2], by simp [q3], ?_⟩
      have hmne : mid ≠ [] := by
        intro h
        rw [h] at q3
        simp at q3
      obtain ⟨m0, ms, rfl⟩ := List.exists_cons_of_ne_nil hmne
      rw [List.getLast?_cons_cons, q4, List.getLast?_cons_cons]
    unfold adjustBounds
    refine outcome_bind (fun b => b = x) _ _ _ (by rw [vecGet_mid pre x (y :: post)]; rfl) ?_
    intro b0 hb0
    subst hb0
    refine outcome_bind (fun _ => True) _ _ _
      (outcome_of_aborts _ (binarySearchExists_aborts r1 b0)) ?_
    intro i1 _
    refine outcome_bind (fun _ => True) _ _ _
      (outcome_of_aborts _ (binarySearchExists_aborts r2 b0)) ?_
    intro i2 _
    split_ifs with hadj
    · refine outcome_bind
        (fun j => j < (r1.length : Int) → ∀ h, vecGet r1 j = Except.ok h → b0 < h.dx) _ _ _
        ((outcome_iff _ _).mpr (binarySearchSmallestGreater_spec r1 b0)) ?_
      intro j1 hj1
      refine outcome_bind
        (fun j => j < (r2.length : Int) → ∀ h, vecGet r2 j = Except.ok h → b0 < h.dx) _ _ _
        ((outcome_iff _ _).mpr (binarySearchSmallestGreater_spec r2 b0)) ?_
      intro j2 hj2
      refine outcome_bind (fun v => v = y) _ _ _
        (by rw [vecGet_mid_succ pre b0 y post]; rfl) ?_
      intro v0 hv0
      subst hv0
      refine outcome_guarded _ _ _ _ _ (fun v => b0 < v ∧ v ≤ v0) _
        (boundFromRegion_outcome r1 b0 v0 j1 hxy hj1) ?_
      intro v1 hv1
      refine outcome_guarded _ _ _ _ _ (fun v => b0 < v ∧ v ≤ v0) _ ?_ ?_
      · have := boundFromRegion_outcome r2 b0 v1 j2 hv1.1 hj2
        rw [outcome_iff] at this ⊢
        exact ⟨this.1, fun a ha => ⟨(this.2 a ha).1, le_trans (this.2 a ha).2 hv1.2⟩⟩
      intro v2 hv2
      split_ifs with hmax
      · exact outcome_exit _
      · refine outcome_bind (fun l => l = pre ++ ((b0 + v2) / 2) :: v0 :: post) _ _ _
          (by rw [vecSet_mid pre b0 ((b0 + v2) / 2) (v0 :: post)]; rfl) ?_
        intro l hl
        subst hl
        exact hrec ((b0 + v2) / 2) (by linarith) (by linarith)
    · exact hrec b0 (le_refl _) hxy

/-- Function `findIsoBoundaries` for at least two strips: the two extreme values, the
evenly spaced interior boundaries, then the loop that moves boundaries off end points. -/
theorem findIsoBoundaries_eq (r1 r2 : List halfsegment) (j : Nat) :
    findIsoBoundaries r1 r2 (freshBounds (j + 2)) =
      adjustBounds r1 r2 (j + 1) 1
        ([dblMax * -1] ++
          spacedValues
            (((scanMinMax r2 (scanMinMax r1 (dblMax, dblMax * -1))).2 -
              (scanMinMax r2 (scanMinMax r1 (dblMax, dblMax * -1))).1) / ((j + 2 : Nat) : ℚ))
            (j + 1) (scanMinMax r2 (scanMinMax r1 (dblMax, dblMax * -1))).1 ++ [dblMax]) := by
  have s1 : vecSet (freshBounds (j + 2)) 0 (dblMax * -1)
      = Except.ok ((dblMax * -1) :: List.replicate (j + 2) 0) := by
    have := vecSet_mid [] (0 : ℚ) (dblMax * -1) (List.replicate (j + 2) 0)
    simpa [freshBounds, List.replicate_succ] using this
  have s2 : vecSet ((dblMax * -1) :: List.replicate (j + 2) (0 : ℚ))
      ((((dblMax * -1) :: List.replicate (j + 2) (0 : ℚ)).length : Int) - 1) dblMax
      = Except.ok ([dblMax * -1] ++ List.replicate (j + 1) 0 ++ [dblMax]) := by
    have := vecSet_mid ((dblMax * -1) :: List.replicate (j + 1) (0 : ℚ)) 0 dblMax []
    have e : (dblMax * -1) :: List.replicate (j + 1) (0 : ℚ) ++ [0]
        = (dblMax * -1) :: List.replicate (j + 2) 0 := by
      rw [List.cons_append, ← List.replicate_succ']
    rw [e] at this
    have e2 : ((((dblMax * -1) :: List.replicate (j + 2) (0 : ℚ)).length : Int) - 1)
        = (((dblMax * -1) :: List.replicate (j + 1) (0 : ℚ)).length : Int) := by
      simp only [List.length_cons, List.length_replicate]
      push_cast
      ring
    rw [e2, this]
    rfl
  have hlen : ([dblMax * -1] ++ List.replicate (j + 1) (0 : ℚ) ++ [dblMax]).length = j + 3 := by
    simp
  unfold findIsoBoundaries
  simp only [s1, s2, bind, Except.bind]
  have h2 : ¬ (([dblMax * -1] ++ List.replicate (j + 1) (0 : ℚ) ++ [dblMax]).length = 2) := by
    rw [hlen]; omega
  rw [if_neg h2]
  cases hsc1 : scanMinMax r1 (dblMax, dblMax * -1) with
  | mk mn1 mx1 =>
    cases hsc2 : scanMinMax r2 (mn1, mx1) with
    | mk mn mx =>
      simp only [hlen]
      have hsp := spaceBounds_eq ((mx - mn) / ((j + 2 : Nat) : ℚ)) (j + 1) [dblMax * -1]
        (List.replicate (j + 1) 0) [dblMax] mn (by simp)
      have e3 : j + 3 - 2 = j + 1 := by omega
      have e4 : j + 3 - 1 = j + 2 := by omega
      simp only [e3, e4]
      simp only [List.length_singleton, Nat.cast_one] at hsp
      rw [hsp]
      simp only []
      have hlen2 : ([dblMax * -1] ++ spacedValues ((mx - mn) / ((j + 2 : Nat) : ℚ)) (j + 1) mn
          ++ [dblMax]).length = j + 3 := by
        simp [spacedValues_length]
      rw [hlen2, e3]

theorem outcome_mono {α : Type} (P Q : α → Prop) (m : M α) (h : Outcome P m)
    (hpq : ∀ a, P a → Q a) : Outcome Q m := by
  cases m with
  | error e => exact h
  | ok a => exact hpq a h

/-- The least and greatest x that `findIsoBoundaries` finds bound every end point, lie
within the range of the end points, and differ when two end points have different x. -/
theorem scan_both (r1 r2 : List halfsegment)
    (hfin : ∀ x ∈ endpointXs (r1 ++ r2), -dblMax ≤ x ∧ x ≤ dblMax)
    (hdist : ∃ a ∈ endpointXs (r1 ++ r2), ∃ b ∈ endpointXs (r1 ++ r2), a ≠ b) :
    -dblMax ≤ (scanMinMax r2 (scanMinMax r1 (dblMax, dblMax * -1))).1 ∧
      (scanMinMax r2 (scanMinMax r1 (dblMax, dblMax * -1))).2 ≤ dblMax ∧
      (scanMinMax r2 (scanMinMax r1 (dblMax, dblMax * -1))).1
        < (scanMinMax r2 (scanMinMax r1 (dblMax, dblMax * -1))).2 := by
  have hpos : (0 : ℚ) ≤ dblMax := by unfold dblMax; norm_num
  obtain ⟨a1, a2, a3, a4, a5⟩ := scanMinMax_spec r1 dblMax (dblMax * -1)
  have hb := scanMinMax_spec r2 (scanMinMax r1 (dblMax, dblMax * -1)).1
    (scanMinMax r1 (dblMax, dblMax * -1)).2
  simp only [Prod.mk.eta] at hb
  obtain ⟨b1, b2, b3, b4, b5⟩ := hb
  have hfin1 : ∀ h ∈ r1, (-dblMax ≤ h.dx ∧ -dblMax ≤ h.sx) ∧ (h.dx ≤ dblMax ∧ h.sx ≤ dblMax) := by
    intro h hh
    have hm : h ∈ r1 ++ r2 := List.mem_append_left _ hh
    have x1 := hfin h.dx ((mem_endpointXs _ _).mpr ⟨h, hm, Or.inl rfl⟩)
    have x2 := hfin h.sx ((mem_endpointXs _ _).mpr ⟨h, hm, Or.inr rfl⟩)
    exact ⟨⟨x1.1, x2.1⟩, ⟨x1.2, x2.2⟩⟩
  have hfin2 : ∀ h ∈ r2, (-dblMax ≤ h.dx ∧ -dblMax ≤ h.sx) ∧ (h.dx ≤ dblMax ∧ h.sx ≤ dblMax) := by
    intro h hh
    have hm : h ∈ r1 ++ r2 := List.mem_append_right _ hh
    have x1 := hfin h.dx ((mem_endpointXs _ _).mpr ⟨h, hm, Or.inl rfl⟩)
    have x2 := hfin h.sx ((mem_endpointXs _ _).mpr ⟨h, hm, Or.inr rfl⟩)
    exact ⟨⟨x1.1, x2.1⟩, ⟨x1.2, x2.2⟩⟩
  have hall : ∀ x ∈ endpointXs (r1 ++ r2),
      (scanMinMax r2 (scanMinMax r1 (dblMax, dblMax * -1))).1 ≤ x ∧
        x ≤ (scanMinMax r2 (scanMinMax r1 (dblMax, dblMax * -1))).2 := by
    intro x hx
    obtain ⟨h, hh, hxe⟩ := (mem_endpointXs _ _).mp hx
    rcases List.mem_append.mp hh with h1 | h2
    · obtain ⟨c1, c2, c3, c4⟩ := a3 h h1
      rcases hxe with rfl | rfl
      · exact ⟨le_trans b1 c1, le_trans c3 b2⟩
      · exact ⟨le_trans b1 c2, le_trans c4 b2⟩
    · obtain ⟨c1, c2, c3, c4⟩ := b3 h h2
      rcases hxe with rfl | rfl
      · exact ⟨c1, c3⟩
      · exact ⟨c2, c4⟩
  refine ⟨?_, ?_, ?_⟩
  · exact b4 _ (a4 _ (by linarith) (fun h hh => (hfin1 h hh).1)) (fun h hh => (hfin2 h hh).1)
  · exact b5 _ (a5 _ (by linarith) (fun h hh => (hfin1 h hh).2)) (fun h hh => (hfin2 h hh).2)
  · obtain ⟨a, ha, b, hb', hab⟩ := hdist
    have ha' := hall a ha
    have hb'' := hall b hb'
    rcases lt_or_gt_of_ne hab with h | h
    · linarith
    · linarith

/-- Claim C15: for inputs whose end points have x-coordinates within the range of the
doubles, at least two of them distinct, and for `k >= 2` strips, the strip plan that
`findIsoBoundaries` computes has `k + 1` entries, is strictly increasing, starts with the
most negative and ends with the most positive representable value.  The function computes
the plan or aborts, by `exit(-1)` or by a read outside a vector; the loops of its binary
searches always end. -/
theorem c15_strip_plan_increasing (r1 r2 : List halfsegment) (k : Nat) (hk : 2 ≤ k)
    (hfin : ∀ x ∈ endpointXs (r1 ++ r2), -dblMax ≤ x ∧ x ≤ dblMax)
    (hdist : ∃ a ∈ endpointXs (r1 ++ r2), ∃ b ∈ endpointXs (r1 ++ r2), a ≠ b) :
    Outcome (fun b => b.length = k + 1 ∧ b.Pairwise (fun a c => a < c) ∧
        b.head? = some (-dblMax) ∧ b.getLast? = some dblMax)
      (findIsoBoundaries r1 r2 (freshBounds k)) := by
  obtain ⟨j, rfl⟩ : ∃ j, k = j + 2 := ⟨k - 2, by omega⟩
  rw [findIsoBoundaries_eq]
  obtain ⟨hmn, hmx, hlt⟩ := scan_both r1 r2 hfin hdist
  generalize (scanMinMax r2 (scanMinMax r1 (dblMax, dblMax * -1))).1 = mn at hmn hlt ⊢
  generalize (scanMinMax r2 (scanMinMax r1 (dblMax, dblMax * -1))).2 = mx at hmx hlt ⊢
  have hj : (0 : ℚ) < ((j + 2 : Nat) : ℚ) := by positivity
  have hw : 0 < (mx - mn) / ((j + 2 : Nat) : ℚ) := div_pos (by linarith) hj
  generalize hwd : (mx - mn) / ((j + 2 : Nat) : ℚ) = w at hw ⊢
  have hkw : mn + ((j + 2 : Nat) : ℚ) * w = mx := by
    rw [← hwd]
    field_simp
  obtain ⟨sp, sq⟩ := spacedValues_spec w hw (j + 1) mn
  have hsv : ∀ v ∈ spacedValues w (j + 1) mn, -dblMax < v ∧ v < dblMax := by
    intro v hv
    obtain ⟨q1, q2⟩ := sq v hv
    constructor
    · linarith
    · push_cast at q2 hkw
      nlinarith
  have hpos : (0 : ℚ) < dblMax := by unfold dblMax; norm_num
  have hpw : ([dblMax * -1] ++ (mn + w) :: (spacedValues w j (mn + w) ++ [dblMax])).Pairwise
      (fun a b => a < b) := by
    have e : (mn + w) :: (spacedValues w j (mn + w) ++ [dblMax])
        = spacedValues w (j + 1) mn ++ [dblMax] := rfl
    rw [e, List.pairwise_append]
    refine ⟨List.pairwise_singleton _ _, ?_, ?_⟩
    · rw [List.pairwise_append]
      refine ⟨sp, List.pairwise_singleton _ _, ?_⟩
      intro a ha b hb
      rw [List.mem_singleton] at hb
      rw [hb]
      exact (hsv a ha).2
    · intro a ha b hb
      rw [List.mem_singleton] at ha
      rw [ha]
      rcases List.mem_append.mp hb with hb | hb
      · have := (hsv b hb).1
        linarith
      · rw [List.mem_singleton] at hb
        rw [hb]
        linarith
  have hspec := adjustBounds_spec r1 r2 (j + 1) [dblMax * -1] (mn + w)
    (spacedValues w j (mn + w) ++ [dblMax]) (by simp [spacedValues_length]) hpw
  have e1 : (([dblMax * -1] : List ℚ).length : Int) = 1 := by simp
  rw [e1] at hspec
  have e2 : [dblMax * -1] ++ (mn + w) :: (spacedValues w j (mn + w) ++ [dblMax])
      = [dblMax * -1] ++ spacedValues w (j + 1) mn ++ [dblMax] := by
    simp [spacedValues]
  rw [e2] at hspec
  refine outcome_mono _ _ _ hspec ?_
  rintro b ⟨hb1, mid, rfl, hm1, hm2⟩
  refine ⟨by simp [hm1], hb1, by simp, ?_⟩
  have hmne : mid ≠ [] := by
    intro h
    rw [h] at hm1
    simp at hm1
  rw [List.getLast?_append_of_ne_nil _ hmne, hm2]
  have e3 : (mn + w) :: (spacedValues w j (mn + w) ++ [dblMax])
      = ((mn + w) :: spacedValues w j (mn + w)) ++ [dblMax] := rfl
  rw [e3, List.getLast?_append_of_ne_nil _ (by simp)]
  rfl

theorem c15_strip_plan_increasing_witness :
    2 ≤ 4 ∧ (∀ x ∈ endpointXs (unitSquare ++ shiftedSquare), -dblMax ≤ x ∧ x ≤ dblMax) ∧
      (∃ a ∈ endpointXs (unitSquare ++ shiftedSquare),
        ∃ b ∈ endpointXs (unitSquare ++ shiftedSquare), a ≠ b) ∧
      findIsoBoundaries unitSquare shiftedSquare (freshBounds 4)
        = Except.ok [-dblMax, 3 / 8, 3 / 4, 9 / 8, dblMax] ∧
      Outcome (fun b => b.length = 4 + 1 ∧ b.Pairwise (fun a c => a < c) ∧
          b.head? = some (-dblMax) ∧ b.getLast? = some dblMax)
        (findIsoBoundaries unitSquare shiftedSquare (freshBounds 4)) :=
  ⟨by decide, by decide!, by decide!, by decide!,
    c15_strip_plan_increasing unitSquare shiftedSquare 4 (by decide) (by decide!) (by decide!)⟩

/-- Claim C21 as stated fails: in the overlay of the triangles `(0,0), (2,0), (1,2)` and
`(0,2), (2,2), (1,0)` the boundaries meet in four points only, and the closed figure they
enclose has four sides, not six; eight segments, not six, lie outside it. -/
theorem c21_no_hexagon :
    overlayPlaneSweep 40 triangleUp triangleDown [] = Except.ok triangleOverlay ∧
      (innerSegments triangleOverlay).length ≠ 6 ∧
      (outerSegments triangleOverlay).length ≠ 6 ∧
      ((triangleOverlay.filter fun h =>
          decide (2 < segmentsAt triangleOverlay h.dx h.dy)).map
            fun h => (h.dx, h.dy)).dedup = [(1/2, 1), (1, 0), (1, 2), (3/2, 1)] := by
  decide!

/-- Claim C21, amended: for the triangles `(0,0), (2,0), (1,2)` and `(0,2), (2,2), (1,0)`
(sorted left/right pair lists) `overlayPlaneSweep` returns twelve segments: four form the
closed quadrilateral `(1/2,1), (1,0), (3/2,1), (1,2)`, eight lie outside it, and every
halfsegment of the result has its brother in the result, so that the result holds twelve
left and twelve right halfsegments. -/
theorem c21_triangles_overlay :
    sortedHseg triangleUp ∧ sortedHseg triangleDown ∧
      overlayPlaneSweep 40 triangleUp triangleDown [] = Except.ok triangleOverlay ∧
      (triangleOverlay.filter halfsegment.isLeft).length = 12 ∧
      (innerSegments triangleOverlay).map halfsegment.ends
        = [(1/2, 1, 1, 0), (1/2, 1, 1, 2), (1, 0, 3/2, 1), (1, 2, 3/2, 1)] ∧
      (outerSegments triangleOverlay).map halfsegment.ends
        = [(0, 0, 1, 0), (0, 0, 1/2, 1), (0, 2, 1/2, 1), (0, 2, 1, 2),
           (1, 0, 2, 0), (1, 2, 2, 2), (3/2, 1, 2, 0), (3/2, 1, 2, 2)] ∧
      (∀ h ∈ triangleOverlay, h.getBrother ∈ triangleOverlay) ∧
      (triangleOverlay.filter fun h => !h.isLeft).length
        = (triangleOverlay.filter halfsegment.isLeft).length := by
  decide!

/-! ## Recombination: the searches of `createFinalOverlay` -/

theorem vecGet_inside {α : Type} (v : List α) (i : Int) (h0 : 0 ≤ i)
    (h1 : i < (v.length : Int)) : ∃ a, vecGet v i = Except.ok a ∧ a ∈ v := by
  unfold vecGet
  rw [if_neg (by omega)]
  have hi : i.toNat < v.length := by omega
  refine ⟨v.get ⟨i.toNat, hi⟩, ?_, List.get_mem _ _ _⟩
  rw [List.get?_eq_get hi]
  rfl

/-- A binary search for a halfsegment that no entry of the region equals by end points
ends within its fuel and reports `false`. -/
theorem binarySearchHalfsegmentLoop_absent (region : List halfsegment) (h : halfsegment)
    (hne : ∀ x ∈ region, x.eq h = false) :
    ∀ (fuel : Nat) (lo hi : Int), 0 ≤ lo → hi ≤ (region.length : Int) →
      hi - lo + 1 ≤ fuel → 1 ≤ fuel →
      ∃ mid, binarySearchHalfsegmentLoop region h fuel lo hi = Except.ok (false, mid) := by
  intro fuel
  induction fuel with
  | zero => intro lo hi _ _ _ h1; omega
  | succ f ih =>
    intro lo hi h0 hhi hm _
    unfold binarySearchHalfsegmentLoop
    by_cases hlt : lo < hi
    · rw [if_pos hlt]
      obtain ⟨m1, _, m3⟩ := mid_bounds lo hi (by omega) hlt
      have m3 := m3 h0
      obtain ⟨r, hr, hmem⟩ := vecGet_inside region ((lo + hi).tdiv 2) (by omega) (by omega)
      have hf1 : 1 ≤ f := by push_cast at hm; omega
      simp only [hr, bind, Except.bind, hne r hmem, Bool.false_eq_true, if_false]
      by_cases hl : r.lt h = true
      · rw [if_pos hl]
        exact ih _ _ (by omega) hhi (by push_cast at hm ⊢; omega) hf1
      · rw [if_neg hl]
        exact ih _ _ h0 (by omega) (by push_cast at hm ⊢; omega) hf1
    · rw [if_neg hlt]
      exact ⟨lo, rfl⟩

theorem binarySearchHalfsegment_absent (region : List halfsegment) (h : halfsegment)
    (hne : ∀ x ∈ region, x.eq h = false) :
    ∃ mid, binarySearchHalfsegment region h = Except.ok (false, mid) := by
  unfold binarySearchHalfsegment
  exact binarySearchHalfsegmentLoop_absent region h hne (region.length + 1) 0 region.length
    (le_refl _) (le_refl _) (by push_cast; omega) (by omega)

/-- Claim C23 as stated fails: strip 1 of `brokenStrips` holds no continuation of the
segment `(0,0)-(1,0)` of strip 0, which ends on the boundary `1` (no halfsegment of strip 1
has the dominating point `(1,0)`); `createFinalOverlay` does not abort but continues with
the position that the binary search returns and joins `(0,0)-(1,0)` with `(1,5)-(2,5)`. -/
theorem c23_continuation_missing :
    (∀ h ∈ brokenStrips.getD 1 [], ¬ (h.dx = 1 ∧ h.dy = 0)) ∧
      binarySearchHalfsegment (brokenStrips.getD 1 []) (mkOut 2 1 0 0 0 (-1) (-1) 0 (-1) (-1))
        = Except.ok (false, 0) ∧
      createFinalOverlay [] brokenStrips [-dblMax, 1, dblMax]
        = Except.ok [ mkOut 2 0 0 2 5 1 0 0 (-1) (-1), mkOut 2 2 5 0 0 1 0 0 (-1) (-1) ] := by
  decide!

/-- Claim C23, amended: when `createFinalOverlay` comes to a valid left halfsegment `curr`
(entry `j` of strip `i`) that ends on the next boundary and whose brother is not present in
strip `i`, it aborts. -/
theorem c23_brother_missing_aborts (isoBounds : List ℚ) (i j : Int)
    (resultStrips : List (List halfsegment)) (finalResult : List halfsegment)
    (broIndex : Option Int) (strip : List halfsegment) (curr : halfsegment) (b : ℚ)
    (hstrip : vecGet resultStrips i = Except.ok strip)
    (hcurr : vecGet strip j = Except.ok curr)
    (hleft : curr.isLeft = true) (hvalid : curr.la ≠ curr.lb)
    (hbound : vecGet isoBounds (i + 1) = Except.ok b) (hends : curr.sx = b)
    (habsent : ∀ x ∈ strip, x.eq curr.getBrother = false) :
    joinEntry isoBounds i j resultStrips finalResult broIndex = Except.error Fault.exit := by
  obtain ⟨mid, hmid⟩ := binarySearchHalfsegment_absent strip curr.getBrother habsent
  unfold joinEntry
  simp only [hstrip, hcurr, bind, Except.bind, hleft, hvalid, hbound, hends, hmid, ne_eq,
    not_false_eq_true, and_self, if_true, Bool.not_false]

theorem c23_brother_missing_aborts_witness :
    joinEntry [-dblMax, 1, dblMax] 0 0 [[mkOut 2 0 0 1 0 1 0 0 (-1) (-1)], []] [] none
        = Except.error Fault.exit ∧
      createFinalOverlay [] [[mkOut 2 0 0 1 0 1 0 0 (-1) (-1)], []] [-dblMax, 1, dblMax]
        = Except.error Fault.exit :=
  And.intro (c23_brother_missing_aborts [-dblMax, 1, dblMax] 0 0
    [[mkOut 2 0 0 1 0 1 0 0 (-1) (-1)], []]
    [] none [mkOut 2 0 0 1 0 1 0 0 (-1) (-1)] (mkOut 2 0 0 1 0 1 0 0 (-1) (-1)) 1
    (by decide!) (by decide!) (by decide!) (by decide!) (by decide!) (by decide!) (by decide!))
    (by decide!)

/-! ## The choice of the next event -/

/-- The loop body of `overlayPlaneSweep` is the selection of `takeEvent` followed by the
event itself. -/
theorem sweepStep_eq_takeEvent (r1 r2 : List halfsegment) (st : SweepState) :
    sweepStep r1 r2 st = (do
      let (currSeg, st) ← takeEvent r1 r2 st
      let st := { st with activeList := { st.activeList with xVal := currSeg.dx } }
      if currSeg.isLeft then leftEvent st currSeg currSeg.dx currSeg.dy
      else rightEvent st currSeg currSeg.dx currSeg.dy) := by
  unfold sweepStep takeEvent
  simp only [bind, Except.bind, pure, Except.pure]
  cases (nextEvent r1 r2 st).2 with
  | none => rfl
  | some n =>
    match n with
    | 0 => rfl
    | 1 => rfl
    | 2 => rfl
    | 3 => rfl
    | n + 4 => rfl

/-- The removal that `takeEvent` does for the event and the source that `nextEvent`
chooses. -/
theorem takeEvent_of_nextEvent (r1 r2 : List halfsegment) (st : SweepState) (c : halfsegment)
    (n : Nat) (h : nextEvent r1 r2 st = (c, some n)) :
    takeEvent r1 r2 st = Except.ok (c,
      if n = 3 then { st with segSource := some 3, discoveredSegs := (st.discoveredSegs.pop).1 }
      else if n = 2 then { st with segSource := some 2, r2Pos := st.r2Pos + 1 }
      else { st with segSource := some n, r1Pos := st.r1Pos + 1 }) := by
  unfold takeEvent
  simp only [h, bind, Except.bind, pure, Except.pure]
  match n with
  | 0 => rfl
  | 1 => rfl
  | 2 => rfl
  | 3 => rfl
  | n + 4 => rfl

theorem takeEvent_ne_popped (st : SweepState) (c h : halfsegment) (s : SweepState)
    (hs : s.segSource ≠ some 3) :
    (Except.ok (c, s) : M (halfsegment × SweepState))
      ≠ Except.ok (h, { st with segSource := some 3,
                                discoveredSegs := (st.discoveredSegs.pop).1 }) := by
  intro heq
  injection heq with heq
  injection heq with _ h2
  apply hs
  rw [h2]

/-- The event chosen by `nextEvent` when the queue is not empty, from the smaller front of
the inputs. -/
theorem nextEvent_of_fronts (r1 r2 : List halfsegment) (st : SweepState) (h : halfsegment)
    (hq : st.discoveredSegs.peek = some h) (hr2 : ∀ b ∈ r2, b.lt maxSeg = true) :
    match smallerFront r1 r2 st with
    | some f =>
      (h.lt f = true ∨ h.eq f = true → nextEvent r1 r2 st = (h, some 3)) ∧
      (¬ (h.lt f = true ∨ h.eq f = true) →
        nextEvent r1 r2 st = (f, some 1) ∨ nextEvent r1 r2 st = (f, some 2))
    | none => h.lt maxSeg = true → nextEvent r1 r2 st = (h, some 3) := by
  unfold smallerFront nextEvent
  cases hA : r1.get? st.r1Pos with
  | none =>
    cases hB : r2.get? st.r2Pos with
    | none =>
      simp only [hq]
      intro hfin
      simp only [hfin, Bool.true_or, if_true]
    | some b =>
      have hb : b.lt maxSeg = true := hr2 b (List.get?_mem hB)
      simp only [hq, hb, if_true]
      constructor
      · intro hc
        have : (h.lt b || h.eq b) = true := by simpa using hc
        simp only [this, if_true]
      · intro hc
        have : (h.lt b || h.eq b) = false := by simpa using hc
        simp only [this, Bool.false_eq_true, if_false]
        right; trivial
  | some a =>
    cases hB : r2.get? st.r2Pos with
    | none =>
      simp only [hq]
      constructor
      · intro hc
        have : (h.lt a || h.eq a) = true := by simpa using hc
        simp only [this, if_true]
      · intro hc
        have : (h.lt a || h.eq a) = false := by simpa using hc
        simp only [this, Bool.false_eq_true, if_false]
        left; trivial
    | some b =>
      simp only [hq]
      by_cases hba : b.lt a = true
      · simp only [hba, if_true]
        constructor
        · intro hc
          have : (h.lt b || h.eq b) = true := by simpa using hc
          simp only [this, if_true]
        · intro hc
          have : (h.lt b || h.eq b) = false := by simpa using hc
          simp only [this, Bool.false_eq_true, if_false]
          right; trivial
      · have hba' : b.lt a = false := by simpa using hba
        simp only [hba', Bool.false_eq_true, if_false]
        constructor
        · intro hc
          have : (h.lt a || h.eq a) = true := by simpa using hc
          simp only [this, if_true]
        · intro hc
          have : (h.lt a || h.eq a) = false := by simpa using hc
          simp only [this, Bool.false_eq_true, if_false]
          left; trivial

/-- Claim C24: in an iteration of the sweep loop with a non-empty event queue whose head is
`h`, the event is taken from the queue (it is `h`, the queue is popped and the positions in
`r1` and `r2` stay) if and only if `h` is less than or equal by end points to the smaller
of the current fronts of `r1` and `r2` (with both inputs used up the event is `h`); in
particular a head equal by end points to that front is taken before it.  The halfsegments
are taken to precede the sentinel `maxSeg`, as all with finite coordinates do. -/
theorem c24_queue_event_iff (r1 r2 : List halfsegment) (st : SweepState) (h : halfsegment)
    (hq : st.discoveredSegs.peek = some h) (hfin : h.lt maxSeg = true)
    (hr2 : ∀ b ∈ r2, b.lt maxSeg = true) :
    (takeEvent r1 r2 st
        = Except.ok (h, { st with segSource := some 3,
                                  discoveredSegs := (st.discoveredSegs.pop).1 })
      ↔ ∀ f, smallerFront r1 r2 st = some f → h.lt f = true ∨ h.eq f = true) ∧
    (∀ f, smallerFront r1 r2 st = some f → h.eq f = true →
      takeEvent r1 r2 st
        = Except.ok (h, { st with segSource := some 3,
                                  discoveredSegs := (st.discoveredSegs.pop).1 })) := by
  have key := nextEvent_of_fronts r1 r2 st h hq hr2
  have hiff : takeEvent r1 r2 st
        = Except.ok (h, { st with segSource := some 3,
                                  discoveredSegs := (st.discoveredSegs.pop).1 })
      ↔ ∀ f, smallerFront r1 r2 st = some f → h.lt f = true ∨ h.eq f = true := by
    cases hf : smallerFront r1 r2 st with
    | none =>
      rw [hf] at key
      rw [takeEvent_of_nextEvent r1 r2 st h 3 (key hfin)]
      simp
    | some f =>
      rw [hf] at key
      by_cases hc : h.lt f = true ∨ h.eq f = true
      · rw [takeEvent_of_nextEvent r1 r2 st h 3 (key.1 hc)]
        simp only [if_true, true_iff]
        intro f' hf'
        cases hf'
        exact hc
      · constructor
        · intro ht
          exfalso
          rcases key.2 hc with hn | hn
          · rw [takeEvent_of_nextEvent r1 r2 st f 1 hn] at ht
            exact takeEvent_ne_popped st _ _ _ (by simp) ht
          · rw [takeEvent_of_nextEvent r1 r2 st f 2 hn] at ht
            exact takeEvent_ne_popped st _ _ _ (by simp) ht
        · intro hall
          exact absurd (hall f rfl) hc
  refine ⟨hiff, ?_⟩
  intro f hf he
  exact hiff.mpr (fun f' hf' => by rw [hf] at hf'; cases hf'; exact Or.inr he)

theorem c24_queue_event_iff_witness :
    (takeEvent (singleEdge 2 1 0) (singleEdge 3 1 0) queuedState
        = Except.ok (mkHseg 3 0 0 1 0 1 0,
            { queuedState with segSource := some 3,
                               discoveredSegs := (queuedState.discoveredSegs.pop).1 })
      ↔ ∀ f, smallerFront (singleEdge 2 1 0) (singleEdge 3 1 0) queuedState = some f →
          (mkHseg 3 0 0 1 0 1 0).lt f = true ∨ (mkHseg 3 0 0 1 0 1 0).eq f = true) ∧
    (∀ f, smallerFront (singleEdge 2 1 0) (singleEdge 3 1 0) queuedState = some f →
      (mkHseg 3 0 0 1 0 1 0).eq f = true →
      takeEvent (singleEdge 2 1 0) (singleEdge 3 1 0) queuedState
        = Except.ok (mkHseg 3 0 0 1 0 1 0,
            { queuedState with segSource := some 3,
                               discoveredSegs := (queuedState.discoveredSegs.pop).1 })) :=
  c24_queue_event_iff (singleEdge 2 1 0) (singleEdge 3 1 0) queuedState (mkHseg 3 0 0 1 0 1 0)
    (by decide!) (by decide!) (by decide!)

/-- Claim C25 as stated fails: at the start of the sweep of two copies of the edge
`(0,0)-(1,0)` the fronts of `r1` and `r2` are equal by end points and the queue is empty;
the event is taken from `r1`, whose position advances, and the position in `r2` stays. -/
theorem c25_second_input_not_taken :
    (singleEdge 2 1 0).get? (SweepState.init []).r1Pos = some (mkHseg 2 0 0 1 0 1 0) ∧
      (singleEdge 3 1 0).get? (SweepState.init []).r2Pos = some (mkHseg 3 0 0 1 0 1 0) ∧
      (mkHseg 2 0 0 1 0 1 0).eq (mkHseg 3 0 0 1 0 1 0) = true ∧
      (SweepState.init []).discoveredSegs.peek = none ∧
      takeEvent (singleEdge 2 1 0) (singleEdge 3 1 0) (SweepState.init [])
        = Except.ok (mkHseg 2 0 0 1 0 1 0,
            { SweepState.init [] with segSource := some 1, r1Pos := 1, r2Pos := 0 }) := by
  decide!

/-- Claim C25, amended: when the fronts `a` of `r1` and `b` of `r2` are equal by end points
and the head of the event queue, if there is one, is not less than or equal to them, the
sweep takes the next event from `r1` (`r1` has precedence over `r2` on ties): the position
in `r1` advances and the position in `r2` and the queue stay. -/
theorem c25_first_input_on_ties (r1 r2 : List halfsegment) (st : SweepState)
    (a b : halfsegment) (h1 : r1.get? st.r1Pos = some a) (h2 : r2.get? st.r2Pos = some b)
    (heq : a.eq b = true)
    (hq : ∀ h, st.discoveredSegs.peek = some h → ¬ (h.lt a = true ∨ h.eq a = true)) :
    takeEvent r1 r2 st
      = Except.ok (a, { st with segSource := some 1, r1Pos := st.r1Pos + 1 }) := by
  have hba : b.lt a = false := by
    apply lt_false_of_key_le
    exact le_of_eq ((eq_iff_key a b).mp heq)
  have hn : nextEvent r1 r2 st = (a, some 1) := by
    unfold nextEvent
    simp only [h1, h2, hba, Bool.false_eq_true, if_false]
    cases hp : st.discoveredSegs.peek with
    | none => rfl
    | some h =>
      have hc := hq h hp
      have : (h.lt a || h.eq a) = false := by simpa using hc
      simp only [this, Bool.false_eq_true, if_false]
  rw [takeEvent_of_nextEvent r1 r2 st a 1 hn]
  rfl

theorem c25_first_input_on_ties_witness :
    takeEvent (singleEdge 2 1 0) (singleEdge 3 1 0) (SweepState.init [])
      = Except.ok (mkHseg 2 0 0 1 0 1 0,
          { SweepState.init [] with segSource := some 1,
                                    r1Pos := (SweepState.init []).r1Pos + 1 }) :=
  c25_first_input_on_ties (singleEdge 2 1 0) (singleEdge 3 1 0) (SweepState.init [])
    (mkHseg 2 0 0 1 0 1 0) (mkHseg 3 0 0 1 0 1 0) (by decide!) (by decide!) (by decide!)
    (by decide!)

/-! ## The colinear branch of `breakHsegs` -/

/-- Claim C29 fails on the code: `exSlopeLater` and `exSlope` are colinear left
halfsegments and the dominating point `(1,-1)` of `exSlopeLater` is lexicographically after
the dominating point `(0,0)` of `exSlope`, yet `breakHsegs` appends a part-1 pair, the
halfsegment from `(1,-1)` to `(0,0)` with the labels of `exSlopeLater` and its brother. -/
theorem c29_part_one_appended :
    exSlopeLater.isLeft = true ∧ exSlope.isLeft = true ∧
      exSlopeLater.colinear exSlope = true ∧
      ¬ lexLt exSlopeLater.dx exSlopeLater.dy exSlope.dx exSlope.dy ∧
      breakHsegs exSlopeLater exSlope [] false
        = (true, mkOut 3 0 0 2 (-2) 1 0 (-1) 1 0,
            [ mkOut 2 1 (-1) 0 0 1 0 (-1) 1 0,
              mkOut 2 0 0 1 (-1) 1 0 (-1) 1 0,
              mkOut 3 2 (-2) 0 0 1 0 (-1) 1 0,
              mkOut 2 2 (-2) 3 (-3) 1 0 (-1) 1 0,
              mkOut 2 3 (-3) 2 (-2) 1 0 (-1) 1 0 ], true) := by
  decide!

/-- Claim C30: for colinear `alSeg` and `curr`, `breakHsegs` rewrites `currSeg` to the
middle piece `m`, which has the dominating point, `la`, `lb` and `regionID` of `curr`, the
lexicographically smaller of `curr.s` and `alSeg.s` as submissive point, `ola = alSeg.la`
and `olb = alSeg.lb`; between the pair of part 1 and the pair of part 3, when there are
such, it appends the brother of `m` in every case, followed by `m` itself if and only if
`includeCurr` is true. -/
theorem c30_middle_piece (alSeg curr : halfsegment) (out : List halfsegment) (inc : Bool)
    (hcol : alSeg.colinear curr = true) :
    ∃ m before after,
      breakHsegs alSeg curr out inc
        = (true, m, out ++ before ++ m.getBrother :: (if inc then [m] else []) ++ after, true) ∧
      m = { curr with sx := (lexMinPoint curr.sx curr.sy alSeg.sx alSeg.sy).1,
                      sy := (lexMinPoint curr.sx curr.sy alSeg.sx alSeg.sy).2,
                      ola := alSeg.la, olb := alSeg.lb } ∧
      (before = [] ∨
        before = [{ alSeg with sx := curr.dx, sy := curr.dy },
                  ({ alSeg with sx := curr.dx, sy := curr.dy } : halfsegment).getBrother]) ∧
      (after = [] ∨ ∃ u : halfsegment, after = [u, u.getBrother]) := by
  have hf : findIntersectionPoint alSeg curr = (true, curr.dx, curr.dy, true) := by
    unfold findIntersectionPoint
    rw [hcol]
    rfl
  have hbh : breakHsegs alSeg curr out inc
      = (true, (breakColinear alSeg curr out inc).1, (breakColinear alSeg curr out inc).2,
          true) := by
    unfold breakHsegs
    simp only [hf, if_true]
  have hm : (breakColinear alSeg curr out inc).1
      = { curr with sx := (lexMinPoint curr.sx curr.sy alSeg.sx alSeg.sy).1,
                    sy := (lexMinPoint curr.sx curr.sy alSeg.sx alSeg.sy).2,
                    ola := alSeg.la, olb := alSeg.lb } := by
    unfold breakColinear lexMinPoint lexLt
    by_cases c2 : curr.sx > alSeg.sx ∨ (curr.sx = alSeg.sx ∧ curr.sy > alSeg.sy)
    · have c2n : ¬ (curr.sx < alSeg.sx ∨ (curr.sx = alSeg.sx ∧ curr.sy < alSeg.sy)) := by
        rcases c2 with h | ⟨h1, h2⟩
        · rintro (h' | ⟨h1', _⟩)
          · exact lt_asymm h h'
          · rw [h1'] at h; exact lt_irrefl _ h
        · rintro (h' | ⟨_, h2'⟩)
          · rw [h1] at h'; exact lt_irrefl _ h'
          · exact lt_asymm h2 h2'
      simp only [c2, c2n, if_true, if_false]
    · by_cases c2n : curr.sx < alSeg.sx ∨ (curr.sx = alSeg.sx ∧ curr.sy < alSeg.sy)
      · simp only [c2, c2n, if_true, if_false]
      · have e1 : curr.sx = alSeg.sx := by
          rcases lt_trichotomy curr.sx alSeg.sx with h | h | h
          · exact absurd (Or.inl h) c2n
          · exact h
          · exact absurd (Or.inl h) c2
        have e2 : curr.sy = alSeg.sy := by
          rcases lt_trichotomy curr.sy alSeg.sy with h | h | h
          · exact absurd (Or.inr ⟨e1, h⟩) c2n
          · exact h
          · exact absurd (Or.inr ⟨e1, h⟩) c2
        simp only [c2, c2n, if_false]
        rw [← e1, ← e2]
  refine ⟨(breakColinear alSeg curr out inc).1,
    (if alSeg.dx < curr.dx ∨ alSeg.dy < curr.dy then
      [{ alSeg with sx := curr.dx, sy := curr.dy },
       ({ alSeg with sx := curr.dx, sy := curr.dy } : halfsegment).getBrother] else []),
    (if curr.sx ≠ alSeg.sx ∨ curr.sy ≠ alSeg.sy then
      [(if curr.sx > alSeg.sx ∨ (curr.sx = alSeg.sx ∧ curr.sy > alSeg.sy) then
          { curr with dx := alSeg.sx, dy := alSeg.sy }
        else { alSeg with dx := curr.sx, dy := curr.sy }),
       (if curr.sx > alSeg.sx ∨ (curr.sx = alSeg.sx ∧ curr.sy > alSeg.sy) then
          ({ curr with dx := alSeg.sx, dy := alSeg.sy } : halfsegment)
        else { alSeg with dx := curr.sx, dy := curr.sy }).getBrother] else []),
    ?_, hm, ?_, ?_⟩
  · rw [hbh]
    congr 2
    unfold breakColinear
    by_cases c1 : alSeg.dx < curr.dx ∨ alSeg.dy < curr.dy <;>
    by_cases c3 : curr.sx ≠ alSeg.sx ∨ curr.sy ≠ alSeg.sy <;>
    cases inc <;>
    simp only [c1, c3, if_true, if_false, List.append_assoc, List.cons_append,
      List.nil_append, List.append_nil, Bool.false_eq_true]
  · by_cases c1 : alSeg.dx < curr.dx ∨ alSeg.dy < curr.dy
    · right; rw [if_pos c1]
    · left; rw [if_neg c1]
  · by_cases c3 : curr.sx ≠ alSeg.sx ∨ curr.sy ≠ alSeg.sy
    · right; rw [if_pos c3]; exact ⟨_, rfl⟩
    · left; rw [if_neg c3]

theorem c30_middle_piece_witness :
    ∃ m before after,
      breakHsegs exFar exOverlap [] false
        = (true, m, [] ++ before ++ m.getBrother :: (if false then [m] else []) ++ after, true) ∧
      m = { exOverlap with
              sx := (lexMinPoint exOverlap.sx exOverlap.sy exFar.sx exFar.sy).1,
              sy := (lexMinPoint exOverlap.sx exOverlap.sy exFar.sx exFar.sy).2,
              ola := exFar.la, olb := exFar.lb } ∧
      (before = [] ∨
        before = [{ exFar with sx := exOverlap.dx, sy := exOverlap.dy },
                  ({ exFar with sx := exOverlap.dx,
                                sy := exOverlap.dy } : halfsegment).getBrother]) ∧
      (after = [] ∨ ∃ u : halfsegment, after = [u, u.getBrother]) :=
  c30_middle_piece exFar exOverlap [] false (by decide!)

/-! ## The intersection point of two segments -/

/-- A common point of two segments, at parameter `s` of `h1` and `t` of `h2`, determines
the numerators of `findIntersectionPoint`. -/
theorem common_point_params (h1 h2 : halfsegment) (s t : ℚ)
    (hx : h1.dx + s * (h1.sx - h1.dx) = h2.dx + t * (h2.sx - h2.dx))
    (hy : h1.dy + s * (h1.sy - h1.dy) = h2.dy + t * (h2.sy - h2.dy)) :
    (h2.sx - h2.dx) * (h1.dy - h2.dy) - (h2.sy - h2.dy) * (h1.dx - h2.dx)
        = s * ((h2.sy - h2.dy) * (h1.sx - h1.dx) - (h2.sx - h2.dx) * (h1.sy - h1.dy)) ∧
      (h1.sx - h1.dx) * (h1.dy - h2.dy) - (h1.sy - h1.dy) * (h1.dx - h2.dx)
        = t * ((h2.sy - h2.dy) * (h1.sx - h1.dx) - (h2.sx - h2.dx) * (h1.sy - h1.dy)) := by
  constructor
  · linear_combination (h2.sx - h2.dx) * hy - (h2.sy - h2.dy) * hx
  · linear_combination (h1.sx - h1.dx) * hy - (h1.sy - h1.dy) * hx

/-- Two segments on parallel lines that have a common point are colinear. -/
theorem colinear_of_parallel_common (h1 h2 : halfsegment) (s t : ℚ)
    (hx : h1.dx + s * (h1.sx - h1.dx) = h2.dx + t * (h2.sx - h2.dx))
    (hy : h1.dy + s * (h1.sy - h1.dy) = h2.dy + t * (h2.sy - h2.dy))
    (hden : (h2.sy - h2.dy) * (h1.sx - h1.dx) - (h2.sx - h2.dx) * (h1.sy - h1.dy) = 0) :
    h1.colinear h2 = true := by
  obtain ⟨_, hb⟩ := common_point_params h1 h2 s t hx hy
  rw [hden, mul_zero] at hb
  unfold halfsegment.colinear
  have e1 : 0 = (h2.dy - h1.dy) * (h1.sx - h1.dx) - (h1.sy - h1.dy) * (h2.dx - h1.dx) := by
    linear_combination hb
  have e2 : 0 = (h2.sy - h1.dy) * (h1.sx - h1.dx) - (h1.sy - h1.dy) * (h2.sx - h1.dx) := by
    linear_combination hb - hden
  simp only [← e1, ← e2, decide_True, Bool.and_self]

/-- Claim C28: over exact arithmetic, for two halfsegments `h1`, `h2` that are not colinear
and share neither their dominating points nor their submissive points,
`findIntersectionPoint` returns true if and only if the closed segments have a common
point; `(X, Y)` then lies on both segments and is their only common point; when the lines
are parallel (zero denominator) it returns false. -/
theorem c28_intersection_point (h1 h2 : halfsegment) (hcol : h1.colinear h2 = false)
    (hd : ¬ (h1.dx = h2.dx ∧ h1.dy = h2.dy)) (hs : ¬ (h1.sx = h2.sx ∧ h1.sy = h2.sy)) :
    ((findIntersectionPoint h1 h2).1 = true ↔ ∃ p, onSegment h1 p ∧ onSegment h2 p) ∧
    ((findIntersectionPoint h1 h2).1 = true →
      onSegment h1 ((findIntersectionPoint h1 h2).2.1, (findIntersectionPoint h1 h2).2.2.1) ∧
      onSegment h2 ((findIntersectionPoint h1 h2).2.1, (findIntersectionPoint h1 h2).2.2.1) ∧
      ∀ p, onSegment h1 p → onSegment h2 p →
        p = ((findIntersectionPoint h1 h2).2.1, (findIntersectionPoint h1 h2).2.2.1)) ∧
    ((h2.sy - h2.dy) * (h1.sx - h1.dx) - (h2.sx - h2.dx) * (h1.sy - h1.dy) = 0 →
      (findIntersectionPoint h1 h2).1 = false) := by
  have hsh : ¬ ((h1.dx = h2.dx ∧ h1.dy = h2.dy) ∨ (h1.sx = h2.sx ∧ h1.sy = h2.sy)) := by
    rintro (h | h)
    · exact hd h
    · exact hs h
  -- no common point on parallel lines
  have hpar : (h2.sy - h2.dy) * (h1.sx - h1.dx) - (h2.sx - h2.dx) * (h1.sy - h1.dy) = 0 →
      ¬ ∃ p, onSegment h1 p ∧ onSegment h2 p := by
    rintro hden ⟨p, ⟨s, _, _, hs1⟩, ⟨t, _, _, ht1⟩⟩
    unfold halfsegment.pointAt at hs1 ht1
    have hx : h1.dx + s * (h1.sx - h1.dx) = h2.dx + t * (h2.sx - h2.dx) := by
      rw [← ht1] at hs1
      exact (Prod.mk.inj hs1).1
    have hy : h1.dy + s * (h1.sy - h1.dy) = h2.dy + t * (h2.sy - h2.dy) := by
      rw [← ht1] at hs1
      exact (Prod.mk.inj hs1).2
    have := colinear_of_parallel_common h1 h2 s t hx hy hden
    rw [hcol] at this
    cases this
  by_cases hden : (h2.sy - h2.dy) * (h1.sx - h1.dx) - (h2.sx - h2.dx) * (h1.sy - h1.dy) = 0
  · have hv : findIntersectionPoint h1 h2 = (false, dblMax, dblMax, false) := by
      unfold findIntersectionPoint
      rw [hcol]
      simp only [Bool.false_eq_true, if_false, hsh, hden, if_true]
    rw [hv]
    refine ⟨⟨fun h => Bool.noConfusion h, fun h => absurd h (hpar hden)⟩,
      fun h => Bool.noConfusion h,
      fun _ => rfl⟩
  · -- the parameters of the only candidate
    have ex : h1.dx + ((h2.sx - h2.dx) * (h1.dy - h2.dy) - (h2.sy - h2.dy) * (h1.dx - h2.dx)) /
          ((h2.sy - h2.dy) * (h1.sx - h1.dx) - (h2.sx - h2.dx) * (h1.sy - h1.dy)) *
            (h1.sx - h1.dx)
        = h2.dx + ((h1.sx - h1.dx) * (h1.dy - h2.dy) - (h1.sy - h1.dy) * (h1.dx - h2.dx)) /
          ((h2.sy - h2.dy) * (h1.sx - h1.dx) - (h2.sx - h2.dx) * (h1.sy - h1.dy)) *
            (h2.sx - h2.dx) := by
      field_simp; ring
    have ey : h1.dy + ((h2.sx - h2.dx) * (h1.dy - h2.dy) - (h2.sy - h2.dy) * (h1.dx - h2.dx)) /
          ((h2.sy - h2.dy) * (h1.sx - h1.dx) - (h2.sx - h2.dx) * (h1.sy - h1.dy)) *
            (h1.sy - h1.dy)
        = h2.dy + ((h1.sx - h1.dx) * (h1.dy - h2.dy) - (h1.sy - h1.dy) * (h1.dx - h2.dx)) /
          ((h2.sy - h2.dy) * (h1.sx - h1.dx) - (h2.sx - h2.dx) * (h1.sy - h1.dy)) *
            (h2.sy - h2.dy) := by
      field_simp; ring
    -- every common point has these parameters
    have huniq : ∀ s t : ℚ,
        h1.dx + s * (h1.sx - h1.dx) = h2.dx + t * (h2.sx - h2.dx) →
        h1.dy + s * (h1.sy - h1.dy) = h2.dy + t * (h2.sy - h2.dy) →
        s = ((h2.sx - h2.dx) * (h1.dy - h2.dy) - (h2.sy - h2.dy) * (h1.dx - h2.dx)) /
          ((h2.sy - h2.dy) * (h1.sx - h1.dx) - (h2.sx - h2.dx) * (h1.sy - h1.dy)) ∧
        t = ((h1.sx - h1.dx) * (h1.dy - h2.dy) - (h1.sy - h1.dy) * (h1.dx - h2.dx)) /
          ((h2.sy - h2.dy) * (h1.sx - h1.dx) - (h2.sx - h2.dx) * (h1.sy - h1.dy)) := by
      intro s t hx hy
      obtain ⟨ha, hb⟩ := common_point_params h1 h2 s t hx hy
      constructor
      · rw [ha, mul_div_assoc, div_self hden, mul_one]
      · rw [hb, mul_div_assoc, div_self hden, mul_one]
    generalize hua : ((h2.sx - h2.dx) * (h1.dy - h2.dy) - (h2.sy - h2.dy) * (h1.dx - h2.dx)) /
          ((h2.sy - h2.dy) * (h1.sx - h1.dx) - (h2.sx - h2.dx) * (h1.sy - h1.dy)) = ua
      at ex ey huniq
    generalize hub : ((h1.sx - h1.dx) * (h1.dy - h2.dy) - (h1.sy - h1.dy) * (h1.dx - h2.dx)) /
          ((h2.sy - h2.dy) * (h1.sx - h1.dx) - (h2.sx - h2.dx) * (h1.sy - h1.dy)) = ub
      at ex ey huniq
    by_cases hrange : 0 ≤ ua ∧ ua ≤ 1 ∧ 0 ≤ ub ∧ ub ≤ 1
    · have hv : findIntersectionPoint h1 h2
          = (true, h1.dx + ua * (h1.sx - h1.dx), h1.dy + ua * (h1.sy - h1.dy), false) := by
        unfold findIntersectionPoint
        rw [hcol]
        simp only [Bool.false_eq_true, if_false, hsh, hden, hua, hub, hrange, and_self, if_true]
      rw [hv]
      have on1 : onSegment h1 (h1.dx + ua * (h1.sx - h1.dx), h1.dy + ua * (h1.sy - h1.dy)) :=
        ⟨ua, hrange.1, hrange.2.1, rfl⟩
      have on2 : onSegment h2 (h1.dx + ua * (h1.sx - h1.dx), h1.dy + ua * (h1.sy - h1.dy)) := by
        refine ⟨ub, hrange.2.2.1, hrange.2.2.2, ?_⟩
        unfold halfsegment.pointAt
        rw [ex, ey]
      refine ⟨⟨fun _ => ⟨_, on1, on2⟩, fun _ => rfl⟩, fun _ => ⟨on1, on2, ?_⟩,
        fun h => absurd h hden⟩
      rintro p ⟨s, _, _, hs1⟩ ⟨t, _, _, ht1⟩
      unfold halfsegment.pointAt at hs1 ht1
      have hst := hs1
      rw [← ht1] at hst
      obtain ⟨e1, _⟩ := huniq s t (Prod.mk.inj hst).1 (Prod.mk.inj hst).2
      rw [← hs1, e1]
    · have hv : findIntersectionPoint h1 h2 = (false, dblMax, dblMax, false) := by
        unfold findIntersectionPoint
        rw [hcol]
        simp only [Bool.false_eq_true, if_false, hsh, hden, hua, hub, hrange]
      rw [hv]
      refine ⟨⟨fun h => Bool.noConfusion h, ?_⟩, fun h => Bool.noConfusion h, fun _ => rfl⟩
      rintro ⟨p, ⟨s, s0, s1, hs1⟩, ⟨t, t0, t1, ht1⟩⟩
      exfalso
      unfold halfsegment.pointAt at hs1 ht1
      rw [← ht1] at hs1
      obtain ⟨e1, e2⟩ := huniq s t (Prod.mk.inj hs1).1 (Prod.mk.inj hs1).2
      apply hrange
      rw [← e1, ← e2]
      exact ⟨s0, s1, t0, t1⟩

theorem c28_intersection_point_witness :
    ((findIntersectionPoint exDiagonal exAntiDiagonal).1 = true
        ↔ ∃ p, onSegment exDiagonal p ∧ onSegment exAntiDiagonal p) ∧
    ((findIntersectionPoint exDiagonal exAntiDiagonal).1 = true →
      onSegment exDiagonal ((findIntersectionPoint exDiagonal exAntiDiagonal).2.1,
        (findIntersectionPoint exDiagonal exAntiDiagonal).2.2.1) ∧
      onSegment exAntiDiagonal ((findIntersectionPoint exDiagonal exAntiDiagonal).2.1,
        (findIntersectionPoint exDiagonal exAntiDiagonal).2.2.1) ∧
      ∀ p, onSegment exDiagonal p → onSegment exAntiDiagonal p →
        p = ((findIntersectionPoint exDiagonal exAntiDiagonal).2.1,
          (findIntersectionPoint exDiagonal exAntiDiagonal).2.2.1)) ∧
    ((exAntiDiagonal.sy - exAntiDiagonal.dy) * (exDiagonal.sx - exDiagonal.dx)
        - (exAntiDiagonal.sx - exAntiDiagonal.dx) * (exDiagonal.sy - exDiagonal.dy) = 0 →
      (findIntersectionPoint exDiagonal exAntiDiagonal).1 = false) :=
  c28_intersection_point exDiagonal exAntiDiagonal (by decide!) (by decide!) (by decide!)

/-! ## The overlap labels of a left halfsegment -/

/-- On the path of a fresh insertion the left-halfsegment branch gives `currSeg` the labels
of `labelFromBelow` and then looks for intersections. -/
theorem leftEvent_labels (st : SweepState) (h : halfsegment) (X Y : ℚ)
    (al : activeListVec) (segInAL : halfsegment) (segIndex : Int)
    (hasBelow hasAbove : Option halfsegment)
    (hins : st.activeList.insert (clearOverlap h) = Except.ok (al, false, segInAL, segIndex))
    (hb : al.getBelow (clearOverlap h) segIndex = Except.ok hasBelow)
    (ha : al.getAbove (clearOverlap h) segIndex = Except.ok hasAbove) :
    leftEvent st h X Y
      = leftEventBreaks st al segInAL (labelFromBelow (clearOverlap h) hasBelow) segIndex
          hasBelow hasAbove X Y := by
  unfold leftEvent leftEventBreaks
  have hc : ({ h with ola := -1, olb := -1 } : halfsegment) = clearOverlap h := rfl
  simp only [hc, hins, hb, ha, bind, Except.bind, Bool.false_eq_true, if_false]
  cases hasBelow with
  | none => rfl
  | some b => rfl

/-- Claim C26: in a left-halfsegment event on the path of a fresh insertion, the search for
intersections starts from `currSeg` with these overlap labels: `-1` when there is no below
neighbour; `below.ola` when the below neighbour is of the same region; `below.la` when it is
of another region and not vertical, and `below.lb` when it is of another region and
vertical; the labels `la`, `lb`, the end points and the identifiers of `currSeg` are those
of the event. -/
theorem c26_label_propagation (st : SweepState) (h : halfsegment) (X Y : ℚ)
    (al : activeListVec) (segInAL : halfsegment) (segIndex : Int)
    (hasBelow hasAbove : Option halfsegment)
    (hins : st.activeList.insert (clearOverlap h) = Except.ok (al, false, segInAL, segIndex))
    (hb : al.getBelow (clearOverlap h) segIndex = Except.ok hasBelow)
    (ha : al.getAbove (clearOverlap h) segIndex = Except.ok hasAbove) :
    ∃ c : halfsegment,
      leftEvent st h X Y = leftEventBreaks st al segInAL c segIndex hasBelow hasAbove X Y ∧
      (hasBelow = none → c.ola = -1 ∧ c.olb = -1) ∧
      (∀ b, hasBelow = some b → b.regionID = h.regionID → c.ola = b.ola ∧ c.olb = b.ola) ∧
      (∀ b, hasBelow = some b → b.regionID ≠ h.regionID → b.dx ≠ b.sx →
        c.ola = b.la ∧ c.olb = b.la) ∧
      (∀ b, hasBelow = some b → b.regionID ≠ h.regionID → b.dx = b.sx →
        c.ola = b.lb ∧ c.olb = b.lb) ∧
      c.la = h.la ∧ c.lb = h.lb ∧ c.dx = h.dx ∧ c.dy = h.dy ∧ c.sx = h.sx ∧ c.sy = h.sy ∧
      c.regionID = h.regionID ∧ c.stripID = h.stripID := by
  refine ⟨labelFromBelow (clearOverlap h) hasBelow,
    leftEvent_labels st h X Y al segInAL segIndex hasBelow hasAbove hins hb ha, ?_⟩
  cases hasBelow with
  | none =>
    refine ⟨fun _ => ⟨rfl, rfl⟩, ?_, ?_, ?_, rfl, rfl, rfl, rfl, rfl, rfl, rfl, rfl⟩ <;>
      intro b hb' <;> cases hb'
  | some b =>
    have hreg : (clearOverlap h).regionID = h.regionID := rfl
    by_cases hr : h.regionID ≠ b.regionID
    · by_cases hv : b.dx ≠ b.sx
      · have hc : labelFromBelow (clearOverlap h) (some b)
            = { clearOverlap h with ola := b.la, olb := b.la } := by
          unfold labelFromBelow
          dsimp only
          rw [hreg, if_pos hr, if_pos hv]
        rw [hc]
        refine ⟨fun hn => Option.noConfusion hn, ?_, ?_, ?_, rfl, rfl, rfl, rfl, rfl, rfl,
          rfl, rfl⟩
        · intro b' hb' hr'
          cases hb'
          exact absurd hr'.symm hr
        · intro b' hb' _ _
          cases hb'
          exact ⟨rfl, rfl⟩
        · intro b' hb' _ hv'
          cases hb'
          exact absurd hv' hv
      · have hc : labelFromBelow (clearOverlap h) (some b)
            = { clearOverlap h with ola := b.lb, olb := b.lb } := by
          unfold labelFromBelow
          dsimp only
          rw [hreg, if_pos hr, if_neg hv]
        rw [hc]
        refine ⟨fun hn => Option.noConfusion hn, ?_, ?_, ?_, rfl, rfl, rfl, rfl, rfl, rfl,
          rfl, rfl⟩
        · intro b' hb' hr'
          cases hb'
          exact absurd hr'.symm hr
        · intro b' hb' _ hw
          cases hb'
          exact absurd hw hv
        · intro b' hb' _ _
          cases hb'
          exact ⟨rfl, rfl⟩
    · have hc : labelFromBelow (clearOverlap h) (some b)
          = { clearOverlap h with ola := b.ola, olb := b.ola } := by
        unfold labelFromBelow
        dsimp only
        rw [hreg, if_neg hr]
      rw [hc]
      refine ⟨fun hn => Option.noConfusion hn, ?_, ?_, ?_, rfl, rfl, rfl, rfl, rfl, rfl,
        rfl, rfl⟩
      · intro b' hb' _
        cases hb'
        exact ⟨rfl, rfl⟩
      · intro b' hb' hne
        cases hb'
        exact absurd (fun e => hne e.symm) hr
      · intro b' hb' hne
        cases hb'
        exact absurd (fun e => hne e.symm) hr

theorem c26_label_propagation_witness :
    ∃ c : halfsegment,
      leftEvent oneBelowState (mkHseg 3 0 1 1 1 1 0) 0 1
        = leftEventBreaks oneBelowState
            ⟨[clearOverlap (mkHseg 2 0 0 1 0 1 0), clearOverlap (mkHseg 3 0 1 1 1 1 0)], 0⟩
            (clearOverlap (mkHseg 3 0 1 1 1 1 0)) c 1
            (some (clearOverlap (mkHseg 2 0 0 1 0 1 0))) none 0 1 ∧
      (some (clearOverlap (mkHseg 2 0 0 1 0 1 0)) = none → c.ola = -1 ∧ c.olb = -1) ∧
      (∀ b, some (clearOverlap (mkHseg 2 0 0 1 0 1 0)) = some b →
        b.regionID = (mkHseg 3 0 1 1 1 1 0).regionID → c.ola = b.ola ∧ c.olb = b.ola) ∧
      (∀ b, some (clearOverlap (mkHseg 2 0 0 1 0 1 0)) = some b →
        b.regionID ≠ (mkHseg 3 0 1 1 1 1 0).regionID → b.dx ≠ b.sx →
        c.ola = b.la ∧ c.olb = b.la) ∧
      (∀ b, some (clearOverlap (mkHseg 2 0 0 1 0 1 0)) = some b →
        b.regionID ≠ (mkHseg 3 0 1 1 1 1 0).regionID → b.dx = b.sx →
        c.ola = b.lb ∧ c.olb = b.lb) ∧
      c.la = (mkHseg 3 0 1 1 1 1 0).la ∧ c.lb = (mkHseg 3 0 1 1 1 1 0).lb ∧
      c.dx = (mkHseg 3 0 1 1 1 1 0).dx ∧ c.dy = (mkHseg 3 0 1 1 1 1 0).dy ∧
      c.sx = (mkHseg 3 0 1 1 1 1 0).sx ∧ c.sy = (mkHseg 3 0 1 1 1 1 0).sy ∧
      c.regionID = (mkHseg 3 0 1 1 1 1 0).regionID ∧
      c.stripID = (mkHseg 3 0 1 1 1 1 0).stripID :=
  c26_label_propagation oneBelowState (mkHseg 3 0 1 1 1 1 0) 0 1
    ⟨[clearOverlap (mkHseg 2 0 0 1 0 1 0), clearOverlap (mkHseg 3 0 1 1 1 1 0)], 0⟩
    (clearOverlap (mkHseg 3 0 1 1 1 1 0)) 1 (some (clearOverlap (mkHseg 2 0 0 1 0 1 0))) none
    (by decide!) (by decide!) (by decide!)

/-! ## The right-halfsegment event -/

theorem vecGet_range {α : Type} (v : List α) (i : Int) (a : α)
    (h : vecGet v i = Except.ok a) : 0 ≤ i ∧ i < (v.length : Int) := by
  unfold vecGet at h
  by_cases h0 : i < 0
  · rw [if_pos h0] at h
    cases h
  · rw [if_neg h0] at h
    cases hg : v.get? i.toNat with
    | none => rw [hg] at h; cases h
    | some b =>
      have := (List.get?_eq_some.mp hg).1
      omega

theorem exists_found (a : activeListVec) (h e : halfsegment) (idx : Int)
    (hex : a.exists_ h = Except.ok (some (e, idx))) : vecGet a.al idx = Except.ok e := by
  unfold activeListVec.exists_ at hex
  by_cases hi : a.find h ≠ -1
  · simp only [hi, ne_eq, not_false_eq_true, if_true, bind, Except.bind] at hex
    cases hv : vecGet a.al (a.find h) with
    | error err => rw [hv] at hex; cases hex
    | ok c =>
      rw [hv] at hex
      simp only [pure, Except.pure] at hex
      injection hex with hex
      injection hex with hex
      injection hex with h1 h2
      rw [← h1, ← h2]
      exact hv
  · simp only [hi, if_false, pure, Except.pure] at hex
    cases hex

theorem erase_found (a : activeListVec) (e : halfsegment) (idx : Int)
    (hv : vecGet a.al idx = Except.ok e) :
    a.erase e idx = Except.ok { a with al := a.al.eraseIdx idx.toNat } := by
  obtain ⟨h0, h1⟩ := vecGet_range _ _ _ hv
  unfold activeListVec.erase
  rw [if_neg (by omega)]
  simp only [hv, bind, Except.bind, eq_self_hseg, if_true, pure, Except.pure]

theorem getBelow_total (a : activeListVec) (h e : halfsegment) (idx : Int)
    (hv : vecGet a.al idx = Except.ok e) : ∃ r, a.getBelow h idx = Except.ok r := by
  obtain ⟨h0, h1⟩ := vecGet_range _ _ _ hv
  unfold activeListVec.getBelow
  rw [if_neg (by omega)]
  by_cases hz : idx ≤ 0
  · rw [if_pos hz]
    exact ⟨none, rfl⟩
  · rw [if_neg hz]
    obtain ⟨c, hc, _⟩ := vecGet_inside a.al (idx - 1) (by omega) (by omega)
    exact ⟨some c, by simp only [hc, bind, Except.bind, pure, Except.pure]⟩

theorem getAbove_total (a : activeListVec) (h e : halfsegment) (idx : Int)
    (hv : vecGet a.al idx = Except.ok e) : ∃ r, a.getAbove h idx = Except.ok r := by
  obtain ⟨h0, h1⟩ := vecGet_range _ _ _ hv
  unfold activeListVec.getAbove
  rw [if_neg (by omega), if_neg (by omega)]
  by_cases hz : idx ≥ (a.al.length : Int) - 1
  · rw [if_pos hz]
    exact ⟨none, rfl⟩
  · rw [if_neg hz]
    obtain ⟨c, hc, _⟩ := vecGet_inside a.al (idx + 1) (by omega) (by omega)
    exact ⟨some c, by simp only [hc, bind, Except.bind, pure, Except.pure]⟩

/-- What `insertBrokenSegsToActiveListAndDiscoveredQueue` returns as `result` is the
`result` it was given, followed by some of the broken segments. -/
theorem insertBroken_extends :
    ∀ (bs result : List halfsegment) (q : eventQueue) (al : activeListVec) (X Y : ℚ)
      (r : List halfsegment × eventQueue × activeListVec),
      insertBrokenSegsToActiveListAndDiscoveredQueue bs result q al X Y = Except.ok r →
      ∃ extra, r.1 = result ++ extra ∧ ∀ x ∈ extra, x ∈ bs := by
  intro bs
  induction bs with
  | nil =>
    intro result q al X Y r h
    unfold insertBrokenSegsToActiveListAndDiscoveredQueue at h
    cases h
    exact ⟨[], by simp, by simp⟩
  | cons b rest ih =>
    intro result q al X Y r h
    unfold insertBrokenSegsToActiveListAndDiscoveredQueue at h
    split_ifs at h with c1 c2
    · obtain ⟨extra, he, hm⟩ := ih _ _ _ _ _ _ h
      refine ⟨b :: extra, by rw [he]; simp, ?_⟩
      intro x hx
      rcases List.mem_cons.mp hx with rfl | hx
      · exact List.mem_cons_self _ _
      · exact List.mem_cons_of_mem _ (hm x hx)
    · cases hq : q.insert b with
      | error e => rw [hq] at h; cases h
      | ok q' =>
        rw [hq] at h
        obtain ⟨extra, he, hm⟩ := ih _ _ _ _ _ _ h
        exact ⟨extra, he, fun x hx => List.mem_cons_of_mem _ (hm x hx)⟩
    · cases ha : al.insert b with
      | error e => rw [ha] at h; cases h
      | ok a' =>
        rw [ha] at h
        obtain ⟨extra, he, hm⟩ := ih _ _ _ _ _ _ h
        exact ⟨extra, he, fun x hx => List.mem_cons_of_mem _ (hm x hx)⟩

/-- The entry that `find` points to is equal by end points to the halfsegment looked
for. -/
theorem findFrom_eq (h : halfsegment) :
    ∀ (l : List halfsegment) (i : Int), activeListVec.findFrom h l i ≠ -1 → 0 ≤ i →
      i ≤ activeListVec.findFrom h l i ∧
      ∀ c, l.get? (activeListVec.findFrom h l i - i).toNat = some c → h.eq c = true := by
  intro l
  induction l with
  | nil =>
    intro i hi _
    unfold activeListVec.findFrom at hi
    exact absurd rfl hi
  | cons x xs ih =>
    intro i hi h0
    unfold activeListVec.findFrom at hi ⊢
    by_cases hx : h.eq x = true
    · simp only [hx, if_true, le_refl, sub_self, Int.toNat_zero, List.get?_cons_zero,
        Option.some.injEq, true_and]
      intro c hc
      rw [← hc]
      exact hx
    · simp only [hx, Bool.false_eq_true, if_false] at hi ⊢
      obtain ⟨h1, h2⟩ := ih (i + 1) hi (by omega)
      refine ⟨by omega, ?_⟩
      intro c hc
      apply h2 c
      have e : (activeListVec.findFrom h xs (i + 1) - i).toNat
          = (activeListVec.findFrom h xs (i + 1) - (i + 1)).toNat + 1 := by omega
      rw [e, List.get?_cons_succ] at hc
      exact hc

theorem exists_eq (a : activeListVec) (h e : halfsegment) (idx : Int)
    (hex : a.exists_ h = Except.ok (some (e, idx))) : h.eq e = true := by
  have hv := exists_found a h e idx hex
  unfold activeListVec.exists_ at hex
  by_cases hi : a.find h ≠ -1
  · simp only [hi, ne_eq, not_false_eq_true, if_true, bind, Except.bind] at hex
    cases hv2 : vecGet a.al (a.find h) with
    | error err => rw [hv2] at hex; cases hex
    | ok c =>
      rw [hv2] at hex
      simp only [pure, Except.pure] at hex
      injection hex with hex
      injection hex with hex
      injection hex with h1 h2
      subst h1
      unfold activeListVec.find at hi hv2
      obtain ⟨_, hc⟩ := findFrom_eq h a.al 0 hi (le_refl _)
      apply hc
      unfold vecGet at hv2
      split_ifs at hv2
      simp only [sub_zero]
      cases hg : a.al.get? (activeListVec.findFrom h a.al 0).toNat with
      | none => rw [hg] at hv2; cases hv2
      | some d =>
        rw [hg] at hv2
        simp only [pure, Except.pure] at hv2
        cases hv2
        rfl
  · simp only [hi, if_false, pure, Except.pure] at hex
    cases hex

/-- A right-halfsegment event whose brother is stored in the active list as `e`, at `idx`:
the result is extended by `e` and its brother, followed only by segments that `breakHsegs`
yields for the below and the above neighbour of `e`, which then exist and intersect. -/
theorem rightEvent_extends (st : SweepState) (g : halfsegment) (X Y : ℚ) (e : halfsegment)
    (idx : Int) (hex : st.activeList.exists_ g.getBrother = Except.ok (some (e, idx)))
    (st' : SweepState) (h : rightEvent st g X Y = Except.ok st') :
    ∃ extra, st'.result = st.result ++ [e, e.getBrother] ++ extra ∧
      ∀ x ∈ extra, ∃ b a, st.activeList.getBelow e idx = Except.ok (some b) ∧
        st.activeList.getAbove e idx = Except.ok (some a) ∧
        (breakHsegs b a [] true).1 = true ∧ x ∈ (breakHsegs b a [] true).2.2.1 := by
  have hv := exists_found _ _ _ _ hex
  have her := erase_found st.activeList e idx hv
  unfold rightEvent at h
  simp only [hex, bind, Except.bind] at h
  cases hb : st.activeList.getBelow e idx with
  | error err => rw [hb] at h; cases h
  | ok below =>
    cases ha : st.activeList.getAbove e idx with
    | error err => rw [hb, ha] at h; cases h
    | ok above =>
      rw [hb, ha] at h
      simp only [] at h
      cases below with
      | none =>
        simp only [her, pure, Except.pure] at h
        cases h
        exact ⟨[], by simp, fun x hx => absurd hx (List.not_mem_nil x)⟩
      | some b =>
        cases above with
        | none =>
          simp only [her, pure, Except.pure] at h
          cases h
          exact ⟨[], by simp, fun x hx => absurd hx (List.not_mem_nil x)⟩
        | some a =>
          simp only [] at h
          rcases hbr : breakHsegs b a [] true with ⟨f, c, bs, col⟩
          rw [hbr] at h
          cases f with
          | false =>
            simp only [her, pure, Except.pure] at h
            cases h
            exact ⟨[], by simp, fun x hx => absurd hx (List.not_mem_nil x)⟩
          | true =>
            simp only [] at h
            cases h1 : st.activeList.erase b (idx - 1) with
            | error err => rw [h1] at h; cases h
            | ok al1 =>
              rw [h1] at h
              simp only [] at h
              cases h2 : al1.erase a (idx - 1 + 1) with
              | error err => rw [h2] at h; cases h
              | ok al2 =>
                rw [h2] at h
                simp only [] at h
                cases h3 : al2.erase e (idx - 1) with
                | error err => rw [h3] at h; cases h
                | ok al3 =>
                  rw [h3] at h
                  simp only [] at h
                  cases h4 : insertBrokenSegsToActiveListAndDiscoveredQueue bs
                      (st.result ++ [e, e.getBrother]) st.discoveredSegs al3 X Y with
                  | error err => rw [h4] at h; cases h
                  | ok r =>
                    rw [h4] at h
                    obtain ⟨extra, he, hm⟩ := insertBroken_extends _ _ _ _ _ _ _ h4
                    simp only [pure, Except.pure] at h
                    cases h
                    refine ⟨extra, he, fun x hx => ⟨b, a, rfl, rfl, ?_, ?_⟩⟩
                    · rw [hbr]
                    · rw [hbr]
                      exact hm x hx

/-- A right-halfsegment event whose brother is stored in the active list as `e`, at `idx`,
and whose neighbours, when there are two, do not intersect: `e` and its brother go to the
result and `e` is erased. -/
theorem rightEvent_quiet (st : SweepState) (g : halfsegment) (X Y : ℚ) (e : halfsegment)
    (idx : Int) (hex : st.activeList.exists_ g.getBrother = Except.ok (some (e, idx)))
    (hq : ∀ b a, st.activeList.getBelow e idx = Except.ok (some b) →
      st.activeList.getAbove e idx = Except.ok (some a) → (breakHsegs b a [] true).1 = false) :
    rightEvent st g X Y
      = Except.ok { st with
          activeList := { st.activeList with al := st.activeList.al.eraseIdx idx.toNat },
          result := st.result ++ [e, e.getBrother] } := by
  have hv := exists_found _ _ _ _ hex
  have her := erase_found st.activeList e idx hv
  obtain ⟨below, hb⟩ := getBelow_total st.activeList e e idx hv
  obtain ⟨above, ha⟩ := getAbove_total st.activeList e e idx hv
  unfold rightEvent
  simp only [hex, bind, Except.bind, hb, ha]
  cases below with
  | none => simp only [her, pure, Except.pure]
  | some b =>
    cases above with
    | none => simp only [her, pure, Except.pure]
    | some a =>
      have hf := hq b a hb ha
      rcases hbr : breakHsegs b a [] true with ⟨f, c, bs, col⟩
      rw [hbr] at hf
      simp only [] at hf
      subst hf
      simp only [hbr, her, pure, Except.pure]

/-- Claim C27, amended: in a right-halfsegment event, if the active list holds an entry `e`
equal by end points to the brother of the event, the sweep appends `e` followed by its
brother to the result, both with the labels stored in `e`, and after them only segments that
`breakHsegs` yields for the below and the above neighbour of `e` (every further entry is one
of the broken segments of a call that reports an intersection for these two neighbours, so
there is none without two such neighbours); when `e` does not have a below and an above
neighbour that intersect, it appends nothing else, erases `e` from the active list and
leaves the rest of the active list and the event queue as they are.  If the active list
holds no such entry, the result, the active list and the event queue are unchanged. -/
theorem c27_right_event (st : SweepState) (g : halfsegment) (X Y : ℚ) :
    (∀ e idx, st.activeList.exists_ g.getBrother = Except.ok (some (e, idx)) →
      g.getBrother.eq e = true ∧
      (e.getBrother.la = e.la ∧ e.getBrother.lb = e.lb ∧ e.getBrother.ola = e.ola ∧
        e.getBrother.olb = e.olb) ∧
      (∀ st', rightEvent st g X Y = Except.ok st' →
        ∃ extra, st'.result = st.result ++ [e, e.getBrother] ++ extra ∧
          ∀ x ∈ extra, ∃ b a, st.activeList.getBelow e idx = Except.ok (some b) ∧
            st.activeList.getAbove e idx = Except.ok (some a) ∧
            (breakHsegs b a [] true).1 = true ∧ x ∈ (breakHsegs b a [] true).2.2.1) ∧
      ((∀ b a, st.activeList.getBelow e idx = Except.ok (some b) →
          st.activeList.getAbove e idx = Except.ok (some a) →
          (breakHsegs b a [] true).1 = false) →
        rightEvent st g X Y
          = Except.ok { st with
              activeList := { st.activeList with al := st.activeList.al.eraseIdx idx.toNat },
              result := st.result ++ [e, e.getBrother] })) ∧
    (st.activeList.exists_ g.getBrother = Except.ok none →
      rightEvent st g X Y = Except.ok st) := by
  constructor
  · intro e idx hex
    refine ⟨?_, ⟨rfl, rfl, rfl, rfl⟩,
      fun st' h => rightEvent_extends st g X Y e idx hex st' h,
      fun hq => rightEvent_quiet st g X Y e idx hex hq⟩
    exact exists_eq _ _ _ _ hex
  · intro hex
    unfold rightEvent
    simp only [hex, bind, Except.bind, pure, Except.pure]

/-- Claim C27 as stated fails: the seventh event of the sweep of `hookFirst` and
`hookSecond` is the right halfsegment `(1,1)-(0,2)`, whose brother is stored in the active
list between `(0,1)-(1,3)` and `(0,3)-(2,3)`; these intersect in `(1,3)`, and the sweep
appends to the result, after the stored entry and its brother, three more halfsegments. -/
theorem c27_more_appended :
    sortedHseg hookFirst ∧ sortedHseg hookSecond ∧
      sweepSteps hookFirst hookSecond 6 (SweepState.init []) = Except.ok hookState ∧
      sweepStep hookFirst hookSecond hookState
        = rightEvent hookEventState (mkHseg 2 1 1 0 2 1 0) 1 1 ∧
      hookEventState.activeList.exists_ (mkHseg 2 1 1 0 2 1 0).getBrother
        = Except.ok (some (mkOut 2 0 2 1 1 1 0 (-1) 0 0, 1)) ∧
      (rightEvent hookEventState (mkHseg 2 1 1 0 2 1 0) 1 1).map SweepState.result
        = Except.ok (hookEventState.result ++
            [ mkOut 2 0 2 1 1 1 0 (-1) 0 0,
              mkOut 2 1 1 0 2 1 0 (-1) 0 0,
              mkOut 2 1 3 0 3 0 1 (-1) 0 0,
              mkOut 2 0 3 1 3 0 1 (-1) 0 0,
              mkOut 3 0 1 1 3 0 1 (-1) (-1) (-1) ]) := by
  decide!

theorem c27_right_event_witness :
    rightEvent queuedState (mkHseg 2 1 0 0 0 1 0) 1 0 = Except.ok queuedState ∧
      rightEvent oneBelowState (mkHseg 2 1 0 0 0 1 0) 1 0
        = Except.ok { oneBelowState with
            activeList := { oneBelowState.activeList with
              al := oneBelowState.activeList.al.eraseIdx (0 : Int).toNat },
            result := oneBelowState.result ++
              [clearOverlap (mkHseg 2 0 0 1 0 1 0),
               (clearOverlap (mkHseg 2 0 0 1 0 1 0)).getBrother] } :=
  ⟨(c27_right_event queuedState (mkHseg 2 1 0 0 0 1 0) 1 0).2 (by decide!),
   ((c27_right_event oneBelowState (mkHseg 2 1 0 0 0 1 0) 1 0).1
      (clearOverlap (mkHseg 2 0 0 1 0 1 0)) 0 (by decide!)).2.2.2
      (by
        intro b a hb
        have h0 : oneBelowState.activeList.getBelow (clearOverlap (mkHseg 2 0 0 1 0 1 0)) 0
            = Except.ok none := by decide!
        rw [h0] at hb
        cases hb)⟩

/-! ## The overlay of one edge with itself -/

theorem singleEdge_lt_refl (rid1 rid2 la1 lb1 la2 lb2 : Int) :
    (mkHseg rid2 0 0 1 0 la2 lb2).lt (mkHseg rid1 0 0 1 0 la1 lb1) = false := by
  apply lt_false_of_key_le
  exact le_of_eq rfl

theorem singleEdge_left_lt_right (rid1 rid2 la1 lb1 la2 lb2 : Int) :
    (mkHseg rid2 0 0 1 0 la2 lb2).lt (mkHseg rid1 0 0 1 0 la1 lb1).getBrother = true := by
  apply lt_true_of_key_lt
  have h : (mkHseg 0 0 0 1 0 0 0).key < (mkHseg 0 0 0 1 0 0 0).getBrother.key := by decide!
  exact h

theorem singleEdge_right_lt_refl (rid1 rid2 la1 lb1 la2 lb2 : Int) :
    (mkHseg rid2 0 0 1 0 la2 lb2).getBrother.lt (mkHseg rid1 0 0 1 0 la1 lb1).getBrother
      = false := by
  apply lt_false_of_key_le
  exact le_of_eq rfl

theorem singleEdge_lt_maxSeg (rid la lb : Int) :
    (mkHseg rid 0 0 1 0 la lb).getBrother.lt maxSeg = true := by
  apply lt_true_of_key_lt
  have h : (mkHseg 0 0 0 1 0 0 0).getBrother.key < maxSeg.key := by decide!
  exact h

/-- The next event when `r1` is used up, the queue is empty and the front of `r2` is before
the sentinel. -/
theorem nextEvent_second_only (r1 r2 : List halfsegment) (st : SweepState) (b : halfsegment)
    (h1 : r1.get? st.r1Pos = none) (h2 : r2.get? st.r2Pos = some b)
    (hb : b.lt maxSeg = true) (hq : st.discoveredSegs.peek = none) :
    nextEvent r1 r2 st = (b, some 2) := by
  unfold nextEvent
  simp only [h1, h2, hb, hq, if_true]

theorem singleEdge_n1 (rid1 rid2 la1 lb1 la2 lb2 : Int) :
    nextEvent (singleEdge rid1 la1 lb1) (singleEdge rid2 la2 lb2) (SweepState.init [])
    = (mkHseg rid1 0 0 1 0 la1 lb1, some 1) := by
  unfold nextEvent singleEdge SweepState.init
  simp only [List.get?_cons_zero, singleEdge_lt_refl, Bool.false_eq_true, if_false]
  rfl

theorem singleEdge_e1 (rid1 rid2 la1 lb1 la2 lb2 : Int) :
    sweepStep (singleEdge rid1 la1 lb1) (singleEdge rid2 la2 lb2) (SweepState.init [])
    = Except.ok { SweepState.init [] with
        segSource := some 1, r1Pos := 1,
        activeList := ⟨[clearOverlap (mkHseg rid1 0 0 1 0 la1 lb1)], 0⟩ } := by
  rw [sweepStep_eq_takeEvent, takeEvent_of_nextEvent _ _ _ _ _
    (singleEdge_n1 rid1 rid2 la1 lb1 la2 lb2)]
  rfl

theorem singleEdge_n2 (rid1 rid2 la1 lb1 la2 lb2 : Int) :
    nextEvent (singleEdge rid1 la1 lb1) (singleEdge rid2 la2 lb2)
    { SweepState.init [] with
        segSource := some 1, r1Pos := 1,
        activeList := ⟨[clearOverlap (mkHseg rid1 0 0 1 0 la1 lb1)], 0⟩ }
    = (mkHseg rid2 0 0 1 0 la2 lb2, some 2) := by
  unfold nextEvent singleEdge SweepState.init
  simp only [List.get?_cons_succ, List.get?_cons_zero, singleEdge_left_lt_right, if_true]
  rfl

theorem singleEdge_e2 (rid1 rid2 la1 lb1 la2 lb2 : Int) (hrid : rid1 ≠ rid2) :
    sweepStep (singleEdge rid1 la1 lb1) (singleEdge rid2 la2 lb2)
    { SweepState.init [] with
        segSource := some 1, r1Pos := 1,
        activeList := ⟨[clearOverlap (mkHseg rid1 0 0 1 0 la1 lb1)], 0⟩ }
    = Except.ok { SweepState.init [] with
        segSource := some 2, r1Pos := 1, r2Pos := 1,
        activeList := ⟨[withOverlap (mkHseg rid2 0 0 1 0 la2 lb2) la1 lb1], 0⟩,
        discoveredSegs := ⟨[(withOverlap (mkHseg rid2 0 0 1 0 la2 lb2) la1 lb1).getBrother]⟩ } := by
  rw [sweepStep_eq_takeEvent, takeEvent_of_nextEvent _ _ _ _ _
    (singleEdge_n2 rid1 rid2 la1 lb1 la2 lb2)]
  exact leftEvent_overlapLast
    { r1Pos := 1, r2Pos := 1, segSource := some 2,
      activeList := ⟨[clearOverlap (mkHseg rid1 0 0 1 0 la1 lb1)], 0⟩,
      discoveredSegs := ⟨[]⟩, result := [] }
    (mkHseg rid2 0 0 1 0 la2 lb2) 0 0 []
    (clearOverlap (mkHseg rid1 0 0 1 0 la1 lb1))
    ⟨[(withOverlap (mkHseg rid2 0 0 1 0 la2 lb2) la1 lb1).getBrother]⟩ rfl rfl
    (fun h => hrid h.symm) rfl rfl rfl rfl

theorem singleEdge_n3 (rid1 rid2 la1 lb1 la2 lb2 : Int) :
    nextEvent (singleEdge rid1 la1 lb1) (singleEdge rid2 la2 lb2)
    { SweepState.init [] with
        segSource := some 2, r1Pos := 1, r2Pos := 1,
        activeList := ⟨[withOverlap (mkHseg rid2 0 0 1 0 la2 lb2) la1 lb1], 0⟩,
        discoveredSegs := ⟨[(withOverlap (mkHseg rid2 0 0 1 0 la2 lb2) la1 lb1).getBrother]⟩ }
    = ((withOverlap (mkHseg rid2 0 0 1 0 la2 lb2) la1 lb1).getBrother, some 3) := by
  have hlt : (withOverlap (mkHseg rid2 0 0 1 0 la2 lb2) la1 lb1).getBrother.lt
      (mkHseg rid1 0 0 1 0 la1 lb1).getBrother = false :=
    singleEdge_right_lt_refl rid1 rid2 la1 lb1 la2 lb2
  have heq : (withOverlap (mkHseg rid2 0 0 1 0 la2 lb2) la1 lb1).getBrother.eq
      (mkHseg rid1 0 0 1 0 la1 lb1).getBrother = true := by
    simp [halfsegment.eq, halfsegment.getBrother, withOverlap, mkHseg]
  unfold nextEvent singleEdge SweepState.init
  simp only [List.get?_cons_succ, List.get?_cons_zero, singleEdge_right_lt_refl,
    Bool.false_eq_true, if_false, eventQueue.peek, List.head?_cons, hlt, heq, Bool.or_true,
    if_true]

theorem singleEdge_e3 (rid1 rid2 la1 lb1 la2 lb2 : Int) :
    sweepStep (singleEdge rid1 la1 lb1) (singleEdge rid2 la2 lb2)
    { SweepState.init [] with
        segSource := some 2, r1Pos := 1, r2Pos := 1,
        activeList := ⟨[withOverlap (mkHseg rid2 0 0 1 0 la2 lb2) la1 lb1], 0⟩,
        discoveredSegs := ⟨[(withOverlap (mkHseg rid2 0 0 1 0 la2 lb2) la1 lb1).getBrother]⟩ }
    = Except.ok { SweepState.init [] with
        segSource := some 3, r1Pos := 1, r2Pos := 1,
        activeList := ⟨[], 1⟩,
        result := [withOverlap (mkHseg rid2 0 0 1 0 la2 lb2) la1 lb1,
          (withOverlap (mkHseg rid2 0 0 1 0 la2 lb2) la1 lb1).getBrother] } := by
  rw [sweepStep_eq_takeEvent, takeEvent_of_nextEvent _ _ _ _ _
    (singleEdge_n3 rid1 rid2 la1 lb1 la2 lb2)]
  rfl

theorem singleEdge_n4 (rid1 rid2 la1 lb1 la2 lb2 : Int) :
    nextEvent (singleEdge rid1 la1 lb1) (singleEdge rid2 la2 lb2)
    { SweepState.init [] with
        segSource := some 3, r1Pos := 1, r2Pos := 1,
        activeList := ⟨[], 1⟩,
        result := [withOverlap (mkHseg rid2 0 0 1 0 la2 lb2) la1 lb1,
          (withOverlap (mkHseg rid2 0 0 1 0 la2 lb2) la1 lb1).getBrother] }
    = ((mkHseg rid1 0 0 1 0 la1 lb1).getBrother, some 1) := by
  unfold nextEvent singleEdge SweepState.init
  simp only [List.get?_cons_succ, List.get?_cons_zero, singleEdge_right_lt_refl,
    Bool.false_eq_true, if_false]
  rfl

theorem singleEdge_e4 (rid1 rid2 la1 lb1 la2 lb2 : Int) :
    sweepStep (singleEdge rid1 la1 lb1) (singleEdge rid2 la2 lb2)
    { SweepState.init [] with
        segSource := some 3, r1Pos := 1, r2Pos := 1,
        activeList := ⟨[], 1⟩,
        result := [withOverlap (mkHseg rid2 0 0 1 0 la2 lb2) la1 lb1,
          (withOverlap (mkHseg rid2 0 0 1 0 la2 lb2) la1 lb1).getBrother] }
    = Except.ok { SweepState.init [] with
        segSource := some 1, r1Pos := 2, r2Pos := 1,
        activeList := ⟨[], 1⟩,
        result := [withOverlap (mkHseg rid2 0 0 1 0 la2 lb2) la1 lb1,
          (withOverlap (mkHseg rid2 0 0 1 0 la2 lb2) la1 lb1).getBrother] } := by
  rw [sweepStep_eq_takeEvent, takeEvent_of_nextEvent _ _ _ _ _
    (singleEdge_n4 rid1 rid2 la1 lb1 la2 lb2)]
  rfl

theorem singleEdge_n5 (rid1 rid2 la1 lb1 la2 lb2 : Int) :
    nextEvent (singleEdge rid1 la1 lb1) (singleEdge rid2 la2 lb2)
    { SweepState.init [] with
        segSource := some 1, r1Pos := 2, r2Pos := 1,
        activeList := ⟨[], 1⟩,
        result := [withOverlap (mkHseg rid2 0 0 1 0 la2 lb2) la1 lb1,
          (withOverlap (mkHseg rid2 0 0 1 0 la2 lb2) la1 lb1).getBrother] }
    = ((mkHseg rid2 0 0 1 0 la2 lb2).getBrother, some 2) := by
  exact nextEvent_second_only _ _ _ _ rfl rfl (singleEdge_lt_maxSeg rid2 la2 lb2) rfl

theorem singleEdge_e5 (rid1 rid2 la1 lb1 la2 lb2 : Int) :
    sweepStep (singleEdge rid1 la1 lb1) (singleEdge rid2 la2 lb2)
    { SweepState.init [] with
        segSource := some 1, r1Pos := 2, r2Pos := 1,
        activeList := ⟨[], 1⟩,
        result := [withOverlap (mkHseg rid2 0 0 1 0 la2 lb2) la1 lb1,
          (withOverlap (mkHseg rid2 0 0 1 0 la2 lb2) la1 lb1).getBrother] }
    = Except.ok { SweepState.init [] with
        segSource := some 2, r1Pos := 2, r2Pos := 2,
        activeList := ⟨[], 1⟩,
        result := [withOverlap (mkHseg rid2 0 0 1 0 la2 lb2) la1 lb1,
          (withOverlap (mkHseg rid2 0 0 1 0 la2 lb2) la1 lb1).getBrother] } := by
  rw [sweepStep_eq_takeEvent, takeEvent_of_nextEvent _ _ _ _ _
    (singleEdge_n5 rid1 rid2 la1 lb1 la2 lb2)]
  rfl

/-- Claim C22: when `r1` and `r2` each consist of the segment `(0,0)-(1,0)` as a left/right
pair, with any labels and different region identifiers, `overlayPlaneSweep` returns that
edge once, as one left halfsegment and its brother; they carry `la`, `lb` (and the region)
of the copy in `r2`, and their `ola`, `olb` are the `la`, `lb` of the copy in `r1`. -/
theorem c22_shared_edge (rid1 rid2 la1 lb1 la2 lb2 : Int) (n : Nat) (hrid : rid1 ≠ rid2) :
    overlayPlaneSweep (n + 5) (singleEdge rid1 la1 lb1) (singleEdge rid2 la2 lb2) []
      = Except.ok [mkOut rid2 0 0 1 0 la2 lb2 (-1) la1 lb1,
          mkOut rid2 1 0 0 0 la2 lb2 (-1) la1 lb1] := by
  unfold overlayPlaneSweep
  rw [sweepLoop_step _ _ (n + 4) _ _ (Or.inr (Or.inl (by simp [singleEdge, SweepState.init])))
    (singleEdge_e1 rid1 rid2 la1 lb1 la2 lb2)]
  rw [sweepLoop_step _ _ (n + 3) _ _ (Or.inr (Or.inl (by simp [singleEdge])))
    (singleEdge_e2 rid1 rid2 la1 lb1 la2 lb2 hrid)]
  rw [sweepLoop_step _ _ (n + 2) _ _ (Or.inr (Or.inl (by simp [singleEdge])))
    (singleEdge_e3 rid1 rid2 la1 lb1 la2 lb2)]
  rw [sweepLoop_step _ _ (n + 1) _ _ (Or.inr (Or.inl (by simp [singleEdge])))
    (singleEdge_e4 rid1 rid2 la1 lb1 la2 lb2)]
  rw [sweepLoop_step _ _ n _ _ (Or.inr (Or.inr (by simp [singleEdge])))
    (singleEdge_e5 rid1 rid2 la1 lb1 la2 lb2)]
  rw [sweepLoop_unfold]
  have hend : ¬ ((({ SweepState.init [] with
        segSource := some 2, r1Pos := 2, r2Pos := 2,
        activeList := ⟨[], 1⟩,
        result := [withOverlap (mkHseg rid2 0 0 1 0 la2 lb2) la1 lb1,
          (withOverlap (mkHseg rid2 0 0 1 0 la2 lb2) la1 lb1).getBrother] } :
          SweepState).discoveredSegs.size > 0) ∨
      2 < (singleEdge rid1 la1 lb1).length ∨ 2 < (singleEdge rid2 la2 lb2).length) := by
    simp [singleEdge, SweepState.init, eventQueue.size, eventQueue.empty]
  rw [if_neg hend]
  have hlt : (withOverlap (mkHseg rid2 0 0 1 0 la2 lb2) la1 lb1).getBrother.lt
      (withOverlap (mkHseg rid2 0 0 1 0 la2 lb2) la1 lb1) = false := by
    apply lt_false_of_key_le
    have h : (mkHseg 0 0 0 1 0 0 0).key ≤ (mkHseg 0 0 0 1 0 0 0).getBrother.key := by decide!
    exact h
  simp only [bind, Except.bind, pure, Except.pure, stdSort, List.insertionSort,
    List.orderedInsert, hlt, Bool.false_eq_true, not_false_eq_true, if_true]
  rfl

theorem c22_shared_edge_witness :
    overlayPlaneSweep (0 + 5) (singleEdge 2 5 6) (singleEdge 3 7 8) []
      = Except.ok [mkOut 3 0 0 1 0 7 8 (-1) 5 6, mkOut 3 1 0 0 0 7 8 (-1) 5 6] :=
  c22_shared_edge 2 3 5 6 7 8 0 (by decide)

/-! ## Further properties of the orders and of the searches -/

/-- Claim C36: over exact coordinates `operator<` is a strict total order up to equality of
the end points: of `h < g`, `h == g` and `g < h` exactly one holds, and `<` is transitive.
This holds for all halfsegments, degenerate ones included. -/
theorem c36_strict_total_order :
    (∀ h g : halfsegment,
      (h.lt g = true ∧ h.eq g = false ∧ g.lt h = false) ∨
      (h.lt g = false ∧ h.eq g = true ∧ g.lt h = false) ∨
      (h.lt g = false ∧ h.eq g = false ∧ g.lt h = true)) ∧
    (∀ f g h : halfsegment, f.lt g = true → g.lt h = true → f.lt h = true) := by
  constructor
  · intro h g
    rcases lt_trichotomy h.key g.key with hk | hk | hk
    · left
      refine ⟨lt_true_of_key_lt hk, eq_false_of_key_ne (ne_of_lt hk),
        lt_false_of_key_le (le_of_lt hk)⟩
    · right; left
      refine ⟨lt_false_of_key_le (le_of_eq hk.symm), (eq_iff_key h g).mpr hk,
        lt_false_of_key_le (le_of_eq hk)⟩
    · right; right
      refine ⟨lt_false_of_key_le (le_of_lt hk), eq_false_of_key_ne (ne_of_gt hk),
        lt_true_of_key_lt hk⟩
  · intro f g h h1 h2
    exact lt_trans_hseg h1 h2

/-- Claim C37 fails on the code: the queue holding `(0,0)-(1,0)` is sorted, it is not empty,
its last entry is not less than the halfsegment `h = (0,0)-(1,0)` of the other region, and
no entry `e` has `h < e`; the scan of `insert`, which has no end test, walks past the last
entry. -/
theorem c37_scan_past_end :
    sortedHseg [mkHseg 2 0 0 1 0 1 0] ∧
      (mkHseg 3 0 0 1 0 1 0).eq (mkHseg 2 0 0 1 0 1 0) = true ∧
      (mkHseg 2 0 0 1 0 1 0).lt (mkHseg 3 0 0 1 0 1 0) = false ∧
      (∀ e ∈ [mkHseg 2 0 0 1 0 1 0], (mkHseg 3 0 0 1 0 1 0).lt e = false) ∧
      eventQueue.insert ⟨[mkHseg 2 0 0 1 0 1 0]⟩ (mkHseg 3 0 0 1 0 1 0)
        = Except.error Fault.outOfBounds := by
  decide!

/-- Claim C38 fails on the code: `(0,0)-(4,0)` and `(0,2)-(2,0)` are left halfsegments that
are not colinear, and `breakHsegs` with `includeCurr = true` reports their intersection in
`(2,0)`, the submissive point of the second one; it appends the four pieces of the first
one and nothing for the second one.  In the sweep of `lostFirst` and `lostSecond` this is
the call for the neighbours of `(0,1)-(1,1/2)` at its right end: both neighbours are erased
from the active list, and the result of the sweep holds no halfsegment of region 3. -/
theorem c38_segment_not_covered :
    (mkHseg 2 0 0 4 0 1 0).isLeft = true ∧ (mkHseg 3 0 2 2 0 1 0).isLeft = true ∧
      (mkHseg 2 0 0 4 0 1 0).colinear (mkHseg 3 0 2 2 0 1 0) = false ∧
      breakHsegs (mkHseg 2 0 0 4 0 1 0) (mkHseg 3 0 2 2 0 1 0) [] true
        = (true, mkHseg 3 0 2 2 0 1 0,
            [ mkHseg 2 0 0 2 0 1 0, mkHseg 2 2 0 0 0 1 0,
              mkHseg 2 2 0 4 0 1 0, mkHseg 2 4 0 2 0 1 0 ], false) ∧
      sortedHseg lostFirst ∧ sortedHseg lostSecond ∧
      overlayPlaneSweep 9 lostFirst lostSecond [] = Except.ok lostSerial ∧
      ∀ h ∈ lostSerial, h.regionID ≠ 3 := by
  decide!

/-- Claim C39 fails on the code: `(0,1)-(1,0)` and `(0,2)-(1,0)` are left halfsegments whose
x-spans contain the sweep line `x = 1`; they are neither equal nor colinear, and `alHsegLT`
returns true for them in both orders. -/
theorem c39_both_less :
    fallingShort.isLeft = true ∧ fallingSteep.isLeft = true ∧
      fallingShort.dx ≤ 1 ∧ 1 ≤ fallingShort.sx ∧ fallingSteep.dx ≤ 1 ∧ 1 ≤ fallingSteep.sx ∧
      (activeListVec.mk [] 1).alHsegLT fallingShort fallingSteep = Except.ok true ∧
      (activeListVec.mk [] 1).alHsegLT fallingSteep fallingShort = Except.ok true := by
  decide!

/-- Claim C40 fails on the code: `farRectangle` is not empty and sorted, every entry has
`dx > 2`, so the smallest index of an entry with `dx > 2` is 0; `binarySearchSmallestGreater`
returns `-1`. -/
theorem c40_negative_index :
    farRectangle ≠ [] ∧ sortedHseg farRectangle ∧
      farRectangle.Pairwise (fun a b => a.dx ≤ b.dx) ∧
      (∀ h ∈ farRectangle, 2 < h.dx) ∧
      binarySearchSmallestGreater farRectangle 2 = Except.ok (-1) := by
  decide!

/-! ## The regular-intersection branch of `breakHsegs` -/

/-- The value of `findIntersectionPoint` for two segments that are not colinear and have a
common point, at parameter `s` of the first and `t` of the second, other than shared
dominating or shared submissive points. -/
theorem findIntersectionPoint_at (h1 h2 : halfsegment) (s t : ℚ)
    (hcol : h1.colinear h2 = false)
    (hd : ¬ (h1.dx = h2.dx ∧ h1.dy = h2.dy)) (hs : ¬ (h1.sx = h2.sx ∧ h1.sy = h2.sy))
    (s0 : 0 ≤ s) (s1 : s ≤ 1) (t0 : 0 ≤ t) (t1 : t ≤ 1)
    (hx : h1.dx + s * (h1.sx - h1.dx) = h2.dx + t * (h2.sx - h2.dx))
    (hy : h1.dy + s * (h1.sy - h1.dy) = h2.dy + t * (h2.sy - h2.dy)) :
    findIntersectionPoint h1 h2
      = (true, h1.dx + s * (h1.sx - h1.dx), h1.dy + s * (h1.sy - h1.dy), false) := by
  have hden : (h2.sy - h2.dy) * (h1.sx - h1.dx) - (h2.sx - h2.dx) * (h1.sy - h1.dy) ≠ 0 := by
    intro h0
    have := colinear_of_parallel_common h1 h2 s t hx hy h0
    rw [hcol] at this
    cases this
  obtain ⟨ha, hb⟩ := common_point_params h1 h2 s t hx hy
  have hua : ((h2.sx - h2.dx) * (h1.dy - h2.dy) - (h2.sy - h2.dy) * (h1.dx - h2.dx)) /
      ((h2.sy - h2.dy) * (h1.sx - h1.dx) - (h2.sx - h2.dx) * (h1.sy - h1.dy)) = s := by
    rw [ha, mul_div_assoc, div_self hden, mul_one]
  have hub : ((h1.sx - h1.dx) * (h1.dy - h2.dy) - (h1.sy - h1.dy) * (h1.dx - h2.dx)) /
      ((h2.sy - h2.dy) * (h1.sx - h1.dx) - (h2.sx - h2.dx) * (h1.sy - h1.dy)) = t := by
    rw [hb, mul_div_assoc, div_self hden, mul_one]
  have hsh : ¬ ((h1.dx = h2.dx ∧ h1.dy = h2.dy) ∨ (h1.sx = h2.sx ∧ h1.sy = h2.sy)) := by
    rintro (h | h)
    · exact hd h
    · exact hs h
  unfold findIntersectionPoint
  rw [hcol]
  simp only [Bool.false_eq_true, if_false, hsh, hden, hua, hub, s0, s1, t0, t1, and_self,
    if_true]

/-- Two segments that are not colinear have at most one common point. -/
theorem common_point_unique (h1 h2 : halfsegment) (s t s' t' : ℚ)
    (hcol : h1.colinear h2 = false)
    (hx : h1.dx + s * (h1.sx - h1.dx) = h2.dx + t * (h2.sx - h2.dx))
    (hy : h1.dy + s * (h1.sy - h1.dy) = h2.dy + t * (h2.sy - h2.dy))
    (hx' : h1.dx + s' * (h1.sx - h1.dx) = h2.dx + t' * (h2.sx - h2.dx))
    (hy' : h1.dy + s' * (h1.sy - h1.dy) = h2.dy + t' * (h2.sy - h2.dy)) :
    s = s' ∧ t = t' := by
  have hden : (h2.sy - h2.dy) * (h1.sx - h1.dx) - (h2.sx - h2.dx) * (h1.sy - h1.dy) ≠ 0 := by
    intro h0
    have := colinear_of_parallel_common h1 h2 s t hx hy h0
    rw [hcol] at this
    cases this
  obtain ⟨ha, hb⟩ := common_point_params h1 h2 s t hx hy
  obtain ⟨ha', hb'⟩ := common_point_params h1 h2 s' t' hx' hy'
  constructor
  · exact mul_right_cancel₀ hden (ha.symm.trans ha')
  · exact mul_right_cancel₀ hden (hb.symm.trans hb')

/-- A point strictly inside a left halfsegment lies between its end points in the order of
points. -/
theorem lexLt_inside (h : halfsegment) (hl : h.isLeft = true) (s : ℚ) (s0 : 0 < s)
    (s1 : s < 1) :
    lexLt h.dx h.dy (h.dx + s * (h.sx - h.dx)) (h.dy + s * (h.sy - h.dy)) ∧
      lexLt (h.dx + s * (h.sx - h.dx)) (h.dy + s * (h.sy - h.dy)) h.sx h.sy := by
  rw [isLeft_iff_lexLt] at hl
  unfold lexLt at hl ⊢
  rcases hl with h1 | ⟨h1, h2⟩
  · constructor
    · left; nlinarith
    · left; nlinarith
  · constructor
    · right
      refine ⟨by rw [h1]; ring, by nlinarith⟩
    · right
      refine ⟨by rw [h1]; ring, by nlinarith⟩

/-- Claim C31: for two left halfsegments `alSeg` and `curr` that are not colinear and cross
in a point `(X, Y)` interior to both, `breakHsegs` reports the intersection, rewrites
`currSeg` to the piece of `curr` from its dominating point to `(X, Y)`, and appends, in this
order, the brother of that piece, that piece itself if and only if `includeCurr` is true,
the piece of `curr` from `(X, Y)` to its submissive point and its brother, and the two
pieces of `alSeg` each followed by its brother: eight halfsegments with `includeCurr`, seven
without.  The four pieces are left halfsegments, and every piece has the labels and the
identifiers of the segment it was cut from. -/
theorem c31_crossing_pieces (alSeg curr : halfsegment) (out : List halfsegment) (inc : Bool)
    (s t X Y : ℚ) (hal : alSeg.isLeft = true) (hcl : curr.isLeft = true)
    (hcol : alSeg.colinear curr = false)
    (s0 : 0 < s) (s1 : s < 1) (t0 : 0 < t) (t1 : t < 1)
    (hs : alSeg.pointAt s = (X, Y)) (ht : curr.pointAt t = (X, Y)) :
    breakHsegs alSeg curr out inc
      = (true, { curr with sx := X, sy := Y },
          out ++ (({ curr with sx := X, sy := Y } : halfsegment).getBrother ::
            (if inc then [({ curr with sx := X, sy := Y } : halfsegment)] else []) ++
            [ { curr with dx := X, dy := Y },
              ({ curr with dx := X, dy := Y } : halfsegment).getBrother,
              { alSeg with sx := X, sy := Y },
              ({ alSeg with sx := X, sy := Y } : halfsegment).getBrother,
              { alSeg with dx := X, dy := Y },
              ({ alSeg with dx := X, dy := Y } : halfsegment).getBrother ]), false) ∧
      ({ curr with sx := X, sy := Y } : halfsegment).isLeft = true ∧
      ({ curr with dx := X, dy := Y } : halfsegment).isLeft = true ∧
      ({ alSeg with sx := X, sy := Y } : halfsegment).isLeft = true ∧
      ({ alSeg with dx := X, dy := Y } : halfsegment).isLeft = true := by
  unfold halfsegment.pointAt at hs ht
  have hsx : alSeg.dx + s * (alSeg.sx - alSeg.dx) = X := (Prod.mk.inj hs).1
  have hsy : alSeg.dy + s * (alSeg.sy - alSeg.dy) = Y := (Prod.mk.inj hs).2
  have htx : curr.dx + t * (curr.sx - curr.dx) = X := (Prod.mk.inj ht).1
  have hty : curr.dy + t * (curr.sy - curr.dy) = Y := (Prod.mk.inj ht).2
  have hx : alSeg.dx + s * (alSeg.sx - alSeg.dx) = curr.dx + t * (curr.sx - curr.dx) :=
    hsx.trans htx.symm
  have hy : alSeg.dy + s * (alSeg.sy - alSeg.dy) = curr.dy + t * (curr.sy - curr.dy) :=
    hsy.trans hty.symm
  -- the segments share neither their dominating nor their submissive points
  have hd : ¬ (alSeg.dx = curr.dx ∧ alSeg.dy = curr.dy) := by
    rintro ⟨e1, e2⟩
    have := (common_point_unique alSeg curr s t 0 0 hcol hx hy (by simpa using e1)
      (by simpa using e2)).1
    rw [this] at s0
    exact lt_irrefl _ s0
  have hss : ¬ (alSeg.sx = curr.sx ∧ alSeg.sy = curr.sy) := by
    rintro ⟨e1, e2⟩
    have := (common_point_unique alSeg curr s t 1 1 hcol hx hy (by rw [one_mul, one_mul]; linarith)
      (by rw [one_mul, one_mul]; linarith)).1
    rw [this] at s1
    exact lt_irrefl _ s1
  have hf := findIntersectionPoint_at alSeg curr s t hcol hd hss (le_of_lt s0) (le_of_lt s1)
    (le_of_lt t0) (le_of_lt t1) hx hy
  rw [hsx, hsy] at hf
  -- the point is no end point
  obtain ⟨a1, a2⟩ := lexLt_inside alSeg hal s s0 s1
  obtain ⟨c1, c2⟩ := lexLt_inside curr hcl t t0 t1
  rw [hsx, hsy] at a1 a2
  rw [htx, hty] at c1 c2
  have nc : ¬ ((X = curr.dx ∧ Y = curr.dy) ∨ (X = curr.sx ∧ Y = curr.sy)) := by
    rintro (⟨e1, e2⟩ | ⟨e1, e2⟩)
    · rw [e1, e2] at c1; exact lexLt_irrefl _ _ c1
    · rw [e1, e2] at c2; exact lexLt_irrefl _ _ c2
  have na : ¬ ((X = alSeg.dx ∧ Y = alSeg.dy) ∨ (X = alSeg.sx ∧ Y = alSeg.sy)) := by
    rintro (⟨e1, e2⟩ | ⟨e1, e2⟩)
    · rw [e1, e2] at a1; exact lexLt_irrefl _ _ a1
    · rw [e1, e2] at a2; exact lexLt_irrefl _ _ a2
  refine ⟨?_, isLeft_of_lexLt _ c1, isLeft_of_lexLt _ c2, isLeft_of_lexLt _ a1,
    isLeft_of_lexLt _ a2⟩
  unfold breakHsegs
  simp only [hf, if_true, Bool.false_eq_true, if_false]
  unfold breakCrossing
  simp only [nc, na, if_false]
  cases inc <;> simp

theorem c31_crossing_pieces_witness :
    exDiagonal.isLeft = true ∧ exAntiDiagonal.isLeft = true ∧
    exDiagonal.colinear exAntiDiagonal = false ∧
    exDiagonal.pointAt (1/2) = (1/2, 1/2) ∧ exAntiDiagonal.pointAt (1/2) = (1/2, 1/2) ∧
    breakHsegs exDiagonal exAntiDiagonal [] true
      = (true, mkHseg 3 0 1 (1/2) (1/2) 1 0,
          [ mkHseg 3 (1/2) (1/2) 0 1 1 0, mkHseg 3 0 1 (1/2) (1/2) 1 0,
            mkHseg 3 (1/2) (1/2) 1 0 1 0, mkHseg 3 1 0 (1/2) (1/2) 1 0,
            mkHseg 2 0 0 (1/2) (1/2) 1 0, mkHseg 2 (1/2) (1/2) 0 0 1 0,
            mkHseg 2 (1/2) (1/2) 1 1 1 0, mkHseg 2 1 1 (1/2) (1/2) 1 0 ], false) :=
  ⟨by decide!, by decide!, by decide!, by decide!, by decide!,
    (c31_crossing_pieces exDiagonal exAntiDiagonal [] true (1/2) (1/2) (1/2) (1/2)
      (by decide!) (by decide!) (by decide!) (by decide!) (by decide!) (by decide!)
      (by decide!) (by decide!) (by decide!)).1⟩

/-! ## The dispatch of the broken segments -/

/-- Claim C32: `insertBrokenSegsToActiveListAndDiscoveredQueue` sends the broken segments,
one after the other, each to the one destination `dispatchDestination` names: the result
for a piece behind the sweep line, otherwise the event queue for a right halfsegment or a
dominating point ahead of the sweep point, otherwise the active list; a piece sent to the
active list is a left halfsegment whose dominating point is not ahead of the sweep
point. -/
theorem c32_dispatch (bs result : List halfsegment) (q : eventQueue) (al : activeListVec)
    (X Y : ℚ) :
    insertBrokenSegsToActiveListAndDiscoveredQueue bs result q al X Y
        = bs.foldlM (dispatchOne X Y) (result, q, al) ∧
      ∀ p, dispatchDestination p X Y = Destination.activeList →
        p.isLeft = true ∧ ¬ lexLt X Y p.dx p.dy := by
  constructor
  · induction bs generalizing result q al with
    | nil => rfl
    | cons b rest ih =>
      unfold insertBrokenSegsToActiveListAndDiscoveredQueue
      rw [List.foldlM_cons]
      unfold dispatchOne dispatchDestination
      by_cases c1 : (b.dx ≠ b.sx ∧ (b.dx ≤ X ∧ b.sx ≤ X)) ∨ (b.dx = b.sx ∧ (b.dy ≤ Y ∧ b.sy ≤ Y))
      · rw [if_pos c1, if_pos c1]
        exact ih _ _ _
      · rw [if_neg c1, if_neg c1]
        by_cases c2 : (!b.isLeft) = true ∨ b.dx > X ∨ (b.dx = X ∧ b.dy > Y)
        · have c2' : b.isLeft = false ∨ lexLt X Y b.dx b.dy := by
            rcases c2 with h | h | ⟨h1, h2⟩
            · left; simpa using h
            · right; left; exact h
            · right; right; exact ⟨h1.symm, h2⟩
          rw [if_pos c2, if_pos c2']
          cases hq : q.insert b with
          | error e => rfl
          | ok q1 => exact ih _ _ _
        · have c2' : ¬ (b.isLeft = false ∨ lexLt X Y b.dx b.dy) := by
            rintro (h | h | ⟨h1, h2⟩)
            · exact c2 (Or.inl (by simpa using h))
            · exact c2 (Or.inr (Or.inl h))
            · exact c2 (Or.inr (Or.inr ⟨h1.symm, h2⟩))
          rw [if_neg c2, if_neg c2']
          cases ha : al.insert b with
          | error e => rfl
          | ok r => exact ih _ _ _
  · intro p hp
    unfold dispatchDestination at hp
    split_ifs at hp with c1 c2
    constructor
    · cases hl : p.isLeft with
      | true => rfl
      | false => exact absurd (Or.inl hl) c2
    · exact fun h => c2 (Or.inr h)

/-! ## The stop indices of `createStrips` -/

theorem not_hsegIDSort_iff (a b : halfsegment) :
    ¬ (hsegIDSort b a = true) ↔
      toLex (a.stripID, a.key) ≤ toLex (b.stripID, b.key) := by
  unfold hsegIDSort
  rw [Prod.Lex.le_iff]
  simp only [Bool.or_eq_true, Bool.and_eq_true, decide_eq_true_eq, lt_iff_key, not_or, not_and,
    not_lt]
  constructor
  · rintro ⟨h1, h2⟩
    rcases lt_or_eq_of_le h1 with h | h
    · exact Or.inl h
    · exact Or.inr ⟨h, h2 h.symm⟩
  · rintro (h | ⟨h1, h2⟩)
    · exact ⟨le_of_lt h, fun e => absurd h (by rw [e]; exact lt_irrefl _)⟩
    · exact ⟨le_of_eq h1, fun _ => h2⟩

/-- What `std::sort` with `hsegIDSort` returns is ordered by `hsegIDSort`. -/
theorem stdSort_hsegIDSort_sorted (l : List halfsegment) :
    (stdSort hsegIDSort l).Pairwise (fun a b => ¬ (hsegIDSort b a = true)) := by
  haveI : IsTotal halfsegment (fun a b => ¬ (hsegIDSort b a = true)) :=
    ⟨fun a b => by
      simp only [not_hsegIDSort_iff]
      exact le_total _ _⟩
  haveI : IsTrans halfsegment (fun a b => ¬ (hsegIDSort b a = true)) :=
    ⟨fun a b c => by
      simp only [not_hsegIDSort_iff]
      exact le_trans⟩
  unfold stdSort
  exact List.sorted_insertionSort _ l

theorem stdSort_hsegIDSort_perm (l : List halfsegment) : (stdSort hsegIDSort l).Perm l := by
  unfold stdSort
  exact List.perm_insertionSort _ l

theorem stripID_le_of_not_hsegIDSort {a b : halfsegment} (h : ¬ (hsegIDSort b a = true)) :
    a.stripID ≤ b.stripID := by
  rw [not_hsegIDSort_iff, Prod.Lex.le_iff] at h
  rcases h with h | ⟨h, _⟩
  · exact le_of_lt h
  · exact le_of_eq h

theorem countUpTo_nil (i : Int) : countUpTo [] i = 0 := rfl

theorem countUpTo_cons (h : halfsegment) (l : List halfsegment) (i : Int) :
    countUpTo (h :: l) i = (if h.stripID ≤ i then 1 else 0) + countUpTo l i := by
  unfold countUpTo
  by_cases c : h.stripID ≤ i
  · simp [List.filter_cons, c]
    ring
  · simp [List.filter_cons, c]

theorem countUpTo_append (l1 l2 : List halfsegment) (i : Int) :
    countUpTo (l1 ++ l2) i = countUpTo l1 i + countUpTo l2 i := by
  unfold countUpTo
  simp [List.filter_append]

theorem countUpTo_nonneg (l : List halfsegment) (i : Int) : 0 ≤ countUpTo l i := by
  unfold countUpTo
  exact Int.natCast_nonneg _

theorem countUpTo_le_length (l : List halfsegment) (i : Int) :
    countUpTo l i ≤ (l.length : Int) := by
  unfold countUpTo
  exact_mod_cast List.length_filter_le _ _

theorem countUpTo_mono (l : List halfsegment) {i j : Int} (h : i ≤ j) :
    countUpTo l i ≤ countUpTo l j := by
  induction l with
  | nil => simp [countUpTo_nil]
  | cons x xs ih =>
    rw [countUpTo_cons, countUpTo_cons]
    by_cases c : x.stripID ≤ i
    · have c2 : x.stripID ≤ j := le_trans c h
      simp only [c, c2, if_true]
      omega
    · by_cases c2 : x.stripID ≤ j
      · simp only [c, c2, if_true, if_false]
        omega
      · simp only [c, c2, if_false]
        omega

/-- All entries count when none has a greater `stripID`. -/
theorem countUpTo_all (l : List halfsegment) (i : Int) (h : ∀ p ∈ l, p.stripID ≤ i) :
    countUpTo l i = (l.length : Int) := by
  induction l with
  | nil => rfl
  | cons x xs ih =>
    rw [countUpTo_cons, ih (fun p hp => h p (List.mem_cons_of_mem _ hp))]
    have := h x (List.mem_cons_self _ _)
    simp only [this, if_true, List.length_cons]
    push_cast
    ring

/-- Without an entry of `stripID = i` the counts up to `i - 1` and up to `i` agree. -/
theorem countUpTo_pred (l : List halfsegment) (i : Int) (h : ∀ p ∈ l, p.stripID ≠ i) :
    countUpTo l (i - 1) = countUpTo l i := by
  induction l with
  | nil => rfl
  | cons x xs ih =>
    rw [countUpTo_cons, countUpTo_cons, ih (fun p hp => h p (List.mem_cons_of_mem _ hp))]
    have hx := h x (List.mem_cons_self _ _)
    by_cases c : x.stripID ≤ i
    · have c2 : x.stripID ≤ i - 1 := by omega
      simp only [c, c2, if_true]
    · have c2 : ¬ x.stripID ≤ i - 1 := by omega
      simp only [c, c2, if_false]

/-- In a vector ordered by `stripID` the entries with a `stripID` of at most `i` are the
first `countUpTo l i` ones. -/
theorem stripID_le_iff_lt_count (l : List halfsegment)
    (hs : l.Pairwise (fun a b => a.stripID ≤ b.stripID)) (i : Int) :
    ∀ (pos : Nat) (p : halfsegment), l.get? pos = some p →
      (p.stripID ≤ i ↔ (pos : Int) < countUpTo l i) := by
  induction l with
  | nil => intro pos p hp; cases hp
  | cons x xs ih =>
    intro pos p hp
    rw [List.pairwise_cons] at hs
    rw [countUpTo_cons]
    cases pos with
    | zero =>
      simp only [List.get?_cons_zero, Option.some.injEq] at hp
      subst hp
      have := countUpTo_nonneg xs i
      by_cases c : x.stripID ≤ i
      · simp only [c, if_true, Nat.cast_zero, true_iff]
        omega
      · have hz : countUpTo xs i = 0 := by
          have hall : ∀ q ∈ xs, ¬ q.stripID ≤ i := fun q hq hqi =>
            c (le_trans (hs.1 q hq) hqi)
          unfold countUpTo
          rw [List.filter_eq_nil_iff.mpr (fun q hq => by simpa using hall q hq)]
          rfl
        simp only [c, if_false, hz, Nat.cast_zero, false_iff]
        omega
    | succ n =>
      rw [List.get?_cons_succ] at hp
      have hi := ih hs.2 n p hp
      have hxp : x.stripID ≤ p.stripID := hs.1 p (List.get?_mem hp)
      by_cases c : x.stripID ≤ i
      · simp only [c, if_true]
        rw [hi]
        push_cast
        omega
      · have : ¬ p.stripID ≤ i := fun h => c (le_trans hxp h)
        simp only [c, if_false, this, false_iff, zero_add]
        have := hi.not.mp this
        push_cast
        omega

theorem markStops_spec (k : Nat) :
    ∀ (S P : List halfsegment) (s : List Int),
      (P ++ S).Pairwise (fun a b => a.stripID ≤ b.stripID) →
      (∀ p ∈ S, 0 ≤ p.stripID ∧ p.stripID < (k : Int)) →
      s = (List.range k).map (markedStop P) →
      markStops S (P.length : Int) s = Except.ok ((List.range k).map (markedStop (P ++ S))) := by
  intro S
  induction S with
  | nil =>
    intro P s _ _ hs
    rw [List.append_nil, hs]
    rfl
  | cons h rest ih =>
    intro P s hsort hid hs
    have hh := hid h (List.mem_cons_self _ _)
    have hlen : s.length = k := by rw [hs]; simp
    have hget : s.get? h.stripID.toNat = some (markedStop P h.stripID.toNat) := by
      rw [hs, List.get?_eq_getElem?, List.getElem?_map, List.getElem?_range (by omega)]
      rfl
    have hcast : ((h.stripID.toNat : Nat) : Int) = h.stripID := Int.toNat_of_nonneg hh.1
    have hPle : ∀ p ∈ P, p.stripID ≤ h.stripID := fun p hp =>
      (List.pairwise_append.mp hsort).2.2 p hp h (List.mem_cons_self _ _)
    have hcond : (P.length : Int) ≥ markedStop P h.stripID.toNat := by
      unfold markedStop
      split_ifs
      · exact countUpTo_le_length _ _
      · unfold intMin; omega
    have hset : s.set h.stripID.toNat ((P.length : Int) + 1)
        = (List.range k).map (markedStop (P ++ [h])) := by
      apply List.ext_get?
      intro n
      rw [List.get?_eq_getElem?, List.get?_eq_getElem?, List.getElem?_set, hs, List.getElem?_map,
        List.getElem?_map]
      by_cases hn : n < k
      · rw [List.getElem?_range hn]
        simp only [List.length_map, List.length_range, Option.map_some']
        by_cases e : h.stripID.toNat = n
        · have hk : h.stripID.toNat < k := by omega
          rw [if_pos e, if_pos hk]
          congr 1
          unfold markedStop
          have hn' : (n : Int) = h.stripID := by rw [← e]; exact hcast
          rw [if_pos ⟨h, by simp, hn'.symm⟩, countUpTo_append, hn', countUpTo_all P _ hPle,
            countUpTo_cons, countUpTo_nil]
          simp
        · rw [if_neg e]
          congr 1
          have hne : h.stripID ≠ (n : Int) := fun c => e (by rw [c]; simp)
          unfold markedStop
          by_cases occ : ∃ p ∈ P, p.stripID = (n : Int)
          · have occ2 : ∃ p ∈ P ++ [h], p.stripID = (n : Int) := by
              obtain ⟨p, hp, e2⟩ := occ
              exact ⟨p, by simp [hp], e2⟩
            rw [if_pos occ, if_pos occ2, countUpTo_append, countUpTo_cons, countUpTo_nil]
            obtain ⟨p, hp, e2⟩ := occ
            have := hPle p hp
            have hnot : ¬ h.stripID ≤ (n : Int) := by omega
            simp [hnot]
          · have occ2 : ¬ ∃ p ∈ P ++ [h], p.stripID = (n : Int) := by
              rintro ⟨p, hp, e2⟩
              rw [List.mem_append, List.mem_singleton] at hp
              rcases hp with hp | hp
              · exact occ ⟨p, hp, e2⟩
              · exact hne (hp ▸ e2)
            rw [if_neg occ, if_neg occ2]
      · have : (List.range k)[n]? = none := by
          rw [List.getElem?_eq_none_iff]; simp; omega
        rw [this]
        simp only [List.length_map, List.length_range, Option.map_none']
        split_ifs with e1 e2
        · omega
        · rfl
        · rfl
    have hrec := ih (P ++ [h]) (s.set h.stripID.toNat ((P.length : Int) + 1))
      (by rw [List.append_assoc]; exact hsort)
      (fun p hp => hid p (List.mem_cons_of_mem _ hp)) hset
    rw [List.append_assoc, List.singleton_append] at hrec
    have hl : ((P ++ [h]).length : Int) = (P.length : Int) + 1 := by simp
    rw [hl] at hrec
    have hvg : vecGet s h.stripID = Except.ok (markedStop P h.stripID.toNat) := by
      unfold vecGet
      rw [if_neg (by omega), hget]
      rfl
    have hvs : vecSet s h.stripID ((P.length : Int) + 1)
        = Except.ok (s.set h.stripID.toNat ((P.length : Int) + 1)) := by
      unfold vecSet
      rw [if_neg (by omega)]
      rfl
    rw [markStops, hvg]
    simp only [Except.bind, bind, pure, Except.pure]
    rw [if_pos hcond, hvs]
    exact hrec
  
theorem fillStops_spec (L : List halfsegment) :
    ∀ (n j : Nat),
      fillStops ((List.range' j n).map (markedStop L)) (countUpTo L ((j : Int) - 1))
        = (List.range' j n).map (fun i : Nat => countUpTo L (i : Int)) := by
  intro n
  induction n with
  | zero => intro j; rfl
  | succ n ih =>
    intro j
    rw [List.range'_succ, List.map_cons, List.map_cons, fillStops]
    have hv : (if markedStop L j = intMin then countUpTo L ((j : Int) - 1) else markedStop L j)
        = countUpTo L (j : Int) := by
      unfold markedStop
      by_cases occ : ∃ p ∈ L, p.stripID = (j : Int)
      · rw [if_pos occ]
        have := countUpTo_nonneg L (j : Int)
        rw [if_neg (by unfold intMin; omega)]
      · rw [if_neg occ, if_pos rfl]
        exact countUpTo_pred L _ (fun p hp e => occ ⟨p, hp, e⟩)
    simp only [hv]
    have := ih (j + 1)
    rw [show (((j + 1 : Nat) : Int) - 1) = (j : Int) by push_cast; ring] at this
    rw [this]

theorem countUpTo_neg (l : List halfsegment) (hid : ∀ p ∈ l, 0 ≤ p.stripID) :
    countUpTo l (-1) = 0 := by
  unfold countUpTo
  rw [List.filter_eq_nil_iff.mpr (fun q hq => by have := hid q hq; simp; omega)]
  rfl

theorem stopAt_counts (l : List halfsegment) (k : Nat) (hid : ∀ p ∈ l, 0 ≤ p.stripID)
    (i : Int) (h0 : -1 ≤ i) (h1 : i < (k : Int)) :
    stopAt ((List.range k).map (fun i : Nat => countUpTo l (i : Int))) i = countUpTo l i := by
  unfold stopAt
  by_cases c : i < 0
  · rw [if_pos c]
    have : i = -1 := by omega
    rw [this, countUpTo_neg l hid]
  · rw [if_neg c]
    have hk : i.toNat < k := by omega
    rw [List.getD_eq_getElem?_getD, List.getElem?_map, List.getElem?_range hk]
    simp only [Option.map_some', Option.getD_some]
    rw [Int.toNat_of_nonneg (by omega)]

/-- Claim C34. For a strip plan with `k + 1` boundaries and pieces whose `stripID`s lie in
`[0, k)`, `createStrips` returns `rStrips`, a rearrangement of the pieces ordered by
`stripID` and then by the halfsegment order, and a `stripStopIndex` of `k` entries that is
non-decreasing; the entries of `rStrips` with `stripID = i` are exactly those at the
positions from `stop(i-1)` up to but not including `stop(i)`, where `stop(-1) = 0`, and a
strip without entries gets `stop(i) = stop(i-1)`. -/
theorem c34_stop_indices (nthread : Nat) (region : List halfsegment) (isoBounds : List ℚ)
    (v : List halfsegment) (hB : isoBounds ≠ [])
    (hrun : runStripThreads nthread region isoBounds (List.range nthread) = Except.ok v)
    (hid : ∀ p ∈ v, 0 ≤ p.stripID ∧ p.stripID < (isoBounds.length : Int) - 1) :
    ∃ rStrips stops, createStrips nthread region isoBounds = Except.ok (rStrips, stops) ∧
      rStrips.Perm v ∧
      rStrips.Pairwise (fun a b =>
        a.stripID < b.stripID ∨ (a.stripID = b.stripID ∧ ¬ (b.lt a = true))) ∧
      stops.length = isoBounds.length - 1 ∧
      stops.Pairwise (fun a b => a ≤ b) ∧
      ∀ i : Int, 0 ≤ i → i < (isoBounds.length : Int) - 1 →
        (∀ (pos : Nat) (p : halfsegment), rStrips.get? pos = some p →
          (p.stripID = i ↔ stopAt stops (i - 1) ≤ (pos : Int) ∧ (pos : Int) < stopAt stops i)) ∧
        ((∀ p ∈ rStrips, p.stripID ≠ i) → stopAt stops i = stopAt stops (i - 1)) := by
  have hlen : 0 < isoBounds.length := List.length_pos.mpr hB
  have hk : ((isoBounds.length - 1 : Nat) : Int) = (isoBounds.length : Int) - 1 := by omega
  have hperm := stdSort_hsegIDSort_perm v
  have hsorted := stdSort_hsegIDSort_sorted v
  have hid2 : ∀ p ∈ stdSort hsegIDSort v,
      0 ≤ p.stripID ∧ p.stripID < ((isoBounds.length - 1 : Nat) : Int) := fun p hp => by
    rw [hk]; exact hid p (hperm.mem_iff.mp hp)
  have hid0 : ∀ p ∈ stdSort hsegIDSort v, 0 ≤ p.stripID := fun p hp => (hid2 p hp).1
  have hsortID : (stdSort hsegIDSort v).Pairwise (fun a b => a.stripID ≤ b.stripID) :=
    hsorted.imp (fun h => stripID_le_of_not_hsegIDSort h)
  have hmark := markStops_spec (isoBounds.length - 1) (stdSort hsegIDSort v) [] _
    (by simpa using hsortID) hid2 rfl
  have hrepl : List.replicate (isoBounds.length - 1) intMin
      = (List.range (isoBounds.length - 1)).map (markedStop []) := by
    apply List.ext_get?
    intro n
    by_cases hn : n < isoBounds.length - 1
    · rw [List.get?_eq_getElem?, List.get?_eq_getElem?, List.getElem?_map,
        List.getElem?_range hn, List.getElem?_replicate, if_pos hn]
      simp [markedStop]
    · rw [List.get?_eq_getElem?, List.get?_eq_getElem?, List.getElem?_map,
        List.getElem?_replicate, if_neg hn]
      have : (List.range (isoBounds.length - 1))[n]? = none := by
        rw [List.getElem?_eq_none_iff]; simp; omega
      rw [this]
      rfl
  have hfill := fillStops_spec (stdSort hsegIDSort v) (isoBounds.length - 1) 0
  rw [← List.range_eq_range', show ((0 : Nat) : Int) - 1 = -1 by rfl,
    countUpTo_neg _ hid0] at hfill
  refine ⟨stdSort hsegIDSort v,
    (List.range (isoBounds.length - 1)).map
      (fun i : Nat => countUpTo (stdSort hsegIDSort v) (i : Int)), ?_, hperm, ?_, ?_, ?_, ?_⟩
  · unfold createStrips
    rw [hrun]
    simp only [Except.bind, bind, pure, Except.pure]
    rw [hrepl]
    simp only [List.length_nil, Nat.cast_zero, List.nil_append] at hmark
    rw [hmark]
    dsimp only
    rw [hfill]
  · refine hsorted.imp (fun {a b} h => ?_)
    rw [not_hsegIDSort_iff, Prod.Lex.le_iff] at h
    rcases h with h | ⟨h1, h2⟩
    · exact Or.inl h
    · exact Or.inr ⟨h1, by rw [lt_iff_key]; exact not_lt.mpr h2⟩
  · simp
  · rw [List.pairwise_map]
    exact (List.pairwise_lt_range _).imp
      (fun {a b} h => countUpTo_mono _ (by exact_mod_cast le_of_lt h))
  · intro i i0 i1
    have e1 := stopAt_counts (stdSort hsegIDSort v) (isoBounds.length - 1) hid0 i
      (by omega) (by omega)
    have e2 := stopAt_counts (stdSort hsegIDSort v) (isoBounds.length - 1) hid0 (i - 1)
      (by omega) (by omega)
    rw [e1, e2]
    constructor
    · intro pos p hp
      have a1 := stripID_le_iff_lt_count _ hsortID i pos p hp
      have a2 := stripID_le_iff_lt_count _ hsortID (i - 1) pos p hp
      constructor
      · intro e
        constructor
        · have : ¬ p.stripID ≤ i - 1 := by omega
          have := a2.not.mp this
          omega
        · exact a1.mp (le_of_eq e)
      · rintro ⟨b1, b2⟩
        have c1 := a1.mpr b2
        have c2 : ¬ p.stripID ≤ i - 1 := a2.not.mpr (by omega)
        omega
    · intro hno
      exact (countUpTo_pred _ i hno).symm

theorem c34_stop_indices_witness :
    runStripThreads 2 triangleUp halfPlan (List.range 2) = Except.ok triangleHalfPieces ∧
    ∃ rStrips stops, createStrips 2 triangleUp halfPlan = Except.ok (rStrips, stops) ∧
      rStrips.Perm triangleHalfPieces ∧
      rStrips.Pairwise (fun a b =>
        a.stripID < b.stripID ∨ (a.stripID = b.stripID ∧ ¬ (b.lt a = true))) ∧
      stops.length = halfPlan.length - 1 ∧
      stops.Pairwise (fun a b => a ≤ b) ∧
      ∀ i : Int, 0 ≤ i → i < (halfPlan.length : Int) - 1 →
        (∀ (pos : Nat) (p : halfsegment), rStrips.get? pos = some p →
          (p.stripID = i ↔ stopAt stops (i - 1) ≤ (pos : Int) ∧ (pos : Int) < stopAt stops i)) ∧
        ((∀ p ∈ rStrips, p.stripID ≠ i) → stopAt stops i = stopAt stops (i - 1)) :=
  ⟨by decide!,
    c34_stop_indices 2 triangleUp halfPlan triangleHalfPieces (by decide!) (by decide!)
      (by decide!)⟩

/-! ## The strip partition -/

theorem vecGet_nat {α : Type} (v : List α) (j : Nat) (a : α) (h : v.get? j = some a) :
    vecGet v (j : Int) = Except.ok a := by
  unfold vecGet
  rw [if_neg (by omega), Int.toNat_ofNat, h]
  rfl

theorem pairwise_get_lt (B : List ℚ) (hB : B.Pairwise (fun a b => a < b)) (i j : Nat)
    (a b : ℚ) (hij : i < j) (ha : B.get? i = some a) (hb : B.get? j = some b) : a < b := by
  rw [List.get?_eq_getElem?] at ha hb
  obtain ⟨hi, ea⟩ := List.getElem?_eq_some_iff.mp ha
  obtain ⟨hj, eb⟩ := List.getElem?_eq_some_iff.mp hb
  rw [← ea, ← eb]
  exact List.pairwise_iff_getElem.mp hB i j hi hj hij

theorem get?_some_of_lt {α : Type} (B : List α) (j : Nat) (h : j < B.length) :
    ∃ b, B.get? j = some b := ⟨B.get ⟨j, h⟩, List.get?_eq_get h⟩

theorem lt_length_of_get? {α : Type} (B : List α) (j : Nat) (b : α) (h : B.get? j = some b) :
    j < B.length := by
  rw [List.get?_eq_getElem?] at h
  exact (List.getElem?_eq_some_iff.mp h).1

theorem dx_le_sx_of_isLeft (h : halfsegment) (hl : h.isLeft = true) : h.dx ≤ h.sx := by
  unfold halfsegment.isLeft at hl
  simp only [Bool.or_eq_true, Bool.and_eq_true, decide_eq_true_eq] at hl
  rcases hl with c | ⟨c, _⟩
  · exact le_of_lt c
  · exact le_of_eq c

theorem pairwise_get? {α : Type} (R : α → α → Prop) (l : List α) (hp : l.Pairwise R)
    (i j : Nat) (a b : α) (hij : i < j) (ha : l.get? i = some a) (hb : l.get? j = some b) :
    R a b := by
  rw [List.get?_eq_getElem?] at ha hb
  obtain ⟨hi, ea⟩ := List.getElem?_eq_some_iff.mp ha
  obtain ⟨hj, eb⟩ := List.getElem?_eq_some_iff.mp hb
  rw [← ea, ← eb]
  exact List.pairwise_iff_getElem.mp hp i j hi hj hij

theorem get?_of_vecGet {α : Type} (v : List α) (i : Int) (a : α)
    (h : vecGet v i = Except.ok a) : 0 ≤ i ∧ v.get? i.toNat = some a := by
  unfold vecGet at h
  by_cases h0 : i < 0
  · rw [if_pos h0] at h
    cases h
  · rw [if_neg h0] at h
    refine ⟨by omega, ?_⟩
    cases hg : v.get? i.toNat with
    | none => rw [hg] at h; cases h
    | some b =>
      rw [hg] at h
      cases h
      rfl

/-- The loop of `binarySearchHalfsegment` on a strictly sorted vector: it ends within its
fuel; when it reports `true` the entry at the returned index equals `h` by end points, and
when it reports `false` the index separates the entries less than `h` from the entries
greater than `h`. -/
theorem bsearch_loop_spec (l : List halfsegment) (hs : l.Pairwise (fun a b => a.lt b = true))
    (h : halfsegment) :
    ∀ (fuel : Nat) (lo hi : Int), 0 ≤ lo → lo ≤ hi → hi ≤ (l.length : Int) →
      hi - lo + 1 ≤ fuel →
      (∀ (n : Nat) (e : halfsegment), l.get? n = some e → (n : Int) < lo → e.lt h = true) →
      (∀ (n : Nat) (e : halfsegment), l.get? n = some e → hi ≤ (n : Int) → h.lt e = true) →
      ∃ (found : Bool) (idx : Nat),
        binarySearchHalfsegmentLoop l h fuel lo hi = Except.ok (found, (idx : Int)) ∧
        idx ≤ l.length ∧
        (found = true → ∃ e, l.get? idx = some e ∧ e.eq h = true) ∧
        (found = false →
          (∀ (n : Nat) (e : halfsegment), l.get? n = some e → n < idx → e.lt h = true) ∧
          (∀ (n : Nat) (e : halfsegment), l.get? n = some e → idx ≤ n → h.lt e = true)) := by
  intro fuel
  induction fuel with
  | zero => intro lo hi _ _ _ hf; omega
  | succ f ih =>
    intro lo hi h0 hle hhi hf hbelow habove
    unfold binarySearchHalfsegmentLoop
    by_cases hlt : lo < hi
    · rw [if_pos hlt]
      obtain ⟨m1, _, m3⟩ := mid_bounds lo hi (by omega) hlt
      have m3 := m3 h0
      obtain ⟨r, hr, _⟩ := vecGet_inside l ((lo + hi).tdiv 2) (by omega) (by omega)
      have hrg := (get?_of_vecGet l _ r hr).2
      simp only [hr, bind, Except.bind]
      by_cases hl : r.lt h = true
      · rw [if_pos hl]
        refine ih _ _ (by omega) (by omega) hhi (by push_cast at hf ⊢; omega) ?_ habove
        intro n e hn hnlo
        by_cases hnm : n = ((lo + hi).tdiv 2).toNat
        · rw [hnm, hrg] at hn
          cases hn
          exact hl
        · exact lt_trans_hseg (pairwise_get? _ l hs n _ e r (by omega) hn hrg) hl
      · rw [if_neg hl]
        by_cases he : r.eq h = true
        · rw [if_pos he]
          refine ⟨true, ((lo + hi).tdiv 2).toNat, ?_, by omega, fun _ => ⟨r, hrg, he⟩,
            fun c => Bool.noConfusion c⟩
          rw [Int.toNat_of_nonneg (by omega)]
          rfl
        · rw [if_neg he]
          have hgt : h.lt r = true := by
            rcases lt_trichotomy_hseg r h with c | c | c
            · exact absurd c hl
            · exact absurd c he
            · exact c
          refine ih _ _ h0 (by omega) (by omega) (by push_cast at hf ⊢; omega) hbelow ?_
          intro n e hn hnhi
          by_cases hnm : n = ((lo + hi).tdiv 2).toNat
          · rw [hnm, hrg] at hn
            cases hn
            exact hgt
          · exact lt_trans_hseg hgt (pairwise_get? _ l hs _ n r e (by omega) hrg hn)
    · rw [if_neg hlt]
      have e : lo = hi := by omega
      refine ⟨false, lo.toNat, ?_, by omega, fun c => Bool.noConfusion c, fun _ => ⟨?_, ?_⟩⟩
      · rw [Int.toNat_of_nonneg h0]
        rfl
      · intro n e hn hnlo
        exact hbelow n e hn (by omega)
      · intro n e hn hnlo
        exact habove n e hn (by omega)

theorem bsearch_spec (l : List halfsegment) (hs : l.Pairwise (fun a b => a.lt b = true))
    (h : halfsegment) :
    ∃ (found : Bool) (idx : Nat),
      binarySearchHalfsegment l h = Except.ok (found, (idx : Int)) ∧
      idx ≤ l.length ∧
      (found = true → ∃ e, l.get? idx = some e ∧ e.eq h = true) ∧
      (found = false →
        (∀ (n : Nat) (e : halfsegment), l.get? n = some e → n < idx → e.lt h = true) ∧
        (∀ (n : Nat) (e : halfsegment), l.get? n = some e → idx ≤ n → h.lt e = true)) := by
  unfold binarySearchHalfsegment
  refine bsearch_loop_spec l hs h (l.length + 1) 0 l.length (le_refl _) (by omega) (le_refl _)
    (by push_cast; omega) (fun n e _ hn => by omega) (fun n e hn hle => ?_)
  have := lt_length_of_get? l n e hn
  omega

theorem lt_false_of_eq {a b : halfsegment} (h : a.eq b = true) :
    a.lt b = false ∧ b.lt a = false := by
  rw [← key_eq_iff] at h
  constructor
  · rw [← Bool.not_eq_true, lt_iff_key, h]
    exact lt_irrefl _
  · rw [← Bool.not_eq_true, lt_iff_key, h]
    exact lt_irrefl _

theorem lt_of_eq_left {a b h : halfsegment} (e : a.eq b = true) (hl : a.lt h = true) :
    b.lt h = true := by
  rw [← key_eq_iff] at e
  rw [lt_iff_key] at hl ⊢
  rw [← e]
  exact hl

theorem lt_of_eq_right {a b h : halfsegment} (e : a.eq b = true) (hl : h.lt a = true) :
    h.lt b = true := by
  rw [← key_eq_iff] at e
  rw [lt_iff_key] at hl ⊢
  rw [← e]
  exact hl

/-- A search for `h` in a strictly sorted vector that holds an entry equal to `h` by end
points at index `n` reports `true` and `n`. -/
theorem search_found (l : List halfsegment) (hs : l.Pairwise (fun a b => a.lt b = true))
    (h : halfsegment) (n : Nat) (e : halfsegment) (hn : l.get? n = some e)
    (he : e.eq h = true) :
    binarySearchHalfsegment l h = Except.ok (true, (n : Int)) := by
  obtain ⟨found, idx, hrun, _, ht, hf⟩ := bsearch_spec l hs h
  cases found with
  | true =>
    obtain ⟨e1, h1, h2⟩ := ht rfl
    have hidx : idx = n := by
      rcases Nat.lt_trichotomy idx n with c | c | c
      · have := pairwise_get? _ l hs idx n e1 e c h1 hn
        have := lt_of_eq_right he (lt_of_eq_left h2 this)
        rw [lt_irrefl_hseg] at this
        cases this
      · exact c
      · have := pairwise_get? _ l hs n idx e e1 c hn h1
        have := lt_of_eq_right h2 (lt_of_eq_left he this)
        rw [lt_irrefl_hseg] at this
        cases this
    rw [hrun, hidx]
  | false =>
    obtain ⟨hb, ha⟩ := hf rfl
    by_cases c : n < idx
    · have := hb n e hn c
      rw [(lt_false_of_eq he).1] at this
      cases this
    · have := ha n e hn (by omega)
      rw [(lt_false_of_eq he).2] at this
      cases this

/-- A search for `h` in a strictly sorted vector whose entry at index `n` is greater than
`h`, all entries before it being less, reports `false` and `n`. -/
theorem search_landing (l : List halfsegment) (hs : l.Pairwise (fun a b => a.lt b = true))
    (h : halfsegment) (n : Nat) (u : halfsegment) (hn : l.get? n = some u)
    (hu : h.lt u = true)
    (hbefore : ∀ (m : Nat) (e : halfsegment), l.get? m = some e → m < n → e.lt h = true) :
    binarySearchHalfsegment l h = Except.ok (false, (n : Int)) := by
  obtain ⟨found, idx, hrun, hidx, ht, hf⟩ := bsearch_spec l hs h
  cases found with
  | true =>
    exfalso
    obtain ⟨e1, h1, h2⟩ := ht rfl
    rcases Nat.lt_trichotomy idx n with c | c | c
    · have := hbefore idx e1 h1 c
      rw [(lt_false_of_eq h2).1] at this
      cases this
    · rw [c, hn] at h1
      cases h1
      rw [(lt_false_of_eq h2).2] at hu
      cases hu
    · have := lt_trans_hseg hu (pairwise_get? _ l hs n idx u e1 c hn h1)
      rw [(lt_false_of_eq h2).2] at this
      cases this
  | false =>
    obtain ⟨hb, ha⟩ := hf rfl
    have hnl := lt_length_of_get? l n u hn
    have : idx = n := by
      rcases Nat.lt_trichotomy idx n with c | c | c
      · exfalso
        obtain ⟨e1, h1⟩ := get?_some_of_lt l idx (by omega)
        have a1 := hbefore idx e1 h1 c
        have a2 := ha idx e1 h1 (le_refl _)
        rw [lt_asymm_hseg a1] at a2
        cases a2
      · exact c
      · exfalso
        have a1 := hb n u hn c
        rw [lt_asymm_hseg a1] at hu
        cases hu
    rw [hrun, this]

theorem vecGet_congr (l l1 : List halfsegment)
    (hk : l.map halfsegment.key = l1.map halfsegment.key) (i : Int) :
    (∃ e, vecGet l i = Except.error e ∧ vecGet l1 i = Except.error e) ∨
      (∃ r r1, vecGet l i = Except.ok r ∧ vecGet l1 i = Except.ok r1 ∧ r.key = r1.key) := by
  unfold vecGet
  by_cases h0 : i < 0
  · rw [if_pos h0, if_pos h0]
    exact Or.inl ⟨_, rfl, rfl⟩
  · rw [if_neg h0, if_neg h0]
    have := congrArg (fun x => x.get? i.toNat) hk
    simp only [List.get?_eq_getElem?, List.getElem?_map] at this
    rw [List.get?_eq_getElem?, List.get?_eq_getElem?]
    cases ha : l[i.toNat]? with
    | none =>
      rw [ha] at this
      cases hb : l1[i.toNat]? with
      | none => exact Or.inl ⟨_, rfl, rfl⟩
      | some b => rw [hb] at this; cases this
    | some a =>
      rw [ha] at this
      cases hb : l1[i.toNat]? with
      | none => rw [hb] at this; cases this
      | some b =>
        rw [hb] at this
        exact Or.inr ⟨a, b, rfl, rfl, Option.some.inj this⟩

theorem lt_congr {r r1 h h1 : halfsegment} (e1 : r.key = r1.key) (e2 : h.key = h1.key) :
    r.lt h = r1.lt h1 := by
  rw [Bool.eq_iff_iff, lt_iff_key, lt_iff_key, e1, e2]

theorem eq_congr {r r1 h h1 : halfsegment} (e1 : r.key = r1.key) (e2 : h.key = h1.key) :
    r.eq h = r1.eq h1 := by
  rw [Bool.eq_iff_iff, ← key_eq_iff, ← key_eq_iff, e1, e2]

/-- The binary search depends on the end points of the entries only. -/
theorem search_congr (l l1 : List halfsegment) (h h1 : halfsegment)
    (hk : l.map halfsegment.key = l1.map halfsegment.key) (hh : h.key = h1.key) :
    binarySearchHalfsegment l h = binarySearchHalfsegment l1 h1 := by
  have hlen : l.length = l1.length := by
    have := congrArg List.length hk
    simpa using this
  unfold binarySearchHalfsegment
  rw [hlen]
  generalize (l1.length + 1) = fuel
  generalize (0 : Int) = lo
  generalize (l1.length : Int) = hi
  induction fuel generalizing lo hi with
  | zero => rfl
  | succ f ih =>
    unfold binarySearchHalfsegmentLoop
    by_cases hlt : lo < hi
    · rw [if_pos hlt, if_pos hlt]
      dsimp only
      rcases vecGet_congr l l1 hk ((lo + hi).tdiv 2) with ⟨e, a1, a2⟩ | ⟨r, r1, a1, a2, a3⟩
      · rw [a1, a2]
        rfl
      · rw [a1, a2]
        simp only [bind, Except.bind]
        rw [lt_congr a3 hh, eq_congr a3 hh, ih, ih]
    · rw [if_neg hlt, if_neg hlt]

/-! ### Strips with invalidated entries -/

theorem touched_geo {a b : halfsegment} (h : Touched a b) :
    b.dx = a.dx ∧ b.dy = a.dy ∧ b.sx = a.sx ∧ b.sy = a.sy := by
  rcases h with h | h <;> rw [h] <;> exact ⟨rfl, rfl, rfl, rfl⟩

theorem touched_key {a b : halfsegment} (h : Touched a b) : b.key = a.key := by
  obtain ⟨h1, h2, h3, h4⟩ := touched_geo h
  unfold halfsegment.key
  rw [h1, h2, h3, h4]

theorem touched_isLeft {a b : halfsegment} (h : Touched a b) : b.isLeft = a.isLeft := by
  obtain ⟨h1, h2, h3, h4⟩ := touched_geo h
  unfold halfsegment.isLeft
  rw [h1, h2, h3, h4]

theorem touched_refl (a : halfsegment) : Touched a a := Or.inl rfl

theorem touched_trans {a b c : halfsegment} (h1 : Touched a b) (h2 : Touched b c) :
    Touched a c := by
  rcases h1 with h1 | h1 <;> rcases h2 with h2 | h2
  · exact Or.inl (h2.trans h1)
  · exact Or.inr (by rw [h2, h1])
  · exact Or.inr (by rw [h2, h1])
  · exact Or.inr (by rw [h2, h1])

/-- An entry once invalidated stays so. -/
theorem touched_invalid {a b : halfsegment} (h : Touched a b) (ha : a.la = -1 ∧ a.lb = -1) :
    b.la = -1 ∧ b.lb = -1 := by
  rcases h with h | h <;> rw [h]
  · exact ha
  · exact ⟨rfl, rfl⟩

theorem step_refl (rs : List (List halfsegment)) : Step rs rs :=
  ⟨rfl, fun _ => ⟨rfl, fun _ a ha => ⟨a, ha, touched_refl a⟩⟩⟩

theorem step_trans {rs rs1 rs2 : List (List halfsegment)} (h1 : Step rs rs1)
    (h2 : Step rs1 rs2) : Step rs rs2 := by
  refine ⟨h2.1.trans h1.1, fun t => ⟨(h2.2 t).1.trans (h1.2 t).1, fun m a ha => ?_⟩⟩
  obtain ⟨b, hb, tb⟩ := (h1.2 t).2 m a ha
  obtain ⟨c, hc, tc⟩ := (h2.2 t).2 m b hb
  exact ⟨c, hc, touched_trans tb tc⟩

theorem step_back {rs rs1 : List (List halfsegment)} (h : Step rs rs1) (t m : Nat)
    (b : halfsegment) (hb : (stripAt rs1 t).get? m = some b) :
    ∃ a, (stripAt rs t).get? m = some a ∧ Touched a b := by
  have hm := lt_length_of_get? _ _ _ hb
  rw [(h.2 t).1] at hm
  obtain ⟨a, ha⟩ := get?_some_of_lt (stripAt rs t) m hm
  obtain ⟨b1, hb1, tb⟩ := (h.2 t).2 m a ha
  rw [hb] at hb1
  cases hb1
  exact ⟨a, ha, tb⟩

theorem step_keys {rs rs1 : List (List halfsegment)} (h : Step rs rs1) (t : Nat) :
    (stripAt rs1 t).map halfsegment.key = (stripAt rs t).map halfsegment.key := by
  apply List.ext_get?
  intro m
  rw [List.get?_eq_getElem?, List.get?_eq_getElem?, List.getElem?_map, List.getElem?_map]
  cases ha : (stripAt rs t)[m]? with
  | none =>
    have : (stripAt rs1 t)[m]? = none := by
      rw [List.getElem?_eq_none_iff] at ha ⊢
      rw [(h.2 t).1]
      exact ha
    rw [this]
  | some a =>
    obtain ⟨b, hb, tb⟩ := (h.2 t).2 m a (by rw [List.get?_eq_getElem?]; exact ha)
    rw [List.get?_eq_getElem?] at hb
    rw [hb]
    simp only [Option.map_some']
    rw [touched_key tb]

theorem vecGet_strip (rs : List (List halfsegment)) (s : Nat) (hs : s < rs.length) :
    vecGet rs (s : Int) = Except.ok (stripAt rs s) := by
  apply vecGet_nat
  unfold stripAt
  rw [List.get?_eq_getElem?, List.getD_eq_getElem?_getD, List.getElem?_eq_getElem hs]
  rfl

theorem stripAt_set (rs : List (List halfsegment)) (s t : Nat) (v : List halfsegment)
    (hs : s < rs.length) :
    stripAt (rs.set s v) t = if s = t then v else stripAt rs t := by
  unfold stripAt
  rw [List.getD_eq_getElem?_getD, List.getD_eq_getElem?_getD, List.getElem?_set]
  by_cases e : s = t
  · subst e
    rw [if_pos rfl, if_pos rfl, if_pos hs]
    rfl
  · rw [if_neg e, if_neg e]

/-- The assignment that invalidates entry `n` of strip `s`. -/
theorem invalidate_spec (rs : List (List halfsegment)) (s n : Nat) (e : halfsegment)
    (he : (stripAt rs s).get? n = some e) :
    ∃ rs1, invalidate rs (s : Int) (n : Int) = Except.ok rs1 ∧ Step rs rs1 ∧
      (stripAt rs1 s).get? n = some { e with la := -1, lb := -1 } ∧
      ∀ t m, ¬ (t = s ∧ m = n) → (stripAt rs1 t).get? m = (stripAt rs t).get? m := by
  have hn := lt_length_of_get? _ _ _ he
  have hs : s < rs.length := by
    by_contra c
    have : stripAt rs s = [] := by
      unfold stripAt
      rw [List.getD_eq_getElem?_getD, List.getElem?_eq_none (by omega)]
      rfl
    rw [this] at hn
    exact Nat.not_lt_zero _ hn
  have hset : ∀ t, stripAt (rs.set s ((stripAt rs s).set n { e with la := -1, lb := -1 })) t
      = if s = t then (stripAt rs s).set n { e with la := -1, lb := -1 } else stripAt rs t :=
    fun t => stripAt_set rs s t _ hs
  refine ⟨rs.set s ((stripAt rs s).set n { e with la := -1, lb := -1 }), ?_, ?_, ?_, ?_⟩
  · unfold invalidate
    rw [vecGet_strip rs s hs]
    simp only [bind, Except.bind]
    rw [vecGet_nat _ n e he]
    simp only []
    have h1 : vecSet (stripAt rs s) (n : Int) ({ e with la := -1, lb := -1 } : halfsegment)
        = Except.ok ((stripAt rs s).set n { e with la := -1, lb := -1 }) := by
      unfold vecSet
      rw [if_neg (by omega)]
      rfl
    rw [h1]
    simp only []
    unfold vecSet
    rw [if_neg (by omega)]
    rfl
  · refine ⟨by simp, fun t => ?_⟩
    rw [hset t]
    by_cases c : s = t
    · subst c
      rw [if_pos rfl]
      refine ⟨by simp, fun m a ha => ?_⟩
      rw [List.get?_eq_getElem?, List.getElem?_set]
      by_cases d : n = m
      · subst d
        rw [if_pos rfl, if_pos hn]
        rw [he] at ha
        cases ha
        exact ⟨_, rfl, Or.inr rfl⟩
      · rw [if_neg d]
        rw [List.get?_eq_getElem?] at ha
        exact ⟨a, ha, touched_refl a⟩
    · rw [if_neg c]
      exact ⟨rfl, fun m a ha => ⟨a, ha, touched_refl a⟩⟩
  · rw [hset s, if_pos rfl, List.get?_eq_getElem?, List.getElem?_set, if_pos rfl, if_pos hn]
  · intro t m hne
    rw [hset t]
    by_cases c : s = t
    · subst c
      rw [if_pos rfl, List.get?_eq_getElem?, List.getElem?_set,
        if_neg (fun d => hne ⟨rfl, d.symm⟩), List.get?_eq_getElem?]
    · rw [if_neg c]

/-! ## The recombination: the test of the neighbours -/

theorem countP_eq_one {α : Type} (p : α → Bool) :
    ∀ l : List α, l.countP p = 1 →
      ∃ (n : Nat) (u : α), l.get? n = some u ∧ p u = true ∧
        ∀ (m : Nat) (v : α), l.get? m = some v → p v = true → m = n := by
  intro l
  induction l with
  | nil => intro h; simp at h
  | cons x xs ih =>
    intro h
    rw [List.countP_cons] at h
    by_cases hx : p x = true
    · rw [if_pos hx] at h
      have h0 : xs.countP p = 0 := by omega
      rw [List.countP_eq_zero] at h0
      refine ⟨0, x, rfl, hx, fun m v hm hv => ?_⟩
      cases m with
      | zero => rfl
      | succ m =>
        rw [List.get?_cons_succ] at hm
        exact absurd hv (h0 v (List.get?_mem hm))
    · rw [if_neg hx] at h
      obtain ⟨n, u, hn, hu, huniq⟩ := ih (by omega)
      refine ⟨n + 1, u, by rw [List.get?_cons_succ]; exact hn, hu, fun m v hm hv => ?_⟩
      cases m with
      | zero =>
        rw [List.get?_cons_zero] at hm
        cases hm
        exact absurd hv hx
      | succ m =>
        rw [List.get?_cons_succ] at hm
        rw [huniq m v hm hv]

theorem countP_one_of_unique {α : Type} (p : α → Bool) :
    ∀ (l : List α) (n : Nat) (u : α), l.get? n = some u → p u = true →
      (∀ (m : Nat) (v : α), l.get? m = some v → p v = true → m = n) → l.countP p = 1 := by
  intro l
  induction l with
  | nil => intro n u hn; cases hn
  | cons x xs ih =>
    intro n u hn hu huniq
    rw [List.countP_cons]
    cases n with
    | zero =>
      rw [List.get?_cons_zero] at hn
      cases hn
      rw [if_pos hu]
      have : xs.countP p = 0 := by
        rw [List.countP_eq_zero]
        intro v hv hpv
        obtain ⟨m, hm⟩ := List.get?_of_mem hv
        have := huniq (m + 1) v (by rw [List.get?_cons_succ]; exact hm) (by simpa using hpv)
        omega
      omega
    | succ n =>
      rw [List.get?_cons_succ] at hn
      have hx : ¬ p x = true := fun hx => by
        have := huniq 0 x rfl hx
        omega
      rw [if_neg hx]
      have := ih n u hn hu (fun m v hm hv => by
        have := huniq (m + 1) v (by rw [List.get?_cons_succ]; exact hm) hv
        omega)
      omega

theorem find?_of_unique {α : Type} (p : α → Bool) :
    ∀ (l : List α) (n : Nat) (u : α), l.get? n = some u → p u = true →
      (∀ (m : Nat) (v : α), l.get? m = some v → p v = true → m = n) → l.find? p = some u := by
  intro l
  induction l with
  | nil => intro n u hn; cases hn
  | cons x xs ih =>
    intro n u hn hu huniq
    cases n with
    | zero =>
      rw [List.get?_cons_zero] at hn
      cases hn
      rw [List.find?_cons, hu]
    | succ n =>
      rw [List.get?_cons_succ] at hn
      have hx : p x = false := by
        cases c : p x with
        | false => rfl
        | true =>
          have := huniq 0 x rfl c
          omega
      rw [List.find?_cons, hx]
      exact ih n u hn hu (fun m v hm hv => by
        have := huniq (m + 1) v (by rw [List.get?_cons_succ]; exact hm) hv
        omega)

theorem countStart_eq_one (strip : List halfsegment) (P : ℚ × ℚ) (h : countStart strip P = 1) :
    ∃ (n : Nat) (u : halfsegment), strip.get? n = some u ∧ startsAt u P ∧
      ∀ (m : Nat) (v : halfsegment), strip.get? m = some v → startsAt v P → m = n := by
  obtain ⟨n, u, hn, hu, huniq⟩ := countP_eq_one _ strip h
  exact ⟨n, u, hn, by simpa using hu, fun m v hm hv => huniq m v hm (by simpa using hv)⟩

theorem countStart_one_of_unique (strip : List halfsegment) (P : ℚ × ℚ) (n : Nat)
    (u : halfsegment) (hn : strip.get? n = some u) (hu : startsAt u P)
    (huniq : ∀ (m : Nat) (v : halfsegment), strip.get? m = some v → startsAt v P → m = n) :
    countStart strip P = 1 :=
  countP_one_of_unique _ strip n u hn (by simpa using hu)
    (fun m v hm hv => huniq m v hm (by simpa using hv))

/-- The dominating points of two halfsegments in halfsegment order are in the order of
points, or the same. -/
theorem dom_le_of_lt {a b : halfsegment} (h : a.lt b = true) :
    a.dx < b.dx ∨ (a.dx = b.dx ∧ a.dy ≤ b.dy) := by
  unfold halfsegment.lt at h
  by_cases c1 : a.dx < b.dx ∨ (a.dx = b.dx ∧ a.dy < b.dy)
  · rcases c1 with c | ⟨c, d⟩
    · exact Or.inl c
    · exact Or.inr ⟨c, le_of_lt d⟩
  · rw [if_neg c1] at h
    by_cases c2 : a.dx = b.dx ∧ a.dy = b.dy
    · exact Or.inr ⟨c2.1, le_of_eq c2.2⟩
    · rw [if_neg c2] at h
      cases h

/-- In a strictly sorted strip the halfsegments that start in one point are neighbours:
if the entry at `bi` starts in `P` and neither of its neighbours does, no other entry
starts in `P`. -/
theorem alone_of_neighbours (l : List halfsegment)
    (hs : l.Pairwise (fun a b => a.lt b = true)) (P : ℚ × ℚ) (bi : Nat) (g : halfsegment)
    (hg : l.get? bi = some g) (hgP : startsAt g P)
    (hnext : ∀ v, l.get? (bi + 1) = some v → ¬ startsAt v P)
    (hprev : ∀ v, 0 < bi → l.get? (bi - 1) = some v → ¬ startsAt v P) :
    ∀ (m : Nat) (v : halfsegment), l.get? m = some v → startsAt v P → m = bi := by
  intro m v hm hv
  unfold startsAt at *
  rcases Nat.lt_trichotomy m bi with c | c | c
  · exfalso
    obtain ⟨w, hw⟩ := get?_some_of_lt l (bi - 1) (by have := lt_length_of_get? l bi g hg; omega)
    refine hprev w (by omega) hw ?_
    by_cases e : m = bi - 1
    · rw [e, hw] at hm
      cases hm
      exact hv
    · have h1 := dom_le_of_lt (pairwise_get? _ l hs m (bi - 1) v w (by omega) hm hw)
      have h2 := dom_le_of_lt (pairwise_get? _ l hs (bi - 1) bi w g (by omega) hw hg)
      rw [hv.1, hv.2] at h1
      rw [hgP.1, hgP.2] at h2
      rcases h1 with a | ⟨a1, a2⟩ <;> rcases h2 with b | ⟨b1, b2⟩
      · exact absurd (lt_trans a b) (lt_irrefl _)
      · rw [b1] at a; exact absurd a (lt_irrefl _)
      · rw [← a1] at b; exact absurd b (lt_irrefl _)
      · exact ⟨b1, le_antisymm b2 a2⟩
  · exact c
  · exfalso
    obtain ⟨w, hw⟩ := get?_some_of_lt l (bi + 1) (by have := lt_length_of_get? l m v hm; omega)
    refine hnext w hw ?_
    by_cases e : m = bi + 1
    · rw [e, hw] at hm
      cases hm
      exact hv
    · have h1 := dom_le_of_lt (pairwise_get? _ l hs bi (bi + 1) g w (by omega) hg hw)
      have h2 := dom_le_of_lt (pairwise_get? _ l hs (bi + 1) m w v (by omega) hw hm)
      rw [hgP.1, hgP.2] at h1
      rw [hv.1, hv.2] at h2
      rcases h1 with a | ⟨a1, a2⟩ <;> rcases h2 with b | ⟨b1, b2⟩
      · exact absurd (lt_trans a b) (lt_irrefl _)
      · rw [b1] at a; exact absurd a (lt_irrefl _)
      · rw [← a1] at b; exact absurd b (lt_irrefl _)
      · exact ⟨b1, le_antisymm b2 a2⟩

/-- What the test of the neighbours returns on a strip `l1` with invalidated entries, in
terms of the strip `l` it came from: `false` exactly when the brother at `bi` is the only
halfsegment of the strip that starts in the end point of `curr`. -/
theorem neighbourShares_spec (l l1 : List halfsegment)
    (hs : l.Pairwise (fun a b => a.lt b = true))
    (hlen : l1.length = l.length)
    (hpt : ∀ m a, l.get? m = some a → ∃ b, l1.get? m = some b ∧ Touched a b)
    (curr : halfsegment) (bi : Nat) (g : halfsegment)
    (hg : l.get? bi = some g) (hgP : startsAt g (curr.sx, curr.sy)) :
    neighbourShares l1 (bi : Int) curr
      = Except.ok (decide (¬ countStart l (curr.sx, curr.sy) = 1)) := by
  have hbi := lt_length_of_get? l bi g hg
  -- the two neighbours, read from `l1`
  have hread : ∀ (m : Nat), m < l.length →
      ∃ a b, l.get? m = some a ∧ vecGet l1 (m : Int) = Except.ok b ∧
        ((decide (b.dx = curr.sx) && decide (b.dy = curr.sy)) = true ↔
          startsAt a (curr.sx, curr.sy)) := by
    intro m hm
    obtain ⟨a, ha⟩ := get?_some_of_lt l m hm
    obtain ⟨b, hb, tb⟩ := hpt m a ha
    obtain ⟨e1, e2, _, _⟩ := touched_geo tb
    refine ⟨a, b, ha, vecGet_nat l1 m b hb, ?_⟩
    unfold startsAt
    simp only [Bool.and_eq_true, decide_eq_true_eq, e1, e2]
  unfold neighbourShares
  by_cases h1 : bi + 1 < l.length
  · obtain ⟨a, b, ha, hb, hab⟩ := hread (bi + 1) h1
    have hc : ((bi : Int) + 1 < (l1.length : Int)) := by rw [hlen]; omega
    push_cast at hb
    simp only [hc, if_true, hb, bind, Except.bind, pure, Except.pure]
    by_cases hsh : startsAt a (curr.sx, curr.sy)
    · have := hab.mpr hsh
      simp only [this, if_true]
      have hne : ¬ countStart l (curr.sx, curr.sy) = 1 := by
        intro hcount
        obtain ⟨n, u, _, _, huniq⟩ := countStart_eq_one l _ hcount
        have e1 := huniq bi g hg hgP
        have e2 := huniq (bi + 1) a ha hsh
        omega
      simp [hne]
    · have hf : ¬ ((decide (b.dx = curr.sx) && decide (b.dy = curr.sy)) = true) :=
        fun c => hsh (hab.mp c)
      simp only [hf, if_false]
      by_cases h2 : 0 < bi
      · obtain ⟨a2, b2, ha2, hb2, hab2⟩ := hread (bi - 1) (by omega)
        have hc2 : (bi : Int) > 0 := by omega
        have hcast : ((bi - 1 : Nat) : Int) = (bi : Int) - 1 := by omega
        rw [hcast] at hb2
        simp only [hc2, if_true, hb2]
        by_cases hsh2 : startsAt a2 (curr.sx, curr.sy)
        · have hne : ¬ countStart l (curr.sx, curr.sy) = 1 := by
            intro hcount
            obtain ⟨n, u, _, _, huniq⟩ := countStart_eq_one l _ hcount
            have e1 := huniq bi g hg hgP
            have e2 := huniq (bi - 1) a2 ha2 hsh2
            omega
          simp [hab2.mpr hsh2, hne]
        · have hf2 : (decide (b2.dx = curr.sx) && decide (b2.dy = curr.sy)) = false := by
            rw [← Bool.not_eq_true]
            exact fun c => hsh2 (hab2.mp c)
          have hone : countStart l (curr.sx, curr.sy) = 1 :=
            countStart_one_of_unique l _ bi g hg hgP
              (alone_of_neighbours l hs _ bi g hg hgP
                (fun v hv => by rw [ha] at hv; cases hv; exact hsh)
                (fun v _ hv => by rw [ha2] at hv; cases hv; exact hsh2))
          simp [hf2, hone]
      · have hc2 : ¬ (bi : Int) > 0 := by omega
        have hone : countStart l (curr.sx, curr.sy) = 1 :=
          countStart_one_of_unique l _ bi g hg hgP
            (alone_of_neighbours l hs _ bi g hg hgP
              (fun v hv => by rw [ha] at hv; cases hv; exact hsh)
              (fun v h0 _ => absurd h0 h2))
        simp [hc2, hone]
  · have hc : ¬ ((bi : Int) + 1 < (l1.length : Int)) := by rw [hlen]; omega
    have hnone : ∀ v, l.get? (bi + 1) = some v → ¬ startsAt v (curr.sx, curr.sy) := by
      intro v hv
      have := lt_length_of_get? l _ v hv
      omega
    simp only [hc, if_false, bind, Except.bind, pure, Except.pure, Bool.false_eq_true]
    by_cases h2 : 0 < bi
    · obtain ⟨a2, b2, ha2, hb2, hab2⟩ := hread (bi - 1) (by omega)
      have hc2 : (bi : Int) > 0 := by omega
      have hcast : ((bi - 1 : Nat) : Int) = (bi : Int) - 1 := by omega
      rw [hcast] at hb2
      simp only [hc2, if_true, hb2]
      by_cases hsh2 : startsAt a2 (curr.sx, curr.sy)
      · have hne : ¬ countStart l (curr.sx, curr.sy) = 1 := by
          intro hcount
          obtain ⟨n, u, _, _, huniq⟩ := countStart_eq_one l _ hcount
          have e1 := huniq bi g hg hgP
          have e2 := huniq (bi - 1) a2 ha2 hsh2
          omega
        simp [hab2.mpr hsh2, hne]
      · have hf2 : (decide (b2.dx = curr.sx) && decide (b2.dy = curr.sy)) = false := by
          rw [← Bool.not_eq_true]
          exact fun c => hsh2 (hab2.mp c)
        have hone : countStart l (curr.sx, curr.sy) = 1 :=
          countStart_one_of_unique l _ bi g hg hgP
            (alone_of_neighbours l hs _ bi g hg hgP hnone
              (fun v _ hv => by rw [ha2] at hv; cases hv; exact hsh2))
        simp [hf2, hone]
    · have hc2 : ¬ (bi : Int) > 0 := by omega
      have hone : countStart l (curr.sx, curr.sy) = 1 :=
        countStart_one_of_unique l _ bi g hg hgP
          (alone_of_neighbours l hs _ bi g hg hgP hnone (fun v h0 _ => absurd h0 h2))
      simp [hc2, hone]

/-! ## The recombination: the loop over the boundaries -/

theorem joinLoop_succ (B : List ℚ) (fuel : Nat) (st : JoinState) :
    joinLoop B (fuel + 1) st = (do
      let b ← vecGet B st.currBound
      (if st.curr.sx = b then do
        let broIndex ← (match st.broIndex with
          | some k => pure k
          | none => throw Fault.uninitialised)
        let strip ← vecGet st.resultStrips st.currStrip
        let sh ← neighbourShares strip broIndex st.curr
        (if sh then pure st else joinNext B fuel st broIndex)
      else pure st)) := by
  rw [joinLoop]
  cases hb : vecGet B st.currBound with
  | error e => rfl
  | ok b =>
    simp only [bind, Except.bind]
    by_cases hc : st.curr.sx = b
    · subst hc
      simp only [if_true]
      cases hk : st.broIndex with
      | none => rfl
      | some k =>
        simp only []
        cases hs : vecGet st.resultStrips st.currStrip with
        | error e => rfl
        | ok strip =>
          simp only [neighbourShares, bind, Except.bind, pure, Except.pure]
          by_cases h1 : k + 1 < (strip.length : Int)
          · simp only [h1, if_true]
            cases hn : vecGet strip (k + 1) with
            | error e => rfl
            | ok n =>
              simp only []
              by_cases h2 : (decide (n.dx = st.curr.sx) && decide (n.dy = st.curr.sy)) = true
              · simp only [h2, if_true]
              · simp only [h2, if_false]
                by_cases h3 : k > 0
                · simp only [h3, if_true]
                  cases hm : vecGet strip (k - 1) with
                  | error e => rfl
                  | ok m =>
                    simp only []
                    by_cases h4 :
                        (decide (m.dx = st.curr.sx) && decide (m.dy = st.curr.sy)) = true
                    · simp only [h4, if_true]
                      simp
                    · simp only [h4, if_false]
                      rfl
                · simp only [h3, if_false, Bool.false_eq_true]
                  rfl
          · simp only [h1, if_false, Bool.false_eq_true]
            by_cases h3 : k > 0
            · simp only [h3, if_true]
              cases hm : vecGet strip (k - 1) with
              | error e => rfl
              | ok m =>
                simp only []
                by_cases h4 : (decide (m.dx = st.curr.sx) && decide (m.dy = st.curr.sy)) = true
                · simp only [h4, if_true]
                · simp only [h4, if_false]
                  rfl
            · simp only [h3, if_false, Bool.false_eq_true]
              rfl
    · simp only [hc, if_false]

theorem stripAt_of_not_lt (rs : List (List halfsegment)) (t : Nat) (h : ¬ t < rs.length) :
    stripAt rs t = [] := by
  unfold stripAt
  rw [List.getD_eq_getElem?_getD, List.getElem?_eq_none (by omega)]
  rfl

theorem stripAt_mem (rs : List (List halfsegment)) (t : Nat) (h : t < rs.length) :
    stripAt rs t ∈ rs := by
  unfold stripAt
  rw [List.getD_eq_getElem?_getD, List.getElem?_eq_getElem h]
  exact List.getElem_mem h

theorem lt_of_strip_get? (rs : List (List halfsegment)) (t m : Nat) (e : halfsegment)
    (h : (stripAt rs t).get? m = some e) : t < rs.length := by
  by_contra c
  rw [stripAt_of_not_lt rs t c] at h
  cases h

theorem ok_sorted {B : List ℚ} {rs : List (List halfsegment)} (hok : StripsOK B rs) (t : Nat) :
    (stripAt rs t).Pairwise (fun a b => a.lt b = true) := by
  by_cases h : t < rs.length
  · exact hok.2.2.1 _ (stripAt_mem rs t h)
  · rw [stripAt_of_not_lt rs t h]
    exact List.Pairwise.nil

theorem ok_brother {B : List ℚ} {rs : List (List halfsegment)} (hok : StripsOK B rs) (t : Nat)
    (h : halfsegment) (hh : h ∈ stripAt rs t) :
    ∃ (bi : Nat) (g : halfsegment), (stripAt rs t).get? bi = some g ∧
      g.eq h.getBrother = true := by
  by_cases c : t < rs.length
  · obtain ⟨g, hg, e⟩ := hok.2.2.2.1 _ (stripAt_mem rs t c) h hh
    obtain ⟨bi, hbi⟩ := List.get?_of_mem hg
    exact ⟨bi, g, hbi, e⟩
  · rw [stripAt_of_not_lt rs t c] at hh
    cases hh

theorem getD_of_get? (B : List ℚ) (j : Nat) (b : ℚ) (h : B.get? j = some b) :
    B.getD j 0 = b := by
  rw [List.getD_eq_getElem?_getD, ← List.get?_eq_getElem?, h]
  rfl

theorem ok_geo {B : List ℚ} {rs : List (List halfsegment)} (hok : StripsOK B rs) (t : Nat)
    (h : halfsegment) (hh : h ∈ stripAt rs t) (lo hi : ℚ) (hlo : B.get? t = some lo)
    (hhi : B.get? (t + 1) = some hi) :
    lo ≤ h.dx ∧ h.dx ≤ hi ∧ lo ≤ h.sx ∧ h.sx ≤ hi ∧ (h.dx = h.sx → lo < h.dx ∧ h.dx < hi) := by
  have c : t < rs.length := by
    by_contra c
    rw [stripAt_of_not_lt rs t c] at hh
    cases hh
  have := hok.2.2.2.2.1 t c h hh
  rw [getD_of_get? B t lo hlo, getD_of_get? B (t + 1) hi hhi] at this
  exact this

theorem ok_bounds {B : List ℚ} {rs : List (List halfsegment)} (hok : StripsOK B rs) (t : Nat)
    (ht : t < rs.length) :
    ∃ lo hi, B.get? t = some lo ∧ B.get? (t + 1) = some hi ∧ lo < hi := by
  have hlen := hok.1
  obtain ⟨lo, hlo⟩ := get?_some_of_lt B t (by omega)
  obtain ⟨hi, hhi⟩ := get?_some_of_lt B (t + 1) (by omega)
  exact ⟨lo, hi, hlo, hhi, pairwise_get_lt B hok.2.1 t (t + 1) lo hi (by omega) hlo hhi⟩

/-- A halfsegment of a strip that starts on the left boundary of the strip is a left
halfsegment. -/
theorem isLeft_of_on_left_bound {B : List ℚ} {rs : List (List halfsegment)}
    (hok : StripsOK B rs) (t : Nat) (u : halfsegment) (hu : u ∈ stripAt rs t)
    (hb : B.get? t = some u.dx) : u.isLeft = true := by
  have c : t < rs.length := by
    by_contra c
    rw [stripAt_of_not_lt rs t c] at hu
    cases hu
  obtain ⟨lo, hi, hlo, hhi, _⟩ := ok_bounds hok t c
  obtain ⟨g1, g2, g3, g4, g5⟩ := ok_geo hok t u hu lo hi hlo hhi
  have e : lo = u.dx := by
    rw [hlo] at hb
    exact Option.some.inj hb
  unfold halfsegment.isLeft
  rcases lt_or_eq_of_le g3 with c1 | c1
  · simp [← e, c1]
  · exfalso
    have := (g5 (by rw [← e, c1])).1
    rw [e] at this
    exact lt_irrefl _ this

theorem brother_not_left {p g : halfsegment} (hp : p.isLeft = true)
    (hg : g.eq p.getBrother = true) : g.isLeft = false := by
  unfold halfsegment.eq halfsegment.getBrother at hg
  simp only [Bool.and_eq_true, decide_eq_true_eq] at hg
  obtain ⟨⟨⟨e1, e2⟩, e3⟩, e4⟩ := hg
  unfold halfsegment.isLeft at hp ⊢
  simp only [Bool.or_eq_true, Bool.and_eq_true, decide_eq_true_eq] at hp
  rw [e1, e2, e3, e4]
  rcases hp with c | ⟨c1, c2⟩
  · simp [not_lt.mpr (le_of_lt c), ne_of_gt c]
  · simp [c1, not_lt.mpr (le_of_lt c2)]

theorem brother_starts {p g : halfsegment} (hg : g.eq p.getBrother = true) :
    startsAt g (p.sx, p.sy) := by
  unfold halfsegment.eq halfsegment.getBrother at hg
  simp only [Bool.and_eq_true, decide_eq_true_eq] at hg
  exact ⟨hg.1.1.1, hg.1.1.2⟩

theorem brother_key {u u1 : halfsegment} (h : u1.dx = u.dx ∧ u1.dy = u.dy ∧ u1.sx = u.sx ∧
    u1.sy = u.sy) : u1.getBrother.key = u.getBrother.key := by
  unfold halfsegment.key halfsegment.getBrother
  simp only [h.1, h.2.1, h.2.2.1, h.2.2.2]

theorem invalid_step {rs rs1 : List (List halfsegment)} (h : Step rs rs1) (t m : Nat)
    (hi : Invalid rs t m) : Invalid rs1 t m := by
  obtain ⟨e, he, h1⟩ := hi
  obtain ⟨b, hb, tb⟩ := (h.2 t).2 m e he
  exact ⟨b, hb, touched_invalid tb h1⟩

/-- A right halfsegment precedes a left one that starts in the same point. -/
theorem right_lt_left {g u : halfsegment} (hx : g.dx = u.dx) (hy : g.dy = u.dy)
    (hg : g.isLeft = false) (hu : u.isLeft = true) : g.lt u = true := by
  unfold halfsegment.lt
  simp [hx, hy, hg, hu]

/-- The loop of `createFinalOverlay` on well-formed strips `rs0` of which some entries may
have been invalidated: from a left piece `p` at index `ci` of strip `s` it returns, having
joined `curr` with the pieces that continue `p`. -/
theorem joinLoop_spec (B : List ℚ) (rs0 : List (List halfsegment)) (hok : StripsOK B rs0) :
    ∀ (fuel : Nat) (st : JoinState) (s ci : Nat) (p : halfsegment),
      rs0.length + 1 ≤ fuel + s →
      Step rs0 st.resultStrips →
      st.currStrip = (s : Int) → st.currBound = (s : Int) + 1 → st.currIndex = (ci : Int) →
      (stripAt rs0 s).get? ci = some p → p.isLeft = true →
      st.curr.sx = p.sx → st.curr.sy = p.sy →
      (B.get? (s + 1) = some p.sx →
        ∃ (bi : Nat) (g : halfsegment), st.broIndex = some (bi : Int) ∧
          (stripAt rs0 s).get? bi = some g ∧ g.eq p.getBrother = true) →
      ∃ st1, joinLoop B fuel st = Except.ok st1 ∧ LoopPost B rs0 st s ci p st1 := by
  intro fuel
  induction fuel with
  | zero =>
    intro st s ci p hf _ _ _ _ hp _ _ _ _
    have := lt_of_strip_get? rs0 s ci p hp
    omega
  | succ f ih =>
    intro st s ci p hf hstep hcs hcb hci hp hpl hsx hsy hbro
    have hs : s < rs0.length := lt_of_strip_get? rs0 s ci p hp
    obtain ⟨lo, b, hlo, hb, _⟩ := ok_bounds hok s hs
    have hvb : vecGet B st.currBound = Except.ok b := by
      rw [hcb]
      have := vecGet_nat B (s + 1) b hb
      push_cast at this
      exact this
    have hvs : vecGet st.resultStrips st.currStrip = Except.ok (stripAt st.resultStrips s) := by
      rw [hcs]
      exact vecGet_strip _ s (by rw [hstep.1]; exact hs)
    -- the outcome when the loop stops at once
    have hstop : ¬ joinsOn B rs0 s p → LoopPost B rs0 st s ci p st := by
      intro hj
      refine ⟨s, ci, p, step_refl _, hcs, hci, hp, hpl, hj, ?_, ?_, Or.inl ⟨rfl, rfl, rfl⟩,
        fun _ _ _ _ _ _ _ => rfl⟩
      · rw [← hsx, ← hsy]
      · intro f2 _
        cases f2 with
        | zero => rfl
        | succ f2 => rw [chainEnd, if_neg hj]
    rw [joinLoop_succ, hvb]
    simp only [bind, Except.bind]
    by_cases hj : joinsOn B rs0 s p
    · have hbx : b = p.sx := by
        have := hj.1
        rw [hb] at this
        exact Option.some.inj this
      obtain ⟨bi, g, hbi, hg, hge⟩ := hbro hj.1
      have hgP : startsAt g (st.curr.sx, st.curr.sy) := by
        rw [hsx, hsy]
        exact brother_starts hge
      have hnb := neighbourShares_spec (stripAt rs0 s) (stripAt st.resultStrips s)
        (ok_sorted hok s) (hstep.2 s).1 (hstep.2 s).2 st.curr bi g hg hgP
      have hcount : countStart (stripAt rs0 s) (st.curr.sx, st.curr.sy) = 1 := by
        rw [hsx, hsy]
        exact hj.2
      rw [if_pos (hsx.trans hbx.symm), hbi]
      simp only [pure, Except.pure]
      rw [hvs]
      simp only []
      rw [hnb]
      simp only [hcount, not_true_eq_false, decide_False, Bool.false_eq_true, if_false]
      -- the join with the next strip
      obtain ⟨g', hg', _⟩ := (hstep.2 s).2 bi g hg
      obtain ⟨rs1, hinv1, hst1, _, hsame1⟩ := invalidate_spec st.resultStrips s bi g' hg'
      have hstep1 : Step rs0 rs1 := step_trans hstep hst1
      obtain ⟨p', hp', _⟩ := (hstep1.2 s).2 ci p hp
      obtain ⟨rs2, hinv2, hst2, hcell2, hsame2⟩ := invalidate_spec rs1 s ci p' hp'
      have hstep2 : Step rs0 rs2 := step_trans hstep1 hst2
      obtain ⟨g2, hg2, tg2⟩ := (hstep2.2 s).2 bi g hg
      have hcnt := hok.2.2.2.2.2 s hs p (List.get?_mem hp) hpl hj
      obtain ⟨n1, u, hn1, huP, huniq⟩ := countStart_eq_one _ _ hcnt
      have hs1 : s + 1 < rs0.length := lt_of_strip_get? rs0 (s + 1) n1 u hn1
      have hux : u.dx = p.sx := huP.1
      have huy : u.dy = p.sy := huP.2
      have hul : u.isLeft = true :=
        isLeft_of_on_left_bound hok (s + 1) u (List.get?_mem hn1) (by rw [hux]; exact hj.1)
      obtain ⟨u2, hu2, tu2⟩ := (hstep2.2 (s + 1)).2 n1 u hn1
      obtain ⟨bi1, g1, hbi1, hg1e⟩ := ok_brother hok (s + 1) u (List.get?_mem hn1)
      have hgk : g2.key = p.getBrother.key := (touched_key tg2).trans ((key_eq_iff _ _).mpr hge)
      have hsearch1 : binarySearchHalfsegment (stripAt rs2 (s + 1)) g2
          = Except.ok (false, (n1 : Int)) := by
        rw [search_congr _ (stripAt rs0 (s + 1)) g2 p.getBrother (step_keys hstep2 (s + 1)) hgk]
        refine search_landing _ (ok_sorted hok (s + 1)) _ n1 u hn1 ?_ ?_
        · exact right_lt_left hux.symm huy.symm
            (brother_not_left hpl (eq_self_hseg _)) hul
        · intro m e hm hmn
          have h1 := dom_le_of_lt (pairwise_get? _ _ (ok_sorted hok (s + 1)) m n1 e u hmn hm hn1)
          have hne : ¬ startsAt e (p.sx, p.sy) := fun c => by
            have := huniq m e hm c
            omega
          unfold startsAt at hne
          rw [hux, huy] at h1
          unfold halfsegment.lt
          rw [if_pos]
          show e.dx < p.sx ∨ (e.dx = p.sx ∧ e.dy < p.sy)
          rcases h1 with c | ⟨c1, c2⟩
          · exact Or.inl c
          · exact Or.inr ⟨c1, lt_of_le_of_ne c2 (fun c => hne ⟨c1, c⟩)⟩
      have hsearch2 : binarySearchHalfsegment (stripAt rs2 (s + 1)) u2.getBrother
          = Except.ok (true, (bi1 : Int)) := by
        rw [search_congr _ (stripAt rs0 (s + 1)) u2.getBrother u.getBrother
          (step_keys hstep2 (s + 1)) (brother_key (touched_geo tu2))]
        exact search_found _ (ok_sorted hok (s + 1)) _ bi1 g1 hbi1 hg1e
      have hv2 : vecGet rs2 (s : Int) = Except.ok (stripAt rs2 s) :=
        vecGet_strip _ s (by rw [hstep2.1]; exact hs)
      have hvn : vecGet rs2 ((s : Int) + 1) = Except.ok (stripAt rs2 (s + 1)) := by
        have := vecGet_strip rs2 (s + 1) (by rw [hstep2.1]; exact hs1)
        push_cast at this
        exact this
      have hvg2 : vecGet (stripAt rs2 s) (bi : Int) = Except.ok g2 := vecGet_nat _ bi g2 hg2
      have hvu2 : vecGet (stripAt rs2 (s + 1)) (n1 : Int) = Except.ok u2 :=
        vecGet_nat _ n1 u2 hu2
      obtain ⟨st1, hrun, hpost⟩ := ih
        { resultStrips := rs2, curr := { st.curr with sx := u2.sx, sy := u2.sy },
          broIndex := some (bi1 : Int), currIndex := (n1 : Int),
          currBound := st.currBound + 1, currStrip := st.currStrip + 1,
          invalidateLast := true }
        (s + 1) n1 u (by omega) hstep2 (by rw [hcs]; push_cast; rfl)
        (by rw [hcb]; push_cast; rfl) rfl hn1 hul (touched_geo tu2).2.2.1 (touched_geo tu2).2.2.2
        (fun _ => ⟨bi1, g1, rfl, hbi1, hg1e⟩)
      refine ⟨st1, ?_, ?_⟩
      · unfold joinNext
        rw [hcs, hci, hinv1]
        simp only [bind, Except.bind]
        rw [hinv2]
        simp only []
        rw [hv2]
        simp only []
        rw [hvg2]
        simp only []
        rw [hvn]
        simp only []
        rw [hsearch1]
        simp only []
        rw [hvu2]
        simp only []
        rw [hsearch2]
        simp only []
        rw [← hcs, ← hcb] at *
        exact hrun
      · obtain ⟨s1, ci1, p1, q1, q2, q3, q4, q5, q6, q7, q8, q9, q10⟩ := hpost
        have hpe : endsAt p (u.dx, u.dy) := ⟨hux.symm, huy.symm⟩
        refine ⟨s1, ci1, p1, step_trans hst1 (step_trans hst2 q1), q2, q3, q4, q5, q6, ?_, ?_,
          Or.inr ⟨?_, hj, ?_, ?_, ?_, ?_⟩, ?_⟩
        · rw [q7]
        · intro f2 hf2
          cases f2 with
          | zero => omega
          | succ f2 =>
            rw [chainEnd, if_pos hj]
            have : continuation rs0 s (p.sx, p.sy) = some u := by
              unfold continuation
              exact find?_of_unique _ _ n1 u hn1 (by simpa using huP)
                (fun m v hm hv => huniq m v hm (by simpa using hv))
            rw [this]
            exact q8 f2 (by omega)
        · rcases q9 with ⟨_, _, e⟩ | h
          · rw [e]
          · exact h.1
        · rcases q9 with ⟨e1, _, e⟩ | h
          · rw [e, e1]
            exact ⟨bi1, g1, rfl, hbi1, brother_not_left hul hg1e⟩
          · exact h.2.2.1
        · exact invalid_step q1 s ci ⟨_, hcell2, rfl, rfl⟩
        · rcases q9 with ⟨e1, e2, _⟩ | h
          · refine ⟨s, p, e1.symm, List.get?_mem hp, hpl, ?_⟩
            rw [e1, e2, hn1] at q4
            cases q4
            exact hpe
          · exact h.2.2.2.2.1
        · intro m v hm hv
          have hmn := huniq m v hm hv
          subst hmn
          rcases q9 with ⟨e1, e2, _⟩ | h
          · exact Or.inl ⟨e1, e2⟩
          · exact Or.inr h.2.2.2.1
        · intro t m e0 he0 hl hne hnone
          have hne1 : ¬ (t = s + 1 ∧ m = n1) := by
            rintro ⟨rfl, rfl⟩
            rw [hn1] at he0
            cases he0
            exact hnone s p rfl (List.get?_mem hp) hpl hpe
          rw [q10 t m e0 he0 hl hne1 hnone]
          show (stripAt rs2 t).get? m = _
          rw [hsame2 t m hne, hsame1 t m]
          rintro ⟨rfl, rfl⟩
          rw [hg] at he0
          cases he0
          rw [brother_not_left hpl hge] at hl
          cases hl
    · by_cases hc : st.curr.sx = b
      · rw [if_pos hc]
        have hb1 : B.get? (s + 1) = some p.sx := by rw [hb, ← hc, hsx]
        obtain ⟨bi, g, hbi, hg, hge⟩ := hbro hb1
        have hgP : startsAt g (st.curr.sx, st.curr.sy) := by
          rw [hsx, hsy]
          exact brother_starts hge
        have hnb := neighbourShares_spec (stripAt rs0 s) (stripAt st.resultStrips s)
          (ok_sorted hok s) (hstep.2 s).1 (hstep.2 s).2 st.curr bi g hg hgP
        have hcount : ¬ countStart (stripAt rs0 s) (st.curr.sx, st.curr.sy) = 1 := by
          rw [hsx, hsy]
          exact fun c => hj ⟨hb1, c⟩
        rw [hbi]
        simp only [pure, Except.pure]
        rw [hvs]
        simp only []
        rw [hnb]
        simp only [hcount, not_false_eq_true, decide_True, if_true]
        exact ⟨st, rfl, hstop hj⟩
      · rw [if_neg hc]
        exact ⟨st, rfl, hstop hj⟩

/-! ## The recombination: one entry of a strip -/

theorem joinRun_unfold (B : List ℚ) (i j : Int) (rs : List (List halfsegment))
    (fr : List halfsegment) (curr : halfsegment) (bi : Option Int) :
    joinRun B i j rs fr curr bi =
      (match joinLoop B (B.length + 1)
          { resultStrips := rs, curr := curr, broIndex := bi, currIndex := j,
            currBound := i + 1, currStrip := i, invalidateLast := false } with
      | Except.error err => Except.error err
      | Except.ok v =>
        if v.invalidateLast = true then
          match v.broIndex with
          | some k =>
            match invalidate v.resultStrips v.currStrip k with
            | Except.error err => Except.error err
            | Except.ok v_1 =>
              match invalidate v_1 v.currStrip v.currIndex with
              | Except.error err => Except.error err
              | Except.ok v_2 => Except.ok (v_2, fr ++ [v.curr, v.curr.getBrother], v.broIndex)
          | none => Except.error Fault.uninitialised
        else Except.ok (v.resultStrips, fr ++ [v.curr, v.curr.getBrother], v.broIndex)) := by
  unfold joinRun
  simp only [bind, Except.bind, pure, Except.pure]
  cases joinLoop B (B.length + 1)
      { resultStrips := rs, curr := curr, broIndex := bi, currIndex := j,
        currBound := i + 1, currStrip := i, invalidateLast := false } with
  | error e => rfl
  | ok v =>
    simp only []
    by_cases hi : v.invalidateLast = true
    · rw [if_pos hi, if_pos hi]
      cases hk : v.broIndex with
      | none => rfl
      | some k =>
        simp only []
        cases invalidate v.resultStrips v.currStrip k with
        | error e => rfl
        | ok v1 =>
          simp only []
          cases invalidate v1 v.currStrip v.currIndex with
          | error e => rfl
          | ok v2 => rfl
    · rw [if_neg hi, if_neg hi]

theorem joinEntry_eq (B : List ℚ) (i j : Int) (rs : List (List halfsegment))
    (fr : List halfsegment) (bi0 : Option Int) :
    joinEntry B i j rs fr bi0 = (do
      let strip ← vecGet rs i
      let curr ← vecGet strip j
      (if curr.isLeft ∧ curr.la ≠ curr.lb then do
        let b ← vecGet B (i + 1)
        let broIndex ←
          (if curr.sx = b then do
            let strip ← vecGet rs i
            let r ← binarySearchHalfsegment strip curr.getBrother
            (if !r.1 then throw Fault.exit else pure (some r.2))
          else pure bi0)
        joinRun B i j rs fr curr broIndex
      else pure (rs, fr, bi0))) := by
  unfold joinEntry
  cases hs : vecGet rs i with
  | error e => rfl
  | ok strip =>
    simp only [bind, Except.bind]
    cases hc : vecGet strip j with
    | error e => rfl
    | ok curr =>
      simp only []
      by_cases hcond : curr.isLeft = true ∧ curr.la ≠ curr.lb
      · rw [if_pos hcond, if_pos hcond]
        cases hb : vecGet B (i + 1) with
        | error e => rfl
        | ok b =>
          simp only []
          by_cases hx : curr.sx = b
          · rw [if_pos hx, if_pos hx, hs]
            simp only []
            cases hr : binarySearchHalfsegment strip curr.getBrother with
            | error e => rfl
            | ok r =>
              simp only []
              by_cases hf : (!r.1) = true
              · rw [if_pos hf, if_pos hf]
              · rw [if_neg hf, if_neg hf]
                simp only [joinRun_unfold, bind, Except.bind, pure, Except.pure]
                cases joinLoop B (B.length + 1)
                    { resultStrips := rs, curr := curr, broIndex := some r.2, currIndex := j,
                      currBound := i + 1, currStrip := i, invalidateLast := false } with
                | error e => rfl
                | ok v =>
                  simp only []
                  by_cases hi : v.invalidateLast = true
                  · rw [if_pos hi, if_pos hi]
                    cases hk : v.broIndex with
                    | none => rfl
                    | some k =>
                      simp only []
                      cases invalidate v.resultStrips v.currStrip k with
                      | error e => rfl
                      | ok v1 =>
                        simp only []
                        cases invalidate v1 v.currStrip v.currIndex with
                        | error e => rfl
                        | ok v2 => rfl
                  · rw [if_neg hi, if_neg hi]
          · rw [if_neg hx, if_neg hx]
            simp only [joinRun_unfold, bind, Except.bind, pure, Except.pure]
            cases joinLoop B (B.length + 1)
                { resultStrips := rs, curr := curr, broIndex := bi0, currIndex := j,
                  currBound := i + 1, currStrip := i, invalidateLast := false } with
            | error e => rfl
            | ok v =>
              simp only []
              by_cases hi : v.invalidateLast = true
              · rw [if_pos hi, if_pos hi]
                cases hk : v.broIndex with
                | none => rfl
                | some k =>
                  simp only []
                  cases invalidate v.resultStrips v.currStrip k with
                  | error e => rfl
                  | ok v1 =>
                    simp only []
                    cases invalidate v1 v.currStrip v.currIndex with
                    | error e => rfl
                    | ok v2 => rfl
              · rw [if_neg hi, if_neg hi]
      · rw [if_neg hcond, if_neg hcond]

/-- The body of the loops of `createFinalOverlay` from the `while` loop on, for a valid left
halfsegment: it returns, and `EntryPost` describes the result. -/
theorem joinRun_spec (B : List ℚ) (rs0 : List (List halfsegment)) (hok : StripsOK B rs0)
    (rs : List (List halfsegment)) (fr : List halfsegment) (a b : Nat)
    (e0 e : halfsegment) (bi1 : Option Int) (hstep : Step rs0 rs)
    (he0 : (stripAt rs0 a).get? b = some e0) (te : Touched e0 e)
    (hcond : e.isLeft = true ∧ e.la ≠ e.lb)
    (hbi1p : B.get? (a + 1) = some e0.sx →
      ∃ (bi : Nat) (g : halfsegment), bi1 = some (bi : Int) ∧
        (stripAt rs0 a).get? bi = some g ∧ g.eq e0.getBrother = true) :
    ∃ rs1 fr1 bi2, joinRun B (a : Int) (b : Int) rs fr e bi1 = Except.ok (rs1, fr1, bi2) ∧
      EntryPost B rs0 rs fr a b e0 e rs1 fr1 := by
  have hgeo := touched_geo te
  have hl0 : e0.isLeft = true := by rw [← touched_isLeft te]; exact hcond.1
  obtain ⟨st1, hrun, hpost⟩ := joinLoop_spec B rs0 hok (B.length + 1)
    { resultStrips := rs, curr := e, broIndex := bi1, currIndex := (b : Int),
      currBound := (a : Int) + 1, currStrip := (a : Int), invalidateLast := false }
    a b e0 (by have := hok.1; omega) hstep rfl rfl rfl he0 hl0 hgeo.2.2.1 hgeo.2.2.2 hbi1p
  obtain ⟨s1, ci1, p1, q1, q2, q3, q4, q5, q6, q7, q8, q9, q10⟩ := hpost
  simp only [] at q1 q7 q9 q10
  rw [joinRun_unfold, hrun]
  simp only []
  rcases q9 with ⟨e1, e2, e3⟩ |
    ⟨r1, r2, ⟨bi2, g2, r3, r4, r5⟩, _, ⟨t0, q, r7, r8, r9, r10⟩, r11⟩
  · -- the loop has joined nothing
    have hil : st1.invalidateLast = false := by rw [e3]
    rw [hil]
    simp only [Bool.false_eq_true, if_false]
    refine ⟨_, _, _, rfl, q1, Or.inr ⟨hcond.1, hcond.2, s1, p1, List.get?_mem q4, q5, q6, ?_,
      q8, ?_, q10⟩⟩
    · rw [q7]
    · intro hj
      rw [e1] at q6
      rw [e1, e2, he0] at q4
      cases q4
      exact absurd hj q6
  · -- the loop has joined pieces: the last ones are invalidated
    rw [if_pos r1, r3]
    simp only []
    have hstep1 : Step rs0 st1.resultStrips := step_trans hstep q1
    obtain ⟨g2', hg2', _⟩ := (hstep1.2 s1).2 bi2 g2 r4
    obtain ⟨rsA, hinvA, hstA, _, hsameA⟩ := invalidate_spec st1.resultStrips s1 bi2 g2' hg2'
    have hstepA : Step rs0 rsA := step_trans hstep1 hstA
    obtain ⟨p1', hp1', _⟩ := (hstepA.2 s1).2 ci1 p1 q4
    obtain ⟨rsB, hinvB, hstB, hcellB, hsameB⟩ := invalidate_spec rsA s1 ci1 p1' hp1'
    rw [q2, hinvA]
    simp only []
    rw [q3, hinvB]
    simp only []
    refine ⟨_, _, _, rfl, step_trans q1 (step_trans hstA hstB), Or.inr ⟨hcond.1, hcond.2, s1, p1,
      List.get?_mem q4, q5, q6, ?_, q8, ?_, ?_⟩⟩
    · rw [q7]
    · intro _ n1 u hn1 hu
      rcases r11 n1 u hn1 hu with ⟨e1, e2⟩ | h
      · rw [← e1, ← e2]
        exact ⟨_, hcellB, rfl, rfl⟩
      · exact invalid_step (step_trans hstA hstB) _ _ h
    · intro t m x0 hx0 hxl hne hnone
      rw [← q10 t m x0 hx0 hxl hne hnone]
      have h1 : ¬ (t = s1 ∧ m = ci1) := by
        rintro ⟨rfl, rfl⟩
        rw [q4] at hx0
        cases hx0
        exact hnone t0 q r7 r8 r9 r10
      have h2 : ¬ (t = s1 ∧ m = bi2) := by
        rintro ⟨rfl, rfl⟩
        rw [r4] at hx0
        cases hx0
        rw [r5] at hxl
        cases hxl
      rw [hsameB t m h1, hsameA t m h2]

/-- The body of the loops of `createFinalOverlay` on well-formed strips `rs0` of which
some entries may have been invalidated: it returns, and `EntryPost` describes the
result. -/
theorem joinEntry_spec (B : List ℚ) (rs0 : List (List halfsegment)) (hok : StripsOK B rs0)
    (rs : List (List halfsegment)) (fr : List halfsegment) (bi0 : Option Int) (a b : Nat)
    (e0 : halfsegment) (hstep : Step rs0 rs) (he0 : (stripAt rs0 a).get? b = some e0) :
    ∃ rs1 fr1 bi1 e, (stripAt rs a).get? b = some e ∧
      joinEntry B (a : Int) (b : Int) rs fr bi0 = Except.ok (rs1, fr1, bi1) ∧
      EntryPost B rs0 rs fr a b e0 e rs1 fr1 := by
  have ha : a < rs0.length := lt_of_strip_get? rs0 a b e0 he0
  obtain ⟨e, he, te⟩ := (hstep.2 a).2 b e0 he0
  have hgeo := touched_geo te
  have hvs : vecGet rs (a : Int) = Except.ok (stripAt rs a) :=
    vecGet_strip _ a (by rw [hstep.1]; exact ha)
  have hve : vecGet (stripAt rs a) (b : Int) = Except.ok e := vecGet_nat _ b e he
  rw [joinEntry_eq, hvs]
  simp only [bind, Except.bind]
  rw [hve]
  simp only []
  by_cases hcond : e.isLeft = true ∧ e.la ≠ e.lb
  · rw [if_pos hcond]
    obtain ⟨lo, bb, hlo, hbb, _⟩ := ok_bounds hok a ha
    have hvb : vecGet B ((a : Int) + 1) = Except.ok bb := by
      have := vecGet_nat B (a + 1) bb hbb
      push_cast at this
      exact this
    rw [hvb]
    simp only []
    by_cases hc : e.sx = bb
    · obtain ⟨bi, g, hbi, hge⟩ := ok_brother hok a e0 (List.get?_mem he0)
      have hsearch : binarySearchHalfsegment (stripAt rs a) e.getBrother
          = Except.ok (true, (bi : Int)) := by
        rw [search_congr _ (stripAt rs0 a) e.getBrother e0.getBrother (step_keys hstep a)
          (brother_key hgeo)]
        exact search_found _ (ok_sorted hok a) _ bi g hbi hge
      rw [if_pos hc, hsearch]
      simp only [Bool.not_true, Bool.false_eq_true, if_false, pure, Except.pure]
      obtain ⟨rs1, fr1, bi2, hrun, hpost⟩ := joinRun_spec B rs0 hok rs fr a b e0 e
        (some (bi : Int)) hstep he0 te hcond (fun _ => ⟨bi, g, rfl, hbi, hge⟩)
      exact ⟨rs1, fr1, bi2, e, he, hrun, hpost⟩
    · rw [if_neg hc]
      simp only [pure, Except.pure]
      obtain ⟨rs1, fr1, bi2, hrun, hpost⟩ := joinRun_spec B rs0 hok rs fr a b e0 e bi0 hstep he0
        te hcond (fun h => by
          rw [hbb] at h
          exact absurd ((Option.some.inj h).trans hgeo.2.2.1.symm).symm hc)
      exact ⟨rs1, fr1, bi2, e, he, hrun, hpost⟩
  · rw [if_neg hcond]
    exact ⟨rs, fr, bi0, e, he, rfl, step_refl _, Or.inl ⟨hcond, rfl, rfl⟩⟩

/-! ## The recombination: the merge of a piece with its continuation -/

theorem index_unique (l : List halfsegment) (hs : l.Pairwise (fun a b => a.lt b = true))
    (m n : Nat) (v g : halfsegment) (hm : l.get? m = some v) (hn : l.get? n = some g)
    (he : v.eq g = true) : m = n := by
  rcases Nat.lt_trichotomy m n with c | c | c
  · have := pairwise_get? _ l hs m n v g c hm hn
    rw [(lt_false_of_eq he).1] at this
    cases this
  · exact c
  · have := pairwise_get? _ l hs n m g v c hn hm
    rw [(lt_false_of_eq he).2] at this
    cases this

theorem bound_index_lt (B : List ℚ) (hB : B.Pairwise (fun a b => a < b)) (a b : Nat)
    (x y : ℚ) (ha : B.get? a = some x) (hb : B.get? b = some y) (hxy : x < y) : a < b := by
  rcases Nat.lt_trichotomy a b with c | c | c
  · exact c
  · subst c
    rw [ha] at hb
    cases hb
    exact absurd hxy (lt_irrefl _)
  · exact absurd (lt_trans hxy (pairwise_get_lt B hB b a y x c hb ha)) (lt_irrefl _)

theorem ne_of_isLeft {c : halfsegment} (h : c.isLeft = true) :
    ¬ (c.dx = c.sx ∧ c.dy = c.sy) := by
  unfold halfsegment.isLeft at h
  simp only [Bool.or_eq_true, Bool.and_eq_true, decide_eq_true_eq] at h
  rintro ⟨e1, e2⟩
  rcases h with c1 | ⟨_, c2⟩
  · rw [e1] at c1; exact lt_irrefl _ c1
  · rw [e2] at c2; exact lt_irrefl _ c2

/-- In the setting of a merge the piece `c` is one to be joined. -/
theorem setting_joinsOn {B : List ℚ} {rs : List (List halfsegment)} {i : Nat}
    {c c1 : halfsegment} (hset : MergeSetting B rs i c c1) : joinsOn B rs i c := by
  obtain ⟨hok, hc, hl, _, hb, halone, _⟩ := hset
  refine ⟨hb, ?_⟩
  obtain ⟨bi, g, hbi, hge⟩ := ok_brother hok i c hc
  refine countStart_one_of_unique _ _ bi g hbi (brother_starts hge) (fun m v hm hv => ?_)
  rcases halone v (List.get?_mem hm) (Or.inl hv) with e | e
  · exfalso
    unfold halfsegment.eq at e
    simp only [Bool.and_eq_true, decide_eq_true_eq] at e
    exact ne_of_isLeft hl ⟨e.1.1.1.symm.trans hv.1, e.1.1.2.symm.trans hv.2⟩
  · refine index_unique _ (ok_sorted hok i) m bi v g hm hbi ?_
    rw [← key_eq_iff] at e hge ⊢
    rw [e, hge]

/-- In the setting of a merge the continuation `c1` is the only halfsegment of its strip
that starts in the end point of `c`. -/
theorem setting_continuation {B : List ℚ} {rs : List (List halfsegment)} {i : Nat}
    {c c1 : halfsegment} (hset : MergeSetting B rs i c c1) :
    ∃ jc1, (stripAt rs (i + 1)).get? jc1 = some c1 ∧
      ∀ (m : Nat) (v : halfsegment), (stripAt rs (i + 1)).get? m = some v →
        startsAt v (c.sx, c.sy) → m = jc1 := by
  have hj := setting_joinsOn hset
  obtain ⟨hok, hc, hl, _, hb, _, hc1, _, hc1s, _, _⟩ := hset
  have hi : i < rs.length := by
    by_contra h
    rw [stripAt_of_not_lt rs i h] at hc
    cases hc
  have hcnt := hok.2.2.2.2.2 i hi c hc hl hj
  obtain ⟨n, u, _, _, huniq⟩ := countStart_eq_one _ _ hcnt
  obtain ⟨jc1, hjc1⟩ := List.get?_of_mem hc1
  have := huniq jc1 c1 hjc1 hc1s
  subst this
  exact ⟨jc1, hjc1, huniq⟩

/-- The end of the chain of `c` is the end of the chain of its continuation. -/
theorem setting_chainEnd {B : List ℚ} {rs : List (List halfsegment)} {i : Nat}
    {c c1 : halfsegment} (hset : MergeSetting B rs i c c1) (f : Nat) :
    chainEnd B rs (f + 1) i c = chainEnd B rs f (i + 1) c1 := by
  obtain ⟨jc1, hjc1, huniq⟩ := setting_continuation hset
  have hc1s : startsAt c1 (c.sx, c.sy) := hset.2.2.2.2.2.2.2.2.1
  rw [chainEnd, if_pos (setting_joinsOn hset)]
  have : continuation rs i (c.sx, c.sy) = some c1 := by
    unfold continuation
    exact find?_of_unique _ _ jc1 c1 hjc1 (by simpa using hc1s)
      (fun m v hm hv => huniq m v hm (by simpa using hv))
  rw [this]

/-- A left halfsegment of any strip that starts in the end point of `c` is the
continuation. -/
theorem setting_starts {B : List ℚ} {rs : List (List halfsegment)} {i : Nat}
    {c c1 : halfsegment} (hset : MergeSetting B rs i c c1) (jc1 : Nat)
    (huniq : ∀ (m : Nat) (v : halfsegment), (stripAt rs (i + 1)).get? m = some v →
      startsAt v (c.sx, c.sy) → m = jc1)
    (t m : Nat) (x0 : halfsegment) (hx0 : (stripAt rs t).get? m = some x0)
    (hl : x0.isLeft = true) (hs : startsAt x0 (c.sx, c.sy)) : t = i + 1 ∧ m = jc1 := by
  obtain ⟨hok, _, _, _, hb, _, _⟩ := hset
  have ht := lt_of_strip_get? rs t m x0 hx0
  obtain ⟨lo, hi, hlo, hhi, _⟩ := ok_bounds hok t ht
  obtain ⟨g1, g2, g3, g4, g5⟩ := ok_geo hok t x0 (List.get?_mem hx0) lo hi hlo hhi
  have hx : x0.dx = c.sx := hs.1
  have hlt : x0.dx < hi := by
    rcases lt_or_eq_of_le g2 with h | h
    · exact h
    · have h1 := dx_le_sx_of_isLeft x0 hl
      have h2 : x0.dx = x0.sx := le_antisymm h1 (by rw [h]; exact g4)
      exact (g5 h2).2
  rw [hx] at g1 hlt
  have ht1 : t = i + 1 := by
    have h1 : i + 1 < t + 1 := bound_index_lt B hok.2.1 (i + 1) (t + 1) c.sx hi hb hhi hlt
    have h2 : ¬ i + 1 < t := fun h =>
      absurd (pairwise_get_lt B hok.2.1 (i + 1) t c.sx lo h hb hlo) (not_lt.mpr g1)
    omega
  subst ht1
  exact ⟨rfl, huniq m x0 hx0 hs⟩

/-- A left halfsegment of any strip that ends in the end point of `c` is one to be
joined. -/
theorem setting_ends {B : List ℚ} {rs : List (List halfsegment)} {i : Nat}
    {c c1 : halfsegment} (hset : MergeSetting B rs i c c1)
    (s1 : Nat) (p1 : halfsegment) (hp1 : p1 ∈ stripAt rs s1)
    (hl : p1.isLeft = true) (he : endsAt p1 (c.sx, c.sy)) : joinsOn B rs s1 p1 := by
  have hj := setting_joinsOn hset
  obtain ⟨hok, _, hcl, _, hb, halone, _⟩ := hset
  have ht : s1 < rs.length := by
    by_contra h
    rw [stripAt_of_not_lt rs s1 h] at hp1
    cases hp1
  obtain ⟨lo, hi, hlo, hhi, _⟩ := ok_bounds hok s1 ht
  obtain ⟨g1, g2, g3, g4, g5⟩ := ok_geo hok s1 p1 hp1 lo hi hlo hhi
  have hx : p1.sx = c.sx := he.1
  have hy : p1.sy = c.sy := he.2
  have hlt : lo < p1.sx := by
    rcases lt_or_eq_of_le g3 with h | h
    · exact h
    · have h1 := dx_le_sx_of_isLeft p1 hl
      have h2 : p1.dx = p1.sx := le_antisymm h1 (by rw [← h]; exact g1)
      have := (g5 h2).1
      rw [h2] at this
      exact this
  rw [hx] at g4 hlt
  have hs1 : s1 = i := by
    have h1 : s1 < i + 1 := bound_index_lt B hok.2.1 s1 (i + 1) lo c.sx hlo hb hlt
    have h2 : ¬ s1 + 1 < i + 1 := fun h =>
      absurd (pairwise_get_lt B hok.2.1 (s1 + 1) (i + 1) hi c.sx h hhi hb) (not_lt.mpr g4)
    omega
  subst hs1
  rcases halone p1 hp1 (Or.inr he) with e | e
  · unfold joinsOn
    rw [hx, hy]
    exact hj
  · exfalso
    unfold halfsegment.eq halfsegment.getBrother at e
    simp only [Bool.and_eq_true, decide_eq_true_eq] at e
    exact ne_of_isLeft hcl ⟨e.1.2.symm.trans hx, e.2.symm.trans hy⟩

/-- One entry of a strip keeps the invariant of the merge. -/
theorem mergeInv_entry {B : List ℚ} {rs : List (List halfsegment)} {i : Nat}
    {c c1 : halfsegment} (hset : MergeSetting B rs i c c1) (jc jc1 : Nat)
    (hjc : (stripAt rs i).get? jc = some c)
    (hjc1 : (stripAt rs (i + 1)).get? jc1 = some c1)
    (huniq : ∀ (m : Nat) (v : halfsegment), (stripAt rs (i + 1)).get? m = some v →
      startsAt v (c.sx, c.sy) → m = jc1)
    (a b : Nat) (e0 : halfsegment) (he0 : (stripAt rs a).get? b = some e0)
    (rs1 : List (List halfsegment)) (fr : List halfsegment) (bi0 : Option Int)
    (hinv : MergeInv rs i jc jc1 c (mergedSegment B rs i c c1) a b rs1 fr) :
    ∃ rs2 fr2 bi2, joinEntry B (a : Int) (b : Int) rs1 fr bi0 = Except.ok (rs2, fr2, bi2) ∧
      MergeInv rs i jc jc1 c (mergedSegment B rs i c c1) a (b + 1) rs2 fr2 := by
  have hok := hset.1
  have hcl : c.isLeft = true := hset.2.2.1
  have hcv : c.la ≠ c.lb := hset.2.2.2.1
  have hc1s : startsAt c1 (c.sx, c.sy) := hset.2.2.2.2.2.2.2.2.1
  have hfirst := hset.2.2.2.2.2.2.2.2.2.2
  obtain ⟨hstep, hclean, hthird⟩ := hinv
  obtain ⟨rs2, fr2, bi2, e, he, hrun, hst, hcase⟩ :=
    joinEntry_spec B rs hok rs1 fr bi0 a b e0 hstep he0
  obtain ⟨_, te⟩ := step_back hstep a b e (he)
  refine ⟨rs2, fr2, bi2, hrun, ?_⟩
  rcases hcase with ⟨hncond, e1, e2⟩ | ⟨hel, hev, s1, p1, hp1, hp1l, hp1j, hfr, hchain, hland, hunt⟩
  · subst e1 e2
    refine ⟨hstep, hclean, ?_⟩
    rcases hthird with ⟨hbef, hcell⟩ | ⟨hnbef, hrest⟩
    · by_cases hpos : a = i ∧ b = jc
      · exfalso
        obtain ⟨rfl, rfl⟩ := hpos
        rw [hcell] at he
        cases he
        exact hncond ⟨hcl, hcv⟩
      · exact Or.inl ⟨by omega, hcell⟩
    · exact Or.inr ⟨by omega, hrest⟩
  · obtain ⟨a0, ha0, ta0⟩ := step_back hstep a b e he
    rw [he0] at ha0
    cases ha0
    have hgeo := touched_geo ta0
    have hl0 : e0.isLeft = true := by rw [← touched_isLeft ta0]; exact hel
    -- the appended segment has no end point in the end point of `c`
    have hnoend : ¬ (p1.sx = c.sx ∧ p1.sy = c.sy) := fun h =>
      hp1j (setting_ends hset s1 p1 hp1 hp1l h)
    have hnostart : ¬ (e.dx = c.sx ∧ e.dy = c.sy) := by
      intro h
      have hs0 : startsAt e0 (c.sx, c.sy) := ⟨hgeo.1.symm.trans h.1, hgeo.2.1.symm.trans h.2⟩
      obtain ⟨rfl, rfl⟩ := setting_starts hset jc1 huniq a b e0 he0 hl0 hs0
      rcases hthird with ⟨hbef, _⟩ | ⟨_, ⟨x, hx, hx1, hx2⟩, _⟩
      · omega
      · rw [he] at hx
        cases hx
        exact hev (hx1.trans hx2.symm)
    have hclean2 : ∀ h ∈ fr2, ¬ startsAt h (c.sx, c.sy) ∧ ¬ endsAt h (c.sx, c.sy) := by
      intro h hh
      rw [hfr, List.mem_append] at hh
      rcases hh with hh | hh
      · exact hclean h hh
      · simp only [List.mem_cons, List.mem_singleton, List.not_mem_nil, or_false] at hh
        rcases hh with rfl | rfl
        · exact ⟨hnostart, hnoend⟩
        · exact ⟨hnoend, hnostart⟩
    refine ⟨step_trans hstep hst, hclean2, ?_⟩
    rcases hthird with ⟨hbef, hcell⟩ | ⟨hnbef, hinvd, l1, l2, hdec⟩
    · by_cases hpos : a = i ∧ b = jc
      · obtain ⟨rfl, rfl⟩ := hpos
        rw [hcell] at he
        cases he
        rw [hjc] at he0
        cases he0
        have hend : chainEnd B rs rs.length (a + 1) c1 = (p1.sx, p1.sy) := by
          rw [← setting_chainEnd hset rs.length]
          exact hchain (rs.length + 1) (by omega)
        have hm : mergedSegment B rs a c c1 = { c with sx := p1.sx, sy := p1.sy } := by
          unfold mergedSegment
          rw [hend]
        refine Or.inr ⟨by omega, hland (setting_joinsOn hset) jc1 c1 hjc1 hc1s, fr, [], ?_⟩
        rw [hfr, hm]
      · refine Or.inl ⟨by omega, ?_⟩
        rw [hunt i jc c hjc hcl (fun h => hpos ⟨h.1.symm, h.2.symm⟩)
          (fun t0 q ht0 hq hql => hfirst q (by
            have : t0 = i - 1 := by omega
            rw [← this]; exact hq) (by omega) hql)]
        exact hcell
    · refine Or.inr ⟨by omega, invalid_step hst _ _ hinvd, l1,
        l2 ++ [({ e with sx := p1.sx, sy := p1.sy } : halfsegment),
          ({ e with sx := p1.sx, sy := p1.sy } : halfsegment).getBrother], ?_⟩
      rw [hfr, hdec]
      simp

/-- The loop over the entries of one strip keeps the invariant of the merge. -/
theorem mergeInv_strip {B : List ℚ} {rs : List (List halfsegment)} {i : Nat}
    {c c1 : halfsegment} (hset : MergeSetting B rs i c c1) (jc jc1 : Nat)
    (hjc : (stripAt rs i).get? jc = some c)
    (hjc1 : (stripAt rs (i + 1)).get? jc1 = some c1)
    (huniq : ∀ (m : Nat) (v : halfsegment), (stripAt rs (i + 1)).get? m = some v →
      startsAt v (c.sx, c.sy) → m = jc1)
    (a : Nat) :
    ∀ (n b : Nat) (rs1 : List (List halfsegment)) (fr : List halfsegment) (bi0 : Option Int),
      b + n = (stripAt rs a).length →
      MergeInv rs i jc jc1 c (mergedSegment B rs i c c1) a b rs1 fr →
      ∃ rs2 fr2 bi2,
        joinStrip B (a : Int) n (b : Int) rs1 fr bi0 = Except.ok (rs2, fr2, bi2) ∧
        MergeInv rs i jc jc1 c (mergedSegment B rs i c c1) a (b + n) rs2 fr2 := by
  intro n
  induction n with
  | zero =>
    intro b rs1 fr bi0 _ hinv
    exact ⟨rs1, fr, bi0, rfl, hinv⟩
  | succ n ih =>
    intro b rs1 fr bi0 hlen hinv
    obtain ⟨e0, he0⟩ := get?_some_of_lt (stripAt rs a) b (by omega)
    obtain ⟨rs2, fr2, bi2, hrun, hinv2⟩ :=
      mergeInv_entry hset jc jc1 hjc hjc1 huniq a b e0 he0 rs1 fr bi0 hinv
    obtain ⟨rs3, fr3, bi3, hrun3, hinv3⟩ := ih (b + 1) rs2 fr2 bi2 (by omega) hinv2
    refine ⟨rs3, fr3, bi3, ?_, ?_⟩
    · rw [joinStrip, hrun]
      simp only [bind, Except.bind]
      push_cast at hrun3
      exact hrun3
    · rw [show b + (n + 1) = b + 1 + n by omega]
      exact hinv3

/-- The loop over the strips keeps the invariant of the merge. -/
theorem mergeInv_strips {B : List ℚ} {rs : List (List halfsegment)} {i : Nat}
    {c c1 : halfsegment} (hset : MergeSetting B rs i c c1) (jc jc1 : Nat)
    (hjc : (stripAt rs i).get? jc = some c)
    (hjc1 : (stripAt rs (i + 1)).get? jc1 = some c1)
    (huniq : ∀ (m : Nat) (v : halfsegment), (stripAt rs (i + 1)).get? m = some v →
      startsAt v (c.sx, c.sy) → m = jc1) :
    ∀ (n a : Nat) (rs1 : List (List halfsegment)) (fr : List halfsegment) (bi0 : Option Int),
      a + n = rs.length →
      MergeInv rs i jc jc1 c (mergedSegment B rs i c c1) a 0 rs1 fr →
      ∃ rs2 fr2 bi2,
        joinStrips B n (a : Int) rs1 fr bi0 = Except.ok (rs2, fr2, bi2) ∧
        MergeInv rs i jc jc1 c (mergedSegment B rs i c c1) rs.length 0 rs2 fr2 := by
  intro n
  induction n with
  | zero =>
    intro a rs1 fr bi0 hlen hinv
    have : a = rs.length := by omega
    subst this
    exact ⟨rs1, fr, bi0, rfl, hinv⟩
  | succ n ih =>
    intro a rs1 fr bi0 hlen hinv
    have hstep := hinv.1
    have hvs : vecGet rs1 (a : Int) = Except.ok (stripAt rs1 a) :=
      vecGet_strip _ a (by rw [hstep.1]; omega)
    obtain ⟨rs2, fr2, bi2, hrun, hinv2⟩ := mergeInv_strip hset jc jc1 hjc hjc1 huniq a
      (stripAt rs a).length 0 rs1 fr bi0 (by omega) hinv
    have hjcl := lt_length_of_get? _ _ _ hjc
    have hinv2' : MergeInv rs i jc jc1 c (mergedSegment B rs i c c1) (a + 1) 0 rs2 fr2 := by
      obtain ⟨h1, h2, h3⟩ := hinv2
      refine ⟨h1, h2, ?_⟩
      rcases h3 with ⟨hbef, hcell⟩ | ⟨hnbef, hrest⟩
      · refine Or.inl ⟨?_, hcell⟩
        rcases hbef with h | ⟨rfl, h⟩
        · omega
        · omega
      · refine Or.inr ⟨?_, hrest⟩
        intro h
        apply hnbef
        omega
    obtain ⟨rs3, fr3, bi3, hrun3, hinv3⟩ := ih (a + 1) rs2 fr2 bi2 (by omega) hinv2'
    refine ⟨rs3, fr3, bi3, ?_, hinv3⟩
    rw [joinStrips, hvs]
    simp only [bind, Except.bind]
    rw [(hstep.2 a).1]
    have h0 : ((0 : Nat) : Int) = 0 := rfl
    rw [h0] at hrun
    rw [hrun]
    simp only []
    push_cast at hrun3
    exact hrun3

/-- The chain of a piece ends at or to the right of the end of the piece. -/
theorem chainEnd_ge {B : List ℚ} {rs : List (List halfsegment)} (hok : StripsOK B rs) :
    ∀ (f t : Nat) (q : halfsegment), q ∈ stripAt rs t → q.sx ≤ (chainEnd B rs f t q).1 := by
  intro f
  induction f with
  | zero => intro t q _; exact le_refl _
  | succ f ih =>
    intro t q hq
    rw [chainEnd]
    by_cases hj : joinsOn B rs t q
    · rw [if_pos hj]
      cases hcont : continuation rs t (q.sx, q.sy) with
      | none => exact le_refl _
      | some u =>
        simp only []
        unfold continuation at hcont
        have hu : u ∈ stripAt rs (t + 1) := List.mem_of_find?_eq_some hcont
        have ht1 : t + 1 < rs.length := by
          by_contra h
          rw [stripAt_of_not_lt rs (t + 1) h] at hu
          cases hu
        obtain ⟨lo, hi, hlo, hhi, _⟩ := ok_bounds hok (t + 1) ht1
        obtain ⟨_, _, g3, _, _⟩ := ok_geo hok (t + 1) u hu lo hi hlo hhi
        have : lo = q.sx := by
          have := hj.1
          rw [hlo] at this
          exact Option.some.inj this
        rw [this] at g3
        exact le_trans g3 (ih (t + 1) u hu)
    · rw [if_neg hj]

/-- Claim C35 as stated fails for a piece in the middle of a chain: in `chainStrips` the
piece `(1,1)-(2,2)` of strip 1 is a valid left halfsegment that ends on the interior
boundary `2` in a point that no other halfsegment of strip 1 has as an end point, and
strip 2 holds exactly one left halfsegment that starts there; but `createFinalOverlay`
has invalidated the piece before it comes to it, as the continuation of `(0,0)-(1,1)`:
the result is the segment `(0,0)-(3,3)` and its brother, and holds no halfsegment from
`(1,1)` to `(3,3)`. -/
theorem c35_middle_piece :
    StripsOK chainPlan chainStrips ∧
    mkOut 2 1 1 2 2 1 0 1 1 0 ∈ stripAt chainStrips 1 ∧
    (mkOut 2 1 1 2 2 1 0 1 1 0).isLeft = true ∧
    (mkOut 2 1 1 2 2 1 0 1 1 0).la ≠ (mkOut 2 1 1 2 2 1 0 1 1 0).lb ∧
    chainPlan.get? 2 = some (mkOut 2 1 1 2 2 1 0 1 1 0).sx ∧
    (∀ h ∈ stripAt chainStrips 1, startsAt h (2, 2) ∨ endsAt h (2, 2) →
      h = mkOut 2 1 1 2 2 1 0 1 1 0 ∨ h = (mkOut 2 1 1 2 2 1 0 1 1 0).getBrother) ∧
    (stripAt chainStrips 2).filter (fun q => q.isLeft && decide (startsAt q (2, 2)))
      = [mkOut 2 2 2 3 3 1 0 2 1 0] ∧
    createFinalOverlay [] chainStrips chainPlan
      = Except.ok [mkOut 2 0 0 3 3 1 0 0 1 0, mkOut 2 3 3 0 0 1 0 0 1 0] ∧
    (∀ h ∈ [mkOut 2 0 0 3 3 1 0 0 1 0, mkOut 2 3 3 0 0 1 0 0 1 0],
      ¬ (startsAt h (1, 1) ∧ endsAt h (3, 3))) := by
  decide!

/-- Claim C35, amended: in `createFinalOverlay` on well-formed strip outputs (`StripsOK`),
when a valid left halfsegment `c` of strip `i` ends at a point `P` on the interior boundary
`i + 1`, no other halfsegment of strip `i` has `P` as an end point, strip `i + 1` holds
exactly one left halfsegment `c1` that starts at `P`, and no left halfsegment of strip
`i - 1` ends where `c` starts, the function returns, and the final result holds the merged
left halfsegment from `c.d` to the far end of the chain of `c1` (the end of `c1`, extended
across the later boundaries in the same way) with the labels of `c`, immediately followed
by its brother, and holds no halfsegment that has `P` as an end point. -/
theorem c35_merged_segment (B : List ℚ) (rs : List (List halfsegment)) (i : Nat)
    (c c1 : halfsegment) (hok : StripsOK B rs)
    (hc : c ∈ stripAt rs i) (hleft : c.isLeft = true) (hvalid : c.la ≠ c.lb)
    (hbound : B.get? (i + 1) = some c.sx)
    (halone : ∀ h ∈ stripAt rs i, startsAt h (c.sx, c.sy) ∨ endsAt h (c.sx, c.sy) →
      h.eq c = true ∨ h.eq c.getBrother = true)
    (hc1 : c1 ∈ stripAt rs (i + 1)) (hc1l : c1.isLeft = true)
    (hc1s : startsAt c1 (c.sx, c.sy))
    (huniq : ∀ q ∈ stripAt rs (i + 1), q.isLeft = true → startsAt q (c.sx, c.sy) → q = c1)
    (hfirst : ∀ e ∈ stripAt rs (i - 1), 0 < i → e.isLeft = true → ¬ endsAt e (c.dx, c.dy)) :
    ∃ fr l1 l2, createFinalOverlay [] rs B = Except.ok fr ∧
      fr = l1 ++ mergedSegment B rs i c c1 :: (mergedSegment B rs i c c1).getBrother :: l2 ∧
      (mergedSegment B rs i c c1).dx = c.dx ∧ (mergedSegment B rs i c c1).dy = c.dy ∧
      (mergedSegment B rs i c c1).la = c.la ∧ (mergedSegment B rs i c c1).lb = c.lb ∧
      (mergedSegment B rs i c c1).isLeft = true ∧
      ∀ h ∈ fr, ¬ startsAt h (c.sx, c.sy) ∧ ¬ endsAt h (c.sx, c.sy) := by
  have hset : MergeSetting B rs i c c1 :=
    ⟨hok, hc, hleft, hvalid, hbound, halone, hc1, hc1l, hc1s, huniq, hfirst⟩
  obtain ⟨jc, hjc⟩ := List.get?_of_mem hc
  obtain ⟨jc1, hjc1, hu⟩ := setting_continuation hset
  have hi := lt_of_strip_get? rs i jc c hjc
  have hinit : MergeInv rs i jc jc1 c (mergedSegment B rs i c c1) 0 0 rs [] :=
    ⟨step_refl _, fun h hh => absurd hh (List.not_mem_nil h), Or.inl ⟨by omega, hjc⟩⟩
  obtain ⟨rs2, fr2, bi2, hrun, _, hclean, hthird⟩ :=
    mergeInv_strips hset jc jc1 hjc hjc1 hu rs.length 0 rs [] none (by omega) hinit
  rcases hthird with ⟨hbef, _⟩ | ⟨_, _, l1, l2, hdec⟩
  · omega
  · refine ⟨fr2, l1, l2, ?_, hdec, rfl, rfl, rfl, rfl, ?_, hclean⟩
    · unfold createFinalOverlay
      simp only [bind, Except.bind]
      have h0 : ((0 : Nat) : Int) = 0 := rfl
      rw [h0] at hrun
      rw [hrun]
      rfl
    · -- the chain of `c1` ends to the right of the boundary, `c` starts to the left of it
      have hge := chainEnd_ge hok rs.length (i + 1) c1 hc1
      obtain ⟨lo, hi2, hlo, hhi, _⟩ := ok_bounds hok i hi
      obtain ⟨_, _, _, _, g5⟩ := ok_geo hok i c hc lo hi2 hlo hhi
      have hcx : c.dx < c.sx := by
        rcases lt_or_eq_of_le (dx_le_sx_of_isLeft c hleft) with h | h
        · exact h
        · exfalso
          have h1 := (g5 h).2
          rw [hbound] at hhi
          rw [← Option.some.inj hhi, h] at h1
          exact lt_irrefl _ h1
      have h1 : c1.dx ≤ c1.sx := dx_le_sx_of_isLeft c1 hc1l
      have h2 : c1.dx = c.sx := hc1s.1
      have hlt : c.dx < (chainEnd B rs rs.length (i + 1) c1).1 := by
        rw [h2] at h1
        exact lt_of_lt_of_le hcx (le_trans h1 hge)
      unfold mergedSegment halfsegment.isLeft
      simp [hlt]

theorem c35_merged_segment_witness :
    StripsOK chainPlan chainStrips ∧
    mergedSegment chainPlan chainStrips 0 (mkOut 2 0 0 1 1 1 0 0 1 0)
        (mkOut 2 1 1 2 2 1 0 1 1 0) = mkOut 2 0 0 3 3 1 0 0 1 0 ∧
    ∃ fr l1 l2, createFinalOverlay [] chainStrips chainPlan = Except.ok fr ∧
      fr = l1 ++ mergedSegment chainPlan chainStrips 0 (mkOut 2 0 0 1 1 1 0 0 1 0)
          (mkOut 2 1 1 2 2 1 0 1 1 0) ::
        (mergedSegment chainPlan chainStrips 0 (mkOut 2 0 0 1 1 1 0 0 1 0)
          (mkOut 2 1 1 2 2 1 0 1 1 0)).getBrother :: l2 ∧
      (mergedSegment chainPlan chainStrips 0 (mkOut 2 0 0 1 1 1 0 0 1 0)
        (mkOut 2 1 1 2 2 1 0 1 1 0)).dx = (mkOut 2 0 0 1 1 1 0 0 1 0).dx ∧
      (mergedSegment chainPlan chainStrips 0 (mkOut 2 0 0 1 1 1 0 0 1 0)
        (mkOut 2 1 1 2 2 1 0 1 1 0)).dy = (mkOut 2 0 0 1 1 1 0 0 1 0).dy ∧
      (mergedSegment chainPlan chainStrips 0 (mkOut 2 0 0 1 1 1 0 0 1 0)
        (mkOut 2 1 1 2 2 1 0 1 1 0)).la = (mkOut 2 0 0 1 1 1 0 0 1 0).la ∧
      (mergedSegment chainPlan chainStrips 0 (mkOut 2 0 0 1 1 1 0 0 1 0)
        (mkOut 2 1 1 2 2 1 0 1 1 0)).lb = (mkOut 2 0 0 1 1 1 0 0 1 0).lb ∧
      (mergedSegment chainPlan chainStrips 0 (mkOut 2 0 0 1 1 1 0 0 1 0)
        (mkOut 2 1 1 2 2 1 0 1 1 0)).isLeft = true ∧
      ∀ h ∈ fr, ¬ startsAt h ((mkOut 2 0 0 1 1 1 0 0 1 0).sx, (mkOut 2 0 0 1 1 1 0 0 1 0).sy) ∧
        ¬ endsAt h ((mkOut 2 0 0 1 1 1 0 0 1 0).sx, (mkOut 2 0 0 1 1 1 0 0 1 0).sy) :=
  ⟨by decide!, by decide!,
    c35_merged_segment chainPlan chainStrips 0 (mkOut 2 0 0 1 1 1 0 0 1 0)
      (mkOut 2 1 1 2 2 1 0 1 1 0) (by decide!) (by decide!) (by decide!) (by decide!)
      (by decide!) (by decide!) (by decide!) (by decide!) (by decide!) (by decide!)
      (by decide!)⟩

end PlaneSweep
